import Mathlib

/-!
# Parking Management System: embedding and verified properties

A shallow embedding of the C sources (`project.h`, `aux_functions.c`,
`aux_commands.c`, `commands.c`, `data_structures.c`, `printer.c`) followed by
theorems about it.

Conventions of the embedding.

* C `int` values are mathematical integers (`Int`).  Signed overflow is undefined
  behaviour in C and lies outside the embedding.  `/` and `%` on `int` truncate
  towards zero: `Int.tdiv` and `Int.tmod`.
* `float` prices are exact rationals (`ℚ`).
* `unsigned long` keys are naturals reduced modulo `2 ^ 64`.
* `malloc`ed `Park` and `Record` structs live in two heaps indexed by address; a
  freed cell holds `none`.  A C `List` (head, tail, size, nodes) is the Lean list of
  the items of its nodes, so `tail` is the last element and `size` the length.
* The fields that `sscanf` extracts from the command line are the inputs of the
  embedded functions: a name, a plate, the three integers of a date and the two
  integers of a time.
* A function returns `none` when the C code dereferences a dangling or null pointer
  or never leaves a loop.
-/

namespace Parking

/-! ## Constants and structures (`project.h`) -/

/-- An address of a `malloc`ed struct. -/
abbrev Ptr := Nat

/-- The `Key` of `project.h`: an `unsigned long`. -/
abbrev Key := Nat

/-- Marks an absent date (`#define NO_DATE 0`). -/
def NO_DATE : Int := 0

/-- Marks an absent time (`#define NO_TIME 0`). -/
def NO_TIME : Int := 0

/-- Number of slots of the hash table (`#define HASH_SIZE 8191`). -/
def HASH_SIZE : Nat := 8191

/-- Largest number of parks (`#define MAX_PARKS 20`). -/
def MAX_PARKS : Nat := 20

/-- The `Park` struct; `records` is the park's own list of record pointers. -/
structure Park where
  name : String
  capacity : Int
  occupancy : Int
  id : Int
  less_60 : ℚ
  more_60 : ℚ
  dayly : ℚ
  records : List Ptr
  deriving DecidableEq

/-- The `Record` struct; `park` is the address of the park of the stay. -/
structure Record where
  plates : String
  park : Ptr
  entryDay : Int
  entryHour : Int
  exitDay : Int
  exitHour : Int
  paid : ℚ
  deriving DecidableEq

/-- The three integers `sscanf` reads from a date text with "%d-%d-%d". -/
structure DateText where
  day : Int
  month : Int
  year : Int
  deriving DecidableEq

/-- The two integers `sscanf` reads from a time text with "%d:%d". -/
structure TimeText where
  hours : Int
  minutes : Int
  deriving DecidableEq

/-- The struct `HashNode`: a key and the list of the records of that key. -/
structure HashNode where
  key : Key
  records : List Ptr
  deriving DecidableEq

/-- The struct `HashTable`: the array `plate[HASH_SIZE]`; `none` is a `NULL` slot.  Only
the indices below `HASH_SIZE` are ever used. -/
abbrev HashTable := Nat → Option HashNode

/-- The struct `Memory` (`parks`, `cars`, `date`, `time`, `idIncrementer`) together with
the two heaps holding the `malloc`ed parks and records. -/
structure Memory where
  parkHeap : List (Option Park)
  recordHeap : List (Option Record)
  parks : List Ptr
  cars : HashTable
  date : Int
  time : Int
  idIncrementer : Int

/-- A line written on the standard output: the error messages of `project.h` and the
lines of the successful commands, with the values handed to `printf`. -/
inductive Printed where
  | ERR_FULL_PARK (p : String)
  | ERR_PARK_NOT_FOUND (n : String)
  | ERR_INVALID_LICENSE (p : String)
  | ERR_INVALID_ENTRY (p : String)
  | ERR_INVALID_DATE
  | ERR_PARK_ALREADY_EXISTS (n : String)
  | ERR_INVALID_CAPACITY (c : Int)
  | ERR_INVALID_COST
  | ERR_INVALID_EXIT (p : String)
  | ERR_TOO_MANY_PARKS
  | ERR_NO_ENTRYS_FOUND (p : String)
  | entryLine (nome : String) (free : Int)
  | exitLine (plates : String) (entryDay entryHour exitDay exitHour : Int) (paid : ℚ)
  | parkLine (name : String)
  | billLine (plates : String) (time : TimeText) (paid : ℚ)
  | sumLine (date : DateText) (charged : ℚ)
  deriving DecidableEq

/-! ## Heaps -/

/-- Dereference of the pointer `p`: `none` when `p` was never allocated or is freed. -/
def heapRead {α : Type} (h : List (Option α)) (p : Ptr) : Option α :=
  h.getD p none

/-- Assignment through the pointer `p`. -/
def heapWrite {α : Type} (h : List (Option α)) (p : Ptr) (v : α) : List (Option α) :=
  h.set p (some v)

/-- The call `free(p)`. -/
def heapFree {α : Type} (h : List (Option α)) (p : Ptr) : List (Option α) :=
  h.set p none

/-- The call `malloc` followed by the initialisation `v`: the new address is the first
one never used, and the heap with the new cell. -/
def heapAlloc {α : Type} (h : List (Option α)) (v : α) : Ptr × List (Option α) :=
  (h.length, h ++ [some v])

/-! ## Temporal codec (`aux_functions.c`) -/

/-- The table `days[]` of `getDaysOfMonth`. -/
def daysTable : List Int := [31, 28, 31, 30, 31, 30, 31, 31, 30, 31, 30, 31]

/-- The function `getDaysOfMonth` returns `days[i - 1]`.  For `i` outside `1..12` the
C code reads outside the array; the value found there, when the read returns, is
`oob (i - 1)`.  The read is undefined behaviour and can end the program instead:
`Strict.getDaysOfMonth` below keeps that case apart. -/
def getDaysOfMonth (oob : Int → Int) (i : Int) : Int :=
  if 1 ≤ i ∧ i ≤ 12 then daysTable.getD (i - 1).toNat 0 else oob (i - 1)

/-- The function `sumDaysAllMonths`: `for (i = 1; i < month; i++) days += getDaysOfMonth(i)`. -/
def sumDaysAllMonths (oob : Int → Int) (month : Int) : Int :=
  ((List.range (month - 1).toNat).map (fun k => getDaysOfMonth oob ((k : Int) + 1))).sum

/-- The function `checkDateFormat`, with the evaluation order of the C condition. -/
def checkDateFormat (oob : Int → Int) (date : DateText) : Bool :=
  if date.day < 1 || date.day > getDaysOfMonth oob date.month || date.month < 1 ||
      date.month > 12 || date.year < 0 then false
  else true

/-- The function `checkTimeFormat`. -/
def checkTimeFormat (time : TimeText) : Bool :=
  if time.hours < 0 || time.hours > 23 || time.minutes < 0 || time.minutes > 59 then false
  else true

/-- The function `dateToInt`: `year * 365 + sumDaysAllMonths(month) + day`, computed on
the integers.  The C `int` holds this value unchanged for every accepted date up to the
year 5883515 (`wrapInt_dateToInt`); the date texts that fit the buffers `data[11]` and
`date[11]` of the commands have a year of at most six digits. -/
def dateToInt (oob : Int → Int) (d : DateText) : Int :=
  d.year * 365 + sumDaysAllMonths oob d.month + d.day

/-- The function `timeToInt`: `hours * 60 + minutes`. -/
def timeToInt (t : TimeText) : Int :=
  t.hours * 60 + t.minutes

/-- The function `intToTime`: the two integers handed to `sprintf` with "%02d:%02d",
`t / 60` and `t % 60`.  Read back with "%d:%d", the text gives these two integers. -/
def intToTime (t : Int) : TimeText :=
  ⟨Int.tdiv t 60, Int.tmod t 60⟩

/-- The loop of `intToDate` over `i = 1, ..., 12`, with the locals `d` and `month`: the
pair is their value when the loop is left. -/
def intToDate.loop (oob : Int → Int) : List Int → Int → Int → Int × Int
  | [], d, month => (d, month)
  | i :: rest, d, month =>
    if d - getDaysOfMonth oob i ≤ 0 then (d, month + 1)
    else intToDate.loop oob rest (d - getDaysOfMonth oob i) (month + 1)

/-- The function `intToDate`: the three integers handed to `sprintf` with
"%02d-%02d-%4d", which are `d`, `month` and `year` after the loop.  Read back with
"%d-%d-%d", the text gives these three integers. -/
def intToDate (oob : Int → Int) (d : Int) : DateText :=
  let year := Int.tdiv d 365
  let res := intToDate.loop oob [1, 2, 3, 4, 5, 6, 7, 8, 9, 10, 11, 12] (d - year * 365) 0
  ⟨res.1, res.2, year⟩

/-! ## Pricing (`calculatePrice`, `aux_functions.c`) -/

/-- The value a C `int` holds after an arithmetic expression on the machine the program
runs on (`int` of 32 bits in two's complement): the mathematical result reduced into
`-2^31 .. 2^31 - 1`.  Overflow of `int` is undefined in C; the compiled program wraps. -/
def wrapInt (x : Int) : Int :=
  (x + 2147483648) % 4294967296 - 2147483648

/-- The local `total` of `calculatePrice`, an `int`: the product by `24 * 60` leaves the
range of `int` for stays of more than 4085 years, which the dates the commands accept
allow (01-01-2024 to 01-01-9999). -/
def calculatePrice.total (r : Record) : Int :=
  wrapInt ((r.exitDay - r.entryDay) * 24 * 60 + r.exitHour - r.entryHour)

/-- The local `days` of `calculatePrice`: `total / 1440`. -/
def calculatePrice.days (r : Record) : Int :=
  Int.tdiv (calculatePrice.total r) 1440

/-- The local `minutes` of `calculatePrice`: `total % 1440`. -/
def calculatePrice.minutes (r : Record) : Int :=
  Int.tmod (calculatePrice.total r) 1440

/-- The local `blocks` of `calculatePrice`: `minutes / 15`, plus one when
`minutes % 15 != 0`. -/
def calculatePrice.blocks (r : Record) : Int :=
  if Int.tmod (calculatePrice.minutes r) 15 ≠ 0 then Int.tdiv (calculatePrice.minutes r) 15 + 1
  else Int.tdiv (calculatePrice.minutes r) 15

/-- The local `price` of `calculatePrice` before the comparison with the daily fee. -/
def calculatePrice.price (r : Record) (park : Park) : ℚ :=
  if calculatePrice.blocks r > 4 then
    4 * park.less_60 + ((calculatePrice.blocks r - 4 : Int) : ℚ) * park.more_60
  else (calculatePrice.blocks r : ℚ) * park.less_60

/-- The function `calculatePrice`; `park` is the struct `r->park` points to.  The result
is the record with `paid` written. -/
def calculatePrice (r : Record) (park : Park) : Record :=
  let price : ℚ := calculatePrice.price r park
  let price : ℚ := if price ≥ park.dayly then park.dayly else price
  { r with paid := (calculatePrice.days r : ℚ) * park.dayly + price }

/-! ## Daily totals (`calculateSums`, `aux_functions.c`) -/

/-- The struct `DateSum`: an exit day and the amount charged on it. -/
structure DateSum where
  exitDay : Int
  charged : ℚ
  deriving DecidableEq

/-- The function `dateExists`: `record->exitDay - date->exitDay == 0`. -/
def dateExists (record : Record) (date : DateSum) : Bool :=
  decide (record.exitDay - date.exitDay = 0)

/-- The function `addSumNode`: a new node at the end of the list `dates`, with the exit
day of the record and `charged = 0` to which the amount of the record is added. -/
def addSumNode (record : Record) (dates : List DateSum) : List DateSum :=
  dates ++ [{ exitDay := record.exitDay, charged := 0 + record.paid }]

/-- The inner `for` loop of `calculateSums` over the nodes of `dates`: the first node
whose day is the exit day of the record gets the day written again and the amount added,
and the loop is left with `found = 1` (`some`, with the list after the writes); `none` is
the end of the loop with `found` still 0. -/
def calculateSums.search (record : Record) : List DateSum → Option (List DateSum)
  | [] => none
  | date :: rest =>
    if dateExists record date then
      some ({ exitDay := record.exitDay, charged := date.charged + record.paid } :: rest)
    else (calculateSums.search record rest).map (fun rest' => date :: rest')

/-- The outer `for` loop of `calculateSums` over the nodes of `records`, with the list
`dates` built so far.  The records are only read. -/
def calculateSums.loop (recordHeap : List (Option Record)) :
    List Ptr → List DateSum → Option (List DateSum)
  | [], dates => some dates
  | r :: rest, dates =>
    match heapRead recordHeap r with
    | none => none
    | some record =>
      if record.exitDay ≠ NO_TIME then
        match calculateSums.search record dates with
        | some dates' => calculateSums.loop recordHeap rest dates'
        | none => calculateSums.loop recordHeap rest (addSumNode record dates)
      else calculateSums.loop recordHeap rest dates

/-- The function `calculateSums`: the list `dates` returned for the list `records` of a
park.  The function writes only to the nodes of the new list, so the heap of records is
not part of the result. -/
def calculateSums (recordHeap : List (Option Record)) (records : List Ptr) :
    Option (List DateSum) :=
  calculateSums.loop recordHeap records []

/-! ## Clock, start state and plates (`aux_functions.c`) -/

/-- The function `updateMemoryTime`. -/
def updateMemoryTime (m : Memory) (date time : Int) : Memory :=
  { m with date := date, time := time }

/-- The function `initializeSystem`: no park, every slot of the table `NULL`, date and
time 0, next id 1.  Nothing is allocated yet. -/
def initializeSystem : Memory :=
  { parkHeap := [], recordHeap := [], parks := [], cars := fun _ => none,
    date := 0, time := 0, idIncrementer := 1 }

/-- The byte `l[i]` of a C string: the characters of `l`, then the terminator `'\0'`.
Past the terminator the C buffer holds whatever was there before; the embedding reads
`'\0'` there too, so it follows the code on the strings of at least eight characters,
where `checkPlates` reads no byte past the terminator. -/
def charAt (l : String) (i : Nat) : Char :=
  l.data.getD i (Char.ofNat 0)

/-- The loop of `checkPlates` over `i = 0, 3, 6` with the two counters. -/
def checkPlates.loop (l : String) : List Nat → Int → Int → Bool
  | [], digitSets, letterSets => if digitSets ≥ 1 && letterSets ≥ 1 then true else false
  | i :: rest, digitSets, letterSets =>
    if (charAt l i).isDigit && (charAt l (i + 1)).isDigit then
      checkPlates.loop l rest (digitSets + 1) letterSets
    else if (charAt l i).isAlpha && (charAt l (i + 1)).isAlpha && (charAt l i).isUpper &&
        (charAt l (i + 1)).isUpper then
      checkPlates.loop l rest digitSets (letterSets + 1)
    else false

/-- The function `checkPlates`. -/
def checkPlates (l : String) : Bool :=
  checkPlates.loop l [0, 3, 6] 0 0

/-- The function `dateInPast`. -/
def dateInPast (m : Memory) (date time : Int) : Bool :=
  if m.date = NO_DATE then false
  else if m.date < date then false
  else if m.date = date ∧ m.time ≤ time then false
  else true

/-- The function `checkDates`: `true` is the C result 1 (accepted). -/
def checkDates (oob : Int → Int) (m : Memory) (date2 : DateText) (time2 : TimeText) : Bool :=
  if checkDateFormat oob date2 = false || checkTimeFormat time2 = false then false
  else if dateInPast m (dateToInt oob date2) (timeToInt time2) then false
  else true

/-! ## Hash table and lists (`data_structures.c`) -/

/-- The function `sumAsciiValues` (djb2): `hash = ((hash << 5) + hash) + c` on a 64-bit
unsigned word, from 5381, over the characters of the string (plates are ASCII). -/
def sumAsciiValues (str : String) : Key :=
  str.data.foldl (fun hash c => (hash * 32 + hash + c.toNat) % 2 ^ 64) 5381

/-- The function `hash`: `value % m`. -/
def hash (value : Key) (m : Nat) : Nat :=
  value % m

/-- The loop of `getListPlates` entered at slot `i`, with `fuel` iterations allowed. -/
def getListPlates.loop (h : HashTable) (key : Key) : Nat → Nat → Option (Option (List Ptr))
  | 0, _ => none
  | fuel + 1, i =>
    match h i with
    | none => some none
    | some node =>
      if key = node.key then some (some node.records)
      else getListPlates.loop h key fuel ((i + 1) % HASH_SIZE)

/-- The function `getListPlates`.  The loop does not change the table, so after
`HASH_SIZE` iterations without leaving it has seen every slot and never leaves:
that is the result `none`.  The result `some none` is the C result `NULL`. -/
def getListPlates (h : HashTable) (plates : String) : Option (Option (List Ptr)) :=
  getListPlates.loop h (sumAsciiValues plates) HASH_SIZE (hash (sumAsciiValues plates) HASH_SIZE)

/-- The function `getLastRecord`: `l->tail->item.record`, or `NULL` without a list.  The
tail of an empty list is `NULL` and reading through it fails. -/
def getLastRecord (h : HashTable) (plates : String) : Option (Option Ptr) :=
  match getListPlates h plates with
  | none => none
  | some none => some none
  | some (some l) =>
    match l.getLast? with
    | none => none
    | some r => some (some r)

/-- The function `listAddRecord`: a new node at the end of the list. -/
def listAddRecord (l : List Ptr) (r : Ptr) : List Ptr :=
  l ++ [r]

/-- The function `listAddPark`: a new node at the end of the list. -/
def listAddPark (l : List Ptr) (p : Ptr) : List Ptr :=
  l ++ [p]

/-- The loop of `addRecord` entered at slot `i`, followed by the creation of the node
when the loop stopped on a `NULL` slot. -/
def addRecord.loop (h : HashTable) (key : Key) (r1 : Ptr) : Nat → Nat → Option HashTable
  | 0, _ => none
  | fuel + 1, i =>
    match h i with
    | none => some (Function.update h i (some { key := key, records := listAddRecord [] r1 }))
    | some node =>
      if key = node.key then
        some (Function.update h i (some { node with records := listAddRecord node.records r1 }))
      else addRecord.loop h key r1 fuel ((i + 1) % HASH_SIZE)

/-- The function `addRecord`; the key is read from the plates of the record `r1` points
to.  As in `getListPlates`, `HASH_SIZE` iterations without leaving the loop mean that it
is never left. -/
def addRecord (recordHeap : List (Option Record)) (h : HashTable) (r1 : Ptr) :
    Option HashTable :=
  match heapRead recordHeap r1 with
  | none => none
  | some r =>
    addRecord.loop h (sumAsciiValues r.plates) r1 HASH_SIZE
      (hash (sumAsciiValues r.plates) HASH_SIZE)

/-- The function `listGetPark`: the first park of the list with the given name, `NULL`
(`some none`) when there is none. -/
def listGetPark (parkHeap : List (Option Park)) : List Ptr → String → Option (Option Ptr)
  | [], _ => some none
  | n :: rest, name =>
    match heapRead parkHeap n with
    | none => none
    | some park => if park.name = name then some (some n) else listGetPark parkHeap rest name

/-- The function `listRemoveRecord`: unlinks the first node holding the pointer `r` and
frees the record and the node; nothing happens when no node holds `r`. -/
def listRemoveRecord (recordHeap : List (Option Record)) (l : List Ptr) (r : Ptr) :
    List Ptr × List (Option Record) :=
  if r ∈ l then (l.erase r, heapFree recordHeap r) else (l, recordHeap)

/-- The inner `while (n)` loop of `removeParkRecords` over the nodes of one slot.  The
first argument is what is left of the chain of nodes as it was when the loop started (the
loop follows the `next` pointers saved before each removal); the pair is the list of the
slot and the record heap so far. -/
def removeParkRecords.nodes (parkHeap : List (Option Park)) (parkId : Int) :
    List Ptr → List Ptr × List (Option Record) → Option (List Ptr × List (Option Record))
  | [], acc => some acc
  | r :: rest, (l, recordHeap) =>
    match heapRead recordHeap r with
    | none => none
    | some record =>
      match heapRead parkHeap record.park with
      | none => none
      | some park =>
        if park.id = parkId then
          removeParkRecords.nodes parkHeap parkId rest (listRemoveRecord recordHeap l r)
        else removeParkRecords.nodes parkHeap parkId rest (l, recordHeap)

/-- The body of the `for` loop of `removeParkRecords` at slot `i`. -/
def removeParkRecords.slot (parkHeap : List (Option Park)) (parkId : Int)
    (acc : HashTable × List (Option Record)) (i : Nat) :
    Option (HashTable × List (Option Record)) :=
  match acc.1 i with
  | none => some acc
  | some node =>
    match removeParkRecords.nodes parkHeap parkId node.records (node.records, acc.2) with
    | none => none
    | some (l, recordHeap) =>
      if l.length = 0 then some (Function.update acc.1 i none, recordHeap)
      else some (Function.update acc.1 i (some { node with records := l }), recordHeap)

/-- The function `removeParkRecords`: `for (i = 0; i < HASH_SIZE; i++)` over the slots. -/
def removeParkRecords (m : Memory) (parkId : Int) : Option Memory :=
  match (List.range HASH_SIZE).foldlM (removeParkRecords.slot m.parkHeap parkId)
      (m.cars, m.recordHeap) with
  | none => none
  | some (cars, recordHeap) => some { m with cars := cars, recordHeap := recordHeap }

/-- The loop of `removePark` over the list of parks: the node of the first park with the
given id and the list without it.  When no park has the id the loop ends with `n == NULL`
and the `freePark(n->item.park)` after it fails. -/
def removePark.unlink (parkHeap : List (Option Park)) (parkId : Int) :
    List Ptr → Option (Ptr × List Ptr)
  | [] => none
  | n :: rest =>
    match heapRead parkHeap n with
    | none => none
    | some park =>
      if park.id = parkId then some (n, rest)
      else
        match removePark.unlink parkHeap parkId rest with
        | none => none
        | some (q, rest') => some (q, n :: rest')

/-- The function `removePark`: the records of the park leave the table, the park leaves
the list and is freed (`freePark`: its name, the nodes of its list, the struct). -/
def removePark (m : Memory) (parkId : Int) : Option Memory :=
  match removeParkRecords m parkId with
  | none => none
  | some m1 =>
    match removePark.unlink m1.parkHeap parkId m1.parks with
    | none => none
    | some (q, parks) => some { m1 with parks := parks, parkHeap := heapFree m1.parkHeap q }

/-! ## Sorting (`printer.c`) -/

/-- One round of the outer loop of `insertionSort`: `key` moves left past the elements
of the sorted prefix that compare greater than it (`gt a key` is `compar(a, key) > 0`). -/
def insertionSort.insert {α : Type} (gt : α → α → Bool) (sorted : List α) (key : α) : List α :=
  (sorted.reverse.dropWhile (fun a => gt a key)).reverse ++ key ::
    (sorted.reverse.takeWhile (fun a => gt a key)).reverse

/-- The function `insertionSort`, on the list of the elements of the array. -/
def insertionSort {α : Type} (gt : α → α → Bool) (array : List α) : List α :=
  array.foldl (insertionSort.insert gt) []

/-- The function `sortList`: the nodes of the list, sorted. -/
def sortList {α : Type} (l : List α) (gt : α → α → Bool) : List α :=
  insertionSort gt l

/-- The function `compareParkNames`, as `strcmp(a->name, b->name) > 0`. -/
def compareParkNames (a b : Park) : Bool :=
  decide (b.name < a.name)

/-- The function `printRemainingParks`: one line per park, sorted by name. -/
def printRemainingParks (parkHeap : List (Option Park)) (l : List Ptr) : Option (List Printed) :=
  match l.mapM (heapRead parkHeap) with
  | none => none
  | some parks => some ((sortList parks compareParkNames).map (fun p => Printed.parkLine p.name))

/-! ## Validations (`aux_commands.c`) -/

/-- The function `validationsE`: `Except.ok ()` is the C result 1; `Except.error e` is the
result 0 after printing `e`. -/
def validationsE (oob : Int → Int) (m : Memory) (p1 r1 : Option Ptr) (name plates : String)
    (data : DateText) (time : TimeText) : Option (Except Printed Unit) :=
  match p1 with
  | none => some (.error (.ERR_PARK_NOT_FOUND name))
  | some p =>
    match heapRead m.parkHeap p with
    | none => none
    | some park =>
      if park.occupancy ≥ park.capacity then some (.error (.ERR_FULL_PARK name))
      else if !checkPlates plates then some (.error (.ERR_INVALID_LICENSE plates))
      else
        match r1 with
        | none =>
          if !checkDates oob m data time then some (.error .ERR_INVALID_DATE)
          else some (.ok ())
        | some r =>
          match heapRead m.recordHeap r with
          | none => none
          | some record =>
            if record.exitDay = NO_DATE then some (.error (.ERR_INVALID_ENTRY plates))
            else if !checkDates oob m data time then some (.error .ERR_INVALID_DATE)
            else some (.ok ())

/-- The function `validationsS`. -/
def validationsS (oob : Int → Int) (m : Memory) (p1 r1 : Option Ptr) (name plates : String)
    (date : DateText) (time : TimeText) : Option (Except Printed Unit) :=
  match p1 with
  | none => some (.error (.ERR_PARK_NOT_FOUND name))
  | some p =>
    if checkPlates plates = false then some (.error (.ERR_INVALID_LICENSE plates))
    else
      match r1 with
      | none => some (.error (.ERR_INVALID_EXIT plates))
      | some r =>
        match heapRead m.recordHeap r with
        | none => none
        | some record =>
          match heapRead m.parkHeap record.park with
          | none => none
          | some rpark =>
            match heapRead m.parkHeap p with
            | none => none
            | some park =>
              if rpark.id ≠ park.id || record.exitDay ≠ NO_DATE then
                some (.error (.ERR_INVALID_EXIT plates))
              else if !checkDates oob m date time then some (.error .ERR_INVALID_DATE)
              else some (.ok ())

/-- The function `validationsP`; `p1` is the park just read from the command line. -/
def validationsP (m : Memory) (p1 : Park) : Option (Except Printed Unit) :=
  match listGetPark m.parkHeap m.parks p1.name with
  | none => none
  | some (some _) => some (.error (.ERR_PARK_ALREADY_EXISTS p1.name))
  | some none =>
    if p1.capacity ≤ 0 then some (.error (.ERR_INVALID_CAPACITY p1.capacity))
    else if p1.less_60 ≤ 0 || p1.more_60 < p1.less_60 || p1.dayly < p1.more_60 then
      some (.error .ERR_INVALID_COST)
    else if m.parks.length = MAX_PARKS then some (.error .ERR_TOO_MANY_PARKS)
    else some (.ok ())

/-! ## Commands (`commands.c`, `project.c`) -/

/-- The function `processCommand_e` on the fields read from the buffer.  The result is
the memory after the command and the lines printed.  The `paid` field of the new record
is not written by the C code (it is read only after `calculatePrice` wrote it); the
embedding puts 0 there.  The array `newR->plates` has room for 8 characters; the embedding
stores the plate as it is.  For a longer plate `strcpy` writes past the array, from 16
characters on over the field `park` assigned before; the embedding does not follow the
code there (`long_plate_overruns_plates`), and the theorems that depend on the field
`park` of the records are stated for plates that fit (`Command.plateFits`). -/
def processCommand_e (oob : Int → Int) (m : Memory) (nome plates : String) (data : DateText)
    (hora : TimeText) : Option (Memory × List Printed) :=
  match listGetPark m.parkHeap m.parks nome with
  | none => none
  | some p1 =>
    match getLastRecord m.cars plates with
    | none => none
    | some r1 =>
      let date := dateToInt oob data
      let time := timeToInt hora
      match validationsE oob m p1 r1 nome plates data hora with
      | none => none
      | some (.error e) => some (m, [e])
      | some (.ok ()) =>
        match p1 with
        | none => none
        | some p =>
          match heapRead m.parkHeap p with
          | none => none
          | some park =>
            let newR := heapAlloc m.recordHeap
              { plates := plates, park := p, entryDay := date, entryHour := time,
                exitDay := NO_DATE, exitHour := NO_TIME, paid := 0 }
            let park1 := { park with occupancy := park.occupancy + 1 }
            let m1 := { m with parkHeap := heapWrite m.parkHeap p park1, recordHeap := newR.2 }
            let m2 := updateMemoryTime m1 date time
            match addRecord m2.recordHeap m2.cars newR.1 with
            | none => none
            | some cars =>
              some ({ m2 with cars := cars },
                [.entryLine nome (park1.capacity - park1.occupancy)])

/-- The function `processCommand_s` on the fields read from the buffer. -/
def processCommand_s (oob : Int → Int) (m : Memory) (nome plates : String) (data : DateText)
    (hora : TimeText) : Option (Memory × List Printed) :=
  match listGetPark m.parkHeap m.parks nome with
  | none => none
  | some p1 =>
    match getLastRecord m.cars plates with
    | none => none
    | some r1 =>
      let date := dateToInt oob data
      let time := timeToInt hora
      match validationsS oob m p1 r1 nome plates data hora with
      | none => none
      | some (.error e) => some (m, [e])
      | some (.ok ()) =>
        match r1 with
        | none => none
        | some r =>
          match heapRead m.recordHeap r with
          | none => none
          | some record =>
            match heapRead m.parkHeap record.park with
            | none => none
            | some park =>
              let record1 := { record with exitDay := date, exitHour := time }
              let park1 := { park with occupancy := park.occupancy - 1 }
              let record2 := calculatePrice record1 park1
              let park2 := { park1 with records := listAddRecord park1.records r }
              let m1 := { m with recordHeap := heapWrite m.recordHeap r record2,
                                 parkHeap := heapWrite m.parkHeap record.park park2 }
              some (updateMemoryTime m1 date time,
                [.exitLine record2.plates record2.entryDay record2.entryHour record2.exitDay
                  record2.exitHour record2.paid])

/-- The function `processCommand_p` with a non-empty buffer, on the fields read from it
(with an empty buffer the command only prints the parks).  A park that fails the
validations is never linked to the memory: the embedding allocates it on success. -/
def processCommand_p (m : Memory) (name : String) (capacity : Int) (less_60 more_60 dayly : ℚ) :
    Option (Memory × List Printed) :=
  let p1 : Park := { name := name, capacity := capacity, occupancy := 0, id := 0,
                     less_60 := less_60, more_60 := more_60, dayly := dayly, records := [] }
  match validationsP m p1 with
  | none => none
  | some (.error e) => some (m, [e])
  | some (.ok ()) =>
    let newP := heapAlloc m.parkHeap { p1 with occupancy := 0, id := m.idIncrementer, records := [] }
    some ({ m with parkHeap := newP.2, idIncrementer := m.idIncrementer + 1,
                   parks := listAddPark m.parks newP.1 }, [])

/-- The function `processCommand_r` on the name read from the buffer. -/
def processCommand_r (m : Memory) (nome : String) : Option (Memory × List Printed) :=
  match listGetPark m.parkHeap m.parks nome with
  | none => none
  | some none => some (m, [.ERR_PARK_NOT_FOUND nome])
  | some (some p) =>
    match heapRead m.parkHeap p with
    | none => none
    | some park =>
      match removePark m park.id with
      | none => none
      | some m1 =>
        match printRemainingParks m1.parkHeap m1.parks with
        | none => none
        | some out => some (m1, out)

/-- The function `printBillsDate`: one line (plate, exit time as printed by `intToTime`,
amount) for each record of the list whose exit day is `date`, in the order of the list. -/
def printBillsDate (recordHeap : List (Option Record)) : List Ptr → Int → Option (List Printed)
  | [], _ => some []
  | n :: rest, date =>
    match heapRead recordHeap n with
    | none => none
    | some record =>
      match printBillsDate recordHeap rest date with
      | none => none
      | some out =>
        if date = record.exitDay then
          some (.billLine record.plates (intToTime record.exitHour) record.paid :: out)
        else some out

/-- The function `printBills`: one line (day as printed by `intToDate`, amount) for each
node of the list returned by `calculateSums`. -/
def printBills (oob : Int → Int) (recordHeap : List (Option Record)) (l : List Ptr) :
    Option (List Printed) :=
  match calculateSums recordHeap l with
  | none => none
  | some newList =>
    some (newList.map (fun n => Printed.sumLine (intToDate oob n.exitDay) n.charged))

/-- The function `processCommand_f` on the fields `readBuffer` extracts from the buffer:
the name, and the date when there is one (`checkValue > 1`; with the name alone
`checkValue` is 1).  The date is converted by `dateToInt` without any check of its
format.  The command changes nothing in the memory; the result is the lines printed. -/
def processCommand_f (oob : Int → Int) (m : Memory) (nome : String) (date : Option DateText) :
    Option (List Printed) :=
  match listGetPark m.parkHeap m.parks nome with
  | none => none
  | some p1 =>
    match date with
    | none =>
      match p1 with
      | none => some [.ERR_PARK_NOT_FOUND nome]
      | some p =>
        match heapRead m.parkHeap p with
        | none => none
        | some park => printBills oob m.recordHeap park.records
    | some d =>
      match p1 with
      | none => some [.ERR_PARK_NOT_FOUND nome]
      | some p =>
        if m.date - dateToInt oob d < 0 then some [.ERR_INVALID_DATE]
        else
          match heapRead m.parkHeap p with
          | none => none
          | some park => printBillsDate m.recordHeap park.records (dateToInt oob d)

/-- A command line that can change the memory, with its fields: `p` with arguments, `e`,
`s` and `r`.  The commands `f`, `v` and `p` without arguments only print. -/
inductive Command where
  | p (name : String) (capacity : Int) (less_60 more_60 dayly : ℚ)
  | e (nome plates : String) (data : DateText) (hora : TimeText)
  | s (nome plates : String) (data : DateText) (hora : TimeText)
  | r (nome : String)

/-- The function `execute` on the commands that can change the memory. -/
def execute (oob : Int → Int) (m : Memory) : Command → Option (Memory × List Printed)
  | .e nome plates data hora => processCommand_e oob m nome plates data hora
  | .p name capacity less_60 more_60 dayly => processCommand_p m name capacity less_60 more_60 dayly
  | .r nome => processCommand_r m nome
  | .s nome plates data hora => processCommand_s oob m nome plates data hora

/-- The loop of `main`: the commands are executed in turn from the memory `m`. -/
def run (oob : Int → Int) : List Command → Memory → Option Memory
  | [], m => some m
  | c :: rest, m =>
    match execute oob m c with
    | none => none
    | some (m1, _) => run oob rest m1

/-- The memories the program can be in: those `main` reaches from `initializeSystem`. -/
def Reachable (oob : Int → Int) (m : Memory) : Prop :=
  ∃ cmds : List Command, run oob cmds initializeSystem = some m

/-! ## The pricing rule in the words of the specification -/

/-- The amount of the specification, `div` and `mod` being the quotient and remainder of
the floor division: `days = totalMinutes div 1440`, `remainderMinutes = totalMinutes mod
1440`, `blocks = ceil(remainderMinutes / 15)`, `partial = 4*tier1 + (blocks-4)*tier2` when
`blocks > 4` and `blocks*tier1` otherwise, amount `days*dailyCap + min(partial, dailyCap)`. -/
def specPaid (entryDay entryHour exitDay exitHour : Int) (tier1 tier2 dailyCap : ℚ) : ℚ :=
  let totalMinutes : Int := (exitDay - entryDay) * 1440 + exitHour - entryHour
  let days : Int := totalMinutes / 1440
  let remainderMinutes : Int := totalMinutes % 1440
  let blocks : Int := ⌈(remainderMinutes : ℚ) / 15⌉
  let partialAmount : ℚ :=
    if blocks > 4 then 4 * tier1 + ((blocks - 4 : Int) : ℚ) * tier2 else (blocks : ℚ) * tier1
  (days : ℚ) * dailyCap + min partialAmount dailyCap

/-- The amount of the specification when `div` and `mod` are read as the truncating
division of C. -/
def specPaidTrunc (entryDay entryHour exitDay exitHour : Int) (tier1 tier2 dailyCap : ℚ) : ℚ :=
  let totalMinutes : Int := (exitDay - entryDay) * 1440 + exitHour - entryHour
  let days : Int := Int.tdiv totalMinutes 1440
  let remainderMinutes : Int := Int.tmod totalMinutes 1440
  let blocks : Int := ⌈(remainderMinutes : ℚ) / 15⌉
  let partialAmount : ℚ :=
    if blocks > 4 then 4 * tier1 + ((blocks - 4 : Int) : ℚ) * tier2 else (blocks : ℚ) * tier1
  (days : ℚ) * dailyCap + min partialAmount dailyCap

/-! ## The validations in the words of the specification -/

/-- The first check that fails, in the order of the list: each check comes with
whether it fails. -/
def firstFailing {ε : Type} : List (Bool × ε) → Option ε
  | [] => none
  | (failed, e) :: rest => if failed then some e else firstFailing rest

/-- The errors of the entry command (`open`) in the specification. -/
inductive OpenError where
  | LotNotFound
  | LotFull
  | InvalidPlate
  | AlreadyParked
  | InvalidOrPastDate
  deriving DecidableEq

/-- The line printed for an error of the entry command. -/
def OpenError.line (nome plates : String) : OpenError → Printed
  | .LotNotFound => .ERR_PARK_NOT_FOUND nome
  | .LotFull => .ERR_FULL_PARK nome
  | .InvalidPlate => .ERR_INVALID_LICENSE plates
  | .AlreadyParked => .ERR_INVALID_ENTRY plates
  | .InvalidOrPastDate => .ERR_INVALID_DATE

/-- The date and time check of the specification fails: the date or the time is invalid,
or they are in the past of the clock of the system. -/
def dateCheckFails (oob : Int → Int) (m : Memory) (data : DateText) (hora : TimeText) : Bool :=
  checkDateFormat oob data = false || checkTimeFormat hora = false ||
    dateInPast m (dateToInt oob data) (timeToInt hora)

/-- The five checks of the entry command in the order of the specification, each with
whether it fails: lot not found, lot full (occupancy >= capacity), invalid plate, plate
with an open stay (its most recent record has no exit), invalid or past date and time.
`lot` is the lot of the given name when there is one and `last` the most recent record
of the plate when there is one. -/
def openChecks (oob : Int → Int) (m : Memory) (lot : Option Park) (last : Option Record)
    (plates : String) (data : DateText) (hora : TimeText) : List (Bool × OpenError) :=
  [ (lot.isNone, .LotNotFound),
    (match lot with
      | some park => decide (park.occupancy ≥ park.capacity)
      | none => false, .LotFull),
    (!checkPlates plates, .InvalidPlate),
    (match last with
      | some record => decide (record.exitDay = NO_DATE)
      | none => false, .AlreadyParked),
    (dateCheckFails oob m data hora, .InvalidOrPastDate) ]

/-- The errors of the exit command (`close`) in the specification. -/
inductive CloseError where
  | LotNotFound
  | InvalidPlate
  | NoOpenStayAtThisLot
  | InvalidOrPastDate
  deriving DecidableEq

/-- The line printed for an error of the exit command. -/
def CloseError.line (nome plates : String) : CloseError → Printed
  | .LotNotFound => .ERR_PARK_NOT_FOUND nome
  | .InvalidPlate => .ERR_INVALID_LICENSE plates
  | .NoOpenStayAtThisLot => .ERR_INVALID_EXIT plates
  | .InvalidOrPastDate => .ERR_INVALID_DATE

/-- The four checks of the exit command in the order of the specification, each with
whether it fails: lot not found, invalid plate, no open stay of the plate at this lot (no
record for the plate, or its most recent record belongs to another lot, or it is already
closed), invalid or past date and time.  `lot` is the lot of the given name when there is
one and `last` the most recent record of the plate, with its lot, when there is one; two
lots are the same when they have the same id. -/
def closeChecks (oob : Int → Int) (m : Memory) (lot : Option Park) (last : Option (Record × Park))
    (plates : String) (data : DateText) (hora : TimeText) : List (Bool × CloseError) :=
  [ (lot.isNone, .LotNotFound),
    (!checkPlates plates, .InvalidPlate),
    (match last with
      | none => true
      | some (record, rpark) =>
        (match lot with
          | some park => decide (rpark.id ≠ park.id)
          | none => true) || decide (record.exitDay ≠ NO_DATE), .NoOpenStayAtThisLot),
    (dateCheckFails oob m data hora, .InvalidOrPastDate) ]

/-- The record a pointer returned by `getLastRecord` points to. -/
def lastRecord (m : Memory) (r1 : Option Ptr) : Option Record :=
  r1.bind (heapRead m.recordHeap)

/-- The record a pointer returned by `getLastRecord` points to, with the park the record
points to. -/
def lastStay (m : Memory) (r1 : Option Ptr) : Option (Record × Park) :=
  r1.bind (fun r => (heapRead m.recordHeap r).bind
    (fun record => (heapRead m.parkHeap record.park).map (fun rpark => (record, rpark))))

/-- The park a pointer returned by `listGetPark` points to. -/
def lotOf (m : Memory) (p1 : Option Ptr) : Option Park :=
  p1.bind (heapRead m.parkHeap)

/-- The errors of lot creation in the specification. -/
inductive CreateError where
  | DuplicateName
  | InvalidCapacity
  | InvalidCost
  | RegistryFull
  deriving DecidableEq

/-- The line printed for an error of lot creation. -/
def CreateError.line (name : String) (capacity : Int) : CreateError → Printed
  | .DuplicateName => .ERR_PARK_ALREADY_EXISTS name
  | .InvalidCapacity => .ERR_INVALID_CAPACITY capacity
  | .InvalidCost => .ERR_INVALID_COST
  | .RegistryFull => .ERR_TOO_MANY_PARKS

/-- The four conditions under which lot creation fails, in the order of the
specification, each with whether it holds: a lot with the same name exists, capacity
<= 0, the tiers violate `0 < tier1 <= tier2 <= dailyCap`, the registry already holds 20
lots.  `existing` is the lot of the given name when there is one. -/
def createChecks (existing : Option Ptr) (registrySize : Nat) (capacity : Int)
    (tier1 tier2 dailyCap : ℚ) : List (Bool × CreateError) :=
  [ (existing.isSome, .DuplicateName),
    (decide (capacity ≤ 0), .InvalidCapacity),
    (!decide (0 < tier1 ∧ tier1 ≤ tier2 ∧ tier2 ≤ dailyCap), .InvalidCost),
    (decide (registrySize = 20), .RegistryFull) ]

/-- The line is one of the error messages of `project.h`. -/
def Printed.isError : Printed → Bool
  | .entryLine _ _ => false
  | .exitLine _ _ _ _ _ _ => false
  | .parkLine _ => false
  | .billLine _ _ _ => false
  | .sumLine _ _ => false
  | _ => true

/-- The plate format of the specification: `XX-XX-XX`, exactly three pairs of two
characters separated by `-`, each pair two uppercase letters or two digits, with at
least one pair of letters and at least one pair of digits. -/
def plateFormat (s : String) : Bool :=
  match s.data with
  | [a, b, s1, c, d, s2, e, f] =>
    let pairs := [(a, b), (c, d), (e, f)]
    s1 = '-' && s2 = '-' &&
      pairs.all (fun p => (p.1.isUpper && p.2.isUpper) || (p.1.isDigit && p.2.isDigit)) &&
      pairs.any (fun p => p.1.isUpper && p.2.isUpper) &&
      pairs.any (fun p => p.1.isDigit && p.2.isDigit)
  | _ => false

/-! ## Invariants of the reachable memories -/

/-- The cell of the record heap holds an open stay (no exit day) in the park at address
`p`. -/
def isOpenAt (p : Ptr) : Option Record → Bool
  | some record => decide (record.park = p) && decide (record.exitDay = NO_DATE)
  | none => false

/-- The number of allocated records that are open stays in the park at address `p`. -/
def openCount (recordHeap : List (Option Record)) (p : Ptr) : Nat :=
  recordHeap.countP (isOpenAt p)

/-- The properties every reachable memory has: the park of each record is an address of
the park heap; the parks of the list are allocated and pairwise distinct; the occupancy
of each allocated park is the number of its open records and is at most its capacity;
the ids of the allocated parks are at least 1, below the id counter and pairwise
distinct; the fees of each allocated park satisfy `0 < less_60 <= more_60 <= dayly`. -/
structure WellFormed (m : Memory) : Prop where
  records_park : ∀ r record, heapRead m.recordHeap r = some record →
    record.park < m.parkHeap.length
  parks_live : ∀ p ∈ m.parks, ∃ park, heapRead m.parkHeap p = some park
  parks_nodup : m.parks.Nodup
  occupancy_eq : ∀ p park, heapRead m.parkHeap p = some park →
    park.occupancy = (openCount m.recordHeap p : Int)
  occupancy_le : ∀ p park, heapRead m.parkHeap p = some park → park.occupancy ≤ park.capacity
  ids : ∀ p park, heapRead m.parkHeap p = some park → 1 ≤ park.id ∧ park.id < m.idIncrementer
  ids_inj : ∀ p q park park', heapRead m.parkHeap p = some park →
    heapRead m.parkHeap q = some park' → park.id = park'.id → p = q
  fees : ∀ p park, heapRead m.parkHeap p = some park →
    0 < park.less_60 ∧ park.less_60 ≤ park.more_60 ∧ park.more_60 ≤ park.dayly

/-- The record heap `rh` is the record heap `rh0` after some records were freed, each of
them a record of a park whose id is `parkId`. -/
def FreedOnly (parkHeap : List (Option Park)) (parkId : Int) (rh0 rh : List (Option Record)) :
    Prop :=
  rh.length = rh0.length ∧
    ∀ r, heapRead rh r = heapRead rh0 r ∨
      (heapRead rh r = none ∧ ∃ record park, heapRead rh0 r = some record ∧
        heapRead parkHeap record.park = some park ∧ park.id = parkId)

/-- The value 1 for a successful lot creation (a command `p` that printed nothing) and 0
for every other command. -/
def createdNow : Command → List Printed → Nat
  | .p _ _ _ _ _, [] => 1
  | _, _ => 0

/-- The number of successful lot creations in the run of the commands from the memory
`m`. -/
def createdCount (oob : Int → Int) : List Command → Memory → Nat
  | [], _ => 0
  | c :: rest, m =>
    match execute oob m c with
    | none => 0
    | some (m1, out) => createdNow c out + createdCount oob rest m1

/-! ## The calendar in the words of the specification -/

/-- The length of a month in the fixed calendar of the specification: Jan 31, Feb 28,
Mar 31, Apr 30, May 31, Jun 30, Jul 31, Aug 31, Sep 30, Oct 31, Nov 30, Dec 31. -/
def specDaysInMonth (month : Int) : Int :=
  if month = 1 then 31 else if month = 2 then 28 else if month = 3 then 31
  else if month = 4 then 30 else if month = 5 then 31 else if month = 6 then 30
  else if month = 7 then 31 else if month = 8 then 31 else if month = 9 then 30
  else if month = 10 then 31 else if month = 11 then 30 else if month = 12 then 31
  else 0

/-- The sum of the lengths of the months before `month`. -/
def specDaysBeforeMonth (month : Int) : Int :=
  ((List.range (month.toNat - 1)).map (fun k => specDaysInMonth ((k : Int) + 1))).sum

/-- The date `a` is earlier than the date `b` in (year, month, day) order. -/
def dateEarlier (a b : DateText) : Prop :=
  a.year < b.year ∨ (a.year = b.year ∧ (a.month < b.month ∨ (a.month = b.month ∧ a.day < b.day)))

/-! ## The daily totals in the words of the specification -/

/-- The values of a list, each once, in the order of their first occurrence. -/
def firstOccurrences : List Int → List Int
  | [] => []
  | d :: rest => d :: (firstOccurrences rest).filter (fun x => decide (x ≠ d))

/-- The sum of `paid` over the records of the history that exit on `day`. -/
def dayTotal (history : List Record) (day : Int) : ℚ :=
  ((history.filter (fun record => decide (record.exitDay = day))).map
    (fun record => record.paid)).sum

/-- The exit days of the records of the history that have one (the closed records), in
the order of the history. -/
def exitDays (history : List Record) : List Int :=
  (history.filter (fun record => decide (record.exitDay ≠ NO_DATE))).map
    (fun record => record.exitDay)

/-- The daily totals of the specification: one pair (day, amount) for each distinct exit
day of the history, in the order in which the days first occur in it, the amount being
the sum of `paid` over the records exiting on that day. -/
def specDailyTotals (history : List Record) : List DateSum :=
  (firstOccurrences (exitDays history)).map
    (fun day => { exitDay := day, charged := dayTotal history day })

/-- Further properties of every reachable memory, about the names of the parks and the
table: the parks of the list have pairwise distinct names; the table has no node outside
its `HASH_SIZE` slots and no node with an empty list; every record of the table is
allocated and its park is a park of the list; in the list of a node every record but the
last has an exit day. -/
structure TableFormed (m : Memory) : Prop where
  names : ∀ p q park park', p ∈ m.parks → q ∈ m.parks → heapRead m.parkHeap p = some park →
    heapRead m.parkHeap q = some park' → park.name = park'.name → p = q
  table_bound : ∀ i, HASH_SIZE ≤ i → m.cars i = none
  table_nonempty : ∀ i node, m.cars i = some node → node.records ≠ []
  table_live : ∀ i node, m.cars i = some node → ∀ r ∈ node.records,
    ∃ record, heapRead m.recordHeap r = some record ∧ record.park ∈ m.parks
  table_closed : ∀ i node, m.cars i = some node → ∀ r ∈ node.records.dropLast,
    ∀ record, heapRead m.recordHeap r = some record → record.exitDay ≠ NO_DATE

/-- The record at address `r` is allocated in the heap `rh` and its park is allocated
with an id other than `parkId`: the loop of `removeParkRecords` leaves it in the table. -/
def Survives (parkHeap : List (Option Park)) (parkId : Int) (rh : List (Option Record))
    (r : Ptr) : Prop :=
  ∃ record park, heapRead rh r = some record ∧ heapRead parkHeap record.park = some park ∧
    park.id ≠ parkId

/-! ## The key of a plate in the words of the specification -/

/-- The key function djb2 without the reduction to a 64-bit word: `h = 5381`, then
`h = h*33 + c` for each character. -/
def djb2 (str : String) : Nat :=
  str.data.foldl (fun h c => h * 33 + c.toNat) 5381

/-- The moment (day `d1`, minute `t1`) is not after the moment (day `d2`, minute `t2`). -/
def momentLe (d1 t1 d2 t2 : Int) : Prop :=
  d1 < d2 ∨ (d1 = d2 ∧ t1 ≤ t2)

/-- Properties of the records and of the billing histories in every reachable memory:
the entry of every allocated record is on a day of at least 1 and not after the clock;
the exit of every closed record is not before its entry and not after the clock; the
list of every allocated park holds allocated, closed records of that park, in
non-decreasing order of (exit day, exit time). -/
structure HistoryFormed (m : Memory) : Prop where
  entry_clock : ∀ r record, heapRead m.recordHeap r = some record →
    1 ≤ record.entryDay ∧ momentLe record.entryDay record.entryHour m.date m.time
  exit_clock : ∀ r record, heapRead m.recordHeap r = some record →
    record.exitDay ≠ NO_DATE →
    momentLe record.entryDay record.entryHour record.exitDay record.exitHour ∧
      momentLe record.exitDay record.exitHour m.date m.time
  history : ∀ p park, heapRead m.parkHeap p = some park → ∀ r ∈ park.records,
    ∃ record, heapRead m.recordHeap r = some record ∧ record.park = p ∧
      record.exitDay ≠ NO_DATE
  history_sorted : ∀ p park, heapRead m.parkHeap p = some park →
    park.records.Pairwise (fun r1 r2 => ∀ rec1 rec2, heapRead m.recordHeap r1 = some rec1 →
      heapRead m.recordHeap r2 = some rec2 →
      momentLe rec1.exitDay rec1.exitHour rec2.exitDay rec2.exitHour)

/-- The records a list of pointers leads to, in the order of the list: the billing
history of a lot is `historyOf` of the list of the park. -/
def historyOf (recordHeap : List (Option Record)) (l : List Ptr) : List Record :=
  l.filterMap (heapRead recordHeap)

/-! ## The records stored in the table -/

/-- The records of the slot `i` of the table: the list of its node, nothing for a `NULL`
slot. -/
def slotRecords (h : HashTable) (i : Nat) : List Ptr :=
  match h i with
  | none => []
  | some node => node.records

/-- The records stored in the table (the Plate Index): the lists of the nodes of the
slots `0 .. HASH_SIZE - 1`, one after the other. -/
def tableRecords (h : HashTable) : List Ptr :=
  (List.range HASH_SIZE).flatMap (slotRecords h)

/-- The number of records stored in the table that are stays in the park at address `p`
with the exit unset. -/
def tableOpenCount (m : Memory) (p : Ptr) : Nat :=
  (tableRecords m.cars).countP (fun r => isOpenAt p (heapRead m.recordHeap r))

/-- Further properties of every reachable memory, about where the records are stored: the
list of every node is in increasing order of the addresses of the records (the order in
which they were allocated); no record is in the lists of two slots; every allocated
record is in the list of a node of the table. -/
structure TableStored (m : Memory) : Prop where
  node_sorted : ∀ i node, m.cars i = some node → node.records.Pairwise (fun a b => a < b)
  slots_disjoint : ∀ i j node node', i ≠ j → m.cars i = some node → m.cars j = some node' →
    ∀ r ∈ node.records, r ∉ node'.records
  stored : ∀ r record, heapRead m.recordHeap r = some record →
    ∃ i node, i < HASH_SIZE ∧ m.cars i = some node ∧ r ∈ node.records

/-! ## The lists of records as linked nodes (`project.h`, `data_structures.c`)

The embedding above keeps a list of records as the sequence of its items.  Here the
struct `list` and its nodes are spelled out, with the functions that write the fields
`head`, `tail` and `size` of a list of records, to show that they keep the tail on the
last node and the size equal to the number of nodes. -/

/-- The struct `Node` of a list of records: the item and the address of the next node
(`none` is `NULL`). -/
structure Node where
  item : Ptr
  next : Option Ptr
  deriving DecidableEq

/-- The struct `list` (typedef `List`): the addresses of the first and of the last node
(`none` is `NULL`) and the size. -/
structure list where
  head : Option Ptr
  tail : Option Ptr
  size : Int
  deriving DecidableEq

/-- The function `ListNew`. -/
def Linked.ListNew : list :=
  { head := none, tail := none, size := 0 }

/-- The function `listAddRecord` on the nodes: a new node holding `r` with `next = NULL`;
it becomes head and tail when `size == 0`, otherwise it is linked after the tail (a
`NULL` tail fails there) and becomes the tail; `size++`. -/
def Linked.listAddRecord (nodeHeap : List (Option Node)) (l : list) (r : Ptr) :
    Option (List (Option Node) × list) :=
  let n := heapAlloc nodeHeap { item := r, next := none }
  if l.size = 0 then
    some (n.2, { l with head := some n.1, tail := some n.1, size := l.size + 1 })
  else
    match l.tail with
    | none => none
    | some t =>
      match heapRead n.2 t with
      | none => none
      | some tnode =>
        some (heapWrite n.2 t { tnode with next := some n.1 },
          { l with tail := some n.1, size := l.size + 1 })

/-- The body of `if (n->item.record == r)` in the loop of `listRemoveRecord`, for the
node at `n` with the content `node`: the node is unlinked (`prev->next`, or the head when
`prev` is `NULL`, takes its `next`; the tail moves to `prev` when the node was the tail),
the record and the node are freed and `size--`. -/
def Linked.listRemoveRecord.unlink (l : list) (nodeHeap : List (Option Node))
    (recordHeap : List (Option Record)) (prev : Option Ptr) (n : Ptr) (node : Node) :
    Option (List (Option Node) × List (Option Record) × list) :=
  let unlinked : Option (List (Option Node) × list) :=
    match prev with
    | some pv =>
      match heapRead nodeHeap pv with
      | none => none
      | some pnode => some (heapWrite nodeHeap pv { pnode with next := node.next }, l)
    | none => some (nodeHeap, { l with head := node.next })
  match unlinked with
  | none => none
  | some (nodeHeap1, l1) =>
    let l2 := if some n = l1.tail then { l1 with tail := prev } else l1
    some (heapFree nodeHeap1 n, heapFree recordHeap node.item, { l2 with size := l2.size - 1 })

/-- The loop `while (n)` of `listRemoveRecord` on the nodes, entered with `prev` and `n`,
with `fuel` iterations allowed: it stops at the first node holding `r`, which is
unlinked, or at the end of the chain. -/
def Linked.listRemoveRecord.loop (l : list) (r : Ptr) (nodeHeap : List (Option Node))
    (recordHeap : List (Option Record)) :
    Nat → Option Ptr → Option Ptr → Option (List (Option Node) × List (Option Record) × list)
  | 0, _, _ => none
  | _ + 1, _, none => some (nodeHeap, recordHeap, l)
  | fuel + 1, prev, some n =>
    match heapRead nodeHeap n with
    | none => none
    | some node =>
      if node.item = r then
        Linked.listRemoveRecord.unlink l nodeHeap recordHeap prev n node
      else Linked.listRemoveRecord.loop l r nodeHeap recordHeap fuel (some n) node.next

/-- The function `listRemoveRecord` on the nodes.  The nodes of a chain that ends are
pairwise distinct, so the loop makes at most as many iterations as the heap has cells. -/
def Linked.listRemoveRecord (nodeHeap : List (Option Node)) (recordHeap : List (Option Record))
    (l : list) (r : Ptr) : Option (List (Option Node) × List (Option Record) × list) :=
  Linked.listRemoveRecord.loop l r nodeHeap recordHeap (nodeHeap.length + 1) none l.head

/-- The function `getLastRecord` on the nodes, for the list `getListPlates` returned:
`l->tail->item.record`, or `NULL` without a list.  A `NULL` tail fails. -/
def Linked.getLastRecord (nodeHeap : List (Option Node)) (l : Option list) :
    Option (Option Ptr) :=
  match l with
  | none => some none
  | some l =>
    match l.tail with
    | none => none
    | some t =>
      match heapRead nodeHeap t with
      | none => none
      | some node => some (some node.item)

/-- The nodes at the addresses `nodes` are linked one after the other from `start`, hold
the items `items`, and the field `next` of the last one is `stop`. -/
def Linked.Seg (nodeHeap : List (Option Node)) :
    Option Ptr → List Ptr → List Ptr → Option Ptr → Prop
  | start, [], [], stop => start = stop
  | start, a :: nodes, r :: items, stop =>
    start = some a ∧ ∃ next, heapRead nodeHeap a = some { item := r, next := next } ∧
      Linked.Seg nodeHeap next nodes items stop
  | _, _, _, _ => False

/-- The struct `l` is the sequence `items`, held by the nodes at the addresses `nodes`:
the nodes are linked from the head to `NULL`, are pairwise distinct, the tail is the
last of them (`NULL` when there is none) and the size is their number. -/
def Linked.Represents (nodeHeap : List (Option Node)) (l : list) (nodes items : List Ptr) :
    Prop :=
  Linked.Seg nodeHeap l.head nodes items none ∧ nodes.Nodup ∧ l.tail = nodes.getLast? ∧
    l.size = (items.length : Int)

/-! ## The temporal codec with the array bounds and the range of `int` (`aux_functions.c`)

In the definitions of the temporal codec above a read outside the table `days[]` returns
a value and the encoding of a date is an integer of any size.  Here the same functions
are given with what the C program adds: a read outside the twelve entries of `days[]` is
undefined behaviour (the result `none`), and the value returned by `dateToInt` is an
`int`. -/

/-- The function `getDaysOfMonth`: `days[i - 1]`, undefined (`none`) for `i` outside
`1..12`, where the read is outside the array. -/
def Strict.getDaysOfMonth (i : Int) : Option Int :=
  if 1 ≤ i ∧ i ≤ 12 then some (daysTable.getD (i - 1).toNat 0) else none

/-- The function `sumDaysAllMonths`: `for (i = 1; i < month; i++) days += getDaysOfMonth(i)`,
undefined as soon as one of the reads is. -/
def Strict.sumDaysAllMonths (month : Int) : Option Int :=
  ((List.range (month - 1).toNat).mapM
    (fun (k : Nat) => Strict.getDaysOfMonth ((k : Int) + 1))).map
    List.sum

/-- The function `checkDateFormat`, with the evaluation order of the C condition
`day < 1 || day > getDaysOfMonth(month) || month < 1 || month > 12 || year < 0`: the table
is read before the month is tested, unless `day < 1` already decided. -/
def Strict.checkDateFormat (date : DateText) : Option Bool :=
  if date.day < 1 then some false
  else
    match Strict.getDaysOfMonth date.month with
    | none => none
    | some n =>
      if date.day > n || date.month < 1 || date.month > 12 || date.year < 0 then some false
      else some true

/-- The function `dateToInt`: the `int` value of `year * 365 + sumDaysAllMonths(month) + day`. -/
def Strict.dateToInt (d : DateText) : Option Int :=
  (Strict.sumDaysAllMonths d.month).map (fun days => wrapInt (d.year * 365 + days + d.day))

/-! ## The stays of a plate in the words of the specification -/

/-- The records of the plate, in the order in which they were made: the sequence of the
plate in the specification, read off the records themselves and not off the table. -/
def recordsOfPlate (m : Memory) (plates : String) : List Record :=
  (m.recordHeap.filterMap id).filter (fun record => decide (record.plates = plates))

/-- The most recent record of the plate, when it has one (`mostRecentStay`). -/
def mostRecentStay (m : Memory) (plates : String) : Option Record :=
  (recordsOfPlate m plates).getLast?

/-- The most recent record of the plate, when it has one, with the park the record
points to. -/
def mostRecentStayWithPark (m : Memory) (plates : String) : Option (Record × Park) :=
  (mostRecentStay m plates).bind
    (fun record => (heapRead m.parkHeap record.park).map (fun rpark => (record, rpark)))

/-! ## Plates and the array `plates[9]` of a record -/

/-- The size of the array `plates` of the struct `Record` (`char plates[9]`). -/
def Record.platesSize : Nat := 9

/-- The offset of the field `park` in the struct `Record`, after `char plates[9]`, where
a pointer has eight bytes and is aligned on eight. -/
def Record.parkOffset : Nat := 16

/-- The number of bytes `strcpy(dst, s)` writes from the start of `dst`: the bytes of `s`
and the terminator. -/
def strcpy.written (s : String) : Nat :=
  s.utf8ByteSize + 1

/-- The plate of an entry or exit command fills the array `plates[9]` exactly: eight
characters of one byte each.  Then `strcpy(newR->plates, plates)` stays inside the array
and `checkPlates` reads no byte past the terminator, so that the embedding of the
command follows the code. -/
def Command.plateFits : Command → Bool
  | .e _ plates _ _ => decide (plates.length = 8) && decide (plates.utf8ByteSize = 8)
  | .s _ plates _ _ => decide (plates.length = 8) && decide (plates.utf8ByteSize = 8)
  | _ => true

/-- The memories the program reaches through commands whose plates fill the array
`plates[9]` exactly. -/
def ReachableFitting (oob : Int → Int) (m : Memory) : Prop :=
  ∃ cmds : List Command, (∀ c ∈ cmds, Command.plateFits c = true) ∧
    run oob cmds initializeSystem = some m

/-! ## Concrete inputs -/

/-- No value is read outside the table `days[]` in the concrete runs; this is the content
given to the cells outside it. -/
def oobZero : Int → Int := fun _ => 0

/-- A park with the fees 1, 2 and 10. -/
def parkTen : Park :=
  { name := "A", capacity := 10, occupancy := 1, id := 1, less_60 := 1, more_60 := 2,
    dayly := 10, records := [] }

/-- The stay from 01-01-2024 23:00 to 03-01-2024 01:00. -/
def recordTwoNights : Record :=
  { plates := "AA-11-BB", park := 0,
    entryDay := dateToInt oobZero ⟨1, 1, 2024⟩, entryHour := timeToInt ⟨23, 0⟩,
    exitDay := dateToInt oobZero ⟨3, 1, 2024⟩, exitHour := timeToInt ⟨1, 0⟩, paid := 0 }

/-- A park with the fees 1.0, 1.5 and 6.0. -/
def parkSix : Park :=
  { name := "A", capacity := 10, occupancy := 1, id := 1, less_60 := 1, more_60 := 3 / 2,
    dayly := 6, records := [] }

/-- The stay from 10:00 to 11:20 on 01-01-2024. -/
def recordEightyMinutes : Record :=
  { plates := "AA-11-BB", park := 0,
    entryDay := dateToInt oobZero ⟨1, 1, 2024⟩, entryHour := timeToInt ⟨10, 0⟩,
    exitDay := dateToInt oobZero ⟨1, 1, 2024⟩, exitHour := timeToInt ⟨11, 20⟩, paid := 0 }

/-- The memory after the given commands, run from the start state. -/
def memoryAfter (cmds : List Command) : Memory :=
  (run oobZero cmds initializeSystem).getD initializeSystem

/-- A park `A` is created and the plate `AA-11-BB` enters it on 01-01-2024 at 10:00. -/
def cmdsOneCar : List Command :=
  [.p "A" 10 1 2 10, .e "A" "AA-11-BB" ⟨1, 1, 2024⟩ ⟨10, 0⟩]

/-- After `cmdsOneCar`, a second park `B` is created. -/
def cmdsTwoParks : List Command :=
  cmdsOneCar ++ [.p "B" 5 1 2 10]

/-- Two parks `A` and `B`; the plate `AA-09-AA` enters `A` and the plate `AA-70-AU`
enters `B`, both keys falling on slot 1721 of the table, so that the second plate is
stored in slot 1722; then the park `A` is removed, which empties slot 1721. -/
def cmdsOrphan : List Command :=
  [.p "A" 10 1 2 10, .p "B" 10 1 2 10,
   .e "A" "AA-09-AA" ⟨1, 1, 2024⟩ ⟨10, 0⟩,
   .e "B" "AA-70-AU" ⟨1, 1, 2024⟩ ⟨10, 1⟩,
   .r "A"]

/-- A single park `A`. -/
def cmdsOnePark : List Command :=
  [.p "A" 10 1 2 10]

/-- The memory after the entry command with the given fields, run in the memory `m`. -/
def memoryAfterEntry (m : Memory) (nome plates : String) (data : DateText) (hora : TimeText) :
    Memory :=
  ((processCommand_e oobZero m nome plates data hora).map Prod.fst).getD initializeSystem

/-- After `cmdsOrphan`, the plate `AA-70-AU`, still parked in `B`, enters `B` again on
02-01-2024 at 10:00. -/
def cmdsTwoOpen : List Command :=
  cmdsOrphan ++ [.e "B" "AA-70-AU" ⟨2, 1, 2024⟩ ⟨10, 0⟩]

/-- A heap of four records of the park at address 0: exits on the days 738762, 738763,
738762 again, and a stay still open. -/
def heapFourRecords : List (Option Record) :=
  [some { plates := "AA-11-BB", park := 0, entryDay := 738761, entryHour := 600,
          exitDay := 738762, exitHour := 600, paid := 10 },
   some { plates := "CC-22-DD", park := 0, entryDay := 738762, entryHour := 600,
          exitDay := 738763, exitHour := 630, paid := 12 },
   some { plates := "EE-33-FF", park := 0, entryDay := 738762, entryHour := 610,
          exitDay := 738762, exitHour := 640, paid := 2 },
   some { plates := "GG-44-HH", park := 0, entryDay := 738763, entryHour := 700,
          exitDay := NO_DATE, exitHour := NO_TIME, paid := 0 }]

/-- A park `A`; the plate `AA-11-BB` enters it on 01-01-2024 at 10:00, leaves it at 11:00
and enters it again on 02-01-2024 at 09:00. -/
def cmdsReentry : List Command :=
  [.p "A" 10 1 2 10,
   .e "A" "AA-11-BB" ⟨1, 1, 2024⟩ ⟨10, 0⟩,
   .s "A" "AA-11-BB" ⟨1, 1, 2024⟩ ⟨11, 0⟩,
   .e "A" "AA-11-BB" ⟨2, 1, 2024⟩ ⟨9, 0⟩]

/-- The table after the call `addRecord(h, r1)`. -/
def tableAfterAddRecord (recordHeap : List (Option Record)) (h : HashTable) (r1 : Ptr) :
    HashTable :=
  (addRecord recordHeap h r1).getD (fun _ => none)

/-- The record that the entry of the plate `AA-09-AA` in the park `B` (address 1) on
02-01-2024 at 10:00 allocates. -/
def recordOtherPlate : Record :=
  { plates := "AA-09-AA", park := 1, entryDay := 738762, entryHour := 600,
    exitDay := NO_DATE, exitHour := NO_TIME, paid := 0 }

/-- The record that the entry of the plate `AAQ11-BB` in the park `A` (address 0) on
01-01-2024 at 10:00 allocates. -/
def recordSameKey : Record :=
  { plates := "AAQ11-BB", park := 0, entryDay := 738761, entryHour := 600,
    exitDay := NO_DATE, exitHour := NO_TIME, paid := 0 }

/-- After `cmdsReentry`, the plate `AA-11-BB` leaves the park `A` again, on 02-01-2024 at
10:00: the history of `A` has two records, of two different days. -/
def cmdsTwoExits : List Command :=
  cmdsReentry ++ [.s "A" "AA-11-BB" ⟨2, 1, 2024⟩ ⟨10, 0⟩]

/-- A park `A` with the fees 1, 2 and 10; the plate `AA-11-BB` enters it on 01-01-2024 at
10:00 and leaves it on 01-01-9999 at 10:00, after 2910875 days. -/
def cmdsLongStay : List Command :=
  [.p "A" 10 1 2 10,
   .e "A" "AA-11-BB" ⟨1, 1, 2024⟩ ⟨10, 0⟩,
   .s "A" "AA-11-BB" ⟨1, 1, 9999⟩ ⟨10, 0⟩]

/-- The record of the stay of `cmdsLongStay` as the exit command hands it to
`calculatePrice`. -/
def recordLongStay : Record :=
  { plates := "AA-11-BB", park := 0,
    entryDay := dateToInt oobZero ⟨1, 1, 2024⟩, entryHour := timeToInt ⟨10, 0⟩,
    exitDay := dateToInt oobZero ⟨1, 1, 9999⟩, exitHour := timeToInt ⟨10, 0⟩, paid := 0 }

/-- A park `A`, which the plate `AAQ11-BB` enters on 01-01-2024 at 10:00. -/
def cmdsSameKey : List Command :=
  [.p "A" 10 1 2 10, .e "A" "AAQ11-BB" ⟨1, 1, 2024⟩ ⟨10, 0⟩]

/-! # Theorems -/

/-! ## Pricing -/

/-- For a non-negative number of minutes, the block count of the code is the ceiling of
the fifteenth. -/
theorem ceil_div_fifteen (m : Int) (hm : 0 ≤ m) :
    ⌈(m : ℚ) / 15⌉ = if Int.tmod m 15 ≠ 0 then Int.tdiv m 15 + 1 else Int.tdiv m 15 := by
  rw [Int.tmod_eq_emod hm (by norm_num), Int.tdiv_eq_ediv hm (by norm_num)]
  have hdiv : m % 15 + 15 * (m / 15) = m := Int.emod_add_ediv m 15
  have h0 : 0 ≤ m % 15 := Int.emod_nonneg m (by norm_num)
  have h15 : m % 15 < 15 := Int.emod_lt_of_pos m (by norm_num)
  have hq : (m : ℚ) = ((m % 15 : Int) : ℚ) + 15 * ((m / 15 : Int) : ℚ) := by
    exact_mod_cast hdiv.symm
  have h0q : (0 : ℚ) ≤ ((m % 15 : Int) : ℚ) := by exact_mod_cast h0
  have h15q : ((m % 15 : Int) : ℚ) < 15 := by exact_mod_cast h15
  split_ifs with h
  · rw [Int.ceil_eq_iff]
    have hpos : (0 : ℚ) < ((m % 15 : Int) : ℚ) := by
      have : 0 < m % 15 := lt_of_le_of_ne h0 (Ne.symm h)
      exact_mod_cast this
    push_cast
    constructor
    · rw [lt_div_iff₀ (by norm_num)]; linarith
    · rw [div_le_iff₀ (by norm_num)]; linarith
  · push_neg at h
    rw [Int.ceil_eq_iff]
    have hz : ((m % 15 : Int) : ℚ) = 0 := by exact_mod_cast h
    constructor
    · rw [lt_div_iff₀ (by norm_num)]; linarith
    · rw [div_le_iff₀ (by norm_num)]; linarith

/-- The minutes beyond the full days are not negative when the stay is not. -/
theorem calculatePrice_minutes_nonneg (r : Record) (ht : 0 ≤ calculatePrice.total r) :
    0 ≤ calculatePrice.minutes r :=
  Int.tmod_nonneg _ ht

/-- The block count is not negative when the stay is not. -/
theorem calculatePrice_blocks_nonneg (r : Record) (ht : 0 ≤ calculatePrice.total r) :
    0 ≤ calculatePrice.blocks r := by
  have hm := calculatePrice_minutes_nonneg r ht
  have hq : 0 ≤ Int.tdiv (calculatePrice.minutes r) 15 := Int.tdiv_nonneg hm (by norm_num)
  unfold calculatePrice.blocks
  split_ifs <;> omega

/-- A value in the range of `int` is what the `int` holds. -/
theorem wrapInt_of_fits (x : Int) (h1 : -2147483648 ≤ x) (h2 : x < 2147483648) :
    wrapInt x = x := by
  unfold wrapInt
  omega

/-- For every record whose stay is not negative and shorter than `2^31` minutes (the
`int` does not wrap) and every park, `calculatePrice` writes
`days*dailyCap + min(partial, dailyCap)` of the specification, under both readings of
`div` and `mod`. -/
theorem calculatePrice_paid_eq_spec (r : Record) (park : Park)
    (ht : 0 ≤ (r.exitDay - r.entryDay) * 1440 + r.exitHour - r.entryHour)
    (hfit : (r.exitDay - r.entryDay) * 1440 + r.exitHour - r.entryHour < 2147483648) :
    (calculatePrice r park).paid =
        specPaid r.entryDay r.entryHour r.exitDay r.exitHour park.less_60 park.more_60
          park.dayly ∧
      (calculatePrice r park).paid =
        specPaidTrunc r.entryDay r.entryHour r.exitDay r.exitHour park.less_60 park.more_60
          park.dayly := by
  have htot : (r.exitDay - r.entryDay) * 1440 + r.exitHour - r.entryHour =
      calculatePrice.total r := by
    unfold calculatePrice.total
    rw [wrapInt_of_fits _ (by omega) (by omega)]
    ring
  rw [htot] at ht
  have hmin : 0 ≤ calculatePrice.total r % 1440 := Int.emod_nonneg _ (by norm_num)
  have hmain : (calculatePrice r park).paid =
      specPaid r.entryDay r.entryHour r.exitDay r.exitHour park.less_60 park.more_60
        park.dayly := by
    simp only [calculatePrice, specPaid, calculatePrice.price, calculatePrice.blocks,
      calculatePrice.minutes, calculatePrice.days, htot]
    rw [Int.tmod_eq_emod ht (by norm_num), Int.tdiv_eq_ediv ht (by norm_num),
      ceil_div_fifteen _ hmin]
    congr 1
    rw [min_def]
    split_ifs <;> first | rfl | linarith
  refine ⟨hmain, ?_⟩
  rw [hmain]
  simp only [specPaid, specPaidTrunc, htot]
  rw [Int.tmod_eq_emod ht (by norm_num), Int.tdiv_eq_ediv ht (by norm_num)]

/-- The dates 01-01-2024 and 03-01-2024 are encoded without any read outside `days[]`. -/
theorem dateToInt_january (oob : Int → Int) (day year : Int) :
    dateToInt oob ⟨day, 1, year⟩ = year * 365 + day := by
  simp [dateToInt, sumDaysAllMonths]

/-- C2, as amended: for a stay entering at 01-01-2024 23:00 and leaving at 03-01-2024
01:00 in a park whose daily fee is 10, `calculatePrice` works with `total = 1560`,
`days = 1`, `minutes = 120` and `blocks = 8`, and writes `1*10 + min(partial, 10)` where
`partial = 4*less_60 + 4*more_60`. -/
theorem calculatePrice_two_nights (oob : Int → Int) (r : Record) (park : Park)
    (hed : r.entryDay = dateToInt oob ⟨1, 1, 2024⟩) (heh : r.entryHour = timeToInt ⟨23, 0⟩)
    (hxd : r.exitDay = dateToInt oob ⟨3, 1, 2024⟩) (hxh : r.exitHour = timeToInt ⟨1, 0⟩)
    (hcap : park.dayly = 10) :
    calculatePrice.total r = 1560 ∧ calculatePrice.days r = 1 ∧
      calculatePrice.minutes r = 120 ∧ calculatePrice.blocks r = 8 ∧
      calculatePrice.price r park = 4 * park.less_60 + 4 * park.more_60 ∧
      (calculatePrice r park).paid = 1 * 10 + min (calculatePrice.price r park) 10 := by
  have ht : calculatePrice.total r = 1560 := by
    simp only [calculatePrice.total, hed, heh, hxd, hxh, dateToInt_january, timeToInt]
    norm_num [wrapInt]
  have hd : calculatePrice.days r = 1 := by
    simp only [calculatePrice.days, ht]; decide
  have hm : calculatePrice.minutes r = 120 := by
    simp only [calculatePrice.minutes, ht]; decide
  have hb : calculatePrice.blocks r = 8 := by
    simp only [calculatePrice.blocks, hm]; decide
  have hp : calculatePrice.price r park = 4 * park.less_60 + 4 * park.more_60 := by
    simp only [calculatePrice.price, hb]; norm_num
  refine ⟨ht, hd, hm, hb, hp, ?_⟩
  simp only [calculatePrice, hd, hcap]
  rw [min_def]
  split_ifs with h4 h5 h5
  · have h6 : calculatePrice.price r park = 10 := le_antisymm h5 h4
    rw [h6]; norm_num
  · norm_num
  · norm_num
  · push_neg at h4 h5
    exact absurd h4 (not_lt.mpr h5.le)

/-- Witness of C2 as amended: the park with the fees 1, 2 and 10. -/
theorem calculatePrice_two_nights_witness :
    (calculatePrice recordTwoNights parkTen).paid =
      1 * 10 + min (calculatePrice.price recordTwoNights parkTen) 10 :=
  (calculatePrice_two_nights oobZero recordTwoNights parkTen rfl rfl rfl rfl rfl).2.2.2.2.2

/-- C2 fails as stated: from 01-01-2024 23:00 to 03-01-2024 01:00 the code counts 1560
minutes and one full day, not 3000 minutes and two days, and with the fees 1, 2 and 10 it
writes 20, not `2*10 + min(partial, 10) = 30`. -/
theorem calculatePrice_two_nights_not_3000 :
    calculatePrice.total recordTwoNights = 1560 ∧
      calculatePrice.total recordTwoNights ≠ 3000 ∧
      calculatePrice.days recordTwoNights = 1 ∧
      calculatePrice.days recordTwoNights ≠ 2 ∧
      (calculatePrice recordTwoNights parkTen).paid = 20 ∧
      (calculatePrice recordTwoNights parkTen).paid ≠
        2 * 10 + min (calculatePrice.price recordTwoNights parkTen) 10 := by
  have hp : calculatePrice.price recordTwoNights parkTen = 12 := by decide!
  have hpaid : (calculatePrice recordTwoNights parkTen).paid = 20 := by decide!
  refine ⟨by decide, by decide, by decide, by decide, hpaid, ?_⟩
  rw [hpaid, hp]
  norm_num

/-- C3: for a stay from 10:00 to 11:20 on one day in a park with the fees 1.0, 1.5 and
6.0, `calculatePrice` counts 6 blocks, the amount before the comparison with the daily
fee is 7.0 and the amount written is 6.0. -/
theorem calculatePrice_eighty_minutes (r : Record) (park : Park)
    (hday : r.exitDay = r.entryDay) (heh : r.entryHour = timeToInt ⟨10, 0⟩)
    (hxh : r.exitHour = timeToInt ⟨11, 20⟩) (h1 : park.less_60 = 1)
    (h2 : park.more_60 = 3 / 2) (h3 : park.dayly = 6) :
    calculatePrice.total r = 80 ∧ calculatePrice.blocks r = 6 ∧
      calculatePrice.price r park = 7 ∧ (calculatePrice r park).paid = 6 := by
  have ht : calculatePrice.total r = 80 := by
    simp only [calculatePrice.total, hday, heh, hxh, timeToInt]
    norm_num [wrapInt]
  have hd : calculatePrice.days r = 0 := by
    simp only [calculatePrice.days, ht]; decide
  have hm : calculatePrice.minutes r = 80 := by
    simp only [calculatePrice.minutes, ht]; decide
  have hb : calculatePrice.blocks r = 6 := by
    simp only [calculatePrice.blocks, hm]; decide
  have hp : calculatePrice.price r park = 7 := by
    simp only [calculatePrice.price, hb, h1, h2]; norm_num
  refine ⟨ht, hb, hp, ?_⟩
  simp only [calculatePrice, hd, hp, h3]
  norm_num

/-- Witness of C3: the stay of 01-01-2024. -/
theorem calculatePrice_eighty_minutes_witness :
    calculatePrice.blocks recordEightyMinutes = 6 ∧
      calculatePrice.price recordEightyMinutes parkSix = 7 ∧
      (calculatePrice recordEightyMinutes parkSix).paid = 6 :=
  (calculatePrice_eighty_minutes recordEightyMinutes parkSix rfl rfl rfl rfl rfl rfl).2

/-- In a park with `0 < less_60 <= more_60 <= dayly`, when the `int` local `total` of
`calculatePrice` is not negative, the amount written is between 0 and
`dayly * (days + 1)`, where `days = total / 1440`.  (The local `total` is the length of
the stay only when that length is in the range of `int`.) -/
theorem calculatePrice_paid_bounds (r : Record) (park : Park)
    (h1 : 0 < park.less_60) (h2 : park.less_60 ≤ park.more_60) (h3 : park.more_60 ≤ park.dayly)
    (ht : 0 ≤ calculatePrice.total r) :
    0 ≤ (calculatePrice r park).paid ∧
      (calculatePrice r park).paid ≤ park.dayly * ((calculatePrice.days r : ℚ) + 1) := by
  have hb : (0 : ℚ) ≤ (calculatePrice.blocks r : ℚ) := by
    exact_mod_cast calculatePrice_blocks_nonneg r ht
  have hd : (0 : ℚ) ≤ (calculatePrice.days r : ℚ) := by
    have : 0 ≤ calculatePrice.days r := Int.tdiv_nonneg ht (by norm_num)
    exact_mod_cast this
  have hcap : 0 < park.dayly := lt_of_lt_of_le (lt_of_lt_of_le h1 h2) h3
  have hprice : 0 ≤ calculatePrice.price r park := by
    unfold calculatePrice.price
    split_ifs with h4
    · have h5 : (0 : ℚ) ≤ ((calculatePrice.blocks r - 4 : Int) : ℚ) := by
        have : 0 ≤ calculatePrice.blocks r - 4 := by omega
        exact_mod_cast this
      have h6 : 0 < park.more_60 := lt_of_lt_of_le h1 h2
      positivity
    · positivity
  have hdc : 0 ≤ (calculatePrice.days r : ℚ) * park.dayly := mul_nonneg hd hcap.le
  simp only [calculatePrice]
  split_ifs with h
  · constructor
    · linarith
    · linarith
  · push_neg at h
    constructor
    · linarith
    · linarith

/-- An instance: the stay of 80 minutes in the park with the fees 1.0, 1.5 and 6.0. -/
theorem calculatePrice_paid_bounds_witness :
    0 ≤ (calculatePrice recordEightyMinutes parkSix).paid ∧
      (calculatePrice recordEightyMinutes parkSix).paid ≤
        parkSix.dayly * ((calculatePrice.days recordEightyMinutes : ℚ) + 1) :=
  calculatePrice_paid_bounds recordEightyMinutes parkSix (by decide!) (by decide!) (by decide!)
    (by decide)

/-! ## Heaps -/

/-- Reading the cell just written. -/
theorem heapRead_heapWrite_self {α : Type} (h : List (Option α)) (p : Ptr) (v x : α)
    (hx : heapRead h p = some x) : heapRead (heapWrite h p v) p = some v := by
  unfold heapRead heapWrite at *
  have hlt : p < h.length := by
    by_contra hge
    rw [List.getD_eq_default _ _ (not_lt.mp hge)] at hx
    exact Option.noConfusion hx
  simp [List.getD_eq_getElem?_getD, hlt]

/-- Writing a cell leaves the others as they are. -/
theorem heapRead_heapWrite_ne {α : Type} (h : List (Option α)) (p q : Ptr) (v : α)
    (hq : q ≠ p) : heapRead (heapWrite h p v) q = heapRead h q := by
  unfold heapRead heapWrite
  simp [List.getD_eq_getElem?_getD, List.getElem?_set, Ne.symm hq]

/-- No cell lives at the address `malloc` gives next. -/
theorem heapRead_length {α : Type} (h : List (Option α)) : heapRead h h.length = none := by
  unfold heapRead
  simp [List.getD_eq_getElem?_getD]

/-- The cell just allocated holds its initial value. -/
theorem heapRead_heapAlloc_new {α : Type} (h : List (Option α)) (v : α) :
    heapRead (heapAlloc h v).2 (heapAlloc h v).1 = some v := by
  unfold heapRead heapAlloc
  simp [List.getD_eq_getElem?_getD]

/-- Allocation leaves the other cells as they are. -/
theorem heapRead_heapAlloc_ne {α : Type} (h : List (Option α)) (v : α) (q : Ptr)
    (hq : q ≠ (heapAlloc h v).1) : heapRead (heapAlloc h v).2 q = heapRead h q := by
  unfold heapRead heapAlloc at *
  simp only at hq
  rcases Nat.lt_or_gt_of_ne hq with hlt | hgt
  · simp [List.getD_eq_getElem?_getD, List.getElem?_append_left hlt]
  · have h1 : h.length ≤ q := hgt.le
    have h2 : (h ++ [some v]).length ≤ q := by simp; omega
    rw [List.getD_eq_default _ _ h1, List.getD_eq_default _ _ h2]

/-! ## Registry and table lookups -/

/-- A park found by `listGetPark` is allocated and has the name looked for. -/
theorem listGetPark_some (parkHeap : List (Option Park)) (l : List Ptr) (name : String)
    (p : Ptr) (h : listGetPark parkHeap l name = some (some p)) :
    ∃ park, heapRead parkHeap p = some park ∧ park.name = name ∧ p ∈ l := by
  induction l with
  | nil => simp [listGetPark] at h
  | cons n rest ih =>
    unfold listGetPark at h
    cases hn : heapRead parkHeap n with
    | none => simp [hn] at h
    | some park =>
      simp only [hn] at h
      by_cases hname : park.name = name
      · simp only [hname, if_true, Option.some.injEq] at h
        subst h
        exact ⟨park, hn, hname, List.mem_cons_self _ _⟩
      · simp only [hname, if_false] at h
        obtain ⟨park', h1, h2, h3⟩ := ih h
        exact ⟨park', h1, h2, List.mem_cons_of_mem _ h3⟩

/-- The lookup of a park only reads the names: writing a park with the same name
through a pointer changes no lookup. -/
theorem listGetPark_heapWrite (parkHeap : List (Option Park)) (l : List Ptr) (name : String)
    (p : Ptr) (park park' : Park) (hp : heapRead parkHeap p = some park)
    (hname : park'.name = park.name) :
    listGetPark (heapWrite parkHeap p park') l name = listGetPark parkHeap l name := by
  induction l with
  | nil => simp [listGetPark]
  | cons n rest ih =>
    unfold listGetPark
    by_cases hn : n = p
    · subst hn
      rw [heapRead_heapWrite_self _ _ _ _ hp, hp]
      simp only [hname, ih]
    · rw [heapRead_heapWrite_ne _ _ _ _ hn, ih]

/-- When the lookup of a key returns, the insertion of a record of that key returns
too: the table changes at one slot, which was `NULL` or held the key, and the lookup
of the key then returns the previous sequence followed by the record. -/
theorem addRecord_loop_spec (h : HashTable) (key : Key) (r : Ptr) :
    ∀ (fuel i : Nat) (old : Option (List Ptr)),
      getListPlates.loop h key fuel i = some old →
      ∃ j, addRecord.loop h key r fuel i =
          some (Function.update h j (some { key := key, records := old.getD [] ++ [r] })) ∧
        (h j = none ∨ ∃ node, h j = some node ∧ node.key = key) ∧
        getListPlates.loop
          (Function.update h j (some { key := key, records := old.getD [] ++ [r] })) key fuel i =
          some (some (old.getD [] ++ [r])) := by
  intro fuel
  induction fuel with
  | zero => intro i old hold; simp [getListPlates.loop] at hold
  | succ fuel ih =>
    intro i old hold
    unfold getListPlates.loop at hold
    cases hi : h i with
    | none =>
      simp only [hi, Option.some.injEq] at hold
      subst hold
      refine ⟨i, ?_, Or.inl hi, ?_⟩
      · simp [addRecord.loop, hi, listAddRecord]
      · simp [getListPlates.loop]
    | some node =>
      simp only [hi] at hold
      by_cases hk : key = node.key
      · simp only [hk, if_true, Option.some.injEq] at hold
        subst hold
        refine ⟨i, ?_, Or.inr ⟨node, hi, hk.symm⟩, ?_⟩
        · simp [addRecord.loop, hi, hk, listAddRecord]
        · simp [getListPlates.loop, hk]
      · simp only [hk, if_false] at hold
        obtain ⟨j, h1, h2, h3⟩ := ih _ old hold
        have hij : i ≠ j := by
          rintro rfl
          rcases h2 with h2 | ⟨node', h2, h2'⟩
          · rw [hi] at h2; exact Option.noConfusion h2
          · rw [hi] at h2
            cases h2
            exact hk h2'.symm
        refine ⟨j, ?_, h2, ?_⟩
        · simp only [addRecord.loop, hi, hk, if_false]
          exact h1
        · unfold getListPlates.loop
          simp only [Function.update_noteq hij, hi, hk, if_false]
          exact h3

/-- A sequence found under another key is found unchanged after a slot that was `NULL`
or held the key `key` receives a node of key `key`. -/
theorem getListPlates_loop_update_other (h : HashTable) (key q : Key) (j : Nat)
    (node' : HashNode) (hkey : node'.key = key) (hq : q ≠ key)
    (hj : h j = none ∨ ∃ node, h j = some node ∧ node.key = key) :
    ∀ (fuel i : Nat) (l : List Ptr),
      getListPlates.loop h q fuel i = some (some l) →
      getListPlates.loop (Function.update h j (some node')) q fuel i = some (some l) := by
  intro fuel
  induction fuel with
  | zero => intro i l hl; simp [getListPlates.loop] at hl
  | succ fuel ih =>
    intro i l hl
    unfold getListPlates.loop at hl ⊢
    cases hi : h i with
    | none => simp [hi] at hl
    | some node =>
      simp only [hi] at hl
      by_cases hij : i = j
      · subst hij
        have hnk : node.key = key := by
          rcases hj with hj | ⟨n2, hj, hj'⟩
          · rw [hi] at hj; exact Option.noConfusion hj
          · rw [hi] at hj; cases hj; exact hj'
        have hqn : q ≠ node.key := by rw [hnk]; exact hq
        simp only [hqn, if_false] at hl
        simp only [Function.update_same, hkey, hq, if_false]
        exact ih _ l hl
      · simp only [Function.update_noteq hij, hi]
        by_cases hqn : q = node.key
        · simp only [hqn, if_true] at hl ⊢
          exact hl
        · simp only [hqn, if_false] at hl ⊢
          exact ih _ l hl

/-! ## Validation order of the entry command -/

/-- No check fails exactly when `firstFailing` finds none. -/
theorem firstFailing_eq_none_iff {ε : Type} (l : List (Bool × ε)) :
    firstFailing l = none ↔ ∀ c ∈ l, c.1 = false := by
  induction l with
  | nil => simp [firstFailing]
  | cons c rest ih =>
    obtain ⟨b, e⟩ := c
    cases b <;> simp [firstFailing, ih]

/-- The function `validationsE` returns the line of the first failing check of the
specification, and 1 when no check fails. -/
theorem validationsE_eq (oob : Int → Int) (m : Memory) (nome plates : String)
    (data : DateText) (hora : TimeText) (p1 r1 : Option Ptr)
    (hpark : ∀ p, p1 = some p → heapRead m.parkHeap p ≠ none)
    (hlive : ∀ r, r1 = some r → heapRead m.recordHeap r ≠ none) :
    validationsE oob m p1 r1 nome plates data hora =
      some (match firstFailing (openChecks oob m (lotOf m p1) (lastRecord m r1) plates data hora) with
        | some e => .error (e.line nome plates)
        | none => .ok ()) := by
  cases p1 with
  | none => simp [validationsE, openChecks, firstFailing, lotOf, OpenError.line]
  | some p =>
    cases hpk : heapRead m.parkHeap p with
    | none => exact absurd hpk (hpark p rfl)
    | some park =>
      have hdate : (!checkDates oob m data hora) = dateCheckFails oob m data hora := by
        unfold checkDates dateCheckFails
        cases checkDateFormat oob data <;> cases checkTimeFormat hora <;>
          cases dateInPast m (dateToInt oob data) (timeToInt hora) <;> rfl
      by_cases hfull : park.occupancy ≥ park.capacity
      · simp [validationsE, openChecks, firstFailing, lotOf, hpk, hfull, OpenError.line]
      · cases hplate : checkPlates plates with
        | false =>
          simp [validationsE, openChecks, firstFailing, lotOf, hpk, hfull, hplate,
            OpenError.line]
        | true =>
          cases r1 with
          | none =>
            cases hd : dateCheckFails oob m data hora <;>
              simp [validationsE, openChecks, firstFailing, lotOf, lastRecord, hpk, hfull,
                hplate, hdate, hd, OpenError.line]
          | some r =>
            cases hrec : heapRead m.recordHeap r with
            | none => exact absurd hrec (hlive r rfl)
            | some record =>
              by_cases hopen : record.exitDay = NO_DATE
              · simp [validationsE, openChecks, firstFailing, lotOf, lastRecord, hpk, hfull,
                  hplate, hrec, hopen, OpenError.line]
              · cases hd : dateCheckFails oob m data hora <;>
                  simp [validationsE, openChecks, firstFailing, lotOf, lastRecord, hpk, hfull,
                    hplate, hrec, hopen, hdate, hd, OpenError.line]

/-- When `getLastRecord` returns, `getListPlates` returned. -/
theorem getListPlates_of_getLastRecord (h : HashTable) (plates : String) (r1 : Option Ptr)
    (hr : getLastRecord h plates = some r1) :
    ∃ old, getListPlates h plates = some old := by
  unfold getLastRecord at hr
  cases hg : getListPlates h plates with
  | none => simp [hg] at hr
  | some old => exact ⟨old, rfl⟩

/-- The order of the checks of `validationsE`, the fourth check being made on the record
`getLastRecord` returned: when the lookups of the lot and of that record return, the
entry command prints the line of the first failing check in the order lot not found, lot
full, invalid plate, record returned by the lookup without exit, invalid or past date
and time, and leaves the memory as it is; when no check fails it succeeds; and it
succeeds exactly when none of the five checks fails.  (The record of the lookup need not
be the most recent record of the plate, see `entry_skips_open_stay_check`.) -/
theorem processCommand_e_first_failing_check (oob : Int → Int) (m : Memory)
    (nome plates : String) (data : DateText) (hora : TimeText) (p1 r1 : Option Ptr)
    (hp : listGetPark m.parkHeap m.parks nome = some p1)
    (hr : getLastRecord m.cars plates = some r1)
    (hlive : ∀ r, r1 = some r → heapRead m.recordHeap r ≠ none) :
    (∀ e, firstFailing (openChecks oob m (lotOf m p1) (lastRecord m r1) plates data hora) = some e →
        processCommand_e oob m nome plates data hora = some (m, [e.line nome plates])) ∧
      (firstFailing (openChecks oob m (lotOf m p1) (lastRecord m r1) plates data hora) = none →
        ∃ m' free, processCommand_e oob m nome plates data hora =
          some (m', [.entryLine nome free])) ∧
      ((∃ m' free, processCommand_e oob m nome plates data hora =
          some (m', [.entryLine nome free])) ↔
        ∀ c ∈ openChecks oob m (lotOf m p1) (lastRecord m r1) plates data hora, c.1 = false) := by
  have hpark : ∀ p, p1 = some p → heapRead m.parkHeap p ≠ none := by
    intro p hp1
    subst hp1
    obtain ⟨park, h1, _⟩ := listGetPark_some _ _ _ _ hp
    rw [h1]; exact Option.some_ne_none _
  have hval := validationsE_eq oob m nome plates data hora p1 r1 hpark hlive
  have herr : ∀ e, firstFailing (openChecks oob m (lotOf m p1) (lastRecord m r1) plates data hora)
      = some e → processCommand_e oob m nome plates data hora = some (m, [e.line nome plates]) := by
    intro e he
    rw [he] at hval
    simp only [processCommand_e, hp, hr, hval]
  have hok : firstFailing (openChecks oob m (lotOf m p1) (lastRecord m r1) plates data hora) = none →
      ∃ m' free, processCommand_e oob m nome plates data hora =
        some (m', [.entryLine nome free]) := by
    intro hnone
    rw [hnone] at hval
    cases p1 with
    | none => simp [openChecks, firstFailing, lotOf] at hnone
    | some p =>
      obtain ⟨park, hpk, _⟩ := listGetPark_some _ _ _ _ hp
      obtain ⟨old, hold⟩ := getListPlates_of_getLastRecord _ _ _ hr
      obtain ⟨j, hadd, _, _⟩ := addRecord_loop_spec m.cars (sumAsciiValues plates)
        m.recordHeap.length HASH_SIZE _ old hold
      have hnew := heapRead_heapAlloc_new m.recordHeap
        { plates := plates, park := p, entryDay := dateToInt oob data,
          entryHour := timeToInt hora, exitDay := NO_DATE, exitHour := NO_TIME, paid := 0 }
      simp only [heapAlloc] at hnew
      simp only [processCommand_e, hp, hr, hval, hpk, updateMemoryTime, addRecord, heapAlloc,
        hnew, hadd]
      exact ⟨_, _, rfl⟩
  refine ⟨herr, hok, ?_⟩
  rw [← firstFailing_eq_none_iff]
  constructor
  · rintro ⟨m', free, hsucc⟩
    cases hff : firstFailing (openChecks oob m (lotOf m p1) (lastRecord m r1) plates data hora) with
    | none => rfl
    | some e =>
      rw [herr e hff] at hsucc
      cases e <;> simp [OpenError.line] at hsucc
  · exact hok

/-- An instance: with the plate `AA-11-BB` parked in `A`, a second entry of that plate
is refused by the fourth check, and the entry of `CC-22-DD` meets no failing check. -/
theorem processCommand_e_first_failing_check_witness :
    processCommand_e oobZero (memoryAfter cmdsOneCar) "A" "AA-11-BB" ⟨2, 1, 2024⟩ ⟨10, 0⟩ =
        some (memoryAfter cmdsOneCar, [.ERR_INVALID_ENTRY "AA-11-BB"]) ∧
      ∃ m' free, processCommand_e oobZero (memoryAfter cmdsOneCar) "A" "CC-22-DD"
        ⟨2, 1, 2024⟩ ⟨10, 0⟩ = some (m', [.entryLine "A" free]) :=
  ⟨(processCommand_e_first_failing_check oobZero (memoryAfter cmdsOneCar) "A" "AA-11-BB"
      ⟨2, 1, 2024⟩ ⟨10, 0⟩ (some 0) (some 0) (by decide!) (by decide!)
      (by intro r hr; cases hr; decide!)).1 .AlreadyParked (by decide!),
   (processCommand_e_first_failing_check oobZero (memoryAfter cmdsOneCar) "A" "CC-22-DD"
      ⟨2, 1, 2024⟩ ⟨10, 0⟩ (some 0) none (by decide!) (by decide!)
      (by intro r hr; cases hr)).2.1 (by decide!)⟩

/-! ## Validation order of the exit command -/

/-- The function `validationsS` returns the line of the first failing check of the
specification, and 1 when no check fails. -/
theorem validationsS_eq (oob : Int → Int) (m : Memory) (nome plates : String)
    (data : DateText) (hora : TimeText) (p1 r1 : Option Ptr)
    (hpark : ∀ p, p1 = some p → heapRead m.parkHeap p ≠ none)
    (hlive : ∀ r, r1 = some r → ∃ record rpark, heapRead m.recordHeap r = some record ∧
      heapRead m.parkHeap record.park = some rpark) :
    validationsS oob m p1 r1 nome plates data hora =
      some (match firstFailing (closeChecks oob m (lotOf m p1) (lastStay m r1) plates data hora) with
        | some e => .error (e.line nome plates)
        | none => .ok ()) := by
  cases p1 with
  | none => simp [validationsS, closeChecks, firstFailing, lotOf, CloseError.line]
  | some p =>
    cases hpk : heapRead m.parkHeap p with
    | none => exact absurd hpk (hpark p rfl)
    | some park =>
      have hdate : (!checkDates oob m data hora) = dateCheckFails oob m data hora := by
        unfold checkDates dateCheckFails
        cases checkDateFormat oob data <;> cases checkTimeFormat hora <;>
          cases dateInPast m (dateToInt oob data) (timeToInt hora) <;> rfl
      cases hplate : checkPlates plates with
      | false =>
        simp [validationsS, closeChecks, firstFailing, lotOf, hpk, hplate, CloseError.line]
      | true =>
        cases r1 with
        | none =>
          simp [validationsS, closeChecks, firstFailing, lotOf, lastStay, hpk, hplate,
            CloseError.line]
        | some r =>
          obtain ⟨record, rpark, hrec, hrp⟩ := hlive r rfl
          by_cases hid : rpark.id = park.id
          · by_cases hopen : record.exitDay = NO_DATE
            · cases hd : dateCheckFails oob m data hora <;>
                simp [validationsS, closeChecks, firstFailing, lotOf, lastStay, hpk, hplate,
                  hrec, hrp, hid, hopen, hdate, hd, CloseError.line]
            · simp [validationsS, closeChecks, firstFailing, lotOf, lastStay, hpk, hplate,
                hrec, hrp, hid, hopen, CloseError.line]
          · simp [validationsS, closeChecks, firstFailing, lotOf, lastStay, hpk, hplate,
              hrec, hrp, hid, CloseError.line]

/-- The order of the checks of `validationsS`, the third check being made on the record
`getLastRecord` returned: when the lookups of the lot and of that record return, the
exit command prints the line of the first failing check in the order lot not found,
invalid plate, record returned by the lookup absent, of another lot or closed, invalid
or past date and time, and leaves the memory as it is; when no check fails it succeeds;
and it succeeds exactly when none of the four checks fails.  (The record of the lookup
need not be the most recent record of the plate, see `exit_fails_with_open_stay`.) -/
theorem processCommand_s_first_failing_check (oob : Int → Int) (m : Memory)
    (nome plates : String) (data : DateText) (hora : TimeText) (p1 r1 : Option Ptr)
    (hp : listGetPark m.parkHeap m.parks nome = some p1)
    (hr : getLastRecord m.cars plates = some r1)
    (hlive : ∀ r, r1 = some r → ∃ record rpark, heapRead m.recordHeap r = some record ∧
      heapRead m.parkHeap record.park = some rpark) :
    (∀ e, firstFailing (closeChecks oob m (lotOf m p1) (lastStay m r1) plates data hora) = some e →
        processCommand_s oob m nome plates data hora = some (m, [e.line nome plates])) ∧
      (firstFailing (closeChecks oob m (lotOf m p1) (lastStay m r1) plates data hora) = none →
        ∃ m' pl ed eh xd xh paid, processCommand_s oob m nome plates data hora =
          some (m', [.exitLine pl ed eh xd xh paid])) ∧
      ((∃ m' pl ed eh xd xh paid, processCommand_s oob m nome plates data hora =
          some (m', [.exitLine pl ed eh xd xh paid])) ↔
        ∀ c ∈ closeChecks oob m (lotOf m p1) (lastStay m r1) plates data hora, c.1 = false) := by
  have hpark : ∀ p, p1 = some p → heapRead m.parkHeap p ≠ none := by
    intro p hp1
    subst hp1
    obtain ⟨park, h1, _⟩ := listGetPark_some _ _ _ _ hp
    rw [h1]; exact Option.some_ne_none _
  have hval := validationsS_eq oob m nome plates data hora p1 r1 hpark hlive
  have herr : ∀ e, firstFailing (closeChecks oob m (lotOf m p1) (lastStay m r1) plates data hora)
      = some e → processCommand_s oob m nome plates data hora = some (m, [e.line nome plates]) := by
    intro e he
    rw [he] at hval
    simp only [processCommand_s, hp, hr, hval]
  have hok : firstFailing (closeChecks oob m (lotOf m p1) (lastStay m r1) plates data hora) = none →
      ∃ m' pl ed eh xd xh paid, processCommand_s oob m nome plates data hora =
        some (m', [.exitLine pl ed eh xd xh paid]) := by
    intro hnone
    rw [hnone] at hval
    cases r1 with
    | none =>
      cases hb : (lotOf m p1).isNone <;> cases hc : checkPlates plates <;>
        simp [closeChecks, firstFailing, lastStay, hb, hc] at hnone
    | some r =>
      obtain ⟨record, rpark, hrec, hrp⟩ := hlive r rfl
      simp only [processCommand_s, hp, hr, hval, hrec, hrp]
      exact ⟨_, _, _, _, _, _, _, rfl⟩
  refine ⟨herr, hok, ?_⟩
  rw [← firstFailing_eq_none_iff]
  constructor
  · rintro ⟨m', pl, ed, eh, xd, xh, paid, hsucc⟩
    cases hff : firstFailing (closeChecks oob m (lotOf m p1) (lastStay m r1) plates data hora) with
    | none => rfl
    | some e =>
      rw [herr e hff] at hsucc
      cases e <;> simp [CloseError.line] at hsucc
  · exact hok

/-- An instance: with the plate `AA-11-BB` parked in `A`, its exit from `B` is refused
by the third check, and its exit from `A` on the next day meets no failing check. -/
theorem processCommand_s_first_failing_check_witness :
    processCommand_s oobZero (memoryAfter cmdsTwoParks) "B" "AA-11-BB" ⟨2, 1, 2024⟩ ⟨10, 0⟩ =
        some (memoryAfter cmdsTwoParks, [.ERR_INVALID_EXIT "AA-11-BB"]) ∧
      ∃ m' pl ed eh xd xh paid, processCommand_s oobZero (memoryAfter cmdsTwoParks) "A"
        "AA-11-BB" ⟨2, 1, 2024⟩ ⟨10, 0⟩ = some (m', [.exitLine pl ed eh xd xh paid]) :=
  ⟨(processCommand_s_first_failing_check oobZero (memoryAfter cmdsTwoParks) "B" "AA-11-BB"
      ⟨2, 1, 2024⟩ ⟨10, 0⟩ (some 1) (some 0) (by decide!) (by decide!)
      (by intro r hr; cases hr
          exact ⟨_, _, (by decide! : heapRead (memoryAfter cmdsTwoParks).recordHeap 0 =
            some { plates := "AA-11-BB", park := 0, entryDay := 738761, entryHour := 600,
                   exitDay := 0, exitHour := 0, paid := 0 }), (by decide! :
            heapRead (memoryAfter cmdsTwoParks).parkHeap 0 =
            some { name := "A", capacity := 10, occupancy := 1, id := 1, less_60 := 1,
                   more_60 := 2, dayly := 10, records := [] })⟩)).1
      .NoOpenStayAtThisLot (by decide!),
   (processCommand_s_first_failing_check oobZero (memoryAfter cmdsTwoParks) "A" "AA-11-BB"
      ⟨2, 1, 2024⟩ ⟨10, 0⟩ (some 0) (some 0) (by decide!) (by decide!)
      (by intro r hr; cases hr
          exact ⟨_, _, (by decide! : heapRead (memoryAfter cmdsTwoParks).recordHeap 0 =
            some { plates := "AA-11-BB", park := 0, entryDay := 738761, entryHour := 600,
                   exitDay := 0, exitHour := 0, paid := 0 }), (by decide! :
            heapRead (memoryAfter cmdsTwoParks).parkHeap 0 =
            some { name := "A", capacity := 10, occupancy := 1, id := 1, less_60 := 1,
                   more_60 := 2, dayly := 10, records := [] })⟩)).2.1 (by decide!)⟩

/-! ## Effect of a successful entry -/

/-- The line printed when `validationsE` returns 0 is an error message, not the line of
a successful entry. -/
theorem validationsE_error_ne_entryLine (oob : Int → Int) (m : Memory) (p1 r1 : Option Ptr)
    (name plates : String) (data : DateText) (time : TimeText) (e : Printed)
    (h : validationsE oob m p1 r1 name plates data time = some (.error e)) (n : String)
    (k : Int) : e ≠ .entryLine n k := by
  unfold validationsE at h
  repeat' split at h
  all_goals first
    | (exact Option.noConfusion h)
    | (simp only [Option.some.injEq, Except.error.injEq] at h; subst h; simp)
    | (simp at h)

/-- What a successful run of `processCommand_e` went through: the lot was found, the
lookup of the plate returned, and the memory after the command is the memory before it
with the occupancy of the lot incremented, the new record allocated, the clock set and
the record inserted in the table. -/
theorem processCommand_e_success (oob : Int → Int) (m m' : Memory) (nome plates : String)
    (data : DateText) (hora : TimeText) (n : String) (free : Int)
    (h : processCommand_e oob m nome plates data hora = some (m', [.entryLine n free])) :
    ∃ p park old cars,
      listGetPark m.parkHeap m.parks nome = some (some p) ∧
      heapRead m.parkHeap p = some park ∧
      getListPlates m.cars plates = some old ∧
      addRecord.loop m.cars (sumAsciiValues plates) m.recordHeap.length HASH_SIZE
        (hash (sumAsciiValues plates) HASH_SIZE) = some cars ∧
      m' = { parkHeap := heapWrite m.parkHeap p { park with occupancy := park.occupancy + 1 },
             recordHeap := m.recordHeap ++
               [some { plates := plates, park := p, entryDay := dateToInt oob data,
                       entryHour := timeToInt hora, exitDay := NO_DATE, exitHour := NO_TIME,
                       paid := 0 }],
             parks := m.parks, cars := cars, date := dateToInt oob data,
             time := timeToInt hora, idIncrementer := m.idIncrementer } := by
  unfold processCommand_e at h
  cases hp : listGetPark m.parkHeap m.parks nome with
  | none => simp [hp] at h
  | some p1 =>
    cases hr : getLastRecord m.cars plates with
    | none => simp [hp, hr] at h
    | some r1 =>
      obtain ⟨old, hold⟩ := getListPlates_of_getLastRecord _ _ _ hr
      cases hv : validationsE oob m p1 r1 nome plates data hora with
      | none => simp [hp, hr, hv] at h
      | some v =>
        cases v with
        | error e =>
          simp only [hp, hr, hv, Option.some.injEq, Prod.mk.injEq, List.cons.injEq,
            and_true] at h
          exact absurd h.2 (validationsE_error_ne_entryLine oob m p1 r1 nome plates data hora e
            hv n free)
        | ok u =>
          cases p1 with
          | none => simp [hp, hr, hv] at h
          | some p =>
            cases hpk : heapRead m.parkHeap p with
            | none => simp [hp, hr, hv, hpk] at h
            | some park =>
              have hnew := heapRead_heapAlloc_new m.recordHeap
                { plates := plates, park := p, entryDay := dateToInt oob data,
                  entryHour := timeToInt hora, exitDay := NO_DATE, exitHour := NO_TIME,
                  paid := 0 }
              simp only [heapAlloc] at hnew
              simp only [hp, hr, hv, hpk, updateMemoryTime, addRecord, heapAlloc, hnew] at h
              cases hadd : addRecord.loop m.cars (sumAsciiValues plates) m.recordHeap.length
                  HASH_SIZE (hash (sumAsciiValues plates) HASH_SIZE) with
              | none => simp [hadd] at h
              | some cars =>
                simp only [hadd, Option.some.injEq, Prod.mk.injEq] at h
                exact ⟨p, park, old, cars, rfl, hpk, hold, rfl, h.1.symm⟩

/-- What a successful entry changes in the embedding: the occupancy of the lot grows by
exactly 1 and no other field of it changes (its billing history included), the clock is
set to the parsed date and time, and one new record carrying the plate, the lot, the
parsed entry day and time and no exit is appended to the sequence the lookup of the
plate returned; every other park, every record already stored, the list of parks, the id
counter and the sequence of every plate of a different key that had a sequence are
unchanged. -/
theorem processCommand_e_effect (oob : Int → Int) (m m' : Memory) (nome plates : String)
    (data : DateText) (hora : TimeText) (free : Int)
    (h : processCommand_e oob m nome plates data hora = some (m', [.entryLine nome free])) :
    ∃ p park old,
      listGetPark m.parkHeap m.parks nome = some (some p) ∧
      heapRead m.parkHeap p = some park ∧
      heapRead m'.parkHeap p = some { park with occupancy := park.occupancy + 1 } ∧
      m'.date = dateToInt oob data ∧ m'.time = timeToInt hora ∧
      getListPlates m.cars plates = some old ∧
      getListPlates m'.cars plates = some (some (old.getD [] ++ [m.recordHeap.length])) ∧
      heapRead m.recordHeap m.recordHeap.length = none ∧
      heapRead m'.recordHeap m.recordHeap.length =
        some { plates := plates, park := p, entryDay := dateToInt oob data,
               entryHour := timeToInt hora, exitDay := NO_DATE, exitHour := NO_TIME,
               paid := 0 } ∧
      (∀ q, q ≠ p → heapRead m'.parkHeap q = heapRead m.parkHeap q) ∧
      (∀ q, q ≠ m.recordHeap.length → heapRead m'.recordHeap q = heapRead m.recordHeap q) ∧
      m'.parks = m.parks ∧ m'.idIncrementer = m.idIncrementer ∧
      (∀ other l, sumAsciiValues other ≠ sumAsciiValues plates →
        getListPlates m.cars other = some (some l) →
        getListPlates m'.cars other = some (some l)) := by
  obtain ⟨p, park, old, cars, hp, hpk, hold, hadd, hm'⟩ :=
    processCommand_e_success oob m m' nome plates data hora nome free h
  obtain ⟨j, hadd', hj, hlook⟩ := addRecord_loop_spec m.cars (sumAsciiValues plates)
    m.recordHeap.length HASH_SIZE _ old hold
  rw [hadd] at hadd'
  have hcars : cars = Function.update m.cars j
      (some { key := sumAsciiValues plates, records := old.getD [] ++ [m.recordHeap.length] }) :=
    Option.some.inj hadd'
  subst hm'
  refine ⟨p, park, old, hp, hpk, ?_, rfl, rfl, hold, ?_, heapRead_length _, ?_, ?_, ?_, rfl, rfl,
    ?_⟩
  · exact heapRead_heapWrite_self _ _ _ _ hpk
  · simp only [getListPlates, hcars]
    exact hlook
  · exact heapRead_heapAlloc_new m.recordHeap _
  · intro q hq
    exact heapRead_heapWrite_ne _ _ _ _ hq
  · intro q hq
    exact heapRead_heapAlloc_ne m.recordHeap _ q hq
  · intro other l hne hl
    simp only [getListPlates, hcars]
    exact getListPlates_loop_update_other m.cars (sumAsciiValues plates) (sumAsciiValues other) j
      _ rfl hne hj HASH_SIZE _ l hl

/-- A run that returns ends in `memoryAfter`. -/
theorem run_eq_some_memoryAfter (cmds : List Command)
    (h : (run oobZero cmds initializeSystem).isSome = true) :
    run oobZero cmds initializeSystem = some (memoryAfter cmds) := by
  unfold memoryAfter
  cases hrun : run oobZero cmds initializeSystem with
  | none => rw [hrun] at h; exact Bool.noConfusion h
  | some m => rfl

/-- A command that returns, with the lines it printed. -/
theorem eq_some_of_map_snd (x : Option (Memory × List Printed)) (d : Memory)
    (out : List Printed) (hout : x.map Prod.snd = some out) :
    x = some ((x.map Prod.fst).getD d, out) := by
  cases x with
  | none => simp at hout
  | some v =>
    cases v
    simp only [Option.map_some', Option.some.injEq] at hout
    simp [hout]

/-- The memory of `cmdsOrphan` is reached by the program. -/
theorem cmdsOrphan_reachable : Reachable oobZero (memoryAfter cmdsOrphan) :=
  ⟨cmdsOrphan, run_eq_some_memoryAfter _ (by decide!)⟩

/-- In the memory of `cmdsOrphan` slot 1721, where the key of `AA-70-AU` falls, is
`NULL` and the node of that key is in slot 1722. -/
theorem cmdsOrphan_table :
    hash (sumAsciiValues "AA-70-AU") HASH_SIZE = 1721 ∧
      (memoryAfter cmdsOrphan).cars 1721 = none ∧
      (memoryAfter cmdsOrphan).cars 1722 =
        some { key := sumAsciiValues "AA-70-AU", records := [1] } := by
  refine ⟨by decide!, by decide!, by decide!⟩

/-- In the memory of `cmdsOrphan` the record 1 is the open stay of `AA-70-AU` in the
park at address 1, which is the park `B`. -/
theorem cmdsOrphan_open_record :
    heapRead (memoryAfter cmdsOrphan).recordHeap 1 =
        some { plates := "AA-70-AU", park := 1, entryDay := 738761, entryHour := 601,
               exitDay := NO_DATE, exitHour := NO_TIME, paid := 0 } ∧
      listGetPark (memoryAfter cmdsOrphan).parkHeap (memoryAfter cmdsOrphan).parks "B" =
        some (some 1) := by
  refine ⟨by decide!, by decide!⟩

/-- Before the removal of `A` (the first four commands of `cmdsOrphan`) the lookup of
`AA-70-AU` returns its open record 1. -/
theorem cmdsOrphan_lookup_before_removal :
    getLastRecord (memoryAfter (cmdsOrphan.take 4)).cars "AA-70-AU" = some (some 1) ∧
      heapRead (memoryAfter (cmdsOrphan.take 4)).recordHeap 1 =
        some { plates := "AA-70-AU", park := 1, entryDay := 738761, entryHour := 601,
               exitDay := NO_DATE, exitHour := NO_TIME, paid := 0 } := by
  refine ⟨by decide!, by decide!⟩

/-- In the memory of `cmdsOrphan` the lookup of `AA-70-AU` returns `NULL`. -/
theorem cmdsOrphan_lookup :
    getListPlates (memoryAfter cmdsOrphan).cars "AA-70-AU" = some none ∧
      getLastRecord (memoryAfter cmdsOrphan).cars "AA-70-AU" = some none := by
  refine ⟨by decide!, by decide!⟩

/-- In the memory of `cmdsOrphan` the entry of `AA-70-AU` in `B` succeeds. -/
theorem cmdsOrphan_entry_same_plate :
    processCommand_e oobZero (memoryAfter cmdsOrphan) "B" "AA-70-AU" ⟨2, 1, 2024⟩ ⟨10, 0⟩ =
      some (memoryAfterEntry (memoryAfter cmdsOrphan) "B" "AA-70-AU" ⟨2, 1, 2024⟩ ⟨10, 0⟩,
        [.entryLine "B" 8]) :=
  eq_some_of_map_snd _ initializeSystem _ (by decide!)

/-- After that entry the records 1 and 2 are two open stays of `AA-70-AU`. -/
theorem cmdsOrphan_two_open_records :
    heapRead (memoryAfterEntry (memoryAfter cmdsOrphan) "B" "AA-70-AU" ⟨2, 1, 2024⟩
        ⟨10, 0⟩).recordHeap 1 =
        some { plates := "AA-70-AU", park := 1, entryDay := 738761, entryHour := 601,
               exitDay := NO_DATE, exitHour := NO_TIME, paid := 0 } ∧
      heapRead (memoryAfterEntry (memoryAfter cmdsOrphan) "B" "AA-70-AU" ⟨2, 1, 2024⟩
        ⟨10, 0⟩).recordHeap 2 =
        some { plates := "AA-70-AU", park := 1, entryDay := 738762, entryHour := 600,
               exitDay := NO_DATE, exitHour := NO_TIME, paid := 0 } := by
  refine ⟨by decide!, by decide!⟩

/-- In the memory of `cmdsOrphan` the entry of the plate `AA-09-AA` in `B` succeeds, and
the lookup of `AA-70-AU` then returns the sequence `[1]`. -/
theorem cmdsOrphan_entry_other_plate :
    processCommand_e oobZero (memoryAfter cmdsOrphan) "B" "AA-09-AA" ⟨2, 1, 2024⟩ ⟨10, 0⟩ =
        some (memoryAfterEntry (memoryAfter cmdsOrphan) "B" "AA-09-AA" ⟨2, 1, 2024⟩ ⟨10, 0⟩,
          [.entryLine "B" 8]) ∧
      getListPlates (memoryAfterEntry (memoryAfter cmdsOrphan) "B" "AA-09-AA" ⟨2, 1, 2024⟩
        ⟨10, 0⟩).cars "AA-70-AU" = some (some [1]) :=
  ⟨eq_some_of_map_snd _ initializeSystem _ (by decide!), by decide!⟩

/-- The plates `AAQ11-BB` and `AB011-BB` pass `checkPlates` and have the same key; in
the memory with the single park `A` the second has no sequence, and after the successful
entry of the first its lookup returns the sequence `[0]`. -/
theorem cmdsOnePark_entry_same_key :
    Reachable oobZero (memoryAfter cmdsOnePark) ∧
      checkPlates "AB011-BB" = true ∧
      sumAsciiValues "AB011-BB" = sumAsciiValues "AAQ11-BB" ∧
      getListPlates (memoryAfter cmdsOnePark).cars "AB011-BB" = some none ∧
      processCommand_e oobZero (memoryAfter cmdsOnePark) "A" "AAQ11-BB" ⟨1, 1, 2024⟩ ⟨10, 0⟩ =
        some (memoryAfterEntry (memoryAfter cmdsOnePark) "A" "AAQ11-BB" ⟨1, 1, 2024⟩ ⟨10, 0⟩,
          [.entryLine "A" 9]) ∧
      getListPlates (memoryAfterEntry (memoryAfter cmdsOnePark) "A" "AAQ11-BB" ⟨1, 1, 2024⟩
        ⟨10, 0⟩).cars "AB011-BB" = some (some [0]) :=
  ⟨⟨cmdsOnePark, run_eq_some_memoryAfter _ (by decide!)⟩, by decide!, by decide!, by decide!,
    eq_some_of_map_snd _ initializeSystem _ (by decide!), by decide!⟩

/-- C7, the code at the failing inputs: a successful entry changes the sequence of
another plate, in two ways.  (1) In the memory reached by `cmdsOrphan` the record of the
plate `AA-70-AU` sits in slot 1722 behind the slot 1721 emptied by the removal of `A`,
and its lookup returns `NULL`; the successful entry of the other plate `AA-09-AA` fills
slot 1721 and the lookup of `AA-70-AU` then returns the sequence `[1]`.  (2) The plates
`AAQ11-BB` and `AB011-BB` both pass `checkPlates` and have the same key; after the
successful entry of the first, the lookup of the second returns the sequence of the
first. -/
theorem processCommand_e_changes_other_plate :
    (Reachable oobZero (memoryAfter cmdsOrphan) ∧
      ∃ m' free, processCommand_e oobZero (memoryAfter cmdsOrphan) "B" "AA-09-AA"
          ⟨2, 1, 2024⟩ ⟨10, 0⟩ = some (m', [.entryLine "B" free]) ∧
        "AA-70-AU" ≠ "AA-09-AA" ∧
        getListPlates (memoryAfter cmdsOrphan).cars "AA-70-AU" = some none ∧
        getListPlates m'.cars "AA-70-AU" = some (some [1])) ∧
    (Reachable oobZero (memoryAfter cmdsOnePark) ∧
      ∃ m' free, processCommand_e oobZero (memoryAfter cmdsOnePark) "A" "AAQ11-BB"
          ⟨1, 1, 2024⟩ ⟨10, 0⟩ = some (m', [.entryLine "A" free]) ∧
        "AB011-BB" ≠ "AAQ11-BB" ∧ checkPlates "AB011-BB" = true ∧
        getListPlates (memoryAfter cmdsOnePark).cars "AB011-BB" = some none ∧
        getListPlates m'.cars "AB011-BB" = some (some [0])) :=
  ⟨⟨cmdsOrphan_reachable,
      memoryAfterEntry (memoryAfter cmdsOrphan) "B" "AA-09-AA" ⟨2, 1, 2024⟩ ⟨10, 0⟩, 8,
      cmdsOrphan_entry_other_plate.1, by decide, cmdsOrphan_lookup.1,
      cmdsOrphan_entry_other_plate.2⟩,
    ⟨cmdsOnePark_entry_same_key.1,
      memoryAfterEntry (memoryAfter cmdsOnePark) "A" "AAQ11-BB" ⟨1, 1, 2024⟩ ⟨10, 0⟩, 9,
      cmdsOnePark_entry_same_key.2.2.2.2.1, by decide, cmdsOnePark_entry_same_key.2.1,
      cmdsOnePark_entry_same_key.2.2.2.1, cmdsOnePark_entry_same_key.2.2.2.2.2⟩⟩

/-- An instance: with `AA-11-BB` parked in `A`, the entry of `CC-22-DD` in `A` on
02-01-2024 at 10:00 succeeds. -/
theorem processCommand_e_effect_witness :
    ∃ m', processCommand_e oobZero (memoryAfter cmdsOneCar) "A" "CC-22-DD" ⟨2, 1, 2024⟩
        ⟨10, 0⟩ = some (m', [.entryLine "A" 8]) ∧
      m'.date = dateToInt oobZero ⟨2, 1, 2024⟩ ∧ m'.time = timeToInt ⟨10, 0⟩ ∧
      m'.parks = (memoryAfter cmdsOneCar).parks ∧
      m'.idIncrementer = (memoryAfter cmdsOneCar).idIncrementer := by
  have h := eq_some_of_map_snd (processCommand_e oobZero (memoryAfter cmdsOneCar) "A"
    "CC-22-DD" ⟨2, 1, 2024⟩ ⟨10, 0⟩) initializeSystem [.entryLine "A" 8] (by decide!)
  obtain ⟨p, park, old, _, _, _, hdate, htime, _, _, _, _, _, _, hparks, hid, _⟩ :=
    processCommand_e_effect oobZero (memoryAfter cmdsOneCar) _ "A" "CC-22-DD" ⟨2, 1, 2024⟩
      ⟨10, 0⟩ 8 h
  exact ⟨_, h, hdate, htime, hparks, hid⟩

/-! ## Effect of a successful exit -/

/-- The line printed when `validationsS` returns 0 is an error message, not the line of
a successful exit. -/
theorem validationsS_error_ne_exitLine (oob : Int → Int) (m : Memory) (p1 r1 : Option Ptr)
    (name plates : String) (date : DateText) (time : TimeText) (e : Printed)
    (h : validationsS oob m p1 r1 name plates date time = some (.error e)) (pl : String)
    (ed eh xd xh : Int) (paid : ℚ) : e ≠ .exitLine pl ed eh xd xh paid := by
  unfold validationsS at h
  repeat' split at h
  all_goals first
    | (exact Option.noConfusion h)
    | (simp only [Option.some.injEq, Except.error.injEq] at h; subst h; simp)
    | (simp at h)

/-- What `validationsS` has checked when it returns 1. -/
theorem validationsS_ok (oob : Int → Int) (m : Memory) (p1 r1 : Option Ptr)
    (name plates : String) (date : DateText) (time : TimeText)
    (h : validationsS oob m p1 r1 name plates date time = some (.ok ())) :
    ∃ p r record rpark lot, p1 = some p ∧ r1 = some r ∧
      heapRead m.recordHeap r = some record ∧ heapRead m.parkHeap record.park = some rpark ∧
      heapRead m.parkHeap p = some lot ∧ rpark.id = lot.id ∧ record.exitDay = NO_DATE ∧
      checkPlates plates = true ∧ checkDates oob m date time = true := by
  unfold validationsS at h
  cases p1 with
  | none => simp at h
  | some p =>
    cases hplate : checkPlates plates with
    | false => simp [hplate] at h
    | true =>
      cases r1 with
      | none => simp [hplate] at h
      | some r =>
        cases hrec : heapRead m.recordHeap r with
        | none => simp [hplate, hrec] at h
        | some record =>
          cases hrp : heapRead m.parkHeap record.park with
          | none => simp [hplate, hrec, hrp] at h
          | some rpark =>
            cases hpk : heapRead m.parkHeap p with
            | none => simp [hplate, hrec, hrp, hpk] at h
            | some lot =>
              simp only [hplate, hrec, hrp, hpk] at h
              by_cases hid : rpark.id = lot.id
              · by_cases hopen : record.exitDay = NO_DATE
                · cases hd : checkDates oob m date time with
                  | false => simp [hid, hopen, hd] at h
                  | true =>
                    exact ⟨p, r, record, rpark, lot, rfl, rfl, hrec, hrp, hpk, hid, hopen, rfl, rfl⟩
                · simp [hid, hopen] at h
              · simp [hid] at h

/-- The amount does not depend on the occupancy of the park. -/
theorem calculatePrice_occupancy (r : Record) (park : Park) (k : Int) :
    calculatePrice r { park with occupancy := k } = calculatePrice r park := rfl

/-- What a successful run of `processCommand_s` went through: the lot was found, the most
recent record of the plate is open and its park has the id of the lot, and the memory
after the command is the memory before it with the record closed and priced, the
occupancy of its park decremented, the record appended to the list of that park and the
clock set. -/
theorem processCommand_s_success (oob : Int → Int) (m m' : Memory) (nome plates : String)
    (data : DateText) (hora : TimeText) (pl : String) (ed eh xd xh : Int) (paid : ℚ)
    (h : processCommand_s oob m nome plates data hora =
      some (m', [.exitLine pl ed eh xd xh paid])) :
    ∃ p lot r record park,
      listGetPark m.parkHeap m.parks nome = some (some p) ∧
      heapRead m.parkHeap p = some lot ∧
      getLastRecord m.cars plates = some (some r) ∧
      heapRead m.recordHeap r = some record ∧ record.exitDay = NO_DATE ∧
      heapRead m.parkHeap record.park = some park ∧ park.id = lot.id ∧
      paid = (calculatePrice
          { record with exitDay := dateToInt oob data, exitHour := timeToInt hora } park).paid ∧
      m' = { parkHeap := heapWrite m.parkHeap record.park
               { park with occupancy := park.occupancy - 1, records := park.records ++ [r] },
             recordHeap := heapWrite m.recordHeap r (calculatePrice
               { record with exitDay := dateToInt oob data, exitHour := timeToInt hora } park),
             parks := m.parks, cars := m.cars, date := dateToInt oob data,
             time := timeToInt hora, idIncrementer := m.idIncrementer } := by
  unfold processCommand_s at h
  cases hp : listGetPark m.parkHeap m.parks nome with
  | none => simp [hp] at h
  | some p1 =>
    cases hr : getLastRecord m.cars plates with
    | none => simp [hp, hr] at h
    | some r1 =>
      cases hv : validationsS oob m p1 r1 nome plates data hora with
      | none => simp [hp, hr, hv] at h
      | some v =>
        cases v with
        | error e =>
          simp only [hp, hr, hv, Option.some.injEq, Prod.mk.injEq, List.cons.injEq,
            and_true] at h
          exact absurd h.2 (validationsS_error_ne_exitLine oob m p1 r1 nome plates data hora e
            hv pl ed eh xd xh paid)
        | ok u =>
          obtain ⟨p, r, record, rpark, lot, rfl, rfl, hrec, hrp, hpk, hid, hopen, _, _⟩ :=
            validationsS_ok oob m p1 r1 nome plates data hora hv
          simp only [hp, hr, hv, hrec, hrp, updateMemoryTime, listAddRecord,
            calculatePrice_occupancy, Option.some.injEq, Prod.mk.injEq, List.cons.injEq,
            Printed.exitLine.injEq, and_true] at h
          obtain ⟨hm', -, -, -, -, -, hpaid⟩ := h
          exact ⟨p, lot, r, record, rpark, rfl, hpk, rfl, hrec, hopen, hrp, hid, hpaid.symm,
            hm'.symm⟩

/-- What a successful exit changes in the embedding: the exit day and time of the record
`getLastRecord` returned for the plate are set to the parsed values, the amount computed
by `calculatePrice` is stored in it, the occupancy of the lot of the record (whose id is
the id of the named lot) decreases by exactly 1, the record is appended at the end of the
billing history of that lot and the clock is set to the parsed date and time; no other
record and no other park is changed, and neither are the table, the list of parks and
the id counter.  (The record of the lookup can carry another plate of the same key, see
`exit_closes_record_of_other_plate`.) -/
theorem processCommand_s_effect (oob : Int → Int) (m m' : Memory) (nome plates : String)
    (data : DateText) (hora : TimeText) (pl : String) (ed eh xd xh : Int) (paid : ℚ)
    (h : processCommand_s oob m nome plates data hora =
      some (m', [.exitLine pl ed eh xd xh paid])) :
    ∃ p lot r record park,
      listGetPark m.parkHeap m.parks nome = some (some p) ∧
      heapRead m.parkHeap p = some lot ∧
      getLastRecord m.cars plates = some (some r) ∧
      heapRead m.recordHeap r = some record ∧ record.exitDay = NO_DATE ∧
      heapRead m.parkHeap record.park = some park ∧ park.id = lot.id ∧
      heapRead m'.recordHeap r =
        some (calculatePrice
          { record with exitDay := dateToInt oob data, exitHour := timeToInt hora } park) ∧
      heapRead m'.parkHeap record.park =
        some { park with occupancy := park.occupancy - 1, records := park.records ++ [r] } ∧
      m'.date = dateToInt oob data ∧ m'.time = timeToInt hora ∧
      (∀ q, q ≠ r → heapRead m'.recordHeap q = heapRead m.recordHeap q) ∧
      (∀ q, q ≠ record.park → heapRead m'.parkHeap q = heapRead m.parkHeap q) ∧
      m'.cars = m.cars ∧ m'.parks = m.parks ∧ m'.idIncrementer = m.idIncrementer ∧
      paid = (calculatePrice
          { record with exitDay := dateToInt oob data, exitHour := timeToInt hora } park).paid := by
  obtain ⟨p, lot, r, record, park, hp, hpk, hr, hrec, hopen, hrp, hid, hpaid, hm'⟩ :=
    processCommand_s_success oob m m' nome plates data hora pl ed eh xd xh paid h
  subst hm'
  refine ⟨p, lot, r, record, park, hp, hpk, hr, hrec, hopen, hrp, hid, ?_, ?_, rfl, rfl,
    ?_, ?_, rfl, rfl, rfl, hpaid⟩
  · exact heapRead_heapWrite_self _ _ _ _ hrec
  · exact heapRead_heapWrite_self _ _ _ _ hrp
  · intro q hq
    exact heapRead_heapWrite_ne _ _ _ _ hq
  · intro q hq
    exact heapRead_heapWrite_ne _ _ _ _ hq

/-- An instance: with `AA-11-BB` parked in `A` since 01-01-2024 10:00, its exit on
02-01-2024 at 10:00 succeeds and is charged one daily fee. -/
theorem processCommand_s_effect_witness :
    ∃ m', processCommand_s oobZero (memoryAfter cmdsTwoParks) "A" "AA-11-BB" ⟨2, 1, 2024⟩
        ⟨10, 0⟩ = some (m', [.exitLine "AA-11-BB" 738761 600 738762 600 10]) ∧
      m'.date = dateToInt oobZero ⟨2, 1, 2024⟩ ∧ m'.time = timeToInt ⟨10, 0⟩ ∧
      m'.cars = (memoryAfter cmdsTwoParks).cars ∧
      m'.parks = (memoryAfter cmdsTwoParks).parks := by
  have h := eq_some_of_map_snd (processCommand_s oobZero (memoryAfter cmdsTwoParks) "A"
    "AA-11-BB" ⟨2, 1, 2024⟩ ⟨10, 0⟩) initializeSystem
    [.exitLine "AA-11-BB" 738761 600 738762 600 10] (by decide!)
  obtain ⟨p, lot, r, record, park, _, _, _, _, _, _, _, _, _, hdate, htime, _, _, hcars,
      hparks, _, _⟩ :=
    processCommand_s_effect oobZero (memoryAfter cmdsTwoParks) _ "A" "AA-11-BB" ⟨2, 1, 2024⟩
      ⟨10, 0⟩ _ _ _ _ _ _ h
  exact ⟨_, h, hdate, htime, hcars, hparks⟩

/-! ## Entry followed by exit -/

/-- C9: when an entry succeeds and the exit of the same plate from the same lot, run
next, succeeds too, the lot is found under its name before and after at the same address
and its occupancy after the exit equals its occupancy before the entry. -/
theorem entry_then_exit_restores_occupancy (oob : Int → Int) (m m1 m2 : Memory)
    (nome plates : String) (d1 d2 : DateText) (t1 t2 : TimeText) (free : Int) (pl : String)
    (ed eh xd xh : Int) (paid : ℚ)
    (he : processCommand_e oob m nome plates d1 t1 = some (m1, [.entryLine nome free]))
    (hs : processCommand_s oob m1 nome plates d2 t2 =
      some (m2, [.exitLine pl ed eh xd xh paid])) :
    ∃ p before after,
      listGetPark m.parkHeap m.parks nome = some (some p) ∧
      listGetPark m2.parkHeap m2.parks nome = some (some p) ∧
      heapRead m.parkHeap p = some before ∧ heapRead m2.parkHeap p = some after ∧
      after.occupancy = before.occupancy := by
  obtain ⟨p, park, old, cars, hp, hpk, hold, hadd, hm1⟩ :=
    processCommand_e_success oob m m1 nome plates d1 t1 nome free he
  obtain ⟨j, hadd', -, hlook⟩ := addRecord_loop_spec m.cars (sumAsciiValues plates)
    m.recordHeap.length HASH_SIZE _ old hold
  rw [hadd] at hadd'
  have hcars : cars = Function.update m.cars j
      (some { key := sumAsciiValues plates, records := old.getD [] ++ [m.recordHeap.length] }) :=
    Option.some.inj hadd'
  obtain ⟨p', lot, r, record, rpark, hp', hpk', hr', hrec', -, hrp', -, -, hm2⟩ :=
    processCommand_s_success oob m1 m2 nome plates d2 t2 pl ed eh xd xh paid hs
  subst hm1
  simp only at hp' hpk' hr' hrec' hrp' hm2
  have hlast : getLastRecord cars plates = some (some m.recordHeap.length) := by
    unfold getLastRecord getListPlates
    rw [hcars, hlook]
    simp
  rw [hlast] at hr'
  have hr : r = m.recordHeap.length := by
    simp only [Option.some.injEq] at hr'
    exact hr'.symm
  subst hr
  have hnew := heapRead_heapAlloc_new m.recordHeap
    { plates := plates, park := p, entryDay := dateToInt oob d1, entryHour := timeToInt t1,
      exitDay := NO_DATE, exitHour := NO_TIME, paid := 0 }
  simp only [heapAlloc] at hnew
  rw [hnew] at hrec'
  have hrecord : record.park = p := by
    simp only [Option.some.injEq] at hrec'
    rw [← hrec']
  rw [hrecord] at hrp' hm2
  rw [heapRead_heapWrite_self _ _ _ _ hpk] at hrp'
  have hrpark : rpark = { park with occupancy := park.occupancy + 1 } := by
    simp only [Option.some.injEq] at hrp'
    exact hrp'.symm
  have hp1 : heapRead (heapWrite m.parkHeap p { park with occupancy := park.occupancy + 1 }) p =
      some { park with occupancy := park.occupancy + 1 } := heapRead_heapWrite_self _ _ _ _ hpk
  subst hm2
  refine ⟨p, park, _, hp, ?_, hpk, heapRead_heapWrite_self _ _ _ _ hp1, ?_⟩
  · have e1 := listGetPark_heapWrite m.parkHeap m.parks nome p park
      { park with occupancy := park.occupancy + 1 } hpk rfl
    have e2 := listGetPark_heapWrite
      (heapWrite m.parkHeap p { park with occupancy := park.occupancy + 1 }) m.parks nome p
      { park with occupancy := park.occupancy + 1 }
      { rpark with occupancy := rpark.occupancy - 1,
                   records := rpark.records ++ [m.recordHeap.length] } hp1 (by rw [hrpark])
    exact e2.trans (e1.trans hp)
  · rw [hrpark]
    simp

/-- Witness of C9: in the memory with the parks `A` and `B`, `CC-22-DD` enters `B` on
02-01-2024 at 10:00 and leaves it at 10:30. -/
theorem entry_then_exit_restores_occupancy_witness :
    ∃ m1 m2 p before after,
      processCommand_e oobZero (memoryAfter cmdsTwoParks) "B" "CC-22-DD" ⟨2, 1, 2024⟩ ⟨10, 0⟩ =
        some (m1, [.entryLine "B" 4]) ∧
      processCommand_s oobZero m1 "B" "CC-22-DD" ⟨2, 1, 2024⟩ ⟨10, 30⟩ =
        some (m2, [.exitLine "CC-22-DD" 738762 600 738762 630 2]) ∧
      heapRead (memoryAfter cmdsTwoParks).parkHeap p = some before ∧
      heapRead m2.parkHeap p = some after ∧
      after.occupancy = before.occupancy := by
  have he := eq_some_of_map_snd (processCommand_e oobZero (memoryAfter cmdsTwoParks) "B"
    "CC-22-DD" ⟨2, 1, 2024⟩ ⟨10, 0⟩) initializeSystem [.entryLine "B" 4] (by decide!)
  have hs := eq_some_of_map_snd (processCommand_s oobZero
    (((processCommand_e oobZero (memoryAfter cmdsTwoParks) "B" "CC-22-DD" ⟨2, 1, 2024⟩
      ⟨10, 0⟩).map Prod.fst).getD initializeSystem) "B"
    "CC-22-DD" ⟨2, 1, 2024⟩ ⟨10, 30⟩) initializeSystem
    [.exitLine "CC-22-DD" 738762 600 738762 630 2] (by decide!)
  obtain ⟨p, before, after, -, -, h3, h4, h5⟩ :=
    entry_then_exit_restores_occupancy oobZero _ _ _ "B" "CC-22-DD" _ _ _ _ _ _ _ _ _ _ _ he hs
  exact ⟨_, _, p, before, after, he, hs, h3, h4, h5⟩

/-! ## A plate with an open stay enters again -/

/-- C10, the code at the failing input: before the removal of `A` the lookup of the plate
`AA-70-AU` returns its open record 1; no exit of that plate follows, and the memory
reached by `cmdsOrphan` still holds that open record in the park `B` (in slot 1722 of the
table, behind slot 1721 emptied by the removal of `A`); there `getLastRecord` returns
`NULL` for the plate, and its entry in `B` on 02-01-2024 at 10:00 succeeds, leaving two
open records of the plate. -/
theorem entry_succeeds_with_open_stay :
    Reachable oobZero (memoryAfter cmdsOrphan) ∧
      getLastRecord (memoryAfter (cmdsOrphan.take 4)).cars "AA-70-AU" = some (some 1) ∧
      (memoryAfter cmdsOrphan).cars 1722 =
        some { key := sumAsciiValues "AA-70-AU", records := [1] } ∧
      heapRead (memoryAfter cmdsOrphan).recordHeap 1 =
        some { plates := "AA-70-AU", park := 1, entryDay := 738761, entryHour := 601,
               exitDay := NO_DATE, exitHour := NO_TIME, paid := 0 } ∧
      listGetPark (memoryAfter cmdsOrphan).parkHeap (memoryAfter cmdsOrphan).parks "B" =
        some (some 1) ∧
      getLastRecord (memoryAfter cmdsOrphan).cars "AA-70-AU" = some none ∧
      ∃ m' free, processCommand_e oobZero (memoryAfter cmdsOrphan) "B" "AA-70-AU"
          ⟨2, 1, 2024⟩ ⟨10, 0⟩ = some (m', [.entryLine "B" free]) ∧
        heapRead m'.recordHeap 1 =
          some { plates := "AA-70-AU", park := 1, entryDay := 738761, entryHour := 601,
                 exitDay := NO_DATE, exitHour := NO_TIME, paid := 0 } ∧
        heapRead m'.recordHeap 2 =
          some { plates := "AA-70-AU", park := 1, entryDay := 738762, entryHour := 600,
                 exitDay := NO_DATE, exitHour := NO_TIME, paid := 0 } :=
  ⟨cmdsOrphan_reachable, cmdsOrphan_lookup_before_removal.1, cmdsOrphan_table.2.2,
    cmdsOrphan_open_record.1,
    cmdsOrphan_open_record.2, cmdsOrphan_lookup.2,
    memoryAfterEntry (memoryAfter cmdsOrphan) "B" "AA-70-AU" ⟨2, 1, 2024⟩ ⟨10, 0⟩, 8,
    cmdsOrphan_entry_same_plate, cmdsOrphan_two_open_records.1, cmdsOrphan_two_open_records.2⟩

/-! ## The date check -/

/-- What `checkDateFormat` has checked when it accepts a date. -/
theorem checkDateFormat_true (oob : Int → Int) (d : DateText)
    (h : checkDateFormat oob d = true) :
    1 ≤ d.day ∧ d.day ≤ getDaysOfMonth oob d.month ∧ 1 ≤ d.month ∧ d.month ≤ 12 ∧
      0 ≤ d.year := by
  unfold checkDateFormat at h
  split_ifs at h with hc
  simp only [Bool.or_eq_true, decide_eq_true_eq, not_or, not_lt] at hc
  obtain ⟨⟨⟨⟨h1, h2⟩, h3⟩, h4⟩, h5⟩ := hc
  exact ⟨h1, h2, h3, h4, h5⟩

/-- The months before a month of the calendar have no negative length. -/
theorem sumDaysAllMonths_nonneg (oob : Int → Int) (month : Int) (h : month ≤ 12) :
    0 ≤ sumDaysAllMonths oob month := by
  unfold sumDaysAllMonths
  apply List.sum_nonneg
  intro x hx
  obtain ⟨k, hk, rfl⟩ := List.mem_map.mp hx
  have hk' : ∃ a : Nat, a < (month - 1).toNat ∧ k = (a : Int) := by
    simpa using hk
  obtain ⟨a, ha, rfl⟩ := hk'
  have ha11 : a < 11 := by omega
  unfold getDaysOfMonth
  have h1 : (1 : Int) ≤ (a : Int) + 1 ∧ (a : Int) + 1 ≤ 12 := by omega
  rw [if_pos h1]
  have h2 : ((a : Int) + 1 - 1).toNat = a := by omega
  rw [h2]
  interval_cases a <;> simp [daysTable]

/-- The encoding of an accepted date is at least 1, so it is not `NO_DATE`. -/
theorem dateToInt_pos (oob : Int → Int) (d : DateText) (h : checkDateFormat oob d = true) :
    1 ≤ dateToInt oob d := by
  obtain ⟨h1, _, _, h4, h5⟩ := checkDateFormat_true oob d h
  have h6 := sumDaysAllMonths_nonneg oob d.month h4
  unfold dateToInt
  nlinarith

/-- What `checkDates` has checked when it accepts a date and a time. -/
theorem checkDates_true (oob : Int → Int) (m : Memory) (d : DateText) (t : TimeText)
    (h : checkDates oob m d t = true) :
    checkDateFormat oob d = true ∧ checkTimeFormat t = true ∧
      dateInPast m (dateToInt oob d) (timeToInt t) = false := by
  unfold checkDates at h
  cases h1 : checkDateFormat oob d <;> cases h2 : checkTimeFormat t <;>
    cases h3 : dateInPast m (dateToInt oob d) (timeToInt t) <;> simp [h1, h2, h3] at h ⊢

/-- The function `dateInPast` returns 0 exactly when the clock is unset or not after
the given date and time. -/
theorem dateInPast_eq_false_iff (m : Memory) (date time : Int) :
    dateInPast m date time = false ↔
      (m.date = NO_DATE ∨ m.date < date ∨ (m.date = date ∧ m.time ≤ time)) := by
  unfold dateInPast
  split_ifs with h1 h2 h3
  · simp [h1]
  · simp [h2]
  · simp [h3]
  · simp only [Bool.true_eq_false, false_iff, not_or]
    exact ⟨h1, h2, h3⟩

/-- An accepted date and time are not before the clock, in the lexicographic order. -/
theorem checkDates_clock_le (oob : Int → Int) (m : Memory) (d : DateText) (t : TimeText)
    (h : checkDates oob m d t = true) :
    m.date < dateToInt oob d ∨ (m.date = dateToInt oob d ∧ m.time ≤ timeToInt t) := by
  obtain ⟨h1, _, h3⟩ := checkDates_true oob m d t h
  have hpos := dateToInt_pos oob d h1
  rcases (dateInPast_eq_false_iff m _ _).mp h3 with h0 | hlt | heq
  · left
    rw [h0]
    unfold NO_DATE
    omega
  · exact Or.inl hlt
  · exact Or.inr heq

/-- C15, as amended: `checkDates` accepts a well-formed date and time if and only if they
are not before the clock, that is after it or equal to it; every candidate strictly
before the clock is rejected.  This holds in every memory, so in particular when the
clock is set. -/
theorem checkDates_iff_not_before (oob : Int → Int) (m : Memory) (d : DateText) (t : TimeText)
    (hd : checkDateFormat oob d = true) (ht : checkTimeFormat t = true) :
    (checkDates oob m d t = true ↔
        (m.date < dateToInt oob d ∨ (m.date = dateToInt oob d ∧ m.time ≤ timeToInt t))) ∧
      ((dateToInt oob d < m.date ∨ (dateToInt oob d = m.date ∧ timeToInt t < m.time)) →
        checkDates oob m d t = false) := by
  have hiff : checkDates oob m d t = true ↔
      (m.date < dateToInt oob d ∨ (m.date = dateToInt oob d ∧ m.time ≤ timeToInt t)) := by
    constructor
    · exact checkDates_clock_le oob m d t
    · intro h
      have h3 : dateInPast m (dateToInt oob d) (timeToInt t) = false :=
        (dateInPast_eq_false_iff m _ _).mpr (Or.inr h)
      simp [checkDates, hd, ht, h3]
  refine ⟨hiff, ?_⟩
  intro hbefore
  cases hc : checkDates oob m d t with
  | false => rfl
  | true =>
    rcases hiff.mp hc with h | ⟨h, h'⟩ <;> rcases hbefore with g | ⟨g, g'⟩ <;> omega

/-- C16: while the clock is unset (`date` is `NO_DATE`), `checkDates` accepts every
well-formed date and time, and `dateInPast` returns 0 for every candidate. -/
theorem checkDates_clock_unset (oob : Int → Int) (m : Memory) (d : DateText) (t : TimeText)
    (hunset : m.date = NO_DATE) (hd : checkDateFormat oob d = true)
    (ht : checkTimeFormat t = true) :
    checkDates oob m d t = true ∧ ∀ date time, dateInPast m date time = false := by
  have h3 : ∀ date time, dateInPast m date time = false := fun date time =>
    (dateInPast_eq_false_iff m date time).mpr (Or.inl hunset)
  exact ⟨by simp [checkDates, hd, ht, h3], h3⟩

/-- Witness of C16: in the start state, whose date is `NO_DATE`, 01-01-2024 00:00 is
accepted. -/
theorem checkDates_clock_unset_witness :
    initializeSystem.date = NO_DATE ∧
      checkDates oobZero initializeSystem ⟨1, 1, 2024⟩ ⟨0, 0⟩ = true :=
  ⟨rfl, (checkDates_clock_unset oobZero initializeSystem ⟨1, 1, 2024⟩ ⟨0, 0⟩ rfl (by decide)
    (by decide)).1⟩

/-- Witness of C15 as amended: with the clock at 01-01-2024 10:00, the candidate 02-01-2024
10:00 is accepted and the candidate 01-01-2024 09:59 is rejected. -/
theorem checkDates_iff_not_before_witness :
    checkDates oobZero (memoryAfter cmdsOneCar) ⟨2, 1, 2024⟩ ⟨10, 0⟩ = true ∧
      checkDates oobZero (memoryAfter cmdsOneCar) ⟨1, 1, 2024⟩ ⟨9, 59⟩ = false :=
  ⟨(checkDates_iff_not_before oobZero (memoryAfter cmdsOneCar) ⟨2, 1, 2024⟩ ⟨10, 0⟩ (by decide)
      (by decide)).1.mpr (Or.inl (by decide!)),
   (checkDates_iff_not_before oobZero (memoryAfter cmdsOneCar) ⟨1, 1, 2024⟩ ⟨9, 59⟩ (by decide)
      (by decide)).2 (Or.inr ⟨by decide!, by decide!⟩)⟩

/-- C15 fails as stated: with the clock set at 01-01-2024 10:00 by the entry of `AA-11-BB`,
the candidate 01-01-2024 10:00, equal to the clock, is accepted by `checkDates`, and the
entry of `CC-22-DD` at that date and time succeeds. -/
theorem checkDates_accepts_equal :
    (memoryAfter cmdsOneCar).date ≠ NO_DATE ∧
      dateToInt oobZero ⟨1, 1, 2024⟩ = (memoryAfter cmdsOneCar).date ∧
      timeToInt ⟨10, 0⟩ = (memoryAfter cmdsOneCar).time ∧
      checkDateFormat oobZero ⟨1, 1, 2024⟩ = true ∧ checkTimeFormat ⟨10, 0⟩ = true ∧
      checkDates oobZero (memoryAfter cmdsOneCar) ⟨1, 1, 2024⟩ ⟨10, 0⟩ = true ∧
      processCommand_e oobZero (memoryAfter cmdsOneCar) "A" "CC-22-DD" ⟨1, 1, 2024⟩ ⟨10, 0⟩ =
        some (memoryAfterEntry (memoryAfter cmdsOneCar) "A" "CC-22-DD" ⟨1, 1, 2024⟩ ⟨10, 0⟩,
          [.entryLine "A" 8]) :=
  ⟨by decide!, by decide!, by decide!, by decide, by decide, by decide!,
    eq_some_of_map_snd _ initializeSystem _ (by decide!)⟩

/-! ## The plate check -/

/-- C17, the code at the failing inputs: `checkPlates` accepts `AA+11+BB`, whose pairs are
not separated by `-`, and `AA-11-BBXYZ`, which is longer than `XX-XX-XX`; neither has the
format of the specification.  It accepts `AA-11-BB` and rejects `11-11-11` and
`AA-AA-AA`, as the specification says. -/
theorem checkPlates_ignores_separators :
    checkPlates "AA+11+BB" = true ∧ plateFormat "AA+11+BB" = false ∧
      checkPlates "AA-11-BBXYZ" = true ∧ plateFormat "AA-11-BBXYZ" = false ∧
      checkPlates "AA-11-BB" = true ∧ plateFormat "AA-11-BB" = true ∧
      checkPlates "11-11-11" = false ∧ plateFormat "11-11-11" = false ∧
      checkPlates "AA-AA-AA" = false ∧ plateFormat "AA-AA-AA" = false := by
  refine ⟨by decide, by decide, by decide, by decide, by decide, by decide, by decide,
    by decide, by decide, by decide⟩

/-- An uppercase letter is not a digit. -/
theorem isDigit_eq_false_of_isUpper (x : Char) (h : x.isUpper = true) : x.isDigit = false := by
  simp only [Char.isUpper, Bool.and_eq_true, decide_eq_true_eq, ge_iff_le] at h
  have h1 : (65 : UInt32).toNat ≤ x.val.toNat := h.1
  have h65 : (65 : UInt32).toNat = 65 := rfl
  have h57 : (57 : UInt32).toNat = 57 := rfl
  have hnot : ¬ (x.val ≤ 57) := by
    intro h2
    have h3 : x.val.toNat ≤ (57 : UInt32).toNat := h2
    omega
  simp [Char.isDigit, hnot]

/-- An uppercase letter is alphabetic. -/
theorem isAlpha_of_isUpper (x : Char) (h : x.isUpper = true) : x.isAlpha = true := by
  simp [Char.isAlpha, h]

/-- One round of the loop of `checkPlates` on a pair of two digits. -/
theorem checkPlates_loop_digits (l : String) (i : Nat) (rest : List Nat) (dg le : Int)
    (h1 : (charAt l i).isDigit = true) (h2 : (charAt l (i + 1)).isDigit = true) :
    checkPlates.loop l (i :: rest) dg le = checkPlates.loop l rest (dg + 1) le := by
  simp [checkPlates.loop, h1, h2]

/-- One round of the loop of `checkPlates` on a pair of two uppercase letters. -/
theorem checkPlates_loop_letters (l : String) (i : Nat) (rest : List Nat) (dg le : Int)
    (h1 : (charAt l i).isUpper = true) (h2 : (charAt l (i + 1)).isUpper = true) :
    checkPlates.loop l (i :: rest) dg le = checkPlates.loop l rest dg (le + 1) := by
  simp [checkPlates.loop, h1, h2, isDigit_eq_false_of_isUpper _ h1, isAlpha_of_isUpper _ h1,
    isAlpha_of_isUpper _ h2]

/-- Every plate of the format of the specification is accepted by `checkPlates`. -/
theorem checkPlates_of_plateFormat (s : String) (h : plateFormat s = true) :
    checkPlates s = true := by
  unfold plateFormat at h
  split at h
  · rename_i a b s1 c d s2 e f hdata
    have h0 : charAt s 0 = a := by simp [charAt, hdata]
    have h1 : charAt s (0 + 1) = b := by simp [charAt, hdata]
    have h3 : charAt s 3 = c := by simp [charAt, hdata]
    have h4 : charAt s (3 + 1) = d := by simp [charAt, hdata]
    have h6 : charAt s 6 = e := by simp [charAt, hdata]
    have h7 : charAt s (6 + 1) = f := by simp [charAt, hdata]
    simp only [List.all_cons, List.all_nil, List.any_cons, List.any_nil, Bool.and_true,
      Bool.or_false, Bool.and_eq_true, Bool.or_eq_true, decide_eq_true_eq] at h
    obtain ⟨⟨⟨-, hp1, hp2, hp3⟩, hl⟩, hdg⟩ := h
    subst h0 h1 h3 h4 h6 h7
    unfold checkPlates
    rcases hp1 with ⟨u1, u2⟩ | ⟨d1, d2⟩
    · rw [checkPlates_loop_letters s 0 _ _ _ u1 u2]
      rcases hp2 with ⟨u3, u4⟩ | ⟨d3, d4⟩
      · rw [checkPlates_loop_letters s 3 _ _ _ u3 u4]
        rcases hp3 with ⟨u5, u6⟩ | ⟨d5, d6⟩
        · have := isDigit_eq_false_of_isUpper _ u1
          have := isDigit_eq_false_of_isUpper _ u3
          have := isDigit_eq_false_of_isUpper _ u5
          simp_all
        · rw [checkPlates_loop_digits s 6 _ _ _ d5 d6]
          simp [checkPlates.loop]
      · rw [checkPlates_loop_digits s 3 _ _ _ d3 d4]
        rcases hp3 with ⟨u5, u6⟩ | ⟨d5, d6⟩
        · rw [checkPlates_loop_letters s 6 _ _ _ u5 u6]
          simp [checkPlates.loop]
        · rw [checkPlates_loop_digits s 6 _ _ _ d5 d6]
          simp [checkPlates.loop]
    · rw [checkPlates_loop_digits s 0 _ _ _ d1 d2]
      rcases hp2 with ⟨u3, u4⟩ | ⟨d3, d4⟩
      · rw [checkPlates_loop_letters s 3 _ _ _ u3 u4]
        rcases hp3 with ⟨u5, u6⟩ | ⟨d5, d6⟩
        · rw [checkPlates_loop_letters s 6 _ _ _ u5 u6]
          simp [checkPlates.loop]
        · rw [checkPlates_loop_digits s 6 _ _ _ d5 d6]
          simp [checkPlates.loop]
      · rw [checkPlates_loop_digits s 3 _ _ _ d3 d4]
        rcases hp3 with ⟨u5, u6⟩ | ⟨d5, d6⟩
        · rw [checkPlates_loop_letters s 6 _ _ _ u5 u6]
          simp [checkPlates.loop]
        · rcases hl with ⟨x, _⟩ | ⟨x, _⟩ | ⟨x, _⟩ <;>
            · have := isDigit_eq_false_of_isUpper _ x
              simp_all
  · exact Bool.noConfusion h

/-! ## Lot creation -/

/-- The function `validationsP` returns the line of the first condition of the
specification that holds, and 1 when none holds. -/
theorem validationsP_eq (m : Memory) (p1 : Park) (existing : Option Ptr)
    (hp : listGetPark m.parkHeap m.parks p1.name = some existing) :
    validationsP m p1 =
      some (match firstFailing (createChecks existing m.parks.length p1.capacity p1.less_60
          p1.more_60 p1.dayly) with
        | some e => .error (e.line p1.name p1.capacity)
        | none => .ok ()) := by
  unfold validationsP
  rw [hp]
  cases existing with
  | some p => simp [createChecks, firstFailing, CreateError.line]
  | none =>
    by_cases hcap : p1.capacity ≤ 0
    · simp [createChecks, firstFailing, CreateError.line, hcap]
    · by_cases hcost : 0 < p1.less_60 ∧ p1.less_60 ≤ p1.more_60 ∧ p1.more_60 ≤ p1.dayly
      · have hc : ¬ (p1.less_60 ≤ 0 ∨ p1.more_60 < p1.less_60 ∨ p1.dayly < p1.more_60) := by
          rintro (h | h | h)
          · exact absurd hcost.1 (not_lt.mpr h)
          · exact absurd hcost.2.1 (not_le.mpr h)
          · exact absurd hcost.2.2 (not_le.mpr h)
        by_cases hfull : m.parks.length = 20
        · simp [createChecks, firstFailing, CreateError.line, hcap, hcost, hc, hfull, MAX_PARKS]
        · simp [createChecks, firstFailing, CreateError.line, hcap, hcost, hc, hfull, MAX_PARKS]
      · have hc : p1.less_60 ≤ 0 ∨ p1.more_60 < p1.less_60 ∨ p1.dayly < p1.more_60 := by
          by_contra hn
          push_neg at hn
          exact hcost ⟨hn.1, hn.2.1, hn.2.2⟩
        simp [createChecks, firstFailing, CreateError.line, hcap, hcost]
        intro a b c
        exact absurd ⟨a, b, c⟩ hcost

/-- C18: when the lookup of the name returns, lot creation prints the line of the first
condition that holds in the order duplicate name, capacity <= 0, tiers violating
`0 < tier1 <= tier2 <= dailyCap`, registry holding 20 lots, and leaves the memory as it
is; when none holds it succeeds (and prints nothing); so it fails if and only if one of
the four conditions holds. -/
theorem processCommand_p_first_failing_check (m : Memory) (name : String) (capacity : Int)
    (less_60 more_60 dayly : ℚ) (existing : Option Ptr)
    (hp : listGetPark m.parkHeap m.parks name = some existing) :
    (∀ e, firstFailing (createChecks existing m.parks.length capacity less_60 more_60 dayly) =
        some e →
        processCommand_p m name capacity less_60 more_60 dayly =
          some (m, [e.line name capacity])) ∧
      (firstFailing (createChecks existing m.parks.length capacity less_60 more_60 dayly) = none →
        ∃ m', processCommand_p m name capacity less_60 more_60 dayly = some (m', [])) ∧
      ((∃ m', processCommand_p m name capacity less_60 more_60 dayly = some (m', [])) ↔
        ∀ c ∈ createChecks existing m.parks.length capacity less_60 more_60 dayly,
          c.1 = false) := by
  have hval := validationsP_eq m
    { name := name, capacity := capacity, occupancy := 0, id := 0, less_60 := less_60,
      more_60 := more_60, dayly := dayly, records := [] } existing hp
  simp only at hval
  have herr : ∀ e, firstFailing (createChecks existing m.parks.length capacity less_60 more_60
      dayly) = some e →
      processCommand_p m name capacity less_60 more_60 dayly =
        some (m, [e.line name capacity]) := by
    intro e he
    rw [he] at hval
    simp only [processCommand_p, hval]
  have hok : firstFailing (createChecks existing m.parks.length capacity less_60 more_60 dayly)
      = none → ∃ m', processCommand_p m name capacity less_60 more_60 dayly = some (m', []) := by
    intro hnone
    rw [hnone] at hval
    simp only [processCommand_p, hval]
    exact ⟨_, rfl⟩
  refine ⟨herr, hok, ?_⟩
  rw [← firstFailing_eq_none_iff]
  constructor
  · rintro ⟨m', hsucc⟩
    cases hff : firstFailing (createChecks existing m.parks.length capacity less_60 more_60
        dayly) with
    | none => rfl
    | some e =>
      rw [herr e hff] at hsucc
      simp at hsucc
  · exact hok

/-- Witness of C18: with the park `A` present, a second park `A` with capacity 0 is
refused for its name, a park `C` with capacity 0 for its capacity, and a park `C` with
capacity 5 and the fees 1, 2, 10 is created. -/
theorem processCommand_p_first_failing_check_witness :
    processCommand_p (memoryAfter cmdsOneCar) "A" 0 1 2 10 =
        some (memoryAfter cmdsOneCar, [.ERR_PARK_ALREADY_EXISTS "A"]) ∧
      processCommand_p (memoryAfter cmdsOneCar) "C" 0 1 2 10 =
        some (memoryAfter cmdsOneCar, [.ERR_INVALID_CAPACITY 0]) ∧
      ∃ m', processCommand_p (memoryAfter cmdsOneCar) "C" 5 1 2 10 = some (m', []) :=
  ⟨(processCommand_p_first_failing_check (memoryAfter cmdsOneCar) "A" 0 1 2 10 (some 0)
      (by decide!)).1 .DuplicateName (by decide!),
   (processCommand_p_first_failing_check (memoryAfter cmdsOneCar) "C" 0 1 2 10 none
      (by decide!)).1 .InvalidCapacity (by decide!),
   (processCommand_p_first_failing_check (memoryAfter cmdsOneCar) "C" 5 1 2 10 none
      (by decide!)).2.1 (by decide!)⟩

/-! ## The two ways a command ends -/

/-- The line printed when `validationsE` returns 0 is an error message. -/
theorem validationsE_error_isError (oob : Int → Int) (m : Memory) (p1 r1 : Option Ptr)
    (name plates : String) (data : DateText) (time : TimeText) (e : Printed)
    (h : validationsE oob m p1 r1 name plates data time = some (.error e)) :
    e.isError = true := by
  unfold validationsE at h
  repeat' split at h
  all_goals first
    | (exact Option.noConfusion h)
    | (simp only [Option.some.injEq, Except.error.injEq] at h; subst h; rfl)
    | (simp at h)

/-- The line printed when `validationsS` returns 0 is an error message. -/
theorem validationsS_error_isError (oob : Int → Int) (m : Memory) (p1 r1 : Option Ptr)
    (name plates : String) (date : DateText) (time : TimeText) (e : Printed)
    (h : validationsS oob m p1 r1 name plates date time = some (.error e)) :
    e.isError = true := by
  unfold validationsS at h
  repeat' split at h
  all_goals first
    | (exact Option.noConfusion h)
    | (simp only [Option.some.injEq, Except.error.injEq] at h; subst h; rfl)
    | (simp at h)

/-- The line printed when `validationsP` returns 0 is an error message. -/
theorem validationsP_error_isError (m : Memory) (p1 : Park) (e : Printed)
    (h : validationsP m p1 = some (.error e)) : e.isError = true := by
  unfold validationsP at h
  repeat' split at h
  all_goals first
    | (exact Option.noConfusion h)
    | (simp only [Option.some.injEq, Except.error.injEq] at h; subst h; rfl)
    | (simp at h)

/-- What `validationsE` has checked when it returns 1. -/
theorem validationsE_ok (oob : Int → Int) (m : Memory) (p1 r1 : Option Ptr)
    (name plates : String) (data : DateText) (time : TimeText)
    (h : validationsE oob m p1 r1 name plates data time = some (.ok ())) :
    ∃ p park, p1 = some p ∧ heapRead m.parkHeap p = some park ∧
      park.occupancy < park.capacity ∧ checkPlates plates = true ∧
      checkDates oob m data time = true := by
  unfold validationsE at h
  cases p1 with
  | none => simp at h
  | some p =>
    cases hpk : heapRead m.parkHeap p with
    | none => simp [hpk] at h
    | some park =>
      simp only [hpk] at h
      by_cases hfull : park.occupancy ≥ park.capacity
      · simp [hfull] at h
      · cases hplate : checkPlates plates with
        | false => simp [hfull, hplate] at h
        | true =>
          cases hd : checkDates oob m data time with
          | true => exact ⟨p, park, rfl, hpk, not_le.mp hfull, rfl, rfl⟩
          | false =>
            exfalso
            simp only [hfull, hplate, hd, if_false, Bool.not_true, Bool.not_false,
              if_true] at h
            repeat' split at h
            all_goals first
              | (exact Option.noConfusion h)
              | (simp at h)

/-- What `validationsP` has checked when it returns 1. -/
theorem validationsP_ok (m : Memory) (p1 : Park) (h : validationsP m p1 = some (.ok ())) :
    listGetPark m.parkHeap m.parks p1.name = some none ∧ 0 < p1.capacity ∧
      0 < p1.less_60 ∧ p1.less_60 ≤ p1.more_60 ∧ p1.more_60 ≤ p1.dayly ∧
      m.parks.length ≠ MAX_PARKS := by
  unfold validationsP at h
  cases hp : listGetPark m.parkHeap m.parks p1.name with
  | none => simp [hp] at h
  | some existing =>
    cases existing with
    | some p => simp [hp] at h
    | none =>
      simp only [hp] at h
      by_cases hcap : p1.capacity ≤ 0
      · simp [hcap] at h
      · by_cases hc : (p1.less_60 ≤ 0 ∨ p1.more_60 < p1.less_60) ∨ p1.dayly < p1.more_60
        · simp [hcap, hc] at h
        · by_cases hfull : m.parks.length = MAX_PARKS
          · simp [hcap, hc, hfull] at h
          · push_neg at hc hcap
            exact ⟨rfl, hcap, hc.1.1, hc.1.2, hc.2, hfull⟩

/-- A run of `processCommand_e` that returns either printed an error message and left the
memory as it is, or passed the validations and made the entry. -/
theorem processCommand_e_cases (oob : Int → Int) (m m' : Memory) (nome plates : String)
    (data : DateText) (hora : TimeText) (out : List Printed)
    (h : processCommand_e oob m nome plates data hora = some (m', out)) :
    (m' = m ∧ ∃ e, out = [e] ∧ e.isError = true) ∨
    (∃ p park cars, listGetPark m.parkHeap m.parks nome = some (some p) ∧
      heapRead m.parkHeap p = some park ∧ park.occupancy < park.capacity ∧
      checkDates oob m data hora = true ∧
      out = [.entryLine nome (park.capacity - (park.occupancy + 1))] ∧
      m' = { parkHeap := heapWrite m.parkHeap p { park with occupancy := park.occupancy + 1 },
             recordHeap := m.recordHeap ++
               [some { plates := plates, park := p, entryDay := dateToInt oob data,
                       entryHour := timeToInt hora, exitDay := NO_DATE, exitHour := NO_TIME,
                       paid := 0 }],
             parks := m.parks, cars := cars, date := dateToInt oob data,
             time := timeToInt hora, idIncrementer := m.idIncrementer }) := by
  unfold processCommand_e at h
  cases hp : listGetPark m.parkHeap m.parks nome with
  | none => simp [hp] at h
  | some p1 =>
    cases hr : getLastRecord m.cars plates with
    | none => simp [hp, hr] at h
    | some r1 =>
      cases hv : validationsE oob m p1 r1 nome plates data hora with
      | none => simp [hp, hr, hv] at h
      | some v =>
        cases v with
        | error e =>
          simp only [hp, hr, hv, Option.some.injEq, Prod.mk.injEq] at h
          exact Or.inl ⟨h.1.symm, e, h.2.symm,
            validationsE_error_isError oob m p1 r1 nome plates data hora e hv⟩
        | ok u =>
          obtain ⟨p, park, rfl, hpk, hocc, -, hdates⟩ :=
            validationsE_ok oob m p1 r1 nome plates data hora hv
          have hnew := heapRead_heapAlloc_new m.recordHeap
            { plates := plates, park := p, entryDay := dateToInt oob data,
              entryHour := timeToInt hora, exitDay := NO_DATE, exitHour := NO_TIME,
              paid := 0 }
          simp only [heapAlloc] at hnew
          simp only [hp, hr, hv, hpk, updateMemoryTime, addRecord, heapAlloc, hnew] at h
          cases hadd : addRecord.loop m.cars (sumAsciiValues plates) m.recordHeap.length
              HASH_SIZE (hash (sumAsciiValues plates) HASH_SIZE) with
          | none => simp [hadd] at h
          | some cars =>
            simp only [hadd, Option.some.injEq, Prod.mk.injEq] at h
            exact Or.inr ⟨p, park, cars, rfl, hpk, hocc, hdates, h.2.symm, h.1.symm⟩

/-- A run of `processCommand_s` that returns either printed an error message and left the
memory as it is, or passed the validations and made the exit. -/
theorem processCommand_s_cases (oob : Int → Int) (m m' : Memory) (nome plates : String)
    (data : DateText) (hora : TimeText) (out : List Printed)
    (h : processCommand_s oob m nome plates data hora = some (m', out)) :
    (m' = m ∧ ∃ e, out = [e] ∧ e.isError = true) ∨
    (∃ r record park, heapRead m.recordHeap r = some record ∧ record.exitDay = NO_DATE ∧
      heapRead m.parkHeap record.park = some park ∧
      checkDates oob m data hora = true ∧
      out = [.exitLine record.plates record.entryDay record.entryHour (dateToInt oob data)
        (timeToInt hora) (calculatePrice
          { record with exitDay := dateToInt oob data, exitHour := timeToInt hora } park).paid] ∧
      m' = { parkHeap := heapWrite m.parkHeap record.park
               { park with occupancy := park.occupancy - 1, records := park.records ++ [r] },
             recordHeap := heapWrite m.recordHeap r (calculatePrice
               { record with exitDay := dateToInt oob data, exitHour := timeToInt hora } park),
             parks := m.parks, cars := m.cars, date := dateToInt oob data,
             time := timeToInt hora, idIncrementer := m.idIncrementer }) := by
  unfold processCommand_s at h
  cases hp : listGetPark m.parkHeap m.parks nome with
  | none => simp [hp] at h
  | some p1 =>
    cases hr : getLastRecord m.cars plates with
    | none => simp [hp, hr] at h
    | some r1 =>
      cases hv : validationsS oob m p1 r1 nome plates data hora with
      | none => simp [hp, hr, hv] at h
      | some v =>
        cases v with
        | error e =>
          simp only [hp, hr, hv, Option.some.injEq, Prod.mk.injEq] at h
          exact Or.inl ⟨h.1.symm, e, h.2.symm,
            validationsS_error_isError oob m p1 r1 nome plates data hora e hv⟩
        | ok u =>
          obtain ⟨p, r, record, rpark, lot, rfl, rfl, hrec, hrp, hpk, hid, hopen, -, hdates⟩ :=
            validationsS_ok oob m p1 r1 nome plates data hora hv
          simp only [hp, hr, hv, hrec, hrp, updateMemoryTime, listAddRecord,
            calculatePrice_occupancy, Option.some.injEq, Prod.mk.injEq] at h
          exact Or.inr ⟨r, record, rpark, hrec, hopen, hrp, hdates, h.2.symm, h.1.symm⟩

/-- A run of `processCommand_p` that returns either printed an error message and left the
memory as it is, or passed the validations, printed nothing and added the park. -/
theorem processCommand_p_cases (m m' : Memory) (name : String) (capacity : Int)
    (less_60 more_60 dayly : ℚ) (out : List Printed)
    (h : processCommand_p m name capacity less_60 more_60 dayly = some (m', out)) :
    (m' = m ∧ ∃ e, out = [e] ∧ e.isError = true) ∨
    (out = [] ∧ listGetPark m.parkHeap m.parks name = some none ∧ 0 < capacity ∧
      0 < less_60 ∧ less_60 ≤ more_60 ∧ more_60 ≤ dayly ∧ m.parks.length ≠ MAX_PARKS ∧
      m' = { parkHeap := m.parkHeap ++
               [some { name := name, capacity := capacity, occupancy := 0,
                       id := m.idIncrementer, less_60 := less_60, more_60 := more_60,
                       dayly := dayly, records := [] }],
             recordHeap := m.recordHeap, parks := m.parks ++ [m.parkHeap.length],
             cars := m.cars, date := m.date, time := m.time,
             idIncrementer := m.idIncrementer + 1 }) := by
  unfold processCommand_p at h
  simp only at h
  cases hv : validationsP m (Park.mk name capacity 0 0 less_60 more_60 dayly []) with
  | none => simp [hv] at h
  | some v =>
    cases v with
    | error e =>
      simp only [hv, Option.some.injEq, Prod.mk.injEq] at h
      exact Or.inl ⟨h.1.symm, e, h.2.symm, validationsP_error_isError m _ e hv⟩
    | ok u =>
      obtain ⟨h1, h2, h3, h4, h5, h6⟩ := validationsP_ok m _ hv
      simp only [hv, heapAlloc, listAddPark, Option.some.injEq, Prod.mk.injEq] at h
      exact Or.inr ⟨h.2.symm, h1, h2, h3, h4, h5, h6, h.1.symm⟩

/-- A run of `processCommand_r` that returns either printed that there is no such park
and left the memory as it is, or removed the park found under the name and printed the
names of the remaining parks. -/
theorem processCommand_r_cases (m m' : Memory) (nome : String) (out : List Printed)
    (h : processCommand_r m nome = some (m', out)) :
    (m' = m ∧ out = [.ERR_PARK_NOT_FOUND nome]) ∨
    (∃ p park, listGetPark m.parkHeap m.parks nome = some (some p) ∧
      heapRead m.parkHeap p = some park ∧ removePark m park.id = some m' ∧
      printRemainingParks m'.parkHeap m'.parks = some out) := by
  unfold processCommand_r at h
  cases hp : listGetPark m.parkHeap m.parks nome with
  | none => simp [hp] at h
  | some p1 =>
    cases p1 with
    | none =>
      simp only [hp, Option.some.injEq, Prod.mk.injEq] at h
      exact Or.inl ⟨h.1.symm, h.2.symm⟩
    | some p =>
      cases hpk : heapRead m.parkHeap p with
      | none => simp [hp, hpk] at h
      | some park =>
        cases hrm : removePark m park.id with
        | none => simp [hp, hpk, hrm] at h
        | some m1 =>
          cases hpr : printRemainingParks m1.parkHeap m1.parks with
          | none => simp [hp, hpk, hrm, hpr] at h
          | some o =>
            simp only [hp, hpk, hrm, hpr, Option.some.injEq, Prod.mk.injEq] at h
            obtain ⟨rfl, rfl⟩ := h
            exact Or.inr ⟨p, park, rfl, hpk, hrm, hpr⟩

/-! ## Commands that end in an error; the clock -/

/-- The lines printed by `printRemainingParks` are names of parks, not error messages. -/
theorem printRemainingParks_not_error (parkHeap : List (Option Park)) (l : List Ptr)
    (out : List Printed) (h : printRemainingParks parkHeap l = some out) :
    ∀ e ∈ out, e.isError = false := by
  unfold printRemainingParks at h
  split at h
  · exact Option.noConfusion h
  · simp only [Option.some.injEq] at h
    subst h
    intro e he
    obtain ⟨p, -, rfl⟩ := List.mem_map.mp he
    rfl

/-- The function `removeParkRecords` leaves the clock, the id counter, the parks and
their list as they are. -/
theorem removeParkRecords_frame (m m1 : Memory) (parkId : Int)
    (h : removeParkRecords m parkId = some m1) :
    m1.parkHeap = m.parkHeap ∧ m1.parks = m.parks ∧ m1.date = m.date ∧ m1.time = m.time ∧
      m1.idIncrementer = m.idIncrementer := by
  unfold removeParkRecords at h
  split at h
  · exact Option.noConfusion h
  · simp only [Option.some.injEq] at h
    subst h
    exact ⟨rfl, rfl, rfl, rfl, rfl⟩

/-- The function `removePark` leaves the clock and the id counter as they are. -/
theorem removePark_frame (m m' : Memory) (parkId : Int) (h : removePark m parkId = some m') :
    m'.date = m.date ∧ m'.time = m.time ∧ m'.idIncrementer = m.idIncrementer := by
  unfold removePark at h
  cases h1 : removeParkRecords m parkId with
  | none => simp [h1] at h
  | some m1 =>
    obtain ⟨-, -, hd, ht, hi⟩ := removeParkRecords_frame m m1 parkId h1
    simp only [h1] at h
    split at h
    · exact Option.noConfusion h
    · simp only [Option.some.injEq] at h
      subst h
      exact ⟨hd, ht, hi⟩

/-- C13: every create, open, close or remove command that returns after printing an
error message leaves the whole memory as it was: both heaps (each lot with its fields
and history, each record), the list of parks, the table, the clock and the id counter. -/
theorem execute_error_unchanged (oob : Int → Int) (m m' : Memory) (c : Command) (e : Printed)
    (h : execute oob m c = some (m', [e])) (he : e.isError = true) : m' = m := by
  cases c with
  | p name capacity less_60 more_60 dayly =>
    rcases processCommand_p_cases m m' name capacity less_60 more_60 dayly _ h with
      ⟨h1, -⟩ | ⟨h1, -⟩
    · exact h1
    · exact absurd h1 (List.cons_ne_nil _ _)
  | e nome plates data hora =>
    rcases processCommand_e_cases oob m m' nome plates data hora _ h with
      ⟨h1, -⟩ | ⟨p, park, cars, -, -, -, -, h1, -⟩
    · exact h1
    · simp only [List.cons.injEq, and_true] at h1
      subst h1
      exact absurd he (by simp [Printed.isError])
  | s nome plates data hora =>
    rcases processCommand_s_cases oob m m' nome plates data hora _ h with
      ⟨h1, -⟩ | ⟨r, record, park, -, -, -, -, h1, -⟩
    · exact h1
    · simp only [List.cons.injEq, and_true] at h1
      subst h1
      exact absurd he (by simp [Printed.isError])
  | r nome =>
    rcases processCommand_r_cases m m' nome _ h with ⟨h1, -⟩ | ⟨p, park, -, -, -, h1⟩
    · exact h1
    · have := printRemainingParks_not_error _ _ _ h1 e (List.mem_singleton.mpr rfl)
      rw [he] at this
      exact Bool.noConfusion this

/-- Witness of C13: with `AA-11-BB` parked in `A`, its second entry prints an error
message, and the memory after the command is the memory before it. -/
theorem execute_error_unchanged_witness :
    execute oobZero (memoryAfter cmdsOneCar) (.e "A" "AA-11-BB" ⟨2, 1, 2024⟩ ⟨10, 0⟩) =
        some (memoryAfterEntry (memoryAfter cmdsOneCar) "A" "AA-11-BB" ⟨2, 1, 2024⟩ ⟨10, 0⟩,
          [.ERR_INVALID_ENTRY "AA-11-BB"]) ∧
      memoryAfterEntry (memoryAfter cmdsOneCar) "A" "AA-11-BB" ⟨2, 1, 2024⟩ ⟨10, 0⟩ =
        memoryAfter cmdsOneCar :=
  ⟨eq_some_of_map_snd _ initializeSystem _ (by decide!),
   execute_error_unchanged oobZero (memoryAfter cmdsOneCar) _
    (.e "A" "AA-11-BB" ⟨2, 1, 2024⟩ ⟨10, 0⟩) (.ERR_INVALID_ENTRY "AA-11-BB")
    (eq_some_of_map_snd _ initializeSystem _ (by decide!)) rfl⟩

/-- C14: for every command that returns, in every memory (so in every reachable one), the
clock after the command is not before the clock before it in the lexicographic order of
(date, time), and when it differs the command is an entry or an exit that passed its
validations. -/
theorem execute_clock_monotone (oob : Int → Int) (m m' : Memory) (c : Command)
    (out : List Printed) (h : execute oob m c = some (m', out)) :
    (m.date < m'.date ∨ (m.date = m'.date ∧ m.time ≤ m'.time)) ∧
      ((m'.date ≠ m.date ∨ m'.time ≠ m.time) →
        (∃ nome plates data hora free, c = .e nome plates data hora ∧
            out = [.entryLine nome free] ∧ m'.date = dateToInt oob data ∧
            m'.time = timeToInt hora) ∨
          (∃ nome plates data hora pl ed eh paid, c = .s nome plates data hora ∧
            out = [.exitLine pl ed eh (dateToInt oob data) (timeToInt hora) paid] ∧
            m'.date = dateToInt oob data ∧ m'.time = timeToInt hora)) := by
  have hsame : ∀ m0 : Memory, m0.date = m.date → m0.time = m.time →
      (m.date < m0.date ∨ (m.date = m0.date ∧ m.time ≤ m0.time)) ∧
        ((m0.date ≠ m.date ∨ m0.time ≠ m.time) →
          (∃ nome plates data hora free, c = .e nome plates data hora ∧
              out = [.entryLine nome free] ∧ m0.date = dateToInt oob data ∧
              m0.time = timeToInt hora) ∨
            (∃ nome plates data hora pl ed eh paid, c = .s nome plates data hora ∧
              out = [.exitLine pl ed eh (dateToInt oob data) (timeToInt hora) paid] ∧
              m0.date = dateToInt oob data ∧ m0.time = timeToInt hora)) := by
    intro m0 hd ht
    refine ⟨Or.inr ⟨hd.symm, le_of_eq ht.symm⟩, ?_⟩
    rintro (h1 | h1)
    · exact absurd hd h1
    · exact absurd ht h1
  cases c with
  | p name capacity less_60 more_60 dayly =>
    rcases processCommand_p_cases m m' name capacity less_60 more_60 dayly _ h with
      ⟨h1, -⟩ | ⟨-, -, -, -, -, -, -, h1⟩
    · subst h1; exact hsame _ rfl rfl
    · subst h1; exact hsame _ rfl rfl
  | e nome plates data hora =>
    rcases processCommand_e_cases oob m m' nome plates data hora _ h with
      ⟨h1, -⟩ | ⟨p, park, cars, -, -, -, hdates, hout, h1⟩
    · subst h1; exact hsame _ rfl rfl
    · subst h1
      exact ⟨checkDates_clock_le oob m data hora hdates,
        fun _ => Or.inl ⟨nome, plates, data, hora, _, rfl, hout, rfl, rfl⟩⟩
  | s nome plates data hora =>
    rcases processCommand_s_cases oob m m' nome plates data hora _ h with
      ⟨h1, -⟩ | ⟨r, record, park, -, -, -, hdates, hout, h1⟩
    · subst h1; exact hsame _ rfl rfl
    · subst h1
      exact ⟨checkDates_clock_le oob m data hora hdates,
        fun _ => Or.inr ⟨nome, plates, data, hora, _, _, _, _, rfl, hout, rfl, rfl⟩⟩
  | r nome =>
    rcases processCommand_r_cases m m' nome _ h with ⟨h1, -⟩ | ⟨p, park, -, -, h1, -⟩
    · subst h1; exact hsame _ rfl rfl
    · obtain ⟨hd, ht, -⟩ := removePark_frame m m' park.id h1
      exact hsame _ hd ht

/-- Witness of C14: with the clock at 01-01-2024 10:00, the entry of `CC-22-DD` on
02-01-2024 at 10:00 moves the clock forward. -/
theorem execute_clock_monotone_witness :
    (memoryAfter cmdsOneCar).date <
        (memoryAfterEntry (memoryAfter cmdsOneCar) "A" "CC-22-DD" ⟨2, 1, 2024⟩ ⟨10, 0⟩).date ∨
      ((memoryAfter cmdsOneCar).date =
          (memoryAfterEntry (memoryAfter cmdsOneCar) "A" "CC-22-DD" ⟨2, 1, 2024⟩ ⟨10, 0⟩).date ∧
        (memoryAfter cmdsOneCar).time ≤
          (memoryAfterEntry (memoryAfter cmdsOneCar) "A" "CC-22-DD" ⟨2, 1, 2024⟩ ⟨10, 0⟩).time) :=
  (execute_clock_monotone oobZero (memoryAfter cmdsOneCar) _
    (.e "A" "CC-22-DD" ⟨2, 1, 2024⟩ ⟨10, 0⟩) [.entryLine "A" 8]
    (eq_some_of_map_snd _ initializeSystem _ (by decide!))).1

/-! ## More on heaps -/

/-- An allocated address is below the length of the heap. -/
theorem lt_length_of_heapRead {α : Type} (h : List (Option α)) (p : Ptr) (x : α)
    (hx : heapRead h p = some x) : p < h.length := by
  unfold heapRead at hx
  by_contra hge
  rw [List.getD_eq_default _ _ (not_lt.mp hge)] at hx
  exact Option.noConfusion hx

/-- A freed cell reads as not allocated. -/
theorem heapRead_heapFree_self {α : Type} (h : List (Option α)) (p : Ptr) :
    heapRead (heapFree h p) p = none := by
  unfold heapRead heapFree
  by_cases hlt : p < h.length
  · simp [List.getD_eq_getElem?_getD, hlt]
  · rw [List.getD_eq_default _ _ (by simpa using not_lt.mp hlt)]

/-- Freeing a cell leaves the others as they are. -/
theorem heapRead_heapFree_ne {α : Type} (h : List (Option α)) (p q : Ptr) (hq : q ≠ p) :
    heapRead (heapFree h p) q = heapRead h q := by
  unfold heapRead heapFree
  simp [List.getD_eq_getElem?_getD, List.getElem?_set, Ne.symm hq]

/-- A cell allocated after a cell was freed was allocated before, with the same
content, and is not the freed one. -/
theorem heapRead_heapFree_some {α : Type} (h : List (Option α)) (p q : Ptr) (x : α)
    (hx : heapRead (heapFree h p) q = some x) : q ≠ p ∧ heapRead h q = some x := by
  by_cases hq : q = p
  · subst hq
    rw [heapRead_heapFree_self] at hx
    exact Option.noConfusion hx
  · rw [heapRead_heapFree_ne _ _ _ hq] at hx
    exact ⟨hq, hx⟩

/-- Every cell of a heap is read at some address. -/
theorem heapRead_of_mem {α : Type} (h : List (Option α)) (x : α) (hx : some x ∈ h) :
    ∃ r, heapRead h r = some x := by
  obtain ⟨i, hi, hget⟩ := List.getElem_of_mem hx
  refine ⟨i, ?_⟩
  unfold heapRead
  simp [List.getD_eq_getElem?_getD, hi, hget]

/-- Two heaps of the same length whose cells agree on a test have the same number of
cells passing the test. -/
theorem countP_congr_heapRead {α : Type} (f : Option α → Bool) :
    ∀ (l1 l2 : List (Option α)), l1.length = l2.length →
      (∀ r, f (heapRead l1 r) = f (heapRead l2 r)) → l1.countP f = l2.countP f := by
  intro l1
  induction l1 with
  | nil =>
    intro l2 hlen _
    cases l2 with
    | nil => rfl
    | cons b l2 => simp at hlen
  | cons a l1 ih =>
    intro l2 hlen hf
    cases l2 with
    | nil => simp at hlen
    | cons b l2 =>
      have h0 : f a = f b := by
        have := hf 0
        simpa [heapRead] using this
      have htail : l1.countP f = l2.countP f := by
        apply ih l2 (by simpa using hlen)
        intro r
        have := hf (r + 1)
        simpa [heapRead] using this
      simp [List.countP_cons, h0, htail]

/-- A cell allocated after an allocation is the new cell or was allocated before. -/
theorem heapRead_append_some {α : Type} (h : List (Option α)) (v x : α) (q : Ptr)
    (hx : heapRead (h ++ [some v]) q = some x) :
    (q = h.length ∧ x = v) ∨ (q ≠ h.length ∧ heapRead h q = some x) := by
  by_cases hq : q = h.length
  · subst hq
    have := heapRead_heapAlloc_new h v
    simp only [heapAlloc] at this
    rw [this] at hx
    exact Or.inl ⟨rfl, (Option.some.inj hx).symm⟩
  · have := heapRead_heapAlloc_ne h v q hq
    simp only [heapAlloc] at this
    rw [this] at hx
    exact Or.inr ⟨hq, hx⟩

/-- A cell allocated before an allocation is still allocated, with the same content. -/
theorem heapRead_append_of_some {α : Type} (h : List (Option α)) (v x : α) (q : Ptr)
    (hx : heapRead h q = some x) : heapRead (h ++ [some v]) q = some x := by
  have hlt := lt_length_of_heapRead h q x hx
  have := heapRead_heapAlloc_ne h v q (Nat.ne_of_lt hlt)
  simp only [heapAlloc] at this
  rw [this, hx]

/-- A cell allocated after a write through an allocated pointer is the written cell or
another cell, allocated before with the same content. -/
theorem heapRead_heapWrite_some {α : Type} (h : List (Option α)) (p q : Ptr) (v old x : α)
    (hp : heapRead h p = some old) (hx : heapRead (heapWrite h p v) q = some x) :
    (q = p ∧ x = v) ∨ (q ≠ p ∧ heapRead h q = some x) := by
  by_cases hq : q = p
  · subst hq
    rw [heapRead_heapWrite_self _ _ _ _ hp] at hx
    exact Or.inl ⟨rfl, (Option.some.inj hx).symm⟩
  · rw [heapRead_heapWrite_ne _ _ _ _ hq] at hx
    exact Or.inr ⟨hq, hx⟩

/-- The length of a heap does not change with a write. -/
theorem length_heapWrite {α : Type} (h : List (Option α)) (p : Ptr) (v : α) :
    (heapWrite h p v).length = h.length := by
  simp [heapWrite]

/-- The length of a heap does not change with a `free`. -/
theorem length_heapFree {α : Type} (h : List (Option α)) (p : Ptr) :
    (heapFree h p).length = h.length := by
  simp [heapFree]

/-! ## The invariants are kept by the commands -/

/-- The start state has the invariants. -/
theorem wellFormed_initializeSystem : WellFormed initializeSystem := by
  constructor <;> simp [initializeSystem, heapRead]

/-- No open record belongs to a park that is not allocated yet. -/
theorem openCount_length_eq_zero (m : Memory) (hw : WellFormed m) :
    openCount m.recordHeap m.parkHeap.length = 0 := by
  unfold openCount
  rw [List.countP_eq_zero]
  intro a ha
  cases a with
  | none => simp [isOpenAt]
  | some record =>
    obtain ⟨r, hr⟩ := heapRead_of_mem _ _ ha
    have := hw.records_park r record hr
    simp only [isOpenAt, Bool.and_eq_true, decide_eq_true_eq, not_and]
    intro h1
    exact absurd h1 (Nat.ne_of_lt this)

/-- A successful lot creation keeps the invariants. -/
theorem wellFormed_create (m : Memory) (hw : WellFormed m) (name : String) (capacity : Int)
    (less_60 more_60 dayly : ℚ) (hcap : 0 < capacity) (h1 : 0 < less_60)
    (h2 : less_60 ≤ more_60) (h3 : more_60 ≤ dayly) (hid : 1 ≤ m.idIncrementer) :
    WellFormed
      { parkHeap := m.parkHeap ++
          [some { name := name, capacity := capacity, occupancy := 0,
                  id := m.idIncrementer, less_60 := less_60, more_60 := more_60,
                  dayly := dayly, records := [] }],
        recordHeap := m.recordHeap, parks := m.parks ++ [m.parkHeap.length],
        cars := m.cars, date := m.date, time := m.time,
        idIncrementer := m.idIncrementer + 1 } := by
  constructor
  · intro r record hr
    have := hw.records_park r record hr
    show record.park < (m.parkHeap ++ [_]).length
    rw [List.length_append, List.length_singleton]
    exact Nat.lt_succ_of_lt this
  · intro p hp
    simp only [List.mem_append, List.mem_singleton] at hp
    rcases hp with hp | hp
    · obtain ⟨park, hpk⟩ := hw.parks_live p hp
      exact ⟨park, heapRead_append_of_some _ _ _ _ hpk⟩
    · subst hp
      have := heapRead_heapAlloc_new m.parkHeap
        { name := name, capacity := capacity, occupancy := 0, id := m.idIncrementer,
          less_60 := less_60, more_60 := more_60, dayly := dayly, records := [] }
      exact ⟨_, this⟩
  · simp only
    rw [List.nodup_append]
    refine ⟨hw.parks_nodup, List.nodup_singleton _, ?_⟩
    intro a ha hb
    simp only [List.mem_singleton] at hb
    subst hb
    obtain ⟨park, hpk⟩ := hw.parks_live _ ha
    exact absurd (lt_length_of_heapRead _ _ _ hpk) (lt_irrefl _)
  · intro p park hp
    rcases heapRead_append_some _ _ _ _ hp with ⟨rfl, rfl⟩ | ⟨-, hp'⟩
    · simp only
      rw [openCount_length_eq_zero m hw]
      rfl
    · exact hw.occupancy_eq p park hp'
  · intro p park hp
    rcases heapRead_append_some _ _ _ _ hp with ⟨rfl, rfl⟩ | ⟨-, hp'⟩
    · exact hcap.le
    · exact hw.occupancy_le p park hp'
  · intro p park hp
    rcases heapRead_append_some _ _ _ _ hp with ⟨rfl, rfl⟩ | ⟨-, hp'⟩
    · refine ⟨hid, ?_⟩
      show m.idIncrementer < m.idIncrementer + 1
      omega
    · have := hw.ids p park hp'
      refine ⟨this.1, ?_⟩
      show park.id < m.idIncrementer + 1
      omega
  · intro p q park park' hp hq hpq
    rcases heapRead_append_some _ _ _ _ hp with ⟨rfl, rfl⟩ | ⟨hne, hp'⟩ <;>
      rcases heapRead_append_some _ _ _ _ hq with ⟨rfl, rfl⟩ | ⟨hne', hq'⟩
    · rfl
    · have := (hw.ids q park' hq').2
      simp only at hpq
      omega
    · have := (hw.ids p park hp').2
      simp only at hpq
      omega
    · exact hw.ids_inj p q park park' hp' hq' hpq
  · intro p park hp
    rcases heapRead_append_some _ _ _ _ hp with ⟨rfl, rfl⟩ | ⟨-, hp'⟩
    · exact ⟨h1, h2, h3⟩
    · exact hw.fees p park hp'

/-- The count of the open records of a park after a record is allocated. -/
theorem openCount_append (rh : List (Option Record)) (record : Record) (q : Ptr) :
    openCount (rh ++ [some record]) q =
      openCount rh q + (if isOpenAt q (some record) then 1 else 0) := by
  unfold openCount
  rw [List.countP_append]
  simp [List.countP_cons]

/-- A successful entry keeps the invariants. -/
theorem wellFormed_entry (m : Memory) (hw : WellFormed m) (p : Ptr) (park : Park)
    (plates : String) (date time : Int) (cars : HashTable)
    (hpk : heapRead m.parkHeap p = some park) (hocc : park.occupancy < park.capacity) :
    WellFormed
      { parkHeap := heapWrite m.parkHeap p { park with occupancy := park.occupancy + 1 },
        recordHeap := m.recordHeap ++
          [some { plates := plates, park := p, entryDay := date, entryHour := time,
                  exitDay := NO_DATE, exitHour := NO_TIME, paid := 0 }],
        parks := m.parks, cars := cars, date := date, time := time,
        idIncrementer := m.idIncrementer } := by
  have hread : ∀ q x, heapRead (heapWrite m.parkHeap p
      { park with occupancy := park.occupancy + 1 }) q = some x →
      (q = p ∧ x = { park with occupancy := park.occupancy + 1 }) ∨
        (q ≠ p ∧ heapRead m.parkHeap q = some x) :=
    fun q x hx => heapRead_heapWrite_some _ _ _ _ _ _ hpk hx
  constructor
  · intro r record hr
    show record.park < (heapWrite m.parkHeap p _).length
    rw [length_heapWrite]
    rcases heapRead_append_some _ _ _ _ hr with ⟨-, rfl⟩ | ⟨-, hr'⟩
    · exact lt_length_of_heapRead _ _ _ hpk
    · exact hw.records_park r record hr'
  · intro q hq
    by_cases hqp : q = p
    · subst hqp
      exact ⟨_, heapRead_heapWrite_self _ _ _ _ hpk⟩
    · obtain ⟨x, hx⟩ := hw.parks_live q hq
      exact ⟨x, by
        show heapRead (heapWrite m.parkHeap p _) q = some x
        rw [heapRead_heapWrite_ne _ _ _ _ hqp]; exact hx⟩
  · exact hw.parks_nodup
  · intro q x hx
    show x.occupancy = ((openCount (m.recordHeap ++ [_]) q : Nat) : Int)
    rcases hread q x hx with ⟨rfl, rfl⟩ | ⟨hne, hx'⟩
    · rw [openCount_append]
      have := hw.occupancy_eq q park hpk
      simp only [isOpenAt, decide_True, Bool.and_self, if_true]
      push_cast
      omega
    · rw [openCount_append]
      have := hw.occupancy_eq q x hx'
      have hfalse : ∀ record : Record, record.park = p → isOpenAt q (some record) = false := by
        intro record hrp
        simp [isOpenAt, hrp, Ne.symm hne]
      rw [hfalse _ rfl]
      simpa using this
  · intro q x hx
    rcases hread q x hx with ⟨rfl, rfl⟩ | ⟨-, hx'⟩
    · show park.occupancy + 1 ≤ park.capacity
      omega
    · exact hw.occupancy_le q x hx'
  · intro q x hx
    rcases hread q x hx with ⟨rfl, rfl⟩ | ⟨-, hx'⟩
    · exact hw.ids q park hpk
    · exact hw.ids q x hx'
  · intro q q' x x' hx hx' hid
    rcases hread q x hx with ⟨rfl, rfl⟩ | ⟨hne, hx1⟩ <;>
      rcases hread q' x' hx' with ⟨h1, rfl⟩ | ⟨hne', hx1'⟩
    · exact h1.symm
    · exact hw.ids_inj _ _ _ _ hpk hx1' hid
    · rw [h1]; exact hw.ids_inj _ _ _ _ hx1 hpk hid
    · exact hw.ids_inj _ _ _ _ hx1 hx1' hid
  · intro q x hx
    rcases hread q x hx with ⟨rfl, rfl⟩ | ⟨-, hx'⟩
    · exact hw.fees q park hpk
    · exact hw.fees q x hx'

/-- The count of the open records of a park after a record is closed: one less for the
park of the record, the same for the others. -/
theorem openCount_close (rh : List (Option Record)) (r : Ptr) (record record' : Record)
    (q : Ptr) (hr : heapRead rh r = some record) (hopen : record.exitDay = NO_DATE)
    (hclosed : record'.exitDay ≠ NO_DATE) :
    openCount (heapWrite rh r record') q + (if record.park = q then 1 else 0) =
      openCount rh q := by
  have hlt := lt_length_of_heapRead _ _ _ hr
  have hget : rh[r] = some record := by
    unfold heapRead at hr
    simpa [List.getD_eq_getElem?_getD, hlt] using hr
  have hnew : isOpenAt q (some record') = false := by
    simp [isOpenAt, hclosed]
  have hold : isOpenAt q (some record) = decide (record.park = q) := by
    simp [isOpenAt, hopen]
  unfold openCount heapWrite
  rw [List.countP_set _ _ _ _ hlt, hget, hnew, hold]
  by_cases hq : record.park = q
  · have hpos : 0 < List.countP (isOpenAt q) rh := by
      rw [List.countP_pos_iff]
      exact ⟨some record, hget ▸ List.getElem_mem _, by rw [hold]; simp [hq]⟩
    simp only [hq, decide_True, if_true, Bool.false_eq_true, if_false]
    omega
  · simp [hq]

/-- A successful exit keeps the invariants. -/
theorem wellFormed_exit (m : Memory) (hw : WellFormed m) (r : Ptr) (record : Record)
    (park : Park) (date time : Int) (hrec : heapRead m.recordHeap r = some record)
    (hopen : record.exitDay = NO_DATE) (hrp : heapRead m.parkHeap record.park = some park)
    (hdate : date ≠ NO_DATE) :
    WellFormed
      { parkHeap := heapWrite m.parkHeap record.park
          { park with occupancy := park.occupancy - 1, records := park.records ++ [r] },
        recordHeap := heapWrite m.recordHeap r
          (calculatePrice { record with exitDay := date, exitHour := time } park),
        parks := m.parks, cars := m.cars, date := date, time := time,
        idIncrementer := m.idIncrementer } := by
  have hread : ∀ q x, heapRead (heapWrite m.parkHeap record.park
      { park with occupancy := park.occupancy - 1, records := park.records ++ [r] }) q =
        some x →
      (q = record.park ∧
          x = { park with occupancy := park.occupancy - 1, records := park.records ++ [r] }) ∨
        (q ≠ record.park ∧ heapRead m.parkHeap q = some x) :=
    fun q x hx => heapRead_heapWrite_some _ _ _ _ _ _ hrp hx
  have hcount : ∀ q, openCount (heapWrite m.recordHeap r
      (calculatePrice { record with exitDay := date, exitHour := time } park)) q +
        (if record.park = q then 1 else 0) = openCount m.recordHeap q :=
    fun q => openCount_close _ _ _ _ q hrec hopen hdate
  constructor
  · intro r' record' hr'
    show record'.park < (heapWrite m.parkHeap record.park _).length
    rw [length_heapWrite]
    rcases heapRead_heapWrite_some _ _ _ _ _ _ hrec hr' with ⟨-, rfl⟩ | ⟨-, hr''⟩
    · exact lt_length_of_heapRead _ _ _ hrp
    · exact hw.records_park r' record' hr''
  · intro q hq
    by_cases hqp : q = record.park
    · rw [hqp]
      exact ⟨_, heapRead_heapWrite_self _ _ _ _ hrp⟩
    · obtain ⟨x, hx⟩ := hw.parks_live q hq
      exact ⟨x, by
        show heapRead (heapWrite m.parkHeap record.park _) q = some x
        rw [heapRead_heapWrite_ne _ _ _ _ hqp]; exact hx⟩
  · exact hw.parks_nodup
  · intro q x hx
    show x.occupancy = ((openCount (heapWrite m.recordHeap r _) q : Nat) : Int)
    have hc := hcount q
    rcases hread q x hx with ⟨hq, rfl⟩ | ⟨hne, hx'⟩
    · have := hw.occupancy_eq _ park hrp
      rw [hq] at hc ⊢
      simp only [if_true] at hc
      show park.occupancy - 1 = _
      omega
    · have := hw.occupancy_eq q x hx'
      rw [if_neg (Ne.symm hne)] at hc
      omega
  · intro q x hx
    rcases hread q x hx with ⟨-, rfl⟩ | ⟨-, hx'⟩
    · have := hw.occupancy_le _ park hrp
      show park.occupancy - 1 ≤ park.capacity
      omega
    · exact hw.occupancy_le q x hx'
  · intro q x hx
    rcases hread q x hx with ⟨-, rfl⟩ | ⟨-, hx'⟩
    · exact hw.ids _ park hrp
    · exact hw.ids q x hx'
  · intro q q' x x' hx hx' hid
    rcases hread q x hx with ⟨h1, rfl⟩ | ⟨hne, hx1⟩ <;>
      rcases hread q' x' hx' with ⟨h1', rfl⟩ | ⟨hne', hx1'⟩
    · rw [h1, h1']
    · rw [h1]; exact hw.ids_inj _ _ _ _ hrp hx1' hid
    · rw [h1']; exact hw.ids_inj _ _ _ _ hx1 hrp hid
    · exact hw.ids_inj _ _ _ _ hx1 hx1' hid
  · intro q x hx
    rcases hread q x hx with ⟨-, rfl⟩ | ⟨-, hx'⟩
    · exact hw.fees _ park hrp
    · exact hw.fees q x hx'

/-! ## Removal of a park -/

/-- Nothing freed yet. -/
theorem freedOnly_refl (parkHeap : List (Option Park)) (parkId : Int)
    (rh : List (Option Record)) : FreedOnly parkHeap parkId rh rh :=
  ⟨rfl, fun _ => Or.inl rfl⟩

/-- One more record of a park of id `parkId` is freed by `listRemoveRecord`. -/
theorem freedOnly_listRemoveRecord (parkHeap : List (Option Park)) (parkId : Int)
    (rh0 rh : List (Option Record)) (l : List Ptr) (r : Ptr) (record : Record) (park : Park)
    (hf : FreedOnly parkHeap parkId rh0 rh) (hr : heapRead rh r = some record)
    (hp : heapRead parkHeap record.park = some park) (hid : park.id = parkId) :
    FreedOnly parkHeap parkId rh0 (listRemoveRecord rh l r).2 := by
  unfold listRemoveRecord
  split_ifs with hmem
  · refine ⟨by rw [length_heapFree]; exact hf.1, ?_⟩
    intro q
    by_cases hq : q = r
    · subst hq
      right
      refine ⟨heapRead_heapFree_self _ _, record, park, ?_, hp, hid⟩
      rcases hf.2 q with h1 | ⟨h1, -⟩
      · rw [← h1]; exact hr
      · rw [hr] at h1; exact Option.noConfusion h1
    · show heapRead (heapFree rh r) q = heapRead rh0 q ∨ _
      rw [heapRead_heapFree_ne _ _ _ hq]
      exact hf.2 q
  · exact hf

/-- The inner loop of `removeParkRecords` only frees records of parks of id `parkId`. -/
theorem freedOnly_nodes (parkHeap : List (Option Park)) (parkId : Int)
    (rh0 : List (Option Record)) :
    ∀ (rest l : List Ptr) (rh : List (Option Record)) (res : List Ptr × List (Option Record)),
      removeParkRecords.nodes parkHeap parkId rest (l, rh) = some res →
      FreedOnly parkHeap parkId rh0 rh → FreedOnly parkHeap parkId rh0 res.2 := by
  intro rest
  induction rest with
  | nil =>
    intro l rh res h hf
    simp only [removeParkRecords.nodes, Option.some.injEq] at h
    subst h
    exact hf
  | cons r rest ih =>
    intro l rh res h hf
    unfold removeParkRecords.nodes at h
    cases hr : heapRead rh r with
    | none => simp [hr] at h
    | some record =>
      cases hp : heapRead parkHeap record.park with
      | none => simp [hr, hp] at h
      | some park =>
        simp only [hr, hp] at h
        by_cases hid : park.id = parkId
        · simp only [hid, if_true] at h
          exact ih _ _ res h
            (freedOnly_listRemoveRecord parkHeap parkId rh0 rh l r record park hf hr hp hid)
        · simp only [hid, if_false] at h
          exact ih _ _ res h hf

/-- The body of the `for` loop of `removeParkRecords` only frees records of parks of id
`parkId`. -/
theorem freedOnly_slot (parkHeap : List (Option Park)) (parkId : Int)
    (rh0 : List (Option Record)) (acc acc' : HashTable × List (Option Record)) (i : Nat)
    (h : removeParkRecords.slot parkHeap parkId acc i = some acc')
    (hf : FreedOnly parkHeap parkId rh0 acc.2) : FreedOnly parkHeap parkId rh0 acc'.2 := by
  unfold removeParkRecords.slot at h
  cases hs : acc.1 i with
  | none =>
    simp only [hs, Option.some.injEq] at h
    subst h
    exact hf
  | some node =>
    simp only [hs] at h
    cases hn : removeParkRecords.nodes parkHeap parkId node.records (node.records, acc.2) with
    | none => simp [hn] at h
    | some res =>
      have hres := freedOnly_nodes parkHeap parkId rh0 _ _ _ res hn hf
      obtain ⟨l, rh⟩ := res
      simp only [hn] at h
      split_ifs at h <;>
        · simp only [Option.some.injEq] at h
          subst h
          exact hres

/-- The `for` loop of `removeParkRecords`, over any list of slots, only frees records of
parks of id `parkId`. -/
theorem freedOnly_foldlM (parkHeap : List (Option Park)) (parkId : Int)
    (rh0 : List (Option Record)) :
    ∀ (slots : List Nat) (acc acc' : HashTable × List (Option Record)),
      slots.foldlM (removeParkRecords.slot parkHeap parkId) acc = some acc' →
      FreedOnly parkHeap parkId rh0 acc.2 → FreedOnly parkHeap parkId rh0 acc'.2 := by
  intro slots
  induction slots with
  | nil =>
    intro acc acc' h hf
    simp only [List.foldlM_nil, pure, Option.some.injEq] at h
    subst h
    exact hf
  | cons i slots ih =>
    intro acc acc' h hf
    rw [List.foldlM_cons] at h
    cases hs : removeParkRecords.slot parkHeap parkId acc i with
    | none => simp [hs, bind] at h
    | some acc1 =>
      simp only [hs, bind, Option.bind] at h
      exact ih acc1 acc' h (freedOnly_slot parkHeap parkId rh0 acc acc1 i hs hf)

/-- The function `removeParkRecords` leaves the parks, their list, the clock and the id
counter as they are and only frees records of parks of id `parkId`. -/
theorem removeParkRecords_spec (m m1 : Memory) (parkId : Int)
    (h : removeParkRecords m parkId = some m1) :
    m1.parkHeap = m.parkHeap ∧ m1.parks = m.parks ∧ m1.date = m.date ∧ m1.time = m.time ∧
      m1.idIncrementer = m.idIncrementer ∧
      FreedOnly m.parkHeap parkId m.recordHeap m1.recordHeap := by
  unfold removeParkRecords at h
  cases hfold : (List.range HASH_SIZE).foldlM (removeParkRecords.slot m.parkHeap parkId)
      (m.cars, m.recordHeap) with
  | none => simp [hfold] at h
  | some acc =>
    have hf := freedOnly_foldlM m.parkHeap parkId m.recordHeap _ _ acc hfold
      (freedOnly_refl _ _ _)
    obtain ⟨cars, rh⟩ := acc
    simp only [hfold, Option.some.injEq] at h
    subst h
    exact ⟨rfl, rfl, rfl, rfl, rfl, hf⟩

/-- The loop of `removePark` returns a park of the list whose id is `parkId` and the list
without one occurrence of it. -/
theorem removePark_unlink_spec (parkHeap : List (Option Park)) (parkId : Int) :
    ∀ (l : List Ptr) (q : Ptr) (l' : List Ptr),
      removePark.unlink parkHeap parkId l = some (q, l') →
      ∃ park l1 l2, heapRead parkHeap q = some park ∧ park.id = parkId ∧
        l = l1 ++ q :: l2 ∧ l' = l1 ++ l2 := by
  intro l
  induction l with
  | nil => intro q l' h; simp [removePark.unlink] at h
  | cons n rest ih =>
    intro q l' h
    unfold removePark.unlink at h
    cases hn : heapRead parkHeap n with
    | none => simp [hn] at h
    | some park =>
      simp only [hn] at h
      by_cases hid : park.id = parkId
      · simp only [hid, if_true, Option.some.injEq, Prod.mk.injEq] at h
        obtain ⟨rfl, rfl⟩ := h
        exact ⟨park, [], rest, hn, hid, rfl, rfl⟩
      · simp only [hid, if_false] at h
        cases hu : removePark.unlink parkHeap parkId rest with
        | none => simp [hu] at h
        | some res =>
          obtain ⟨q', rest'⟩ := res
          simp only [hu, Option.some.injEq, Prod.mk.injEq] at h
          obtain ⟨rfl, rfl⟩ := h
          obtain ⟨park', l1, l2, h1, h2, h3, h4⟩ := ih q' rest' hu
          exact ⟨park', n :: l1, l2, h1, h2, by rw [h3]; rfl, by rw [h4]; rfl⟩

/-- What `removePark` does when it returns: the records freed are records of parks of id
`parkId`, one park of the list with that id is freed and leaves the list. -/
theorem removePark_spec (m m' : Memory) (parkId : Int) (h : removePark m parkId = some m') :
    ∃ q park l1 l2, heapRead m.parkHeap q = some park ∧ park.id = parkId ∧
      m.parks = l1 ++ q :: l2 ∧ m'.parks = l1 ++ l2 ∧
      m'.parkHeap = heapFree m.parkHeap q ∧
      FreedOnly m.parkHeap parkId m.recordHeap m'.recordHeap ∧
      m'.date = m.date ∧ m'.time = m.time ∧ m'.idIncrementer = m.idIncrementer := by
  unfold removePark at h
  cases h1 : removeParkRecords m parkId with
  | none => simp [h1] at h
  | some m1 =>
    obtain ⟨hph, hpl, hd, ht, hi, hf⟩ := removeParkRecords_spec m m1 parkId h1
    simp only [h1] at h
    cases hu : removePark.unlink m1.parkHeap parkId m1.parks with
    | none => simp [hu] at h
    | some res =>
      obtain ⟨q, parks⟩ := res
      simp only [hu, Option.some.injEq] at h
      subst h
      rw [hph, hpl] at hu
      obtain ⟨park, l1, l2, e1, e2, e3, e4⟩ := removePark_unlink_spec _ _ _ _ _ hu
      exact ⟨q, park, l1, l2, e1, e2, e3, e4, by rw [← hph], hf, hd, ht, hi⟩

/-- The removal of a park keeps the invariants. -/
theorem wellFormed_remove (m m' : Memory) (hw : WellFormed m) (parkId : Int)
    (h : removePark m parkId = some m') : WellFormed m' := by
  obtain ⟨q, qpark, l1, l2, hq, hqid, hparks, hparks', hheap, hfreed, -, -, hidc⟩ :=
    removePark_spec m m' parkId h
  have hread : ∀ p park, heapRead m'.parkHeap p = some park →
      p ≠ q ∧ heapRead m.parkHeap p = some park := by
    intro p park hp
    rw [hheap] at hp
    exact heapRead_heapFree_some _ _ _ _ hp
  have hrec : ∀ r record, heapRead m'.recordHeap r = some record →
      heapRead m.recordHeap r = some record := by
    intro r record hr
    rcases hfreed.2 r with h1 | ⟨h1, -⟩
    · rw [← h1]; exact hr
    · rw [hr] at h1; exact Option.noConfusion h1
  have hnodup : (l1 ++ q :: l2).Nodup := hparks ▸ hw.parks_nodup
  constructor
  · intro r record hr
    rw [hheap, length_heapFree]
    exact hw.records_park r record (hrec r record hr)
  · intro p hp
    rw [hparks'] at hp
    have hpm : p ∈ m.parks := by
      rw [hparks]
      rcases List.mem_append.mp hp with h1 | h1
      · exact List.mem_append_left _ h1
      · exact List.mem_append_right _ (List.mem_cons_of_mem _ h1)
    have hpq : p ≠ q := by
      rintro rfl
      rw [List.nodup_append] at hnodup
      obtain ⟨-, hn2, hdisj⟩ := hnodup
      rcases List.mem_append.mp hp with h1 | h1
      · exact hdisj h1 (List.mem_cons_self _ _)
      · exact (List.nodup_cons.mp hn2).1 h1
    obtain ⟨park, hpk⟩ := hw.parks_live p hpm
    exact ⟨park, by rw [hheap, heapRead_heapFree_ne _ _ _ hpq]; exact hpk⟩
  · rw [hparks']
    rw [List.nodup_append] at hnodup ⊢
    obtain ⟨hn1, hn2, hdisj⟩ := hnodup
    exact ⟨hn1, (List.nodup_cons.mp hn2).2,
      fun a ha hb => hdisj ha (List.mem_cons_of_mem _ hb)⟩
  · intro p park hp
    obtain ⟨hpq, hp'⟩ := hread p park hp
    have hc : openCount m'.recordHeap p = openCount m.recordHeap p := by
      unfold openCount
      apply countP_congr_heapRead _ _ _ hfreed.1
      intro r
      rcases hfreed.2 r with h1 | ⟨h1, record, rpark, h2, h3, h4⟩
      · rw [h1]
      · rw [h1, h2]
        have hne : record.park ≠ p := by
          intro he
          rw [he, hp'] at h3
          have hparkeq : park = rpark := Option.some.inj h3
          exact hpq (hw.ids_inj p q park qpark hp' hq (by rw [hparkeq, h4, hqid]))
        simp [isOpenAt, hne]
    rw [hc]
    exact hw.occupancy_eq p park hp'
  · intro p park hp
    exact hw.occupancy_le p park (hread p park hp).2
  · intro p park hp
    rw [hidc]
    exact hw.ids p park (hread p park hp).2
  · intro p p' park park' hp hp' hid
    exact hw.ids_inj p p' park park' (hread p park hp).2 (hread p' park' hp').2 hid
  · intro p park hp
    exact hw.fees p park (hread p park hp).2

/-- Every command that returns keeps the invariants. -/
theorem wellFormed_execute (oob : Int → Int) (m m' : Memory) (c : Command)
    (out : List Printed) (hw : WellFormed m) (hid : 1 ≤ m.idIncrementer)
    (h : execute oob m c = some (m', out)) : WellFormed m' ∧ 1 ≤ m'.idIncrementer := by
  cases c with
  | p name capacity less_60 more_60 dayly =>
    rcases processCommand_p_cases m m' name capacity less_60 more_60 dayly _ h with
      ⟨h1, -⟩ | ⟨-, -, hcap, hf1, hf2, hf3, -, h1⟩
    · subst h1; exact ⟨hw, hid⟩
    · subst h1
      exact ⟨wellFormed_create m hw name capacity less_60 more_60 dayly hcap hf1 hf2 hf3 hid,
        by show 1 ≤ m.idIncrementer + 1; omega⟩
  | e nome plates data hora =>
    rcases processCommand_e_cases oob m m' nome plates data hora _ h with
      ⟨h1, -⟩ | ⟨p, park, cars, -, hpk, hocc, -, -, h1⟩
    · subst h1; exact ⟨hw, hid⟩
    · subst h1
      exact ⟨wellFormed_entry m hw p park plates _ _ cars hpk hocc, hid⟩
  | s nome plates data hora =>
    rcases processCommand_s_cases oob m m' nome plates data hora _ h with
      ⟨h1, -⟩ | ⟨r, record, park, hrec, hopen, hrp, hdates, -, h1⟩
    · subst h1; exact ⟨hw, hid⟩
    · subst h1
      have hpos := dateToInt_pos oob data (checkDates_true oob m data hora hdates).1
      have hne : dateToInt oob data ≠ NO_DATE := by
        unfold NO_DATE
        omega
      exact ⟨wellFormed_exit m hw r record park _ _ hrec hopen hrp hne, hid⟩
  | r nome =>
    rcases processCommand_r_cases m m' nome _ h with ⟨h1, -⟩ | ⟨p, park, -, -, h1, -⟩
    · subst h1; exact ⟨hw, hid⟩
    · exact ⟨wellFormed_remove m m' hw park.id h1,
        by rw [(removePark_frame m m' park.id h1).2.2]; exact hid⟩

/-- A property of the start memory of a run that every command keeps holds at its end. -/
theorem run_induction (oob : Int → Int) (P : Memory → Prop)
    (hstep : ∀ m c m' out, P m → execute oob m c = some (m', out) → P m') :
    ∀ (cmds : List Command) (m m' : Memory), P m → run oob cmds m = some m' → P m' := by
  intro cmds
  induction cmds with
  | nil =>
    intro m m' hP h
    simp only [run, Option.some.injEq] at h
    subst h
    exact hP
  | cons c rest ih =>
    intro m m' hP h
    unfold run at h
    cases hc : execute oob m c with
    | none => simp [hc] at h
    | some res =>
      obtain ⟨m1, out⟩ := res
      simp only [hc] at h
      exact ih m1 m' (hstep m c m1 out hP hc) h

/-- Every reachable memory has the invariants, and its id counter is at least 1. -/
theorem wellFormed_of_reachable (oob : Int → Int) (m : Memory) (h : Reachable oob m) :
    WellFormed m ∧ 1 ≤ m.idIncrementer := by
  obtain ⟨cmds, hrun⟩ := h
  exact run_induction oob (fun m => WellFormed m ∧ 1 ≤ m.idIncrementer)
    (fun m c m' out hP hc => wellFormed_execute oob m m' c out hP.1 hP.2 hc)
    cmds initializeSystem m ⟨wellFormed_initializeSystem, by decide⟩ hrun

/-! ## Occupancy and fees of the lots of the registry -/

/-- C12: in every reachable memory, every park of the list is allocated and satisfies
`0 <= occupancy <= capacity`. -/
theorem reachable_occupancy_bounds (oob : Int → Int) (m : Memory) (h : Reachable oob m) :
    ∀ p ∈ m.parks, ∃ park, heapRead m.parkHeap p = some park ∧
      0 ≤ park.occupancy ∧ park.occupancy ≤ park.capacity := by
  obtain ⟨hw, -⟩ := wellFormed_of_reachable oob m h
  intro p hp
  obtain ⟨park, hpk⟩ := hw.parks_live p hp
  refine ⟨park, hpk, ?_, hw.occupancy_le p park hpk⟩
  rw [hw.occupancy_eq p park hpk]
  exact Int.natCast_nonneg _

/-- Witness of C12: the memory with the parks `A` (holding `AA-11-BB`) and `B`. -/
theorem reachable_occupancy_bounds_witness :
    Reachable oobZero (memoryAfter cmdsTwoParks) ∧
      (0 : Ptr) ∈ (memoryAfter cmdsTwoParks).parks ∧
      ∃ park, heapRead (memoryAfter cmdsTwoParks).parkHeap 0 = some park ∧
        0 ≤ park.occupancy ∧ park.occupancy ≤ park.capacity :=
  ⟨⟨cmdsTwoParks, run_eq_some_memoryAfter _ (by decide!)⟩, by decide!,
    reachable_occupancy_bounds oobZero (memoryAfter cmdsTwoParks)
      ⟨cmdsTwoParks, run_eq_some_memoryAfter _ (by decide!)⟩ 0 (by decide!)⟩

/-- C19: in every reachable memory, every park of the list is allocated and satisfies
`0 < less_60 <= more_60 <= dayly`; and a creation whose name is free and whose capacity
is positive but whose fees violate that ordering prints the invalid cost message and
leaves the memory, so also the list of parks, as it is. -/
theorem reachable_fees_ordered (oob : Int → Int) (m : Memory) (h : Reachable oob m) :
    (∀ p ∈ m.parks, ∃ park, heapRead m.parkHeap p = some park ∧
      0 < park.less_60 ∧ park.less_60 ≤ park.more_60 ∧ park.more_60 ≤ park.dayly) ∧
    (∀ (name : String) (capacity : Int) (less_60 more_60 dayly : ℚ),
      listGetPark m.parkHeap m.parks name = some none → 0 < capacity →
      ¬ (0 < less_60 ∧ less_60 ≤ more_60 ∧ more_60 ≤ dayly) →
      processCommand_p m name capacity less_60 more_60 dayly =
        some (m, [.ERR_INVALID_COST])) := by
  obtain ⟨hw, -⟩ := wellFormed_of_reachable oob m h
  constructor
  · intro p hp
    obtain ⟨park, hpk⟩ := hw.parks_live p hp
    exact ⟨park, hpk, hw.fees p park hpk⟩
  · intro name capacity less_60 more_60 dayly hname hcap hfees
    have hval := validationsP_eq m
      { name := name, capacity := capacity, occupancy := 0, id := 0, less_60 := less_60,
        more_60 := more_60, dayly := dayly, records := [] } none hname
    have hff : firstFailing (createChecks none m.parks.length capacity less_60 more_60 dayly) =
        some .InvalidCost := by
      simp [createChecks, firstFailing, not_le.mpr hcap, hfees]
    simp only [hff] at hval
    simp only [processCommand_p, hval, CreateError.line]

/-- Witness of C19: in the memory with the park `A`, whose fees are 1, 2 and 10, the
creation of a park `C` with the fees 2, 1 and 10 is refused for its cost. -/
theorem reachable_fees_ordered_witness :
    (Reachable oobZero (memoryAfter cmdsOneCar) ∧
      (0 : Ptr) ∈ (memoryAfter cmdsOneCar).parks ∧
      ∃ park, heapRead (memoryAfter cmdsOneCar).parkHeap 0 = some park ∧
        0 < park.less_60 ∧ park.less_60 ≤ park.more_60 ∧ park.more_60 ≤ park.dayly) ∧
    processCommand_p (memoryAfter cmdsOneCar) "C" 5 2 1 10 =
      some (memoryAfter cmdsOneCar, [.ERR_INVALID_COST]) :=
  ⟨⟨⟨cmdsOneCar, run_eq_some_memoryAfter _ (by decide!)⟩, by decide!,
    (reachable_fees_ordered oobZero (memoryAfter cmdsOneCar)
      ⟨cmdsOneCar, run_eq_some_memoryAfter _ (by decide!)⟩).1 0 (by decide!)⟩,
   (reachable_fees_ordered oobZero (memoryAfter cmdsOneCar)
      ⟨cmdsOneCar, run_eq_some_memoryAfter _ (by decide!)⟩).2 "C" 5 2 1 10 (by decide!)
      (by decide) (by norm_num)⟩

/-! ## The id counter -/

/-- One command moves the id counter by 1 when it is a successful creation and leaves it
as it is otherwise. -/
theorem execute_idIncrementer (oob : Int → Int) (m m' : Memory) (c : Command)
    (out : List Printed) (h : execute oob m c = some (m', out)) :
    m'.idIncrementer = m.idIncrementer + (createdNow c out : Int) := by
  cases c with
  | p name capacity less_60 more_60 dayly =>
    rcases processCommand_p_cases m m' name capacity less_60 more_60 dayly _ h with
      ⟨h1, e, h2, -⟩ | ⟨h2, -, -, -, -, -, -, h1⟩
    · subst h1 h2; simp [createdNow]
    · subst h1 h2; simp [createdNow]
  | e nome plates data hora =>
    rcases processCommand_e_cases oob m m' nome plates data hora _ h with
      ⟨h1, -⟩ | ⟨p, park, cars, -, -, -, -, -, h1⟩
    · subst h1; simp [createdNow]
    · subst h1; simp [createdNow]
  | s nome plates data hora =>
    rcases processCommand_s_cases oob m m' nome plates data hora _ h with
      ⟨h1, -⟩ | ⟨r, record, park, -, -, -, -, -, h1⟩
    · subst h1; simp [createdNow]
    · subst h1; simp [createdNow]
  | r nome =>
    rcases processCommand_r_cases m m' nome _ h with ⟨h1, -⟩ | ⟨p, park, -, -, h1, -⟩
    · subst h1; simp [createdNow]
    · rw [(removePark_frame m m' park.id h1).2.2]; simp [createdNow]

/-- At the end of a run the id counter is its value at the start plus the number of
successful creations of the run. -/
theorem run_idIncrementer (oob : Int → Int) :
    ∀ (cmds : List Command) (m m' : Memory), run oob cmds m = some m' →
      m'.idIncrementer = m.idIncrementer + (createdCount oob cmds m : Int) := by
  intro cmds
  induction cmds with
  | nil =>
    intro m m' h
    simp only [run, Option.some.injEq] at h
    subst h
    simp [createdCount]
  | cons c rest ih =>
    intro m m' h
    unfold run at h
    unfold createdCount
    cases hc : execute oob m c with
    | none => simp [hc] at h
    | some res =>
      obtain ⟨m1, out⟩ := res
      simp only [hc] at h ⊢
      rw [ih m1 m' h, execute_idIncrementer oob m m1 c out hc]
      push_cast
      ring

/-- A run of two lists of commands one after the other. -/
theorem run_append (oob : Int → Int) :
    ∀ (l1 l2 : List Command) (m : Memory),
      run oob (l1 ++ l2) m = (run oob l1 m).bind (run oob l2) := by
  intro l1
  induction l1 with
  | nil => intro l2 m; simp [run]
  | cons c rest ih =>
    intro l2 m
    simp only [List.cons_append, run]
    cases hc : execute oob m c with
    | none => simp
    | some res =>
      obtain ⟨m1, out⟩ := res
      simp only
      exact ih l2 m1

/-- C20: a successful lot creation, in the memory reached by the commands `cmds`, appends
the new park at the end of the list with occupancy 0, an empty list of records and the
id counter as id, and adds exactly 1 to the counter; no other park, no record, nor the
table or the clock changes.  The counter starts at 1 and is 1 plus the number of
successful creations so far, so the k-th park ever created gets the id k; that id is
above the id of every park of the list and above the id given by every earlier creation
of the run, whatever was removed in between. -/
theorem processCommand_p_effect (oob : Int → Int) (cmds : List Command) (m m' : Memory)
    (name : String) (capacity : Int) (less_60 more_60 dayly : ℚ)
    (hrun : run oob cmds initializeSystem = some m)
    (h : processCommand_p m name capacity less_60 more_60 dayly = some (m', [])) :
    m'.parks = m.parks ++ [m.parkHeap.length] ∧
      heapRead m.parkHeap m.parkHeap.length = none ∧
      heapRead m'.parkHeap m.parkHeap.length =
        some { name := name, capacity := capacity, occupancy := 0, id := m.idIncrementer,
               less_60 := less_60, more_60 := more_60, dayly := dayly, records := [] } ∧
      m'.idIncrementer = m.idIncrementer + 1 ∧
      initializeSystem.idIncrementer = 1 ∧
      m.idIncrementer = (createdCount oob cmds initializeSystem : Int) + 1 ∧
      (∀ p ∈ m.parks, ∃ park, heapRead m.parkHeap p = some park ∧
        heapRead m'.parkHeap p = some park ∧ park.id < m.idIncrementer) ∧
      (∀ (cmds1 cmds2 : List Command) (m0 m1 : Memory) (name0 : String) (capacity0 : Int)
        (a b c : ℚ), cmds = cmds1 ++ Command.p name0 capacity0 a b c :: cmds2 →
        run oob cmds1 initializeSystem = some m0 →
        processCommand_p m0 name0 capacity0 a b c = some (m1, []) →
        m0.idIncrementer < m.idIncrementer) ∧
      m'.recordHeap = m.recordHeap ∧ m'.cars = m.cars ∧ m'.date = m.date ∧
      m'.time = m.time := by
  obtain ⟨hw, -⟩ := wellFormed_of_reachable oob m ⟨cmds, hrun⟩
  have hcount := run_idIncrementer oob cmds initializeSystem m hrun
  rcases processCommand_p_cases m m' name capacity less_60 more_60 dayly _ h with
    ⟨-, e, h2, -⟩ | ⟨-, -, -, -, -, -, -, h1⟩
  · exact absurd h2 (List.cons_ne_nil _ _).symm
  · subst h1
    refine ⟨rfl, heapRead_length _, heapRead_heapAlloc_new m.parkHeap _, rfl, rfl, ?_, ?_, ?_,
      rfl, rfl, rfl, rfl⟩
    · rw [hcount]
      show (1 : Int) + _ = _
      ring
    · intro p hp
      obtain ⟨park, hpk⟩ := hw.parks_live p hp
      exact ⟨park, hpk, heapRead_append_of_some _ _ _ _ hpk, (hw.ids p park hpk).2⟩
    · intro cmds1 cmds2 m0 m1 name0 capacity0 a b c hcmds hrun0 hcreate
      rw [hcmds, run_append, hrun0] at hrun
      simp only [Option.bind, run, execute, hcreate] at hrun
      have h01 := execute_idIncrementer oob m0 m1 (.p name0 capacity0 a b c) [] hcreate
      have h1m := run_idIncrementer oob cmds2 m1 m hrun
      simp only [createdNow, Nat.cast_one] at h01
      have hnn : (0 : Int) ≤ (createdCount oob cmds2 m1 : Int) := Int.natCast_nonneg _
      omega

/-- Witness of C20: in the memory reached by `cmdsOneCar`, where one park was created,
the creation of the park `C` succeeds and moves the id counter from 2 to 3. -/
theorem processCommand_p_effect_witness :
    ∃ m', processCommand_p (memoryAfter cmdsOneCar) "C" 5 1 2 10 = some (m', []) ∧
      m'.parks = (memoryAfter cmdsOneCar).parks ++ [(memoryAfter cmdsOneCar).parkHeap.length] ∧
      m'.idIncrementer = (memoryAfter cmdsOneCar).idIncrementer + 1 ∧
      (memoryAfter cmdsOneCar).idIncrementer =
        (createdCount oobZero cmdsOneCar initializeSystem : Int) + 1 := by
  have h := eq_some_of_map_snd (processCommand_p (memoryAfter cmdsOneCar) "C" 5 1 2 10)
    initializeSystem [] (by decide!)
  obtain ⟨h1, -, -, h4, -, h6, -⟩ :=
    processCommand_p_effect oobZero cmdsOneCar (memoryAfter cmdsOneCar) _ "C" 5 1 2 10
      (run_eq_some_memoryAfter _ (by decide!)) h
  exact ⟨_, h, h1, h4, h6⟩

/-! ## Two open records of one plate -/

/-- The memory of `cmdsTwoOpen` is reached by the program. -/
theorem cmdsTwoOpen_reachable : Reachable oobZero (memoryAfter cmdsTwoOpen) :=
  ⟨cmdsTwoOpen, run_eq_some_memoryAfter _ (by decide!)⟩

/-- In the memory of `cmdsTwoOpen` the records 1 and 2 are open stays of `AA-70-AU` in
the park at address 1. -/
theorem cmdsTwoOpen_records :
    heapRead (memoryAfter cmdsTwoOpen).recordHeap 1 =
        some { plates := "AA-70-AU", park := 1, entryDay := 738761, entryHour := 601,
               exitDay := NO_DATE, exitHour := NO_TIME, paid := 0 } ∧
      heapRead (memoryAfter cmdsTwoOpen).recordHeap 2 =
        some { plates := "AA-70-AU", park := 1, entryDay := 738762, entryHour := 600,
               exitDay := NO_DATE, exitHour := NO_TIME, paid := 0 } := by
  refine ⟨by decide!, by decide!⟩

/-- In the memory of `cmdsTwoOpen` both records are stored in the table, in the slots
1722 and 1721, and the park at address 1 is the park `B` of the list. -/
theorem cmdsTwoOpen_table :
    (memoryAfter cmdsTwoOpen).cars 1722 =
        some { key := sumAsciiValues "AA-70-AU", records := [1] } ∧
      (memoryAfter cmdsTwoOpen).cars 1721 =
        some { key := sumAsciiValues "AA-70-AU", records := [2] } ∧
      listGetPark (memoryAfter cmdsTwoOpen).parkHeap (memoryAfter cmdsTwoOpen).parks "B" =
        some (some 1) := by
  refine ⟨by decide!, by decide!, by decide!⟩

/-- C11, the code at the failing input: the memory reached by `cmdsTwoOpen` (create `A`
and `B`, `AA-09-AA` enters `A`, `AA-70-AU` enters `B`, `A` is removed, `AA-70-AU` enters
`B` again) holds two different records of the plate `AA-70-AU` with no exit, both stored
in the table and both in the park `B`. -/
theorem two_open_records_of_one_plate :
    Reachable oobZero (memoryAfter cmdsTwoOpen) ∧
      ∃ r1 r2 record1 record2, r1 ≠ r2 ∧
        heapRead (memoryAfter cmdsTwoOpen).recordHeap r1 = some record1 ∧
        heapRead (memoryAfter cmdsTwoOpen).recordHeap r2 = some record2 ∧
        record1.plates = "AA-70-AU" ∧ record2.plates = "AA-70-AU" ∧
        record1.exitDay = NO_DATE ∧ record2.exitDay = NO_DATE ∧
        (∃ i node, (memoryAfter cmdsTwoOpen).cars i = some node ∧ r1 ∈ node.records) ∧
        (∃ i node, (memoryAfter cmdsTwoOpen).cars i = some node ∧ r2 ∈ node.records) ∧
        listGetPark (memoryAfter cmdsTwoOpen).parkHeap (memoryAfter cmdsTwoOpen).parks "B" =
          some (some record1.park) ∧
        record2.park = record1.park :=
  ⟨cmdsTwoOpen_reachable, 1, 2, _, _, by decide, cmdsTwoOpen_records.1, cmdsTwoOpen_records.2,
    rfl, rfl, rfl, rfl, ⟨1722, _, cmdsTwoOpen_table.1, List.mem_singleton.mpr rfl⟩,
    ⟨1721, _, cmdsTwoOpen_table.2.1, List.mem_singleton.mpr rfl⟩, cmdsTwoOpen_table.2.2, rfl⟩

/-! ## The temporal codec -/

/-- Inside the table `days[]` the code reads the lengths of the fixed calendar. -/
theorem getDaysOfMonth_eq_spec (oob : Int → Int) (month : Int) (h1 : 1 ≤ month)
    (h12 : month ≤ 12) : getDaysOfMonth oob month = specDaysInMonth month := by
  have hm : month = 1 ∨ month = 2 ∨ month = 3 ∨ month = 4 ∨ month = 5 ∨ month = 6 ∨
      month = 7 ∨ month = 8 ∨ month = 9 ∨ month = 10 ∨ month = 11 ∨ month = 12 := by omega
  rcases hm with h | h | h | h | h | h | h | h | h | h | h | h <;> subst h <;> rfl

/-- For a month of the calendar the code sums the lengths of the months before it. -/
theorem sumDaysAllMonths_eq_spec (oob : Int → Int) (month : Int) (h1 : 1 ≤ month)
    (h12 : month ≤ 12) : sumDaysAllMonths oob month = specDaysBeforeMonth month := by
  have hm : month = 1 ∨ month = 2 ∨ month = 3 ∨ month = 4 ∨ month = 5 ∨ month = 6 ∨
      month = 7 ∨ month = 8 ∨ month = 9 ∨ month = 10 ∨ month = 11 ∨ month = 12 := by omega
  rcases hm with h | h | h | h | h | h | h | h | h | h | h | h <;> subst h <;> rfl

/-- The days before each month of the calendar. -/
theorem specDaysBeforeMonth_values :
    specDaysBeforeMonth 1 = 0 ∧ specDaysBeforeMonth 2 = 31 ∧ specDaysBeforeMonth 3 = 59 ∧
      specDaysBeforeMonth 4 = 90 ∧ specDaysBeforeMonth 5 = 120 ∧ specDaysBeforeMonth 6 = 151 ∧
      specDaysBeforeMonth 7 = 181 ∧ specDaysBeforeMonth 8 = 212 ∧ specDaysBeforeMonth 9 = 243 ∧
      specDaysBeforeMonth 10 = 273 ∧ specDaysBeforeMonth 11 = 304 ∧
      specDaysBeforeMonth 12 = 334 := by
  refine ⟨rfl, rfl, rfl, rfl, rfl, rfl, rfl, rfl, rfl, rfl, rfl, rfl⟩

/-- Whatever value the read outside the table `days[]` returns, when it returns: for a
year that is not negative, `checkDateFormat` accepts the date exactly when
`1 <= month <= 12` and `1 <= day <= daysInMonth(month)` in the fixed calendar, and on the
integers the encoding of an accepted date is
`year*365 + (sum of the lengths of the months before month) + day`.  (That the read
outside the table is made at all is the subject of `checkDateFormat_reads_outside_days`.) -/
theorem checkDateFormat_iff_calendar (oob : Int → Int) (d : DateText) (hy : 0 ≤ d.year) :
    (checkDateFormat oob d = true ↔
        1 ≤ d.month ∧ d.month ≤ 12 ∧ 1 ≤ d.day ∧ d.day ≤ specDaysInMonth d.month) ∧
      (d.month < 1 ∨ 12 < d.month → checkDateFormat oob d = false) ∧
      (checkDateFormat oob d = true →
        dateToInt oob d = d.year * 365 + specDaysBeforeMonth d.month + d.day) := by
  have hiff : checkDateFormat oob d = true ↔
      1 ≤ d.month ∧ d.month ≤ 12 ∧ 1 ≤ d.day ∧ d.day ≤ specDaysInMonth d.month := by
    constructor
    · intro h
      obtain ⟨h1, h2, h3, h4, -⟩ := checkDateFormat_true oob d h
      rw [getDaysOfMonth_eq_spec oob d.month h3 h4] at h2
      exact ⟨h3, h4, h1, h2⟩
    · rintro ⟨h3, h4, h1, h2⟩
      rw [← getDaysOfMonth_eq_spec oob d.month h3 h4] at h2
      unfold checkDateFormat
      have e1 : ¬ d.day < 1 := by omega
      have e2 : ¬ d.day > getDaysOfMonth oob d.month := by omega
      have e3 : ¬ d.month < 1 := by omega
      have e4 : ¬ d.month > 12 := by omega
      have e5 : ¬ d.year < 0 := by omega
      simp [e1, e2, e3, e4, e5]
  refine ⟨hiff, ?_, ?_⟩
  · intro hm
    cases hc : checkDateFormat oob d with
    | false => rfl
    | true =>
      obtain ⟨h3, h4, -, -⟩ := hiff.mp hc
      omega
  · intro h
    obtain ⟨h3, h4, -, -⟩ := hiff.mp h
    unfold dateToInt
    rw [sumDaysAllMonths_eq_spec oob d.month h3 h4]

/-- An instance: the date 29-02-2024 is rejected, February having 28 days. -/
theorem checkDateFormat_iff_calendar_witness :
    (0 : Int) ≤ 2024 ∧ checkDateFormat oobZero ⟨29, 2, 2024⟩ = false ∧
      ¬ ((29 : Int) ≤ specDaysInMonth 2) := by
  have h := (checkDateFormat_iff_calendar oobZero ⟨29, 2, 2024⟩ (by decide)).1
  have hn : ¬ ((29 : Int) ≤ specDaysInMonth 2) := by decide
  refine ⟨by decide, ?_, hn⟩
  cases hc : checkDateFormat oobZero ⟨29, 2, 2024⟩ with
  | false => rfl
  | true => exact absurd (h.mp hc).2.2.2 hn

/-- The encoding of an accepted date, with the days before its month and its day between
1 and the length of the month. -/
theorem dateToInt_of_valid (oob : Int → Int) (d : DateText)
    (h : checkDateFormat oob d = true) :
    dateToInt oob d = d.year * 365 + specDaysBeforeMonth d.month + d.day ∧
      1 ≤ d.month ∧ d.month ≤ 12 ∧ 1 ≤ d.day ∧ d.day ≤ specDaysInMonth d.month ∧
      0 ≤ d.year := by
  obtain ⟨h1, h2, h3, h4, h5⟩ := checkDateFormat_true oob d h
  rw [getDaysOfMonth_eq_spec oob d.month h3 h4] at h2
  refine ⟨?_, h3, h4, h1, h2, h5⟩
  unfold dateToInt
  rw [sumDaysAllMonths_eq_spec oob d.month h3 h4]

/-- The day of the year of a date of the calendar: it grows with the month, then with the
day, and lies between 1 and 365. -/
theorem dayOfYear_lt (m1 d1 m2 d2 : Int) (h1 : 1 ≤ m1) (h1' : m1 ≤ 12) (h2 : 1 ≤ m2)
    (h2' : m2 ≤ 12) (hd1 : 1 ≤ d1) (hd1' : d1 ≤ specDaysInMonth m1) (hd2 : 1 ≤ d2)
    (hd2' : d2 ≤ specDaysInMonth m2) :
    1 ≤ specDaysBeforeMonth m1 + d1 ∧ specDaysBeforeMonth m1 + d1 ≤ 365 ∧
      (m1 < m2 → specDaysBeforeMonth m1 + d1 < specDaysBeforeMonth m2 + d2) := by
  obtain ⟨v1, v2, v3, v4, v5, v6, v7, v8, v9, v10, v11, v12⟩ := specDaysBeforeMonth_values
  have hm1 : m1 = 1 ∨ m1 = 2 ∨ m1 = 3 ∨ m1 = 4 ∨ m1 = 5 ∨ m1 = 6 ∨
      m1 = 7 ∨ m1 = 8 ∨ m1 = 9 ∨ m1 = 10 ∨ m1 = 11 ∨ m1 = 12 := by omega
  have hm2 : m2 = 1 ∨ m2 = 2 ∨ m2 = 3 ∨ m2 = 4 ∨ m2 = 5 ∨ m2 = 6 ∨
      m2 = 7 ∨ m2 = 8 ∨ m2 = 9 ∨ m2 = 10 ∨ m2 = 11 ∨ m2 = 12 := by omega
  have b1 : specDaysBeforeMonth m1 + specDaysInMonth m1 ≤ 365 ∧
      0 ≤ specDaysBeforeMonth m1 ∧
      (m1 < m2 → specDaysBeforeMonth m1 + specDaysInMonth m1 ≤ specDaysBeforeMonth m2) := by
    rcases hm1 with h | h | h | h | h | h | h | h | h | h | h | h <;> subst h <;>
      refine ⟨by decide, by decide, ?_⟩ <;> intro hlt <;>
      rcases hm2 with h | h | h | h | h | h | h | h | h | h | h | h <;> subst h <;>
      first
        | (exact absurd hlt (by decide))
        | decide
  obtain ⟨b1, b2, b3⟩ := b1
  refine ⟨by omega, by omega, fun hlt => ?_⟩
  have := b3 hlt
  omega

/-- On the integers: for the dates accepted by `checkDateFormat`, `a` is earlier than `b`
in (year, month, day) order exactly when `dateToInt a < dateToInt b`, and two accepted
dates with the same encoding are the same date. -/
theorem dateToInt_strictMono (oob : Int → Int) (a b : DateText)
    (ha : checkDateFormat oob a = true) (hb : checkDateFormat oob b = true) :
    (dateEarlier a b ↔ dateToInt oob a < dateToInt oob b) ∧
      (dateToInt oob a = dateToInt oob b → a = b) := by
  obtain ⟨ea, a1, a2, a3, a4, a5⟩ := dateToInt_of_valid oob a ha
  obtain ⟨eb, b1, b2, b3, b4, b5⟩ := dateToInt_of_valid oob b hb
  obtain ⟨p1, p2, p3⟩ := dayOfYear_lt a.month a.day b.month b.day a1 a2 b1 b2 a3 a4 b3 b4
  obtain ⟨q1, q2, q3⟩ := dayOfYear_lt b.month b.day a.month a.day b1 b2 a1 a2 b3 b4 a3 a4
  rw [ea, eb]
  have hfwd : dateEarlier a b →
      a.year * 365 + specDaysBeforeMonth a.month + a.day <
        b.year * 365 + specDaysBeforeMonth b.month + b.day := by
    rintro (h | ⟨h, h' | ⟨h', h''⟩⟩)
    · omega
    · have := p3 h'
      omega
    · rw [h, h']
      omega
  have hbwd : dateEarlier b a →
      b.year * 365 + specDaysBeforeMonth b.month + b.day <
        a.year * 365 + specDaysBeforeMonth a.month + a.day := by
    rintro (h | ⟨h, h' | ⟨h', h''⟩⟩)
    · omega
    · have := q3 h'
      omega
    · rw [h, h']
      omega
  have htri : dateEarlier a b ∨ a = b ∨ dateEarlier b a := by
    rcases lt_trichotomy a.year b.year with h | h | h
    · exact Or.inl (Or.inl h)
    · rcases lt_trichotomy a.month b.month with h' | h' | h'
      · exact Or.inl (Or.inr ⟨h, Or.inl h'⟩)
      · rcases lt_trichotomy a.day b.day with h'' | h'' | h''
        · exact Or.inl (Or.inr ⟨h, Or.inr ⟨h', h''⟩⟩)
        · right; left
          cases a; cases b
          simp only at h h' h''
          subst h h' h''
          rfl
        · exact Or.inr (Or.inr (Or.inr ⟨h.symm, Or.inr ⟨h'.symm, h''⟩⟩))
      · exact Or.inr (Or.inr (Or.inr ⟨h.symm, Or.inl h'⟩))
    · exact Or.inr (Or.inr (Or.inl h))
  refine ⟨⟨hfwd, fun hlt => ?_⟩, fun heq => ?_⟩
  · rcases htri with h | h | h
    · exact h
    · subst h; omega
    · have := hbwd h; omega
  · rcases htri with h | h | h
    · have := hfwd h; omega
    · exact h
    · have := hbwd h; omega

/-- An instance: 31-12-2023 is earlier than 01-01-2024. -/
theorem dateToInt_strictMono_witness :
    dateEarlier ⟨31, 12, 2023⟩ ⟨1, 1, 2024⟩ ∧
      dateToInt oobZero ⟨31, 12, 2023⟩ < dateToInt oobZero ⟨1, 1, 2024⟩ := by
  have h := (dateToInt_strictMono oobZero ⟨31, 12, 2023⟩ ⟨1, 1, 2024⟩ (by decide)
    (by decide)).1
  have he : dateEarlier ⟨31, 12, 2023⟩ ⟨1, 1, 2024⟩ := Or.inl (by decide)
  exact ⟨he, h.mp he⟩

/-- C25: `checkTimeFormat` accepts exactly `0 <= hours <= 23` and `0 <= minutes <= 59`,
`timeToInt` returns `hours*60 + minutes`, and for every `t` in `[0, 1439]` the two
integers printed by `intToTime` form an accepted time that `timeToInt` maps back to
`t`. -/
theorem time_codec (tt : TimeText) (t : Int) (h0 : 0 ≤ t) (h1 : t ≤ 1439) :
    (checkTimeFormat tt = true ↔
        0 ≤ tt.hours ∧ tt.hours ≤ 23 ∧ 0 ≤ tt.minutes ∧ tt.minutes ≤ 59) ∧
      timeToInt tt = tt.hours * 60 + tt.minutes ∧
      checkTimeFormat (intToTime t) = true ∧ timeToInt (intToTime t) = t := by
  have hiff : ∀ x : TimeText, checkTimeFormat x = true ↔
      0 ≤ x.hours ∧ x.hours ≤ 23 ∧ 0 ≤ x.minutes ∧ x.minutes ≤ 59 := by
    intro x
    unfold checkTimeFormat
    constructor
    · intro h
      split_ifs at h with hc
      simp only [Bool.or_eq_true, decide_eq_true_eq, not_or, not_lt] at hc
      omega
    · rintro ⟨e1, e2, e3, e4⟩
      have f1 : ¬ x.hours < 0 := by omega
      have f2 : ¬ x.hours > 23 := by omega
      have f3 : ¬ x.minutes < 0 := by omega
      have f4 : ¬ x.minutes > 59 := by omega
      simp [f1, f2, f3, f4]
  have hdiv : Int.tdiv t 60 = t / 60 := Int.tdiv_eq_ediv h0 (by norm_num)
  have hmod : Int.tmod t 60 = t % 60 := Int.tmod_eq_emod h0 (by norm_num)
  refine ⟨hiff tt, rfl, ?_, ?_⟩
  · rw [hiff]
    show 0 ≤ Int.tdiv t 60 ∧ Int.tdiv t 60 ≤ 23 ∧ 0 ≤ Int.tmod t 60 ∧ Int.tmod t 60 ≤ 59
    rw [hdiv, hmod]
    omega
  · show Int.tdiv t 60 * 60 + Int.tmod t 60 = t
    rw [hdiv, hmod]
    omega

/-- Witness of C25: the time 23:59 and the value 1439. -/
theorem time_codec_witness :
    (0 : Int) ≤ 1439 ∧ intToTime 1439 = ⟨23, 59⟩ ∧ checkTimeFormat (intToTime 1439) = true ∧
      timeToInt (intToTime 1439) = 1439 :=
  ⟨by decide, by decide,
    (time_codec ⟨23, 59⟩ 1439 (by decide) (by decide)).2.2.1,
    (time_codec ⟨23, 59⟩ 1439 (by decide) (by decide)).2.2.2⟩

/-! ## Printing a date back -/

/-- One step of the loop of `intToDate` that moves to the next month. -/
theorem intToDate_loop_next (oob : Int → Int) (i : Int) (rest : List Int) (d month : Int)
    (h : ¬ d - getDaysOfMonth oob i ≤ 0) :
    intToDate.loop oob (i :: rest) d month =
      intToDate.loop oob rest (d - getDaysOfMonth oob i) (month + 1) := by
  rw [intToDate.loop, if_neg h]

/-- The step of the loop of `intToDate` that leaves it. -/
theorem intToDate_loop_break (oob : Int → Int) (i : Int) (rest : List Int) (d month : Int)
    (h : d - getDaysOfMonth oob i ≤ 0) :
    intToDate.loop oob (i :: rest) d month = (d, month + 1) := by
  rw [intToDate.loop, if_pos h]

/-- The lengths of the months as `getDaysOfMonth` returns them. -/
theorem getDaysOfMonth_values (oob : Int → Int) :
    getDaysOfMonth oob 1 = 31 ∧ getDaysOfMonth oob 2 = 28 ∧ getDaysOfMonth oob 3 = 31 ∧
      getDaysOfMonth oob 4 = 30 ∧ getDaysOfMonth oob 5 = 31 ∧ getDaysOfMonth oob 6 = 30 ∧
      getDaysOfMonth oob 7 = 31 ∧ getDaysOfMonth oob 8 = 31 ∧ getDaysOfMonth oob 9 = 30 ∧
      getDaysOfMonth oob 10 = 31 ∧ getDaysOfMonth oob 11 = 30 ∧ getDaysOfMonth oob 12 = 31 := by
  refine ⟨rfl, rfl, rfl, rfl, rfl, rfl, rfl, rfl, rfl, rfl, rfl, rfl⟩

/-- The loop of `intToDate` finds the month and the day of every day of the year from 1
to 364, that is, of every date of the calendar but the 31st of December. -/
theorem intToDate_loop_of_valid (oob : Int → Int) (month day : Int) (h1 : 1 ≤ month)
    (h12 : month ≤ 12) (hd1 : 1 ≤ day) (hd : day ≤ specDaysInMonth month)
    (hlast : ¬ (month = 12 ∧ day = 31)) :
    intToDate.loop oob [1, 2, 3, 4, 5, 6, 7, 8, 9, 10, 11, 12]
      (specDaysBeforeMonth month + day) 0 = (day, month) := by
  obtain ⟨v1, v2, v3, v4, v5, v6, v7, v8, v9, v10, v11, v12⟩ := specDaysBeforeMonth_values
  obtain ⟨g1, g2, g3, g4, g5, g6, g7, g8, g9, g10, g11, g12⟩ := getDaysOfMonth_values oob
  have hm : month = 1 ∨ month = 2 ∨ month = 3 ∨ month = 4 ∨ month = 5 ∨ month = 6 ∨
      month = 7 ∨ month = 8 ∨ month = 9 ∨ month = 10 ∨ month = 11 ∨ month = 12 := by omega
  rcases hm with h | h | h | h | h | h | h | h | h | h | h | h <;> subst h <;>
    simp only [specDaysInMonth] at hd <;> norm_num at hd hlast <;>
    simp only [v1, v2, v3, v4, v5, v6, v7, v8, v9, v10, v11, v12] <;>
    repeat (first
      | (rw [intToDate_loop_break oob _ _ _ _
            (by simp only [g1, g2, g3, g4, g5, g6, g7, g8, g9, g10, g11, g12]; omega)]
         simp only [Prod.mk.injEq]
         constructor <;> omega)
      | (rw [intToDate_loop_next oob _ _ _ _
            (by simp only [g1, g2, g3, g4, g5, g6, g7, g8, g9, g10, g11, g12]; omega)]
         simp only [g1, g2, g3, g4, g5, g6, g7, g8, g9, g10, g11, g12]))

/-- Every accepted date but the 31st of December is printed back by `intToDate` as it
is. -/
theorem intToDate_dateToInt (oob : Int → Int) (d : DateText)
    (h : checkDateFormat oob d = true) (hlast : ¬ (d.month = 12 ∧ d.day = 31)) :
    intToDate oob (dateToInt oob d) = d := by
  obtain ⟨e, h1, h12, hd1, hd, hy⟩ := dateToInt_of_valid oob d h
  obtain ⟨p1, p2, -⟩ := dayOfYear_lt d.month d.day d.month d.day h1 h12 h1 h12 hd1 hd hd1 hd
  have p3 : specDaysBeforeMonth d.month + d.day ≤ 364 := by
    obtain ⟨v1, v2, v3, v4, v5, v6, v7, v8, v9, v10, v11, v12⟩ := specDaysBeforeMonth_values
    have hm : d.month = 12 ∨ d.month ≤ 11 := by omega
    rcases hm with hm | hm
    · rw [hm] at hd ⊢
      have : d.day ≠ 31 := fun h31 => hlast ⟨hm, h31⟩
      simp only [specDaysInMonth] at hd
      norm_num at hd
      omega
    · obtain ⟨-, q2, q3⟩ := dayOfYear_lt d.month d.day 12 1 h1 h12 (by decide) (by decide)
        hd1 hd (by decide) (by decide)
      have := q3 (by omega)
      omega
  have hnn : 0 ≤ d.year * 365 + specDaysBeforeMonth d.month + d.day := by omega
  have hyear : Int.tdiv (dateToInt oob d) 365 = d.year := by
    rw [e, Int.tdiv_eq_ediv hnn (by norm_num)]
    omega
  unfold intToDate
  simp only [hyear]
  have hrem : dateToInt oob d - d.year * 365 = specDaysBeforeMonth d.month + d.day := by
    rw [e]; ring
  rw [hrem, intToDate_loop_of_valid oob d.month d.day h1 h12 hd1 hd hlast]

/-- C22, the code at the failing input: 739125 is the encoding of the accepted date
31-12-2024; `intToDate` prints it as day 0, month 1, year 2025, which `checkDateFormat`
rejects (the day is below 1), although `dateToInt` maps the three integers back to
739125. -/
theorem intToDate_not_accepted :
    checkDateFormat oobZero ⟨31, 12, 2024⟩ = true ∧
      dateToInt oobZero ⟨31, 12, 2024⟩ = 739125 ∧
      intToDate oobZero 739125 = ⟨0, 1, 2025⟩ ∧
      checkDateFormat oobZero (intToDate oobZero 739125) = false ∧
      dateToInt oobZero (intToDate oobZero 739125) = 739125 := by
  refine ⟨by decide, by decide, by decide, by decide, by decide⟩

/-- C23, the code at the failing inputs: for every year that is not negative the date
31-12-year is accepted and `intToDate` prints its encoding as day 0, month 1 of the next
year; so 31-12-2024 is printed as 00-01-2025. -/
theorem intToDate_december_31 (oob : Int → Int) (year : Int) (hy : 0 ≤ year) :
    checkDateFormat oob ⟨31, 12, year⟩ = true ∧
      intToDate oob (dateToInt oob ⟨31, 12, year⟩) = ⟨0, 1, year + 1⟩ ∧
      intToDate oob (dateToInt oob ⟨31, 12, year⟩) ≠ ⟨31, 12, year⟩ := by
  have hv : checkDateFormat oob ⟨31, 12, year⟩ = true := by
    rw [(checkDateFormat_iff_calendar oob ⟨31, 12, year⟩ hy).1]
    show (1 : Int) ≤ 12 ∧ (12 : Int) ≤ 12 ∧ (1 : Int) ≤ 31 ∧ (31 : Int) ≤ specDaysInMonth 12
    decide
  obtain ⟨e, -⟩ := dateToInt_of_valid oob ⟨31, 12, year⟩ hv
  have he : dateToInt oob ⟨31, 12, year⟩ = (year + 1) * 365 := by
    rw [e]
    show year * 365 + specDaysBeforeMonth 12 + 31 = (year + 1) * 365
    rw [specDaysBeforeMonth_values.2.2.2.2.2.2.2.2.2.2.2]
    ring
  have hyear : Int.tdiv ((year + 1) * 365) 365 = year + 1 := by
    rw [Int.tdiv_eq_ediv (by omega) (by norm_num)]
    omega
  have hprint : intToDate oob (dateToInt oob ⟨31, 12, year⟩) = ⟨0, 1, year + 1⟩ := by
    rw [he]
    unfold intToDate
    simp only [hyear, sub_self]
    rw [intToDate_loop_break oob 1 _ 0 0 (by rw [(getDaysOfMonth_values oob).1]; decide)]
    rfl
  refine ⟨hv, hprint, ?_⟩
  rw [hprint]
  intro hcontra
  have h0 : (0 : Int) = 31 := congrArg DateText.day hcontra
  exact absurd h0 (by decide)

/-- Witness of C23 at the year 2024. -/
theorem intToDate_december_31_witness :
    (0 : Int) ≤ 2024 ∧ checkDateFormat oobZero ⟨31, 12, 2024⟩ = true ∧
      intToDate oobZero (dateToInt oobZero ⟨31, 12, 2024⟩) = ⟨0, 1, 2024 + 1⟩ :=
  ⟨by decide, (intToDate_december_31 oobZero 2024 (by decide)).1,
    (intToDate_december_31 oobZero 2024 (by decide)).2.1⟩

/-! ## Daily totals -/

/-- The values kept by `firstOccurrences` are the values of the list. -/
theorem mem_firstOccurrences (l : List Int) (d : Int) : d ∈ firstOccurrences l ↔ d ∈ l := by
  induction l with
  | nil => simp [firstOccurrences]
  | cons x rest ih =>
    simp only [firstOccurrences, List.mem_cons, List.mem_filter, ih, decide_eq_true_eq]
    constructor
    · rintro (h | ⟨h, -⟩)
      · exact Or.inl h
      · exact Or.inr h
    · intro h
      by_cases hx : d = x
      · exact Or.inl hx
      · rcases h with h | h
        · exact absurd h hx
        · exact Or.inr ⟨h, hx⟩

/-- No value occurs twice in `firstOccurrences`. -/
theorem nodup_firstOccurrences (l : List Int) : (firstOccurrences l).Nodup := by
  induction l with
  | nil => simp [firstOccurrences]
  | cons x rest ih =>
    simp only [firstOccurrences, List.nodup_cons, List.mem_filter, decide_eq_true_eq]
    exact ⟨fun h => h.2 rfl, ih.filter _⟩

/-- A value added at the end of the list is added at the end of `firstOccurrences` when
it is new, and changes nothing otherwise. -/
theorem firstOccurrences_concat (l : List Int) (d : Int) :
    firstOccurrences (l ++ [d]) =
      if d ∈ l then firstOccurrences l else firstOccurrences l ++ [d] := by
  induction l with
  | nil => simp [firstOccurrences]
  | cons x rest ih =>
    show x :: (firstOccurrences (rest ++ [d])).filter (fun y => decide (y ≠ x)) =
      if d ∈ x :: rest then firstOccurrences (x :: rest) else firstOccurrences (x :: rest) ++ [d]
    rw [ih]
    by_cases hd : d ∈ rest
    · simp [hd, firstOccurrences]
    · by_cases hx : d = x
      · subst hx
        simp [hd, List.filter_append, firstOccurrences]
      · simp [hd, hx, List.filter_append, firstOccurrences]

/-- The total of a day after one more record. -/
theorem dayTotal_concat (history : List Record) (record : Record) (day : Int) :
    dayTotal (history ++ [record]) day =
      dayTotal history day + if record.exitDay = day then record.paid else 0 := by
  unfold dayTotal
  by_cases h : record.exitDay = day
  · simp [List.filter_append, h]
  · simp [List.filter_append, h]

/-- The exit days after one more record. -/
theorem exitDays_concat (history : List Record) (record : Record) :
    exitDays (history ++ [record]) =
      if record.exitDay ≠ NO_DATE then exitDays history ++ [record.exitDay]
      else exitDays history := by
  unfold exitDays
  by_cases h : record.exitDay = NO_DATE
  · simp [List.filter_append, h]
  · simp [List.filter_append, h]

/-- A day that is not an exit day of the history has the total 0, when it is not the
mark of an absent date. -/
theorem dayTotal_eq_zero (history : List Record) (day : Int) (hday : day ≠ NO_DATE)
    (h : day ∉ exitDays history) : dayTotal history day = 0 := by
  unfold dayTotal
  have hempty : history.filter (fun record => decide (record.exitDay = day)) = [] := by
    rw [List.filter_eq_nil_iff]
    intro record hmem hrec
    simp only [decide_eq_true_eq] at hrec
    apply h
    unfold exitDays
    rw [List.mem_map]
    refine ⟨record, ?_, hrec⟩
    rw [List.mem_filter]
    exact ⟨hmem, by simp only [decide_eq_true_eq]; rw [hrec]; exact hday⟩
  rw [hempty]
  rfl

/-- The inner loop of `calculateSums` on a list of dates without repetition: when the
exit day of the record is among them, the amount of the record is added to the total of
that day and nothing else changes. -/
theorem calculateSums_search_found (record : Record) (g : Int → ℚ) :
    ∀ (days : List Int), days.Nodup → record.exitDay ∈ days →
      calculateSums.search record
          (days.map (fun day => ({ exitDay := day, charged := g day } : DateSum))) =
        some (days.map (fun day =>
          (DateSum.mk day (g day + if record.exitDay = day then record.paid else 0)))) := by
  intro days
  induction days with
  | nil => intro _ h; simp at h
  | cons x rest ih =>
    intro hnd hmem
    obtain ⟨hx, hnd'⟩ := List.nodup_cons.mp hnd
    simp only [List.map_cons, calculateSums.search, dateExists]
    by_cases he : record.exitDay = x
    · have hz : record.exitDay - x = 0 := by omega
      rw [if_pos (decide_eq_true hz)]
      have htail : rest.map (fun day => DateSum.mk day (g day)) =
          rest.map (fun day =>
            DateSum.mk day (g day + if record.exitDay = day then record.paid else 0)) := by
        apply List.map_congr_left
        intro day hday
        have hne : ¬ record.exitDay = day := fun hxd => hx (he ▸ hxd ▸ hday)
        simp [hne]
      rw [htail]
      simp [he]
    · have hz : ¬ record.exitDay - x = 0 := by omega
      have hmem' : record.exitDay ∈ rest := by
        rcases List.mem_cons.mp hmem with h | h
        · exact absurd h he
        · exact h
      simp only [hz, decide_False, Bool.false_eq_true, if_false, ih hnd' hmem', Option.map_some',
        he, add_zero]

/-- The inner loop of `calculateSums` ends with `found = 0` when the exit day of the
record is not among the dates. -/
theorem calculateSums_search_none (record : Record) (g : Int → ℚ) :
    ∀ (days : List Int), record.exitDay ∉ days →
      calculateSums.search record
          (days.map (fun day => ({ exitDay := day, charged := g day } : DateSum))) = none := by
  intro days
  induction days with
  | nil => intro _; rfl
  | cons x rest ih =>
    intro hmem
    have he : record.exitDay ≠ x := fun h => hmem (h ▸ List.mem_cons_self _ _)
    have hmem' : record.exitDay ∉ rest := fun h => hmem (List.mem_cons_of_mem _ h)
    have hz : ¬ record.exitDay - x = 0 := by omega
    simp only [List.map_cons, calculateSums.search, dateExists, hz, decide_False,
      Bool.false_eq_true, if_false, ih hmem', Option.map_none']

/-- One round of the outer loop of `calculateSums` takes the daily totals of the records
seen so far to the daily totals with one more record. -/
theorem calculateSums_step (done : List Record) (record : Record) :
    (record.exitDay = NO_TIME → specDailyTotals (done ++ [record]) = specDailyTotals done) ∧
    (record.exitDay ≠ NO_TIME →
      (match calculateSums.search record (specDailyTotals done) with
        | some dates' => dates'
        | none => addSumNode record (specDailyTotals done)) =
        specDailyTotals (done ++ [record])) := by
  constructor
  · intro h
    have h' : record.exitDay = NO_DATE := h
    unfold specDailyTotals
    rw [exitDays_concat]
    simp only [h', ne_eq, not_true_eq_false, if_false]
    apply List.map_congr_left
    intro day hday
    rw [dayTotal_concat]
    have hne : ¬ record.exitDay = day := by
      rw [h']
      intro hd
      rw [mem_firstOccurrences] at hday
      unfold exitDays at hday
      obtain ⟨r0, hr0, hr0'⟩ := List.mem_map.mp hday
      rw [List.mem_filter] at hr0
      simp only [decide_eq_true_eq] at hr0
      exact hr0.2 (hr0'.trans hd.symm)
    simp [hne]
  · intro h
    have h' : record.exitDay ≠ NO_DATE := h
    unfold specDailyTotals
    rw [exitDays_concat, if_pos h', firstOccurrences_concat]
    by_cases hmem : record.exitDay ∈ exitDays done
    · rw [if_pos hmem]
      rw [calculateSums_search_found record (dayTotal done) _ (nodup_firstOccurrences _)
        ((mem_firstOccurrences _ _).mpr hmem)]
      apply List.map_congr_left
      intro day _
      rw [dayTotal_concat]
    · rw [if_neg hmem]
      rw [calculateSums_search_none record (dayTotal done) _
        (fun hc => hmem ((mem_firstOccurrences _ _).mp hc))]
      simp only [addSumNode, List.map_append, List.map_cons, List.map_nil]
      congr 1
      · apply List.map_congr_left
        intro day hday
        rw [dayTotal_concat]
        have hne : ¬ record.exitDay = day := by
          intro hd
          exact hmem ((mem_firstOccurrences _ _).mp (hd ▸ hday))
        simp [hne]
      · rw [dayTotal_concat, dayTotal_eq_zero done record.exitDay h' hmem]
        simp

/-- The outer loop of `calculateSums`, entered with the daily totals of the records seen
so far, returns the daily totals of all the records when every pointer of the list is
allocated. -/
theorem calculateSums_loop_eq (recordHeap : List (Option Record)) :
    ∀ (records : List Ptr) (rest done : List Record),
      records.map (heapRead recordHeap) = rest.map some →
      calculateSums.loop recordHeap records (specDailyTotals done) =
        some (specDailyTotals (done ++ rest)) := by
  intro records
  induction records with
  | nil =>
    intro rest done h
    cases rest with
    | nil => simp [calculateSums.loop]
    | cons a b => simp at h
  | cons r records ih =>
    intro rest done h
    cases rest with
    | nil => simp at h
    | cons record rest =>
      simp only [List.map_cons, List.cons.injEq] at h
      obtain ⟨hr, hrest⟩ := h
      have happ : done ++ record :: rest = (done ++ [record]) ++ rest := by simp
      rw [happ]
      unfold calculateSums.loop
      simp only [hr]
      by_cases hopen : record.exitDay = NO_TIME
      · simp only [hopen, ne_eq, not_true_eq_false, if_false]
        rw [← (calculateSums_step done record).1 hopen]
        exact ih rest _ hrest
      · simp only [ne_eq, hopen, not_false_eq_true, if_true]
        have hstep := (calculateSums_step done record).2 hopen
        cases hs : calculateSums.search record (specDailyTotals done) with
        | some dates' =>
          rw [hs] at hstep
          simp only at hstep
          rw [hstep]
          exact ih rest _ hrest
        | none =>
          rw [hs] at hstep
          simp only at hstep
          rw [hstep]
          exact ih rest _ hrest

/-- C30: for every list of allocated records (the history of a lot), `calculateSums`
returns the daily totals of the specification: the days of the pairs are the exit days
of the records that have one, each once, in the order in which they first occur in the
history, and the amount of a pair is the sum of `paid` over the records of the history
exiting on its day.  The function only reads the records: the heap is no part of its
result. -/
theorem calculateSums_eq_spec (recordHeap : List (Option Record)) (records : List Ptr)
    (history : List Record) (hlive : records.map (heapRead recordHeap) = history.map some) :
    calculateSums recordHeap records = some (specDailyTotals history) ∧
      ((specDailyTotals history).map (fun date => date.exitDay)).Nodup ∧
      (∀ day, day ∈ (specDailyTotals history).map (fun date => date.exitDay) ↔
        day ≠ NO_DATE ∧ ∃ record ∈ history, record.exitDay = day) ∧
      (∀ date ∈ specDailyTotals history, date.charged = dayTotal history date.exitDay) ∧
      (specDailyTotals history).map (fun date => date.exitDay) =
        firstOccurrences (exitDays history) := by
  have hdays : (specDailyTotals history).map (fun date => date.exitDay) =
      firstOccurrences (exitDays history) := by
    unfold specDailyTotals
    rw [List.map_map]
    exact List.map_id' _
  refine ⟨?_, ?_, ?_, ?_, hdays⟩
  · have h := calculateSums_loop_eq recordHeap records history [] hlive
    simpa [calculateSums, specDailyTotals, exitDays, firstOccurrences] using h
  · rw [hdays]
    exact nodup_firstOccurrences _
  · intro day
    rw [hdays, mem_firstOccurrences]
    unfold exitDays
    simp only [List.mem_map, List.mem_filter, decide_eq_true_eq]
    constructor
    · rintro ⟨record, ⟨hmem, hne⟩, heq⟩
      exact ⟨heq ▸ hne, record, hmem, heq⟩
    · rintro ⟨hne, record, hmem, heq⟩
      exact ⟨record, ⟨hmem, heq ▸ hne⟩, heq⟩
  · intro date hdate
    unfold specDailyTotals at hdate
    obtain ⟨day, -, rfl⟩ := List.mem_map.mp hdate
    rfl

/-- Witness of C30: four records, exiting on the days 738762, 738763 and 738762 again,
the fourth still parked; the totals are 12 for the first day and 12 for the second. -/
theorem calculateSums_eq_spec_witness :
    calculateSums heapFourRecords [0, 1, 2, 3] =
      some [{ exitDay := 738762, charged := 12 }, { exitDay := 738763, charged := 12 }] := by
  have h := (calculateSums_eq_spec heapFourRecords [0, 1, 2, 3]
    (heapFourRecords.filterMap id) (by decide!)).1
  rw [h]
  decide!

/-! ## More on the lookups -/

/-- When `listGetPark` returns `NULL`, every park of the list is allocated and has
another name. -/
theorem listGetPark_none (parkHeap : List (Option Park)) (l : List Ptr) (name : String)
    (h : listGetPark parkHeap l name = some none) :
    ∀ p ∈ l, ∃ park, heapRead parkHeap p = some park ∧ park.name ≠ name := by
  induction l with
  | nil => intro p hp; simp at hp
  | cons n rest ih =>
    unfold listGetPark at h
    cases hn : heapRead parkHeap n with
    | none => simp [hn] at h
    | some park =>
      simp only [hn] at h
      by_cases hname : park.name = name
      · simp [hname] at h
      · simp only [hname, if_false] at h
        intro p hp
        rcases List.mem_cons.mp hp with hp | hp
        · subst hp
          exact ⟨park, hn, hname⟩
        · exact ih h p hp

/-- When every park of the list is allocated and has another name, `listGetPark` returns
`NULL`. -/
theorem listGetPark_eq_none (parkHeap : List (Option Park)) (l : List Ptr) (name : String)
    (h : ∀ p ∈ l, ∃ park, heapRead parkHeap p = some park ∧ park.name ≠ name) :
    listGetPark parkHeap l name = some none := by
  induction l with
  | nil => rfl
  | cons n rest ih =>
    obtain ⟨park, hn, hname⟩ := h n (List.mem_cons_self _ _)
    unfold listGetPark
    simp only [hn, hname, if_false]
    exact ih (fun p hp => h p (List.mem_cons_of_mem _ hp))

/-- A sequence returned by the lookup of a key is the list of a node of the table with
that key. -/
theorem getListPlates_loop_slot (h : HashTable) (key : Key) :
    ∀ (fuel i : Nat) (l : List Ptr), getListPlates.loop h key fuel i = some (some l) →
      ∃ j node, h j = some node ∧ node.key = key ∧ node.records = l := by
  intro fuel
  induction fuel with
  | zero => intro i l hl; simp [getListPlates.loop] at hl
  | succ fuel ih =>
    intro i l hl
    unfold getListPlates.loop at hl
    cases hi : h i with
    | none => simp [hi] at hl
    | some node =>
      simp only [hi] at hl
      by_cases hk : key = node.key
      · simp only [hk, if_true, Option.some.injEq] at hl
        exact ⟨i, node, hi, hk.symm, hl⟩
      · simp only [hk, if_false] at hl
        exact ih _ l hl

/-- When the lookup of a key returns, the insertion of a record of that key changes one
slot of the table, below `HASH_SIZE`: a `NULL` slot when the lookup returned `NULL`, and
otherwise the slot of the node whose list the lookup returned. -/
theorem addRecord_loop_slot (h : HashTable) (key : Key) (r : Ptr) :
    ∀ (fuel i : Nat) (old : Option (List Ptr)), i < HASH_SIZE →
      getListPlates.loop h key fuel i = some old →
      ∃ j, j < HASH_SIZE ∧
        addRecord.loop h key r fuel i =
          some (Function.update h j (some { key := key, records := old.getD [] ++ [r] })) ∧
        ((h j = none ∧ old = none) ∨ ∃ node, h j = some node ∧ old = some node.records) := by
  intro fuel
  induction fuel with
  | zero => intro i old _ hold; simp [getListPlates.loop] at hold
  | succ fuel ih =>
    intro i old hi' hold
    unfold getListPlates.loop at hold
    cases hi : h i with
    | none =>
      simp only [hi, Option.some.injEq] at hold
      subst hold
      exact ⟨i, hi', by simp [addRecord.loop, hi, listAddRecord], Or.inl ⟨hi, rfl⟩⟩
    | some node =>
      simp only [hi] at hold
      by_cases hk : key = node.key
      · simp only [hk, if_true, Option.some.injEq] at hold
        subst hold
        exact ⟨i, hi', by simp [addRecord.loop, hi, hk, listAddRecord], Or.inr ⟨node, hi, rfl⟩⟩
      · simp only [hk, if_false] at hold
        obtain ⟨j, hj, h1, h2⟩ := ih ((i + 1) % HASH_SIZE) old (Nat.mod_lt _ (by decide)) hold
        exact ⟨j, hj, by simp only [addRecord.loop, hi, hk, if_false]; exact h1, h2⟩

/-- The two results of `getLastRecord`: `NULL` when the lookup returns `NULL`, and the
last record of the sequence otherwise. -/
theorem getLastRecord_cases (h : HashTable) (plates : String) (r1 : Option Ptr)
    (hr : getLastRecord h plates = some r1) :
    (getListPlates h plates = some none ∧ r1 = none) ∨
      ∃ l r, getListPlates h plates = some (some l) ∧ l.getLast? = some r ∧ r1 = some r := by
  unfold getLastRecord at hr
  cases hl : getListPlates h plates with
  | none => simp [hl] at hr
  | some old =>
    cases old with
    | none =>
      simp only [hl, Option.some.injEq] at hr
      exact Or.inl ⟨rfl, hr.symm⟩
    | some l =>
      simp only [hl] at hr
      cases hlast : l.getLast? with
      | none => simp [hlast] at hr
      | some r =>
        simp only [hlast, Option.some.injEq] at hr
        exact Or.inr ⟨l, r, rfl, hlast, hr.symm⟩

/-- When `validationsE` returns 1 and the plate has a most recent record, that record is
allocated and has an exit day. -/
theorem validationsE_ok_last (oob : Int → Int) (m : Memory) (p1 : Option Ptr) (r : Ptr)
    (name plates : String) (data : DateText) (time : TimeText)
    (h : validationsE oob m p1 (some r) name plates data time = some (.ok ())) :
    ∃ record, heapRead m.recordHeap r = some record ∧ record.exitDay ≠ NO_DATE := by
  unfold validationsE at h
  cases p1 with
  | none => simp at h
  | some p =>
    cases hpk : heapRead m.parkHeap p with
    | none => simp [hpk] at h
    | some park =>
      simp only [hpk] at h
      by_cases hfull : park.occupancy ≥ park.capacity
      · simp [hfull] at h
      · cases hplate : checkPlates plates with
        | false => simp [hfull, hplate] at h
        | true =>
          cases hrec : heapRead m.recordHeap r with
          | none => simp [hfull, hplate, hrec] at h
          | some record =>
            refine ⟨record, rfl, ?_⟩
            intro hopen
            simp [hfull, hplate, hrec, hopen] at h

/-- A run of `processCommand_e` that returns either printed an error message and left the
memory as it is, or made the entry: then the lookup of the plate returned, its most
recent record, when there is one, has an exit day, and the new record is appended to the
sequence the lookup returned, in the slot of that sequence, or starts a sequence in a
`NULL` slot when the lookup returned `NULL`. -/
theorem processCommand_e_table (oob : Int → Int) (m m' : Memory) (nome plates : String)
    (data : DateText) (hora : TimeText) (out : List Printed)
    (h : processCommand_e oob m nome plates data hora = some (m', out)) :
    (m' = m ∧ ∃ e, out = [e] ∧ e.isError = true) ∨
    (∃ p park old j, listGetPark m.parkHeap m.parks nome = some (some p) ∧
      heapRead m.parkHeap p = some park ∧ j < HASH_SIZE ∧
      getListPlates m.cars plates = some old ∧
      ((m.cars j = none ∧ old = none) ∨ ∃ node, m.cars j = some node ∧ old = some node.records) ∧
      (∀ l, old = some l → ∃ r record, l.getLast? = some r ∧
        heapRead m.recordHeap r = some record ∧ record.exitDay ≠ NO_DATE) ∧
      m' = { parkHeap := heapWrite m.parkHeap p { park with occupancy := park.occupancy + 1 },
             recordHeap := m.recordHeap ++
               [some { plates := plates, park := p, entryDay := dateToInt oob data,
                       entryHour := timeToInt hora, exitDay := NO_DATE, exitHour := NO_TIME,
                       paid := 0 }],
             parks := m.parks,
             cars := Function.update m.cars j
               (some { key := sumAsciiValues plates,
                       records := old.getD [] ++ [m.recordHeap.length] }),
             date := dateToInt oob data, time := timeToInt hora,
             idIncrementer := m.idIncrementer }) := by
  rcases processCommand_e_cases oob m m' nome plates data hora out h with
    herr | ⟨p, park, cars, hp, hpk, -, -, hout, hm'⟩
  · exact Or.inl herr
  · right
    unfold processCommand_e at h
    cases hr : getLastRecord m.cars plates with
    | none => simp [hp, hr] at h
    | some r1 =>
      cases hv : validationsE oob m (some p) r1 nome plates data hora with
      | none => simp [hp, hr, hv] at h
      | some v =>
        cases v with
        | error e =>
          simp only [hp, hr, hv, Option.some.injEq, Prod.mk.injEq] at h
          have he := validationsE_error_isError oob m (some p) r1 nome plates data hora e hv
          rw [hout] at h
          have h2 := h.2
          simp only [List.cons.injEq, and_true] at h2
          rw [h2] at he
          exact absurd he (by simp [Printed.isError])
        | ok u =>
          have hnew := heapRead_heapAlloc_new m.recordHeap
            { plates := plates, park := p, entryDay := dateToInt oob data,
              entryHour := timeToInt hora, exitDay := NO_DATE, exitHour := NO_TIME,
              paid := 0 }
          simp only [heapAlloc] at hnew
          simp only [hp, hr, hv, hpk, updateMemoryTime, addRecord, heapAlloc, hnew] at h
          have hcases := getLastRecord_cases m.cars plates r1 hr
          have hold : ∃ old, getListPlates m.cars plates = some old ∧
              (∀ l, old = some l → ∃ r record, l.getLast? = some r ∧
                heapRead m.recordHeap r = some record ∧ record.exitDay ≠ NO_DATE) := by
            rcases hcases with ⟨h1, -⟩ | ⟨l, r, h1, h2, h3⟩
            · exact ⟨none, h1, fun l hl => Option.noConfusion hl⟩
            · subst h3
              obtain ⟨record, hrec, hclosed⟩ :=
                validationsE_ok_last oob m (some p) r nome plates data hora hv
              refine ⟨some l, h1, fun l' hl' => ?_⟩
              cases hl'
              exact ⟨r, record, h2, hrec, hclosed⟩
          obtain ⟨old, hold, hclosed⟩ := hold
          obtain ⟨j, hj, hadd, hslot⟩ := addRecord_loop_slot m.cars (sumAsciiValues plates)
            m.recordHeap.length HASH_SIZE (hash (sumAsciiValues plates) HASH_SIZE) old
            (Nat.mod_lt _ (by decide)) hold
          simp only [hadd, Option.some.injEq, Prod.mk.injEq] at h
          exact ⟨p, park, old, j, hp, hpk, hj, hold, hslot, hclosed, h.1.symm⟩

/-! ## The invariants of the table are kept by creation, entry and exit -/

/-- The start memory has the invariants of the table. -/
theorem tableFormed_initializeSystem : TableFormed initializeSystem := by
  constructor
  · intro p q park park' hp
    simp [initializeSystem] at hp
  · intro i _
    rfl
  · intro i node h
    simp [initializeSystem] at h
  · intro i node h
    simp [initializeSystem] at h
  · intro i node h
    simp [initializeSystem] at h

/-- A park read after a write that keeps the name was allocated before, with the same
name. -/
theorem heapRead_heapWrite_name (parkHeap : List (Option Park)) (p q : Ptr)
    (park park' x : Park) (hp : heapRead parkHeap p = some park)
    (hname : park'.name = park.name) (hx : heapRead (heapWrite parkHeap p park') q = some x) :
    ∃ x0, heapRead parkHeap q = some x0 ∧ x0.name = x.name := by
  rcases heapRead_heapWrite_some parkHeap p q park' park x hp hx with ⟨h1, h2⟩ | ⟨-, h2⟩
  · subst h1
    exact ⟨park, hp, by rw [h2, hname]⟩
  · exact ⟨x, h2, rfl⟩

/-- A successful lot creation keeps the invariants of the table. -/
theorem tableFormed_create (m : Memory) (ht : TableFormed m)
    (park : Park) (hnone : listGetPark m.parkHeap m.parks park.name = some none)
    (idc : Int) :
    TableFormed { parkHeap := m.parkHeap ++ [some park], recordHeap := m.recordHeap,
                  parks := m.parks ++ [m.parkHeap.length], cars := m.cars, date := m.date,
                  time := m.time, idIncrementer := idc } := by
  have hold : ∀ q ∈ m.parks, ∀ x, heapRead (m.parkHeap ++ [some park]) q = some x →
      heapRead m.parkHeap q = some x ∧ x.name ≠ park.name := by
    intro q hq x hx
    obtain ⟨x0, hx0, hname⟩ := listGetPark_none _ _ _ hnone q hq
    have := heapRead_append_of_some m.parkHeap park x0 q hx0
    rw [this] at hx
    cases hx
    exact ⟨hx0, hname⟩
  have hnew : ∀ x, heapRead (m.parkHeap ++ [some park]) m.parkHeap.length = some x →
      x.name = park.name := by
    intro x hx
    have := heapRead_heapAlloc_new m.parkHeap park
    simp only [heapAlloc] at this
    rw [this] at hx
    cases hx
    rfl
  constructor
  · intro p q x y hp hq hx hy hname
    simp only [List.mem_append, List.mem_singleton] at hp hq
    rcases hp with hp | hp <;> rcases hq with hq | hq
    · exact ht.names p q x y hp hq (hold p hp x hx).1 (hold q hq y hy).1 hname
    · subst hq
      exact absurd (hname.trans (hnew y hy)) (hold p hp x hx).2
    · subst hp
      exact absurd (hname.symm.trans (hnew x hx)) (hold q hq y hy).2
    · rw [hp, hq]
  · exact ht.table_bound
  · exact ht.table_nonempty
  · intro i node hi r hr
    obtain ⟨record, h1, h2⟩ := ht.table_live i node hi r hr
    exact ⟨record, h1, List.mem_append_left _ h2⟩
  · exact ht.table_closed

/-- A successful entry keeps the invariants of the table. -/
theorem tableFormed_entry (m : Memory) (ht : TableFormed m) (p : Ptr) (park park' : Park)
    (record : Record) (j : Nat) (key : Key) (old : Option (List Ptr)) (date time : Int)
    (hp : p ∈ m.parks) (hpk : heapRead m.parkHeap p = some park)
    (hname : park'.name = park.name) (hrp : record.park = p) (hj : j < HASH_SIZE)
    (hslot : (m.cars j = none ∧ old = none) ∨
      ∃ node, m.cars j = some node ∧ old = some node.records)
    (hclosed : ∀ l, old = some l → ∃ r rec, l.getLast? = some r ∧
      heapRead m.recordHeap r = some rec ∧ rec.exitDay ≠ NO_DATE) :
    TableFormed { parkHeap := heapWrite m.parkHeap p park',
                  recordHeap := m.recordHeap ++ [some record], parks := m.parks,
                  cars := Function.update m.cars j
                    (some { key := key, records := old.getD [] ++ [m.recordHeap.length] }),
                  date := date, time := time, idIncrementer := m.idIncrementer } := by
  have hmemold : ∀ r ∈ old.getD [], ∃ node, m.cars j = some node ∧ old = some node.records ∧
      r ∈ node.records := by
    intro r hr
    rcases hslot with ⟨-, h2⟩ | ⟨node, h1, h2⟩
    · subst h2
      simp at hr
    · subst h2
      exact ⟨node, h1, rfl, hr⟩
  constructor
  · intro q1 q2 x y h1 h2 hx hy hxy
    obtain ⟨x0, hx0, hxn⟩ := heapRead_heapWrite_name m.parkHeap p q1 park park' x hpk hname hx
    obtain ⟨y0, hy0, hyn⟩ := heapRead_heapWrite_name m.parkHeap p q2 park park' y hpk hname hy
    exact ht.names q1 q2 x0 y0 h1 h2 hx0 hy0 (by rw [hxn, hyn, hxy])
  · intro i hi
    have hij : i ≠ j := by omega
    show Function.update m.cars j _ i = none
    rw [Function.update_noteq hij]
    exact ht.table_bound i hi
  · intro i node hi
    change Function.update m.cars j _ i = some node at hi
    by_cases hij : i = j
    · subst hij
      rw [Function.update_same] at hi
      cases hi
      simp
    · rw [Function.update_noteq hij] at hi
      exact ht.table_nonempty i node hi
  · intro i node hi r hr
    change Function.update m.cars j _ i = some node at hi
    show ∃ rec, heapRead (m.recordHeap ++ [some record]) r = some rec ∧ rec.park ∈ m.parks
    by_cases hij : i = j
    · subst hij
      rw [Function.update_same] at hi
      cases hi
      simp only [List.mem_append, List.mem_singleton] at hr
      rcases hr with hr | hr
      · obtain ⟨node, h1, -, h3⟩ := hmemold r hr
        obtain ⟨rec, h4, h5⟩ := ht.table_live i node h1 r h3
        exact ⟨rec, heapRead_append_of_some _ _ _ _ h4, h5⟩
      · subst hr
        have := heapRead_heapAlloc_new m.recordHeap record
        simp only [heapAlloc] at this
        exact ⟨record, this, by rw [hrp]; exact hp⟩
    · rw [Function.update_noteq hij] at hi
      obtain ⟨rec, h4, h5⟩ := ht.table_live i node hi r hr
      exact ⟨rec, heapRead_append_of_some _ _ _ _ h4, h5⟩
  · intro i node hi r hr rec hrec
    change Function.update m.cars j _ i = some node at hi
    change heapRead (m.recordHeap ++ [some record]) r = some rec at hrec
    by_cases hij : i = j
    · subst hij
      rw [Function.update_same] at hi
      cases hi
      simp only [List.dropLast_concat] at hr
      obtain ⟨node, h1, h2, h3⟩ := hmemold r hr
      obtain ⟨rec0, h4, -⟩ := ht.table_live i node h1 r h3
      rw [heapRead_append_of_some _ _ _ _ h4] at hrec
      cases hrec
      obtain ⟨last, lrec, hlast, hlrec, hlclosed⟩ := hclosed node.records h2
      have hsplit := List.dropLast_append_getLast? last hlast
      rw [← hsplit] at h3
      rcases List.mem_append.mp h3 with h3 | h3
      · exact ht.table_closed i node h1 r h3 rec h4
      · simp only [List.mem_singleton] at h3
        subst h3
        rw [h4] at hlrec
        cases hlrec
        exact hlclosed
    · rw [Function.update_noteq hij] at hi
      obtain ⟨rec0, h4, -⟩ := ht.table_live i node hi r (List.dropLast_subset _ hr)
      rw [heapRead_append_of_some _ _ _ _ h4] at hrec
      cases hrec
      exact ht.table_closed i node hi r hr rec h4

/-- A successful exit keeps the invariants of the table. -/
theorem tableFormed_exit (m : Memory) (ht : TableFormed m) (r q : Ptr)
    (record record' : Record) (park park' : Park) (date time : Int)
    (hrec : heapRead m.recordHeap r = some record) (hpk : heapRead m.parkHeap q = some park)
    (hname : park'.name = park.name) (hpark : record'.park = record.park)
    (hexit : record'.exitDay ≠ NO_DATE) :
    TableFormed { parkHeap := heapWrite m.parkHeap q park',
                  recordHeap := heapWrite m.recordHeap r record', parks := m.parks,
                  cars := m.cars, date := date, time := time,
                  idIncrementer := m.idIncrementer } := by
  constructor
  · intro q1 q2 x y h1 h2 hx hy hxy
    obtain ⟨x0, hx0, hxn⟩ := heapRead_heapWrite_name m.parkHeap q q1 park park' x hpk hname hx
    obtain ⟨y0, hy0, hyn⟩ := heapRead_heapWrite_name m.parkHeap q q2 park park' y hpk hname hy
    exact ht.names q1 q2 x0 y0 h1 h2 hx0 hy0 (by rw [hxn, hyn, hxy])
  · exact ht.table_bound
  · exact ht.table_nonempty
  · intro i node hi r' hr'
    obtain ⟨rec, h4, h5⟩ := ht.table_live i node hi r' hr'
    show ∃ rec, heapRead (heapWrite m.recordHeap r record') r' = some rec ∧ rec.park ∈ m.parks
    by_cases hrr : r' = r
    · subst hrr
      rw [hrec] at h4
      cases h4
      exact ⟨record', heapRead_heapWrite_self _ _ _ _ hrec, by rw [hpark]; exact h5⟩
    · exact ⟨rec, by rw [heapRead_heapWrite_ne _ _ _ _ hrr]; exact h4, h5⟩
  · intro i node hi r' hr' rec hrec'
    change heapRead (heapWrite m.recordHeap r record') r' = some rec at hrec'
    rcases heapRead_heapWrite_some m.recordHeap r r' record' record rec hrec hrec' with
      ⟨-, h2⟩ | ⟨-, h2⟩
    · rw [h2]
      exact hexit
    · exact ht.table_closed i node hi r' hr' rec h2

/-! ## What the removal of a park leaves in the table -/

/-- A record that stays in the table is not the record freed by `listRemoveRecord`. -/
theorem survives_heapFree (parkHeap : List (Option Park)) (parkId : Int)
    (rh : List (Option Record)) (r r0 : Ptr) (record0 : Record) (park0 : Park)
    (hs : Survives parkHeap parkId rh r) (hr0 : heapRead rh r0 = some record0)
    (hp0 : heapRead parkHeap record0.park = some park0) (hid : park0.id = parkId) :
    Survives parkHeap parkId (heapFree rh r0) r := by
  obtain ⟨record, park, h1, h2, h3⟩ := hs
  have hne : r ≠ r0 := by
    rintro rfl
    rw [hr0] at h1
    cases h1
    rw [hp0] at h2
    cases h2
    exact h3 hid
  exact ⟨record, park, by rw [heapRead_heapFree_ne _ _ _ hne]; exact h1, h2, h3⟩

/-- A record that is allocated after some records were freed was allocated before. -/
theorem survives_before (parkHeap : List (Option Park)) (parkId : Int)
    (rh0 rh : List (Option Record)) (r : Ptr) (hf : FreedOnly parkHeap parkId rh0 rh)
    (hs : Survives parkHeap parkId rh r) : Survives parkHeap parkId rh0 r := by
  obtain ⟨record, park, h1, h2, h3⟩ := hs
  refine ⟨record, park, ?_, h2, h3⟩
  rcases hf.2 r with h | ⟨h, -⟩
  · rw [← h]; exact h1
  · rw [h1] at h; exact Option.noConfusion h

/-- A record of a park of another id is still allocated after the records of the parks
of id `parkId` were freed. -/
theorem survives_after (parkHeap : List (Option Park)) (parkId : Int)
    (rh0 rh : List (Option Record)) (r : Ptr) (hf : FreedOnly parkHeap parkId rh0 rh)
    (hs : Survives parkHeap parkId rh0 r) : Survives parkHeap parkId rh r := by
  obtain ⟨record, park, h1, h2, h3⟩ := hs
  refine ⟨record, park, ?_, h2, h3⟩
  rcases hf.2 r with h | ⟨-, record', park', h4, h5, h6⟩
  · rw [h]; exact h1
  · rw [h1] at h4
    cases h4
    rw [h2] at h5
    cases h5
    exact absurd h6 h3

/-- The list left by the inner loop of `removeParkRecords` is a sublist of the list of
the node. -/
theorem removeParkRecords_nodes_sublist (parkHeap : List (Option Park)) (parkId : Int) :
    ∀ (rest l : List Ptr) (rh : List (Option Record)) (res : List Ptr × List (Option Record)),
      removeParkRecords.nodes parkHeap parkId rest (l, rh) = some res → res.1.Sublist l := by
  intro rest
  induction rest with
  | nil =>
    intro l rh res h
    simp only [removeParkRecords.nodes, Option.some.injEq] at h
    subst h
    exact List.Sublist.refl _
  | cons r rest ih =>
    intro l rh res h
    unfold removeParkRecords.nodes at h
    cases hr : heapRead rh r with
    | none => simp [hr] at h
    | some record =>
      cases hp : heapRead parkHeap record.park with
      | none => simp [hr, hp] at h
      | some park =>
        simp only [hr, hp] at h
        by_cases hid : park.id = parkId
        · simp only [hid, if_true] at h
          unfold listRemoveRecord at h
          split_ifs at h with hmem
          · exact (ih _ _ res h).trans (List.erase_sublist _ _)
          · exact ih _ _ res h
        · simp only [hid, if_false] at h
          exact ih _ _ res h

/-- The inner loop of `removeParkRecords`: the records it leaves in the list are
allocated when it ends and belong to parks of another id.  `checked` are the records the
loop has passed and left in the list, `rest` the records it has still to see. -/
theorem removeParkRecords_nodes_survive (parkHeap : List (Option Park)) (parkId : Int) :
    ∀ (rest checked : List Ptr) (rh : List (Option Record))
      (res : List Ptr × List (Option Record)),
      removeParkRecords.nodes parkHeap parkId rest (checked ++ rest, rh) = some res →
      (∀ r ∈ checked, Survives parkHeap parkId rh r) →
      ∀ r ∈ res.1, Survives parkHeap parkId res.2 r := by
  intro rest
  induction rest with
  | nil =>
    intro checked rh res h hc
    simp only [removeParkRecords.nodes, Option.some.injEq, List.append_nil] at h
    subst h
    exact hc
  | cons r0 rest ih =>
    intro checked rh res h hc
    unfold removeParkRecords.nodes at h
    cases hr : heapRead rh r0 with
    | none => simp [hr] at h
    | some record0 =>
      cases hp : heapRead parkHeap record0.park with
      | none => simp [hr, hp] at h
      | some park0 =>
        simp only [hr, hp] at h
        by_cases hid : park0.id = parkId
        · simp only [hid, if_true] at h
          have hnot : r0 ∉ checked := by
            intro hmem
            obtain ⟨record, park, h1, h2, h3⟩ := hc r0 hmem
            rw [hr] at h1
            cases h1
            rw [hp] at h2
            cases h2
            exact h3 hid
          have hmem : r0 ∈ checked ++ r0 :: rest :=
            List.mem_append_right _ (List.mem_cons_self _ _)
          have herase : (checked ++ r0 :: rest).erase r0 = checked ++ rest := by
            rw [List.erase_append_right _ hnot, List.erase_cons_head]
          unfold listRemoveRecord at h
          rw [if_pos hmem, herase] at h
          exact ih checked (heapFree rh r0) res h
            (fun r hrc => survives_heapFree parkHeap parkId rh r r0 record0 park0 (hc r hrc)
              hr hp hid)
        · simp only [hid, if_false] at h
          have happ : checked ++ r0 :: rest = (checked ++ [r0]) ++ rest := by simp
          rw [happ] at h
          apply ih (checked ++ [r0]) rh res h
          intro r hrc
          rcases List.mem_append.mp hrc with hrc | hrc
          · exact hc r hrc
          · simp only [List.mem_singleton] at hrc
            subst hrc
            exact ⟨record0, park0, hr, hp, hid⟩

/-- The body of the `for` loop of `removeParkRecords` at slot `s` changes no other slot,
and a node it leaves in slot `s` is the node that was there with a sublist of its
records, not empty, all allocated and of parks of another id. -/
theorem removeParkRecords_slot_table (parkHeap : List (Option Park)) (parkId : Int)
    (acc acc' : HashTable × List (Option Record)) (s : Nat)
    (h : removeParkRecords.slot parkHeap parkId acc s = some acc') :
    (∀ i, i ≠ s → acc'.1 i = acc.1 i) ∧
      (∀ node', acc'.1 s = some node' → ∃ node, acc.1 s = some node ∧ node'.key = node.key ∧
        node'.records.Sublist node.records ∧ node'.records ≠ [] ∧
        ∀ r ∈ node'.records, Survives parkHeap parkId acc'.2 r) := by
  unfold removeParkRecords.slot at h
  cases hs : acc.1 s with
  | none =>
    simp only [hs, Option.some.injEq] at h
    subst h
    exact ⟨fun _ _ => rfl, fun node' hn => by rw [hs] at hn; exact Option.noConfusion hn⟩
  | some node =>
    simp only [hs] at h
    cases hn : removeParkRecords.nodes parkHeap parkId node.records (node.records, acc.2) with
    | none => simp [hn] at h
    | some res =>
      have hsub := removeParkRecords_nodes_sublist parkHeap parkId _ _ _ res hn
      have hsurv := removeParkRecords_nodes_survive parkHeap parkId node.records [] acc.2 res
        (by simpa using hn) (fun r hr => by simp at hr)
      obtain ⟨l, rh⟩ := res
      simp only [hn] at h
      split_ifs at h with hlen
      · simp only [Option.some.injEq] at h
        subst h
        refine ⟨fun i hi => Function.update_noteq hi _ _, fun node' hn' => ?_⟩
        simp only [Function.update_same] at hn'
        exact Option.noConfusion hn'
      · simp only [Option.some.injEq] at h
        subst h
        refine ⟨fun i hi => Function.update_noteq hi _ _, fun node' hn' => ?_⟩
        simp only [Function.update_same, Option.some.injEq] at hn'
        subst hn'
        refine ⟨node, rfl, rfl, hsub, ?_, hsurv⟩
        intro hnil
        have hnil' : l = [] := hnil
        exact hlen (by rw [hnil']; rfl)

/-- The `for` loop of `removeParkRecords` over a list of distinct slots changes no other
slot, and a node it leaves in a slot of the list is the node that was there with a
sublist of its records, not empty, all allocated and of parks of another id. -/
theorem removeParkRecords_foldlM_table (parkHeap : List (Option Park)) (parkId : Int) :
    ∀ (slots : List Nat) (acc acc' : HashTable × List (Option Record)), slots.Nodup →
      slots.foldlM (removeParkRecords.slot parkHeap parkId) acc = some acc' →
      ∀ i, (i ∉ slots → acc'.1 i = acc.1 i) ∧
        (i ∈ slots → ∀ node', acc'.1 i = some node' → ∃ node, acc.1 i = some node ∧
          node'.key = node.key ∧ node'.records.Sublist node.records ∧ node'.records ≠ [] ∧
          ∀ r ∈ node'.records, Survives parkHeap parkId acc'.2 r) := by
  intro slots
  induction slots with
  | nil =>
    intro acc acc' _ h i
    simp only [List.foldlM_nil, pure, Option.some.injEq] at h
    subst h
    exact ⟨fun _ => rfl, fun hi => by simp at hi⟩
  | cons s slots ih =>
    intro acc acc' hnd h i
    obtain ⟨hs, hnd'⟩ := List.nodup_cons.mp hnd
    rw [List.foldlM_cons] at h
    cases hslot : removeParkRecords.slot parkHeap parkId acc s with
    | none => simp [hslot, bind] at h
    | some acc1 =>
      simp only [hslot, bind, Option.bind] at h
      obtain ⟨hother, hsame⟩ := removeParkRecords_slot_table parkHeap parkId acc acc1 s hslot
      have hfreed := freedOnly_foldlM parkHeap parkId acc1.2 slots acc1 acc' h
        (freedOnly_refl _ _ _)
      obtain ⟨ih1, ih2⟩ := ih acc1 acc' hnd' h i
      constructor
      · intro hi
        simp only [List.mem_cons, not_or] at hi
        rw [ih1 hi.2, hother i hi.1]
      · intro hi node' hn'
        by_cases his : i = s
        · subst his
          rw [ih1 hs] at hn'
          obtain ⟨node, e1, e2, e3, e4, e5⟩ := hsame node' hn'
          exact ⟨node, e1, e2, e3, e4,
            fun r hr => survives_after parkHeap parkId acc1.2 acc'.2 r hfreed (e5 r hr)⟩
        · have hi' : i ∈ slots := by
            rcases List.mem_cons.mp hi with hi | hi
            · exact absurd hi his
            · exact hi
          obtain ⟨node, e1, e2, e3, e4, e5⟩ := ih2 hi' node' hn'
          exact ⟨node, by rw [← hother i his]; exact e1, e2, e3, e4, e5⟩

/-- What `removeParkRecords` leaves in the table: a node left in a slot is the node that
was there with a sublist of its records, not empty, all allocated and of parks of
another id; the slots from `HASH_SIZE` on are not touched. -/
theorem removeParkRecords_table (m m1 : Memory) (parkId : Int)
    (h : removeParkRecords m parkId = some m1) :
    (∀ i, HASH_SIZE ≤ i → m1.cars i = m.cars i) ∧
      (∀ i node', i < HASH_SIZE → m1.cars i = some node' → ∃ node, m.cars i = some node ∧
        node'.key = node.key ∧ node'.records.Sublist node.records ∧ node'.records ≠ [] ∧
        ∀ r ∈ node'.records, Survives m.parkHeap parkId m1.recordHeap r) := by
  unfold removeParkRecords at h
  cases hfold : (List.range HASH_SIZE).foldlM (removeParkRecords.slot m.parkHeap parkId)
      (m.cars, m.recordHeap) with
  | none => simp [hfold] at h
  | some acc =>
    have ht := removeParkRecords_foldlM_table m.parkHeap parkId _ _ acc
      (List.nodup_range HASH_SIZE) hfold
    obtain ⟨cars, rh⟩ := acc
    simp only [hfold, Option.some.injEq] at h
    subst h
    constructor
    · intro i hi
      exact (ht i).1 (by rw [List.mem_range]; omega)
    · intro i node' hi hn'
      exact (ht i).2 (List.mem_range.mpr hi) node' hn'

/-- The table and the record heap after `removePark` are those left by
`removeParkRecords`. -/
theorem removePark_table (m m' : Memory) (parkId : Int) (h : removePark m parkId = some m') :
    ∃ m1, removeParkRecords m parkId = some m1 ∧ m'.cars = m1.cars ∧
      m'.recordHeap = m1.recordHeap := by
  unfold removePark at h
  cases h1 : removeParkRecords m parkId with
  | none => simp [h1] at h
  | some m1 =>
    simp only [h1] at h
    split at h
    · exact Option.noConfusion h
    · simp only [Option.some.injEq] at h
      subst h
      exact ⟨m1, rfl, rfl, rfl⟩

/-- Dropping the last element of a sublist gives a sublist of the list without its last
element. -/
theorem sublist_dropLast {α : Type} {l1 l2 : List α} (h : l1.Sublist l2) :
    l1.dropLast.Sublist l2.dropLast := by
  induction h with
  | slnil => exact List.Sublist.refl _
  | @cons l1 l2 a h ih =>
    cases l2 with
    | nil =>
      have : l1 = [] := List.eq_nil_of_sublist_nil h
      subst this
      exact List.nil_sublist _
    | cons b l2 => exact ih.cons a
  | @cons₂ l1 l2 a h ih =>
    cases l1 with
    | nil => exact List.nil_sublist _
    | cons c l1 =>
      cases l2 with
      | nil => exact absurd (List.eq_nil_of_sublist_nil h) (List.cons_ne_nil _ _)
      | cons b l2 => exact ih.cons₂ a

/-- The removal of a park keeps the invariants of the table. -/
theorem tableFormed_remove (m m' : Memory) (ht : TableFormed m)
    (parkId : Int) (h : removePark m parkId = some m') : TableFormed m' := by
  obtain ⟨q, qpark, l1, l2, hq, hqid, hparks, hparks', hheap, hfreed, -, -, -⟩ :=
    removePark_spec m m' parkId h
  obtain ⟨m1, hm1, hcars, hrh⟩ := removePark_table m m' parkId h
  obtain ⟨hbound, hnodes⟩ := removeParkRecords_table m m1 parkId hm1
  have hsubset : ∀ p, p ∈ m'.parks → p ∈ m.parks := by
    intro p hp
    rw [hparks'] at hp
    rw [hparks]
    rcases List.mem_append.mp hp with h1 | h1
    · exact List.mem_append_left _ h1
    · exact List.mem_append_right _ (List.mem_cons_of_mem _ h1)
  have hread : ∀ p park, heapRead m'.parkHeap p = some park →
      heapRead m.parkHeap p = some park := by
    intro p park hp
    rw [hheap] at hp
    exact (heapRead_heapFree_some _ _ _ _ hp).2
  have hrec : ∀ r record, heapRead m'.recordHeap r = some record →
      heapRead m.recordHeap r = some record := by
    intro r record hr
    rcases hfreed.2 r with h1 | ⟨h1, -⟩
    · rw [← h1]; exact hr
    · rw [hr] at h1; exact Option.noConfusion h1
  have hnode : ∀ i node', m'.cars i = some node' → ∃ node, m.cars i = some node ∧
      node'.records.Sublist node.records ∧ node'.records ≠ [] ∧
      ∀ r ∈ node'.records, Survives m.parkHeap parkId m'.recordHeap r := by
    intro i node' hi
    rw [hcars] at hi
    by_cases hlt : i < HASH_SIZE
    · obtain ⟨node, e1, -, e3, e4, e5⟩ := hnodes i node' hlt hi
      exact ⟨node, e1, e3, e4, by rw [hrh]; exact e5⟩
    · rw [hbound i (not_lt.mp hlt), ht.table_bound i (not_lt.mp hlt)] at hi
      exact Option.noConfusion hi
  constructor
  · intro p p' park park' hp hp' hpk hpk' hname
    exact ht.names p p' park park' (hsubset p hp) (hsubset p' hp') (hread p park hpk)
      (hread p' park' hpk') hname
  · intro i hi
    rw [hcars, hbound i hi]
    exact ht.table_bound i hi
  · intro i node' hi
    obtain ⟨node, -, -, e4, -⟩ := hnode i node' hi
    exact e4
  · intro i node' hi r hr
    obtain ⟨node, e1, e3, -, e5⟩ := hnode i node' hi
    obtain ⟨record, park, s1, s2, s3⟩ := e5 r hr
    refine ⟨record, s1, ?_⟩
    obtain ⟨record0, t1, t2⟩ := ht.table_live i node e1 r (e3.subset hr)
    rw [hrec r record s1] at t1
    cases t1
    rw [hparks] at t2
    rw [hparks']
    rcases List.mem_append.mp t2 with t2 | t2
    · exact List.mem_append_left _ t2
    · rcases List.mem_cons.mp t2 with t2 | t2
      · exfalso
        rw [t2, hq] at s2
        cases s2
        exact s3 hqid
      · exact List.mem_append_right _ t2
  · intro i node' hi r hr record hrecord
    obtain ⟨node, e1, e3, -, -⟩ := hnode i node' hi
    exact ht.table_closed i node e1 r ((sublist_dropLast e3).subset hr) record
      (hrec r record hrecord)

/-- Every command that returns keeps the invariants of the table. -/
theorem tableFormed_execute (oob : Int → Int) (m m' : Memory) (c : Command)
    (out : List Printed) (ht : TableFormed m)
    (h : execute oob m c = some (m', out)) : TableFormed m' := by
  cases c with
  | p name capacity less_60 more_60 dayly =>
    rcases processCommand_p_cases m m' name capacity less_60 more_60 dayly _ h with
      ⟨h1, -⟩ | ⟨-, hnone, -, -, -, -, -, h1⟩
    · subst h1; exact ht
    · subst h1
      exact tableFormed_create m ht _ hnone _
  | e nome plates data hora =>
    rcases processCommand_e_table oob m m' nome plates data hora _ h with
      ⟨h1, -⟩ | ⟨p, park, old, j, hp, hpk, hj, -, hslot, hclosed, h1⟩
    · subst h1; exact ht
    · subst h1
      obtain ⟨-, -, -, hmem⟩ := listGetPark_some _ _ _ _ hp
      exact tableFormed_entry m ht p park _ _ j _ old _ _ hmem hpk rfl rfl hj hslot hclosed
  | s nome plates data hora =>
    rcases processCommand_s_cases oob m m' nome plates data hora _ h with
      ⟨h1, -⟩ | ⟨r, record, park, hrec, -, hrp, hdates, -, h1⟩
    · subst h1; exact ht
    · subst h1
      have hpos := dateToInt_pos oob data (checkDates_true oob m data hora hdates).1
      have hne : dateToInt oob data ≠ NO_DATE := by
        unfold NO_DATE
        omega
      exact tableFormed_exit m ht r record.park record _ park _ _ _ hrec hrp rfl rfl hne
  | r nome =>
    rcases processCommand_r_cases m m' nome _ h with ⟨h1, -⟩ | ⟨p, park, -, -, h1, -⟩
    · subst h1; exact ht
    · exact tableFormed_remove m m' ht park.id h1

/-- Every reachable memory has the invariants of the table. -/
theorem tableFormed_of_reachable (oob : Int → Int) (m : Memory) (h : Reachable oob m) :
    TableFormed m := by
  obtain ⟨cmds, hrun⟩ := h
  exact run_induction oob TableFormed
    (fun m c m' out hP hc => tableFormed_execute oob m m' c out hP hc)
    cmds initializeSystem m tableFormed_initializeSystem hrun

/-! ## The lookup returns -/

/-- When the loop of `getListPlates` runs out of iterations, every slot it went through
holds a node. -/
theorem getListPlates_loop_none (h : HashTable) (key : Key) :
    ∀ (fuel i : Nat), i < HASH_SIZE → getListPlates.loop h key fuel i = none →
      ∀ k, k < fuel → h ((i + k) % HASH_SIZE) ≠ none := by
  intro fuel
  induction fuel with
  | zero => intro i _ _ k hk; omega
  | succ fuel ih =>
    intro i hi hloop k hk
    unfold getListPlates.loop at hloop
    cases hslot : h i with
    | none => simp [hslot] at hloop
    | some node =>
      simp only [hslot] at hloop
      by_cases hkey : key = node.key
      · simp [hkey] at hloop
      · simp only [hkey, if_false] at hloop
        cases k with
        | zero =>
          rw [Nat.add_zero, Nat.mod_eq_of_lt hi, hslot]
          exact Option.some_ne_none _
        | succ k =>
          have := ih ((i + 1) % HASH_SIZE) (Nat.mod_lt _ (by decide)) hloop k (by omega)
          have he : ((i + 1) % HASH_SIZE + k) % HASH_SIZE = (i + (k + 1)) % HASH_SIZE := by
            simp only [HASH_SIZE]
            omega
          rw [he] at this
          exact this

/-- The lookup of a plate returns when the table has a `NULL` slot. -/
theorem getListPlates_returns (h : HashTable) (plates : String)
    (hfree : ∃ i, i < HASH_SIZE ∧ h i = none) : getListPlates h plates ≠ none := by
  obtain ⟨j, hj, hnone⟩ := hfree
  intro hloop
  unfold getListPlates at hloop
  have hstart : hash (sumAsciiValues plates) HASH_SIZE < HASH_SIZE := Nat.mod_lt _ (by decide)
  have hall := getListPlates_loop_none h (sumAsciiValues plates) HASH_SIZE _ hstart hloop
    ((j + HASH_SIZE - hash (sumAsciiValues plates) HASH_SIZE) % HASH_SIZE)
    (Nat.mod_lt _ (by decide))
  have he : (hash (sumAsciiValues plates) HASH_SIZE +
      (j + HASH_SIZE - hash (sumAsciiValues plates) HASH_SIZE) % HASH_SIZE) % HASH_SIZE = j := by
    simp only [HASH_SIZE] at hstart hj ⊢
    omega
  rw [he] at hall
  exact hall hnone

/-! ## Removal of a lot and the lookups -/

/-- The removal of a park in the embedding: when, in a reachable memory, the park found
under the name `nome` is removed, then in the memory after the removal no park is found
under that name, the park is not in the list and is freed, and a sequence returned by the
lookup of any plate holds only allocated records of other parks, parks still in the
list, whether the records have an exit day or not.  The lookup returns for every plate
when the table has a `NULL` slot. -/
theorem processCommand_r_effect (oob : Int → Int) (m m' : Memory) (nome : String) (p : Ptr)
    (out : List Printed) (hreach : Reachable oob m)
    (hp : listGetPark m.parkHeap m.parks nome = some (some p))
    (h : processCommand_r m nome = some (m', out)) :
    listGetPark m'.parkHeap m'.parks nome = some none ∧
      p ∉ m'.parks ∧ heapRead m'.parkHeap p = none ∧
      (∀ plates l, getListPlates m'.cars plates = some (some l) → ∀ r ∈ l,
        ∃ record park, heapRead m'.recordHeap r = some record ∧ record.park ≠ p ∧
          record.park ∈ m'.parks ∧ heapRead m'.parkHeap record.park = some park) ∧
      ((∃ i, i < HASH_SIZE ∧ m'.cars i = none) →
        ∀ plates, getListPlates m'.cars plates ≠ none) := by
  have hw := (wellFormed_of_reachable oob m hreach).1
  have ht := tableFormed_of_reachable oob m hreach
  obtain ⟨park, hpk, hname, hpmem⟩ := listGetPark_some _ _ _ _ hp
  have hrm : removePark m park.id = some m' := by
    unfold processCommand_r at h
    simp only [hp, hpk] at h
    cases hrm : removePark m park.id with
    | none => simp [hrm] at h
    | some m1 =>
      simp only [hrm] at h
      cases hpr : printRemainingParks m1.parkHeap m1.parks with
      | none => simp [hpr] at h
      | some o =>
        simp only [hpr, Option.some.injEq, Prod.mk.injEq] at h
        rw [h.1]
  have hw' := wellFormed_remove m m' hw park.id hrm
  have ht' := tableFormed_remove m m' ht park.id hrm
  obtain ⟨q, qpark, l1, l2, hq, hqid, hparks, hparks', hheap, -, -, -, -⟩ :=
    removePark_spec m m' park.id hrm
  have hqp : q = p := hw.ids_inj q p qpark park hq hpk hqid
  subst hqp
  have hnotin : q ∉ m'.parks := by
    have hnodup : (l1 ++ q :: l2).Nodup := hparks ▸ hw.parks_nodup
    rw [hparks']
    rw [List.nodup_append] at hnodup
    obtain ⟨-, hn2, hdisj⟩ := hnodup
    intro hmem
    rcases List.mem_append.mp hmem with h1 | h1
    · exact hdisj h1 (List.mem_cons_self _ _)
    · exact (List.nodup_cons.mp hn2).1 h1
  have hsubset : ∀ p', p' ∈ m'.parks → p' ∈ m.parks := by
    intro p' hp'
    rw [hparks'] at hp'
    rw [hparks]
    rcases List.mem_append.mp hp' with h1 | h1
    · exact List.mem_append_left _ h1
    · exact List.mem_append_right _ (List.mem_cons_of_mem _ h1)
  refine ⟨?_, hnotin, by rw [hheap]; exact heapRead_heapFree_self _ _, ?_, ?_⟩
  · apply listGetPark_eq_none
    intro p' hp'
    obtain ⟨park', hpk'⟩ := hw'.parks_live p' hp'
    refine ⟨park', hpk', ?_⟩
    intro hname'
    have hpk0 : heapRead m.parkHeap p' = some park' := by
      rw [hheap] at hpk'
      exact (heapRead_heapFree_some _ _ _ _ hpk').2
    have := ht.names p' q park' park (hsubset p' hp') hpmem hpk0 hpk (hname'.trans hname.symm)
    exact hnotin (this ▸ hp')
  · intro plates l hl r hr
    obtain ⟨j, node, hj, -, hrecs⟩ := getListPlates_loop_slot _ _ _ _ _ hl
    subst hrecs
    obtain ⟨record, h1, h2⟩ := ht'.table_live j node hj r hr
    obtain ⟨rpark, h3⟩ := hw'.parks_live record.park h2
    exact ⟨record, rpark, h1, fun he => hnotin (he ▸ h2), h2, h3⟩
  · intro hfree plates
    exact getListPlates_returns m'.cars plates hfree

/-- The removal of `A` in `cmdsOrphan` is the command that takes the memory of its first
four commands to the memory of `cmdsOrphan`. -/
theorem cmdsOrphan_removal :
    ∃ out, processCommand_r (memoryAfter (cmdsOrphan.take 4)) "A" =
      some (memoryAfter cmdsOrphan, out) := by
  have h4 : run oobZero (cmdsOrphan.take 4) initializeSystem =
      some (memoryAfter (cmdsOrphan.take 4)) := run_eq_some_memoryAfter _ (by decide!)
  have h5 : run oobZero (cmdsOrphan.take 4 ++ [.r "A"]) initializeSystem =
      some (memoryAfter cmdsOrphan) := run_eq_some_memoryAfter cmdsOrphan (by decide!)
  rw [run_append, h4] at h5
  simp only [Option.bind, run, execute] at h5
  cases hr : processCommand_r (memoryAfter (cmdsOrphan.take 4)) "A" with
  | none => simp [hr] at h5
  | some res =>
    obtain ⟨m1, out⟩ := res
    simp only [hr, Option.some.injEq] at h5
    exact ⟨out, by rw [h5]⟩

/-- Before the removal of `A` in `cmdsOrphan` the memory is reachable, the park `A` is at
address 0 and the lookup of `AA-70-AU` returns the sequence `[1]`. -/
theorem cmdsOrphan_before_removal :
    Reachable oobZero (memoryAfter (cmdsOrphan.take 4)) ∧
      listGetPark (memoryAfter (cmdsOrphan.take 4)).parkHeap
        (memoryAfter (cmdsOrphan.take 4)).parks "A" = some (some 0) ∧
      getListPlates (memoryAfter (cmdsOrphan.take 4)).cars "AA-70-AU" = some (some [1]) :=
  ⟨⟨cmdsOrphan.take 4, run_eq_some_memoryAfter _ (by decide!)⟩, by decide!, by decide!⟩

/-- An instance: the removal of the park `A` in `cmdsOrphan`. -/
theorem processCommand_r_effect_witness :
    listGetPark (memoryAfter cmdsOrphan).parkHeap (memoryAfter cmdsOrphan).parks "A" =
        some none ∧
      (0 : Ptr) ∉ (memoryAfter cmdsOrphan).parks ∧
      heapRead (memoryAfter cmdsOrphan).parkHeap 0 = none := by
  obtain ⟨out, hout⟩ := cmdsOrphan_removal
  have h := processCommand_r_effect oobZero (memoryAfter (cmdsOrphan.take 4))
    (memoryAfter cmdsOrphan) "A" 0 out cmdsOrphan_before_removal.1
    cmdsOrphan_before_removal.2.1 hout
  exact ⟨h.1, h.2.1, h.2.2.1⟩

/-- C27, the code at the failing input: before the removal of `A` in `cmdsOrphan` the
lookup of the plate `AA-70-AU` returns the sequence `[1]`, whose record is a stay in the
park `B` (address 1), not in `A` (address 0); after the removal of `A` that record is
still allocated, unchanged, and still in the table (slot 1722), but the lookup of the
plate returns `NULL`. -/
theorem removal_hides_record_of_other_lot :
    Reachable oobZero (memoryAfter (cmdsOrphan.take 4)) ∧
      listGetPark (memoryAfter (cmdsOrphan.take 4)).parkHeap
        (memoryAfter (cmdsOrphan.take 4)).parks "A" = some (some 0) ∧
      getListPlates (memoryAfter (cmdsOrphan.take 4)).cars "AA-70-AU" = some (some [1]) ∧
      heapRead (memoryAfter (cmdsOrphan.take 4)).recordHeap 1 =
        some { plates := "AA-70-AU", park := 1, entryDay := 738761, entryHour := 601,
               exitDay := NO_DATE, exitHour := NO_TIME, paid := 0 } ∧
      (∃ out, processCommand_r (memoryAfter (cmdsOrphan.take 4)) "A" =
        some (memoryAfter cmdsOrphan, out)) ∧
      heapRead (memoryAfter cmdsOrphan).recordHeap 1 =
        some { plates := "AA-70-AU", park := 1, entryDay := 738761, entryHour := 601,
               exitDay := NO_DATE, exitHour := NO_TIME, paid := 0 } ∧
      (memoryAfter cmdsOrphan).cars 1722 =
        some { key := sumAsciiValues "AA-70-AU", records := [1] } ∧
      getListPlates (memoryAfter cmdsOrphan).cars "AA-70-AU" = some none :=
  ⟨cmdsOrphan_before_removal.1, cmdsOrphan_before_removal.2.1, cmdsOrphan_before_removal.2.2,
    cmdsOrphan_lookup_before_removal.2, cmdsOrphan_removal, cmdsOrphan_open_record.1,
    cmdsOrphan_table.2.2, cmdsOrphan_lookup.1⟩

/-! ## Insertion in the table and the lookups -/

/-- A call of `addRecord` that returns, with the table it leaves. -/
theorem addRecord_eq_some (recordHeap : List (Option Record)) (h : HashTable) (r1 : Ptr)
    (hsome : (addRecord recordHeap h r1).isSome = true) :
    addRecord recordHeap h r1 = some (tableAfterAddRecord recordHeap h r1) := by
  unfold tableAfterAddRecord
  cases hadd : addRecord recordHeap h r1 with
  | none => rw [hadd] at hsome; exact Bool.noConfusion hsome
  | some cars => rfl

/-- In the memory of `cmdsOrphan`, the insertion of the record of the plate `AA-09-AA`
allocated at address 2 returns, and the lookup of that plate, `NULL` before, then returns
the sequence `[2]`. -/
theorem cmdsOrphan_addRecord :
    getListPlates (memoryAfter cmdsOrphan).cars "AA-09-AA" = some none ∧
      (addRecord ((memoryAfter cmdsOrphan).recordHeap ++ [some recordOtherPlate])
        (memoryAfter cmdsOrphan).cars 2).isSome = true ∧
      getListPlates (tableAfterAddRecord
        ((memoryAfter cmdsOrphan).recordHeap ++ [some recordOtherPlate])
        (memoryAfter cmdsOrphan).cars 2) "AA-09-AA" = some (some [2]) := by
  refine ⟨by decide!, by decide!, by decide!⟩

/-- After that insertion the lookup of the plate `AA-70-AU` returns the sequence `[1]`;
the new record is at the address 2, the first free one. -/
theorem cmdsOrphan_addRecord_other :
    getListPlates (tableAfterAddRecord
        ((memoryAfter cmdsOrphan).recordHeap ++ [some recordOtherPlate])
        (memoryAfter cmdsOrphan).cars 2) "AA-70-AU" = some (some [1]) ∧
      (memoryAfter cmdsOrphan).recordHeap.length = 2 := by
  refine ⟨by decide!, by decide!⟩

/-- In the memory with the single park `A`, the insertion of the record of the plate
`AAQ11-BB` allocated at address 0 returns, and the lookup of the plate `AB011-BB`, which
has the same key, then returns the sequence `[0]`. -/
theorem cmdsOnePark_addRecord :
    (memoryAfter cmdsOnePark).recordHeap.length = 0 ∧
      (addRecord ((memoryAfter cmdsOnePark).recordHeap ++ [some recordSameKey])
        (memoryAfter cmdsOnePark).cars 0).isSome = true ∧
      getListPlates (tableAfterAddRecord
        ((memoryAfter cmdsOnePark).recordHeap ++ [some recordSameKey])
        (memoryAfter cmdsOnePark).cars 0) "AB011-BB" = some (some [0]) := by
  refine ⟨by decide!, by decide!, by decide!⟩

/-- C28, the code at the failing inputs.  (1) In the memory reached by `cmdsOrphan` the
lookups of `AA-09-AA` and of `AA-70-AU` return `NULL`; the insertion of a new record of
`AA-09-AA` (the call made by the entry of that plate in `B`) gives that plate the
sequence `[2]`, and the lookup of the other plate `AA-70-AU` then returns the sequence
`[1]` instead of `NULL`.  (2) In the memory with the single park `A` the lookup of
`AB011-BB` returns `NULL`; after the insertion of a new record of `AAQ11-BB`, a plate that
`checkPlates` accepts and that has the same key, it returns the sequence `[0]`. -/
theorem addRecord_changes_other_plate :
    (Reachable oobZero (memoryAfter cmdsOrphan) ∧
      (memoryAfter cmdsOrphan).recordHeap.length = 2 ∧
      getListPlates (memoryAfter cmdsOrphan).cars "AA-09-AA" = some none ∧
      getListPlates (memoryAfter cmdsOrphan).cars "AA-70-AU" = some none ∧
      "AA-70-AU" ≠ recordOtherPlate.plates ∧
      ∃ cars, addRecord ((memoryAfter cmdsOrphan).recordHeap ++ [some recordOtherPlate])
          (memoryAfter cmdsOrphan).cars 2 = some cars ∧
        getListPlates cars "AA-09-AA" = some (some [2]) ∧
        getListPlates cars "AA-70-AU" = some (some [1])) ∧
    (Reachable oobZero (memoryAfter cmdsOnePark) ∧
      (memoryAfter cmdsOnePark).recordHeap.length = 0 ∧
      getListPlates (memoryAfter cmdsOnePark).cars "AB011-BB" = some none ∧
      "AB011-BB" ≠ recordSameKey.plates ∧ checkPlates recordSameKey.plates = true ∧
      ∃ cars, addRecord ((memoryAfter cmdsOnePark).recordHeap ++ [some recordSameKey])
          (memoryAfter cmdsOnePark).cars 0 = some cars ∧
        getListPlates cars "AB011-BB" = some (some [0])) :=
  ⟨⟨cmdsOrphan_reachable, cmdsOrphan_addRecord_other.2, cmdsOrphan_addRecord.1,
      cmdsOrphan_lookup.1, by decide, _,
      addRecord_eq_some _ _ _ cmdsOrphan_addRecord.2.1, cmdsOrphan_addRecord.2.2,
      cmdsOrphan_addRecord_other.1⟩,
    ⟨cmdsOnePark_entry_same_key.1, cmdsOnePark_addRecord.1,
      cmdsOnePark_entry_same_key.2.2.2.1, by decide, by decide, _,
      addRecord_eq_some _ _ _ cmdsOnePark_addRecord.2.1, cmdsOnePark_addRecord.2.2⟩⟩

/-! ## Only the last record of a sequence can be open -/

/-- The sequences of the table: in every reachable memory the list of every node of the
table is not empty, its records are allocated and every record but the last has an exit
day; so, when the lookup of a plate returns a sequence, `getLastRecord` returns the last
record of the sequence, and a record of the sequence without exit day is that record.
(The records of a plate can lie in two nodes, see `current_stay_not_last_record`.) -/
theorem reachable_only_last_open (oob : Int → Int) (m : Memory) (h : Reachable oob m) :
    (∀ i node, m.cars i = some node → node.records ≠ [] ∧
      (∀ r ∈ node.records, ∃ record, heapRead m.recordHeap r = some record) ∧
      ∀ r ∈ node.records.dropLast, ∃ record, heapRead m.recordHeap r = some record ∧
        record.exitDay ≠ NO_DATE) ∧
    (∀ plates l, getListPlates m.cars plates = some (some l) →
      ∃ last, getLastRecord m.cars plates = some (some last) ∧ l.getLast? = some last ∧
        (∀ r ∈ l.dropLast, ∃ record, heapRead m.recordHeap r = some record ∧
          record.exitDay ≠ NO_DATE) ∧
        ∀ r ∈ l, ∀ record, heapRead m.recordHeap r = some record →
          record.exitDay = NO_DATE → r = last) := by
  have ht := tableFormed_of_reachable oob m h
  have hnode : ∀ i node, m.cars i = some node → node.records ≠ [] ∧
      (∀ r ∈ node.records, ∃ record, heapRead m.recordHeap r = some record) ∧
      ∀ r ∈ node.records.dropLast, ∃ record, heapRead m.recordHeap r = some record ∧
        record.exitDay ≠ NO_DATE := by
    intro i node hi
    refine ⟨ht.table_nonempty i node hi, fun r hr => ?_, fun r hr => ?_⟩
    · obtain ⟨record, h1, -⟩ := ht.table_live i node hi r hr
      exact ⟨record, h1⟩
    · obtain ⟨record, h1, -⟩ := ht.table_live i node hi r (List.dropLast_subset _ hr)
      exact ⟨record, h1, ht.table_closed i node hi r hr record h1⟩
  refine ⟨hnode, ?_⟩
  intro plates l hl
  obtain ⟨j, node, hj, -, hrecs⟩ := getListPlates_loop_slot _ _ _ _ _ hl
  subst hrecs
  obtain ⟨hne, -, hclosed⟩ := hnode j node hj
  have hlast : node.records.getLast? = some (node.records.getLast hne) :=
    List.getLast?_eq_getLast _ hne
  refine ⟨node.records.getLast hne, ?_, hlast, hclosed, ?_⟩
  · unfold getLastRecord
    rw [hl]
    simp only [hlast]
  · intro r hr record hrec hopen
    have hsplit := List.dropLast_append_getLast hne
    rw [← hsplit] at hr
    rcases List.mem_append.mp hr with hr | hr
    · obtain ⟨record', h1, h2⟩ := hclosed r hr
      rw [hrec] at h1
      cases h1
      exact absurd hopen h2
    · simpa using hr

/-- The memory of `cmdsReentry` is reachable and the lookup of `AA-11-BB` returns there
the sequence of its two records. -/
theorem cmdsReentry_lookup :
    Reachable oobZero (memoryAfter cmdsReentry) ∧
      getListPlates (memoryAfter cmdsReentry).cars "AA-11-BB" = some (some [0, 1]) :=
  ⟨⟨cmdsReentry, run_eq_some_memoryAfter _ (by decide!)⟩, by decide!⟩

/-- An instance: after `cmdsReentry` the sequence of `AA-11-BB` is `[0, 1]`, the record 0
has an exit day and `getLastRecord` returns the record 1. -/
theorem reachable_only_last_open_witness :
    Reachable oobZero (memoryAfter cmdsReentry) ∧
      getListPlates (memoryAfter cmdsReentry).cars "AA-11-BB" = some (some [0, 1]) ∧
      getLastRecord (memoryAfter cmdsReentry).cars "AA-11-BB" = some (some 1) ∧
      ∃ record, heapRead (memoryAfter cmdsReentry).recordHeap 0 = some record ∧
        record.exitDay ≠ NO_DATE := by
  obtain ⟨last, h1, h2, h3, -⟩ :=
    (reachable_only_last_open oobZero (memoryAfter cmdsReentry) cmdsReentry_lookup.1).2
      "AA-11-BB" [0, 1] cmdsReentry_lookup.2
  have hlast : last = 1 := by
    simp only [List.getLast?_cons_cons, List.getLast?_singleton, Option.some.injEq] at h2
    exact h2.symm
  subst hlast
  exact ⟨cmdsReentry_lookup.1, cmdsReentry_lookup.2, h1, h3 0 (by simp)⟩

/-! ## The encoding of a date and the mark of an absent date -/

/-- On the integers: for every date accepted by `checkDateFormat`, the year 0 included,
the encoding is at least 1, which is neither `NO_DATE` nor `NO_TIME` (both 0). -/
theorem dateToInt_never_sentinel (oob : Int → Int) (d : DateText)
    (h : checkDateFormat oob d = true) :
    1 ≤ dateToInt oob d ∧ dateToInt oob d ≠ NO_DATE ∧ dateToInt oob d ≠ NO_TIME := by
  have hpos := dateToInt_pos oob d h
  refine ⟨hpos, ?_, ?_⟩
  · unfold NO_DATE
    omega
  · unfold NO_TIME
    omega

/-- An instance: the date 01-01-0000 is accepted and its encoding is 1. -/
theorem dateToInt_never_sentinel_witness :
    checkDateFormat oobZero ⟨1, 1, 0⟩ = true ∧ dateToInt oobZero ⟨1, 1, 0⟩ = 1 ∧
      dateToInt oobZero ⟨1, 1, 0⟩ ≠ NO_DATE :=
  ⟨by decide, by decide, (dateToInt_never_sentinel oobZero ⟨1, 1, 0⟩ (by decide)).2.1⟩

/-! ## Linear probing ends -/

/-- A sequence returned by the loop of `getListPlates` entered below `HASH_SIZE` is the
list of a node with the key, in a slot below `HASH_SIZE`. -/
theorem getListPlates_loop_slot_lt (h : HashTable) (key : Key) :
    ∀ (fuel i : Nat) (l : List Ptr), i < HASH_SIZE →
      getListPlates.loop h key fuel i = some (some l) →
      ∃ j node, j < HASH_SIZE ∧ h j = some node ∧ node.key = key ∧ node.records = l := by
  intro fuel
  induction fuel with
  | zero => intro i l _ hl; simp [getListPlates.loop] at hl
  | succ fuel ih =>
    intro i l hi hl
    unfold getListPlates.loop at hl
    cases hslot : h i with
    | none => simp [hslot] at hl
    | some node =>
      simp only [hslot] at hl
      by_cases hk : key = node.key
      · simp only [hk, if_true, Option.some.injEq] at hl
        exact ⟨i, node, hi, hslot, hk.symm, hl⟩
      · simp only [hk, if_false] at hl
        exact ih _ l (Nat.mod_lt _ (by decide)) hl

/-- C40: when the table has a `NULL` slot among its `HASH_SIZE = 8191` slots, the loop
of `getListPlates` is left within 8191 iterations for every plate, and so is the loop of
`addRecord` for every allocated record; and `getListPlates` returns `NULL` for a plate
whose key is in no slot. -/
theorem probing_returns (h : HashTable) (hfree : ∃ i, i < HASH_SIZE ∧ h i = none) :
    HASH_SIZE = 8191 ∧
    (∀ plates, ∃ res, getListPlates.loop h (sumAsciiValues plates) 8191
        (hash (sumAsciiValues plates) HASH_SIZE) = some res ∧
      getListPlates h plates = some res) ∧
    (∀ recordHeap r1 record, heapRead recordHeap r1 = some record →
      ∃ cars, addRecord.loop h (sumAsciiValues record.plates) r1 8191
          (hash (sumAsciiValues record.plates) HASH_SIZE) = some cars ∧
        addRecord recordHeap h r1 = some cars) ∧
    (∀ plates, (∀ i node, i < HASH_SIZE → h i = some node →
        node.key ≠ sumAsciiValues plates) → getListPlates h plates = some none) := by
  have hret : ∀ plates, ∃ res, getListPlates h plates = some res := by
    intro plates
    cases hres : getListPlates h plates with
    | none => exact absurd hres (getListPlates_returns h plates hfree)
    | some res => exact ⟨res, rfl⟩
  refine ⟨rfl, ?_, ?_, ?_⟩
  · intro plates
    obtain ⟨res, hres⟩ := hret plates
    exact ⟨res, hres, hres⟩
  · intro recordHeap r1 record hrec
    obtain ⟨old, hold⟩ := hret record.plates
    obtain ⟨j, hadd, -, -⟩ := addRecord_loop_spec h (sumAsciiValues record.plates) r1
      HASH_SIZE (hash (sumAsciiValues record.plates) HASH_SIZE) old hold
    refine ⟨_, hadd, ?_⟩
    unfold addRecord
    rw [hrec]
    exact hadd
  · intro plates hkey
    obtain ⟨res, hres⟩ := hret plates
    cases res with
    | none => exact hres
    | some l =>
      obtain ⟨j, node, hj, hnode, hk, -⟩ := getListPlates_loop_slot_lt h (sumAsciiValues plates)
        HASH_SIZE _ l (Nat.mod_lt _ (by decide)) hres
      exact absurd hk (hkey j node hj hnode)

/-- Witness of C40: the table with the single record of `cmdsOneCar` has slot 0 `NULL`,
and the lookup of the plate `CC-22-DD` returns. -/
theorem probing_returns_witness :
    (∃ i, i < HASH_SIZE ∧ (memoryAfter cmdsOneCar).cars i = none) ∧
      ∃ res, getListPlates (memoryAfter cmdsOneCar).cars "CC-22-DD" = some res :=
  ⟨⟨0, by decide, by decide!⟩,
    ((probing_returns (memoryAfter cmdsOneCar).cars ⟨0, by decide, by decide!⟩).2.1
      "CC-22-DD").imp (fun _ hres => hres.2)⟩

/-! ## The amount grows with the length of the stay -/

/-- More minutes beyond the full days give at least as many blocks. -/
theorem calculatePrice_blocks_mono (r1 r2 : Record) (h0 : 0 ≤ calculatePrice.minutes r1)
    (hle : calculatePrice.minutes r1 ≤ calculatePrice.minutes r2) :
    calculatePrice.blocks r1 ≤ calculatePrice.blocks r2 := by
  have h0' : 0 ≤ calculatePrice.minutes r2 := le_trans h0 hle
  unfold calculatePrice.blocks
  rw [Int.tmod_eq_emod h0 (by norm_num), Int.tdiv_eq_ediv h0 (by norm_num),
    Int.tmod_eq_emod h0' (by norm_num), Int.tdiv_eq_ediv h0' (by norm_num)]
  split_ifs <;> omega

/-- More blocks cost at least as much, before the comparison with the daily fee. -/
theorem calculatePrice_price_mono (r1 r2 : Record) (park : Park) (h1 : 0 < park.less_60)
    (h2 : park.less_60 ≤ park.more_60) (h0 : 0 ≤ calculatePrice.blocks r1)
    (hb : calculatePrice.blocks r1 ≤ calculatePrice.blocks r2) :
    calculatePrice.price r1 park ≤ calculatePrice.price r2 park := by
  have hq : (calculatePrice.blocks r1 : ℚ) ≤ (calculatePrice.blocks r2 : ℚ) := by
    exact_mod_cast hb
  have hq0 : (0 : ℚ) ≤ (calculatePrice.blocks r1 : ℚ) := by exact_mod_cast h0
  have h3 : 0 < park.more_60 := lt_of_lt_of_le h1 h2
  unfold calculatePrice.price
  split_ifs with c1 c2 c2
  · push_cast
    nlinarith
  · omega
  · have c1' : (calculatePrice.blocks r1 : ℚ) ≤ 4 := by
      have : calculatePrice.blocks r1 ≤ 4 := by omega
      exact_mod_cast this
    have c2' : (4 : ℚ) < (calculatePrice.blocks r2 : ℚ) := by exact_mod_cast c2
    push_cast
    nlinarith
  · nlinarith

/-- In a park with `0 < less_60 <= more_60 <= dayly`, for two records whose `int` locals
`total` satisfy `0 <= total r1 <= total r2`, the amount `calculatePrice` writes for the
first is at most the amount it writes for the second, whatever the number of full days
in each.  (The local `total` is the length of the stay only when that length is in the
range of `int`.) -/
theorem calculatePrice_monotone (r1 r2 : Record) (park : Park) (h1 : 0 < park.less_60)
    (h2 : park.less_60 ≤ park.more_60) (h3 : park.more_60 ≤ park.dayly)
    (h0 : 0 ≤ calculatePrice.total r1)
    (hle : calculatePrice.total r1 ≤ calculatePrice.total r2) :
    (calculatePrice r1 park).paid ≤ (calculatePrice r2 park).paid := by
  have h0' : 0 ≤ calculatePrice.total r2 := le_trans h0 hle
  have hcap : 0 < park.dayly := lt_of_lt_of_le (lt_of_lt_of_le h1 h2) h3
  have hm1 := calculatePrice_minutes_nonneg r1 h0
  have hm2 := calculatePrice_minutes_nonneg r2 h0'
  have hb1 := calculatePrice_blocks_nonneg r1 h0
  have hb2 := calculatePrice_blocks_nonneg r2 h0'
  have hprice_nonneg : ∀ r : Record, 0 ≤ calculatePrice.blocks r →
      0 ≤ calculatePrice.price r park := by
    intro r hb
    have hbq : (0 : ℚ) ≤ (calculatePrice.blocks r : ℚ) := by exact_mod_cast hb
    have h4 : 0 < park.more_60 := lt_of_lt_of_le h1 h2
    unfold calculatePrice.price
    split_ifs with c
    · have c' : (4 : ℚ) < (calculatePrice.blocks r : ℚ) := by exact_mod_cast c
      push_cast
      nlinarith
    · positivity
  have hd1 : calculatePrice.days r1 = calculatePrice.total r1 / 1440 :=
    Int.tdiv_eq_ediv h0 (by norm_num)
  have hd2 : calculatePrice.days r2 = calculatePrice.total r2 / 1440 :=
    Int.tdiv_eq_ediv h0' (by norm_num)
  have hmin1 : calculatePrice.minutes r1 = calculatePrice.total r1 % 1440 :=
    Int.tmod_eq_emod h0 (by norm_num)
  have hmin2 : calculatePrice.minutes r2 = calculatePrice.total r2 % 1440 :=
    Int.tmod_eq_emod h0' (by norm_num)
  have hcases : (calculatePrice.days r1 = calculatePrice.days r2 ∧
      calculatePrice.minutes r1 ≤ calculatePrice.minutes r2) ∨
      calculatePrice.days r1 + 1 ≤ calculatePrice.days r2 := by
    rw [hd1, hd2, hmin1, hmin2]
    omega
  have hp1 := hprice_nonneg r1 hb1
  have hp2 := hprice_nonneg r2 hb2
  simp only [calculatePrice]
  rcases hcases with ⟨hd, hm⟩ | hd
  · rw [hd]
    have hb := calculatePrice_blocks_mono r1 r2 hm1 hm
    have hp := calculatePrice_price_mono r1 r2 park h1 h2 hb1 hb
    split_ifs with c1 c2 c2
    · exact le_refl _
    · linarith
    · linarith
    · linarith
  · have hdq : (calculatePrice.days r1 : ℚ) + 1 ≤ (calculatePrice.days r2 : ℚ) := by
      exact_mod_cast hd
    have hmul : ((calculatePrice.days r1 : ℚ) + 1) * park.dayly ≤
        (calculatePrice.days r2 : ℚ) * park.dayly :=
      mul_le_mul_of_nonneg_right hdq hcap.le
    split_ifs with c1 c2 c2
    · linarith
    · linarith
    · push_neg at c1
      linarith
    · push_neg at c1
      linarith

/-- An instance: the stay of 80 minutes costs at most the stay of two nights, in the park
with the fees 1, 2 and 10. -/
theorem calculatePrice_monotone_witness :
    0 ≤ calculatePrice.total recordEightyMinutes ∧
      calculatePrice.total recordEightyMinutes ≤ calculatePrice.total recordTwoNights ∧
      (calculatePrice recordEightyMinutes parkTen).paid ≤
        (calculatePrice recordTwoNights parkTen).paid :=
  ⟨by decide, by decide,
    calculatePrice_monotone recordEightyMinutes recordTwoNights parkTen (by decide!)
      (by decide!) (by decide!) (by decide) (by decide)⟩

/-! ## The sorted view -/

/-- What is left after `dropWhile` is empty or starts with an element that fails the
test. -/
theorem dropWhile_nil_or_head {α : Type} (p : α → Bool) :
    ∀ l : List α, l.dropWhile p = [] ∨ ∃ x rest, l.dropWhile p = x :: rest ∧ p x = false := by
  intro l
  induction l with
  | nil => exact Or.inl rfl
  | cons a l ih =>
    cases hp : p a with
    | true =>
      rw [List.dropWhile_cons_of_pos hp]
      exact ih
    | false =>
      right
      refine ⟨a, l, ?_, hp⟩
      rw [List.dropWhile_cons_of_neg (by simp [hp])]

/-- The elements taken by `takeWhile` pass the test. -/
theorem mem_takeWhile_true {α : Type} (p : α → Bool) :
    ∀ (l : List α) (x : α), x ∈ l.takeWhile p → p x = true := by
  intro l
  induction l with
  | nil => intro x hx; simp at hx
  | cons a l ih =>
    intro x hx
    cases hp : p a with
    | true =>
      rw [List.takeWhile_cons_of_pos hp] at hx
      rcases List.mem_cons.mp hx with hx | hx
      · rw [hx]; exact hp
      · exact ih x hx
    | false =>
      rw [List.takeWhile_cons_of_neg (by simp [hp])] at hx
      simp at hx

/-- One round of `insertionSort` splits the sorted prefix in two parts and puts the key
between them: the second part holds elements that compare greater than the key, and the
first part is empty or ends with an element that does not. -/
theorem insertionSort_insert_split {α : Type} (gt : α → α → Bool) (sorted : List α) (key : α) :
    ∃ A B, sorted = A ++ B ∧ insertionSort.insert gt sorted key = A ++ key :: B ∧
      (∀ b ∈ B, gt b key = true) ∧
      (A = [] ∨ ∃ A' x, A = A' ++ [x] ∧ gt x key = false) := by
  refine ⟨(sorted.reverse.dropWhile (fun a => gt a key)).reverse,
    (sorted.reverse.takeWhile (fun a => gt a key)).reverse, ?_, rfl, ?_, ?_⟩
  · rw [← List.reverse_append, List.takeWhile_append_dropWhile, List.reverse_reverse]
  · intro b hb
    rw [List.mem_reverse] at hb
    exact mem_takeWhile_true (fun a => gt a key) _ b hb
  · rcases dropWhile_nil_or_head (fun a => gt a key) sorted.reverse with h | ⟨x, rest, h, hx⟩
    · left
      rw [h]
      rfl
    · right
      refine ⟨rest.reverse, x, ?_, hx⟩
      rw [h, List.reverse_cons]

/-- C33: for every list and every name of its elements, the array returned by `sortList`
with the comparison of the names (`gt a b` when the name of `a` is after the name of
`b`, as `compareParkNames` and `compareNames` do with `strcmp`) is a permutation of the
list, is in non-decreasing order of name, and keeps the elements of each name in the
order they have in the list; this holds in particular for the parks compared by
`compareParkNames`.  The function returns a new array: the list is not changed. -/
theorem sortList_sorted_stable {α : Type} (name : α → String) (l : List α) :
    (sortList l (fun a b => decide (name b < name a))).Perm l ∧
      (sortList l (fun a b => decide (name b < name a))).Pairwise
        (fun a b => name a ≤ name b) ∧
      (∀ n : String, (sortList l (fun a b => decide (name b < name a))).filter
          (fun a => decide (name a = n)) = l.filter (fun a => decide (name a = n))) ∧
      (∀ parks : List Park, sortList parks compareParkNames =
        sortList parks (fun a b => decide (Park.name b < Park.name a))) := by
  have hmain : ∀ l : List α,
      (l.foldl (insertionSort.insert (fun a b => decide (name b < name a))) []).Perm l ∧
      (l.foldl (insertionSort.insert (fun a b => decide (name b < name a))) []).Pairwise
        (fun a b => name a ≤ name b) ∧
      (∀ n : String, (l.foldl (insertionSort.insert (fun a b => decide (name b < name a)))
          []).filter (fun a => decide (name a = n)) =
        l.filter (fun a => decide (name a = n))) := by
    intro l
    induction l using List.reverseRecOn with
    | nil => exact ⟨List.Perm.refl _, List.Pairwise.nil, fun _ => rfl⟩
    | append_singleton l key ih =>
      obtain ⟨hperm, hsorted, hstable⟩ := ih
      rw [List.foldl_append, List.foldl_cons, List.foldl_nil]
      obtain ⟨A, B, hAB, hins, hB, hA⟩ := insertionSort_insert_split
        (fun a b => decide (name b < name a))
        (l.foldl (insertionSort.insert (fun a b => decide (name b < name a))) []) key
      rw [hins]
      rw [hAB] at hperm hsorted hstable
      have hBgt : ∀ b ∈ B, name key < name b := by
        intro b hb
        have := hB b hb
        simpa using this
      obtain ⟨hpA, hpB, hpAB⟩ := List.pairwise_append.mp hsorted
      have hAle : ∀ a ∈ A, name a ≤ name key := by
        intro a ha
        rcases hA with hA | ⟨A', x, hA, hx⟩
        · rw [hA] at ha
          simp at ha
        · have hxle : name x ≤ name key := by
            have : ¬ name key < name x := by simpa using hx
            exact not_lt.mp this
          rw [hA] at ha hpA
          rcases List.mem_append.mp ha with ha | ha
          · have := (List.pairwise_append.mp hpA).2.2 a ha x (List.mem_singleton.mpr rfl)
            exact le_trans this hxle
          · rw [List.mem_singleton] at ha
            rw [ha]
            exact hxle
      refine ⟨?_, ?_, ?_⟩
      · have h1 : (A ++ key :: B).Perm (key :: (A ++ B)) := List.perm_middle
        have h2 : (key :: (A ++ B)).Perm (key :: l) := List.Perm.cons key hperm
        have h3 : (key :: l).Perm (l ++ [key]) := (List.perm_append_singleton key l).symm
        exact h1.trans (h2.trans h3)
      · rw [List.pairwise_append]
        refine ⟨hpA, ?_, ?_⟩
        · rw [List.pairwise_cons]
          exact ⟨fun b hb => (hBgt b hb).le, hpB⟩
        · intro a ha b hb
          rcases List.mem_cons.mp hb with hb | hb
          · rw [hb]
            exact hAle a ha
          · exact hpAB a ha b hb
      · intro n
        have hst := hstable n
        rw [List.filter_append] at hst
        rw [List.filter_append, List.filter_cons, List.filter_append, ← hst]
        by_cases hn : name key = n
        · have hBn : B.filter (fun a => decide (name a = n)) = [] := by
            rw [List.filter_eq_nil_iff]
            intro b hb hbn
            have hlt := hBgt b hb
            simp only [decide_eq_true_eq] at hbn
            rw [hbn, hn] at hlt
            exact lt_irrefl _ hlt
          simp [hn, hBn]
        · simp [hn]
  refine ⟨(hmain l).1, (hmain l).2.1, (hmain l).2.2, fun parks => rfl⟩

/-- Witness of C33 on three parks named `B`, `A` and `B`: the sorted view is the park
`A` followed by the two parks `B` in the order they have in the list. -/
theorem sortList_sorted_stable_witness :
    sortList [{ parkTen with name := "B", id := 1 }, { parkTen with name := "A", id := 2 },
        { parkTen with name := "B", id := 3 }] compareParkNames =
      [{ parkTen with name := "A", id := 2 }, { parkTen with name := "B", id := 1 },
        { parkTen with name := "B", id := 3 }] ∧
    (sortList [{ parkTen with name := "B", id := 1 }, { parkTen with name := "A", id := 2 },
        { parkTen with name := "B", id := 3 }]
        (fun a b => decide (Park.name b < Park.name a))).filter
          (fun a => decide (Park.name a = "B")) =
      [{ parkTen with name := "B", id := 1 }, { parkTen with name := "B", id := 3 }] :=
  ⟨by decide!,
    ((sortList_sorted_stable Park.name
      [{ parkTen with name := "B", id := 1 }, { parkTen with name := "A", id := 2 },
        { parkTen with name := "B", id := 3 }]).2.2.1 "B").trans (by decide!)⟩

/-! ## The key of a plate -/

/-- Two characters with the same code are the same character. -/
theorem char_eq_of_toNat (a b : Char) (h : a.toNat = b.toNat) : a = b := by
  apply Char.ext
  have h' : a.val.toNat = b.val.toNat := h
  cases ha : a.val with
  | mk va =>
    cases hb : b.val with
    | mk vb =>
      rw [ha, hb] at h'
      have : va = vb := BitVec.eq_of_toNat_eq h'
      rw [this]

/-- The codes of the uppercase letters. -/
theorem isUpper_range (x : Char) (h : x.isUpper = true) : 65 ≤ x.toNat ∧ x.toNat ≤ 90 := by
  simp only [Char.isUpper, Bool.and_eq_true, decide_eq_true_eq, ge_iff_le] at h
  have h1 : (65 : UInt32).toNat ≤ x.val.toNat := h.1
  have h2 : x.val.toNat ≤ (90 : UInt32).toNat := h.2
  have e1 : (65 : UInt32).toNat = 65 := rfl
  have e2 : (90 : UInt32).toNat = 90 := rfl
  have e3 : x.toNat = x.val.toNat := rfl
  omega

/-- The codes of the digits. -/
theorem isDigit_range (x : Char) (h : x.isDigit = true) : 48 ≤ x.toNat ∧ x.toNat ≤ 57 := by
  simp only [Char.isDigit, Bool.and_eq_true, decide_eq_true_eq, ge_iff_le] at h
  have h1 : (48 : UInt32).toNat ≤ x.val.toNat := h.1
  have h2 : x.val.toNat ≤ (57 : UInt32).toNat := h.2
  have e1 : (48 : UInt32).toNat = 48 := rfl
  have e2 : (57 : UInt32).toNat = 57 := rfl
  have e3 : x.toNat = x.val.toNat := rfl
  omega

/-- A list of eight characters. -/
theorem list_of_length_eight (l : List Char) (hl : l.length = 8) :
    ∃ a b c d e f g h, l = [a, b, c, d, e, f, g, h] := by
  match l, hl with
  | [a, b, c, d, e, f, g, h], _ => exact ⟨a, b, c, d, e, f, g, h, rfl⟩

/-- On eight codes below 128 the 64-bit word never wraps: the key of the code is the
value of djb2, and it is below `2 ^ 64`. -/
theorem djb2_no_wrap (a b c d e f g h : Nat) (ha : a < 128) (hb : b < 128) (hc : c < 128)
    (hd : d < 128) (he : e < 128) (hf : f < 128) (hg : g < 128) (hh : h < 128) :
    [a, b, c, d, e, f, g, h].foldl (fun hash c => (hash * 32 + hash + c) % 2 ^ 64) 5381 =
        [a, b, c, d, e, f, g, h].foldl (fun hash c => hash * 33 + c) 5381 ∧
      [a, b, c, d, e, f, g, h].foldl (fun hash c => hash * 33 + c) 5381 < 2 ^ 64 := by
  simp only [List.foldl]
  norm_num
  omega

/-- Two values of djb2 on plates with the separator 45 at the same places are equal only
when the three pairs have the same value `33 * first + second`. -/
theorem djb2_pairs (a b c d e f a' b' c' d' e' f' : Nat)
    (hc : c ≤ 90) (hd : d ≤ 90) (he : e ≤ 90) (hf : f ≤ 90)
    (hc' : c' ≤ 90) (hd' : d' ≤ 90) (he' : e' ≤ 90) (hf' : f' ≤ 90)
    (h : [a, b, 45, c, d, 45, e, f].foldl (fun hash c => hash * 33 + c) 5381 =
      [a', b', 45, c', d', 45, e', f'].foldl (fun hash c => hash * 33 + c) 5381) :
    a * 33 + b = a' * 33 + b' ∧ c * 33 + d = c' * 33 + d' ∧ e * 33 + f = e' * 33 + f' := by
  simp only [List.foldl] at h
  omega

/-- Two pairs of two uppercase letters or two digits with the same value
`33 * first + second` are the same pair. -/
theorem djb2_pair_injective (x y x' y' : Nat)
    (h1 : (65 ≤ x ∧ x ≤ 90 ∧ 65 ≤ y ∧ y ≤ 90) ∨ (48 ≤ x ∧ x ≤ 57 ∧ 48 ≤ y ∧ y ≤ 57))
    (h2 : (65 ≤ x' ∧ x' ≤ 90 ∧ 65 ≤ y' ∧ y' ≤ 90) ∨ (48 ≤ x' ∧ x' ≤ 57 ∧ 48 ≤ y' ∧ y' ≤ 57))
    (h : x * 33 + y = x' * 33 + y') : x = x' ∧ y = y' := by
  omega

/-- The characters of a plate of the format of the specification: three pairs of two
uppercase letters or two digits, with `-` between them. -/
theorem plateFormat_data (s : String) (h : plateFormat s = true) :
    ∃ a b c d e f : Char, s.data = [a, b, '-', c, d, '-', e, f] ∧
      ((65 ≤ a.toNat ∧ a.toNat ≤ 90 ∧ 65 ≤ b.toNat ∧ b.toNat ≤ 90) ∨
        (48 ≤ a.toNat ∧ a.toNat ≤ 57 ∧ 48 ≤ b.toNat ∧ b.toNat ≤ 57)) ∧
      ((65 ≤ c.toNat ∧ c.toNat ≤ 90 ∧ 65 ≤ d.toNat ∧ d.toNat ≤ 90) ∨
        (48 ≤ c.toNat ∧ c.toNat ≤ 57 ∧ 48 ≤ d.toNat ∧ d.toNat ≤ 57)) ∧
      ((65 ≤ e.toNat ∧ e.toNat ≤ 90 ∧ 65 ≤ f.toNat ∧ f.toNat ≤ 90) ∨
        (48 ≤ e.toNat ∧ e.toNat ≤ 57 ∧ 48 ≤ f.toNat ∧ f.toNat ≤ 57)) := by
  have hpair : ∀ x y : Char, (x.isUpper = true ∧ y.isUpper = true) ∨
      (x.isDigit = true ∧ y.isDigit = true) →
      (65 ≤ x.toNat ∧ x.toNat ≤ 90 ∧ 65 ≤ y.toNat ∧ y.toNat ≤ 90) ∨
        (48 ≤ x.toNat ∧ x.toNat ≤ 57 ∧ 48 ≤ y.toNat ∧ y.toNat ≤ 57) := by
    rintro x y (⟨hx, hy⟩ | ⟨hx, hy⟩)
    · exact Or.inl ⟨(isUpper_range x hx).1, (isUpper_range x hx).2, (isUpper_range y hy).1,
        (isUpper_range y hy).2⟩
    · exact Or.inr ⟨(isDigit_range x hx).1, (isDigit_range x hx).2, (isDigit_range y hy).1,
        (isDigit_range y hy).2⟩
  unfold plateFormat at h
  split at h
  · rename_i a b s1 c d s2 e f hdata
    simp only [List.all_cons, List.all_nil, List.any_cons, List.any_nil, Bool.and_true,
      Bool.or_false, Bool.and_eq_true, Bool.or_eq_true, decide_eq_true_eq] at h
    obtain ⟨⟨⟨⟨hs1, hs2⟩, hp1, hp2, hp3⟩, -⟩, -⟩ := h
    subst hs1 hs2
    exact ⟨a, b, c, d, e, f, hdata, hpair a b hp1, hpair c d hp2, hpair e f hp3⟩
  · exact Bool.noConfusion h

/-- C38: on a plate of eight characters with codes below 128 the key computed on the
64-bit word is the value of djb2, below `2 ^ 64`, so the word never wraps; on the plates
of the format `XX-XX-XX` of the specification the key is injective; and so no node of a
table carries the key of two distinct plates of that format: their lookups never return
the list of the same node. -/
theorem sumAsciiValues_injective :
    (∀ s : String, s.data.length = 8 → (∀ c ∈ s.data, c.toNat < 128) →
      sumAsciiValues s = djb2 s ∧ djb2 s < 2 ^ 64) ∧
    (∀ s : String, plateFormat s = true → sumAsciiValues s = djb2 s ∧ djb2 s < 2 ^ 64) ∧
    (∀ s t : String, plateFormat s = true → plateFormat t = true →
      sumAsciiValues s = sumAsciiValues t → s = t) ∧
    (∀ (s t : String) (h : HashTable) (i : Nat) (node : HashNode), plateFormat s = true →
      plateFormat t = true → s ≠ t → h i = some node →
      ¬ (node.key = sumAsciiValues s ∧ node.key = sumAsciiValues t)) := by
  have hwrap : ∀ s : String, s.data.length = 8 → (∀ c ∈ s.data, c.toNat < 128) →
      sumAsciiValues s = djb2 s ∧ djb2 s < 2 ^ 64 := by
    intro s hlen hascii
    obtain ⟨a, b, c, d, e, f, g, h, hdata⟩ := list_of_length_eight s.data hlen
    rw [hdata] at hascii
    have key := djb2_no_wrap a.toNat b.toNat c.toNat d.toNat e.toNat f.toNat g.toNat h.toNat
      (hascii a (by simp)) (hascii b (by simp)) (hascii c (by simp)) (hascii d (by simp))
      (hascii e (by simp)) (hascii f (by simp)) (hascii g (by simp)) (hascii h (by simp))
    unfold sumAsciiValues djb2
    rw [hdata]
    simp only [List.foldl] at key ⊢
    exact key
  have hm : ('-' : Char).toNat = 45 := rfl
  have hformat : ∀ s : String, plateFormat s = true →
      sumAsciiValues s = djb2 s ∧ djb2 s < 2 ^ 64 := by
    intro s hs
    obtain ⟨a, b, c, d, e, f, hdata, h1, h2, h3⟩ := plateFormat_data s hs
    apply hwrap s (by rw [hdata]; rfl)
    intro x hx
    rw [hdata] at hx
    simp only [List.mem_cons, List.mem_singleton, List.not_mem_nil, or_false] at hx
    rcases hx with hx | hx | hx | hx | hx | hx | hx | hx <;> subst hx <;> omega
  have hinj : ∀ s t : String, plateFormat s = true → plateFormat t = true →
      sumAsciiValues s = sumAsciiValues t → s = t := by
    intro s t hs ht hkey
    rw [(hformat s hs).1, (hformat t ht).1] at hkey
    obtain ⟨a, b, c, d, e, f, hdata, h1, h2, h3⟩ := plateFormat_data s hs
    obtain ⟨a', b', c', d', e', f', hdata', h1', h2', h3'⟩ := plateFormat_data t ht
    unfold djb2 at hkey
    rw [hdata, hdata'] at hkey
    have hk : [a.toNat, b.toNat, 45, c.toNat, d.toNat, 45, e.toNat, f.toNat].foldl
        (fun hash c => hash * 33 + c) 5381 =
        [a'.toNat, b'.toNat, 45, c'.toNat, d'.toNat, 45, e'.toNat, f'.toNat].foldl
          (fun hash c => hash * 33 + c) 5381 := by
      simp only [List.foldl, hm] at hkey ⊢
      exact hkey
    obtain ⟨p1, p2, p3⟩ := djb2_pairs _ _ _ _ _ _ _ _ _ _ _ _ (by omega) (by omega) (by omega)
      (by omega) (by omega) (by omega) (by omega) (by omega) hk
    obtain ⟨ea, eb⟩ := djb2_pair_injective _ _ _ _ h1 h1' p1
    obtain ⟨ec, ed⟩ := djb2_pair_injective _ _ _ _ h2 h2' p2
    obtain ⟨ee, ef⟩ := djb2_pair_injective _ _ _ _ h3 h3' p3
    apply String.ext
    rw [hdata, hdata', char_eq_of_toNat _ _ ea, char_eq_of_toNat _ _ eb,
      char_eq_of_toNat _ _ ec, char_eq_of_toNat _ _ ed, char_eq_of_toNat _ _ ee,
      char_eq_of_toNat _ _ ef]
  refine ⟨hwrap, hformat, hinj, ?_⟩
  intro s t h i node hs ht hne _ hboth
  exact hne (hinj s t hs ht (hboth.1.symm.trans hboth.2))

/-- Witness of C38: the plates `AA-11-BB` and `AA-11-BC` have different keys. -/
theorem sumAsciiValues_injective_witness :
    plateFormat "AA-11-BB" = true ∧ plateFormat "AA-11-BC" = true ∧
      sumAsciiValues "AA-11-BB" ≠ sumAsciiValues "AA-11-BC" :=
  ⟨by decide, by decide,
    fun hkey => absurd (sumAsciiValues_injective.2.2.1 "AA-11-BB" "AA-11-BC" (by decide)
      (by decide) hkey) (by decide)⟩

/-! ## The invariants of the billing histories -/

/-- The order of the moments is reflexive. -/
theorem momentLe_refl (d t : Int) : momentLe d t d t :=
  Or.inr ⟨rfl, le_refl _⟩

/-- The order of the moments is transitive. -/
theorem momentLe_trans (d1 t1 d2 t2 d3 t3 : Int) (h1 : momentLe d1 t1 d2 t2)
    (h2 : momentLe d2 t2 d3 t3) : momentLe d1 t1 d3 t3 := by
  unfold momentLe at *
  omega

/-- The start memory has the invariants of the histories. -/
theorem historyFormed_initializeSystem : HistoryFormed initializeSystem := by
  constructor
  · intro r record h
    simp [initializeSystem, heapRead] at h
  · intro r record h
    simp [initializeSystem, heapRead] at h
  · intro p park h
    simp [initializeSystem, heapRead] at h
  · intro p park h
    simp [initializeSystem, heapRead] at h

/-- A successful lot creation keeps the invariants of the histories. -/
theorem historyFormed_create (m : Memory) (hh : HistoryFormed m) (park : Park)
    (hrecords : park.records = []) (idc : Int) :
    HistoryFormed { parkHeap := m.parkHeap ++ [some park], recordHeap := m.recordHeap,
                    parks := m.parks ++ [m.parkHeap.length], cars := m.cars, date := m.date,
                    time := m.time, idIncrementer := idc } := by
  constructor
  · exact hh.entry_clock
  · exact hh.exit_clock
  · intro p x hx r hr
    change heapRead (m.parkHeap ++ [some park]) p = some x at hx
    rcases heapRead_append_some m.parkHeap park x p hx with ⟨-, h2⟩ | ⟨-, h2⟩
    · rw [h2, hrecords] at hr
      simp at hr
    · exact hh.history p x h2 r hr
  · intro p x hx
    change heapRead (m.parkHeap ++ [some park]) p = some x at hx
    rcases heapRead_append_some m.parkHeap park x p hx with ⟨-, h2⟩ | ⟨-, h2⟩
    · rw [h2, hrecords]
      exact List.Pairwise.nil
    · exact hh.history_sorted p x h2

/-- A successful entry keeps the invariants of the histories. -/
theorem historyFormed_entry (m : Memory) (hh : HistoryFormed m) (p : Ptr) (park park' : Park)
    (record : Record) (cars : HashTable) (hpk : heapRead m.parkHeap p = some park)
    (hrecords : park'.records = park.records) (hopen : record.exitDay = NO_DATE)
    (hpos : 1 ≤ record.entryDay)
    (hclock : momentLe m.date m.time record.entryDay record.entryHour) :
    HistoryFormed { parkHeap := heapWrite m.parkHeap p park',
                    recordHeap := m.recordHeap ++ [some record], parks := m.parks,
                    cars := cars, date := record.entryDay, time := record.entryHour,
                    idIncrementer := m.idIncrementer } := by
  have hpark : ∀ q x, heapRead (heapWrite m.parkHeap p park') q = some x →
      ∃ x0, heapRead m.parkHeap q = some x0 ∧ x.records = x0.records := by
    intro q x hx
    rcases heapRead_heapWrite_some m.parkHeap p q park' park x hpk hx with ⟨h1, h2⟩ | ⟨-, h2⟩
    · subst h1
      exact ⟨park, hpk, by rw [h2, hrecords]⟩
    · exact ⟨x, h2, rfl⟩
  constructor
  · intro r rec hr
    change heapRead (m.recordHeap ++ [some record]) r = some rec at hr
    show 1 ≤ rec.entryDay ∧ momentLe rec.entryDay rec.entryHour record.entryDay record.entryHour
    rcases heapRead_append_some m.recordHeap record rec r hr with ⟨-, h2⟩ | ⟨-, h2⟩
    · rw [h2]
      exact ⟨hpos, momentLe_refl _ _⟩
    · obtain ⟨e1, e2⟩ := hh.entry_clock r rec h2
      exact ⟨e1, momentLe_trans _ _ _ _ _ _ e2 hclock⟩
  · intro r rec hr hclosed
    change heapRead (m.recordHeap ++ [some record]) r = some rec at hr
    show momentLe rec.entryDay rec.entryHour rec.exitDay rec.exitHour ∧
      momentLe rec.exitDay rec.exitHour record.entryDay record.entryHour
    rcases heapRead_append_some m.recordHeap record rec r hr with ⟨-, h2⟩ | ⟨-, h2⟩
    · rw [h2] at hclosed
      exact absurd hopen hclosed
    · obtain ⟨e1, e2⟩ := hh.exit_clock r rec h2 hclosed
      exact ⟨e1, momentLe_trans _ _ _ _ _ _ e2 hclock⟩
  · intro q x hx r hr
    obtain ⟨x0, hx0, hrecs⟩ := hpark q x hx
    rw [hrecs] at hr
    obtain ⟨rec, h1, h2, h3⟩ := hh.history q x0 hx0 r hr
    exact ⟨rec, heapRead_append_of_some _ _ _ _ h1, h2, h3⟩
  · intro q x hx
    obtain ⟨x0, hx0, hrecs⟩ := hpark q x hx
    rw [hrecs]
    refine List.Pairwise.imp_of_mem ?_ (hh.history_sorted q x0 hx0)
    intro r1 r2 h1 h2 hR rec1 rec2 hr1 hr2
    obtain ⟨a, ha, -, -⟩ := hh.history q x0 hx0 r1 h1
    obtain ⟨b, hb, -, -⟩ := hh.history q x0 hx0 r2 h2
    change heapRead (m.recordHeap ++ [some record]) r1 = some rec1 at hr1
    change heapRead (m.recordHeap ++ [some record]) r2 = some rec2 at hr2
    rw [heapRead_append_of_some _ _ _ _ ha] at hr1
    rw [heapRead_append_of_some _ _ _ _ hb] at hr2
    cases hr1
    cases hr2
    exact hR _ _ ha hb

/-- A successful exit keeps the invariants of the histories. -/
theorem historyFormed_exit (m : Memory) (hh : HistoryFormed m) (r : Ptr)
    (record record' : Record) (park park' : Park)
    (hrec : heapRead m.recordHeap r = some record) (hopen : record.exitDay = NO_DATE)
    (hrp : heapRead m.parkHeap record.park = some park)
    (hrecords : park'.records = park.records ++ [r])
    (hpark : record'.park = record.park) (hday : record'.entryDay = record.entryDay)
    (hhour : record'.entryHour = record.entryHour) (hexit : record'.exitDay ≠ NO_DATE)
    (hclock : momentLe m.date m.time record'.exitDay record'.exitHour) :
    HistoryFormed { parkHeap := heapWrite m.parkHeap record.park park',
                    recordHeap := heapWrite m.recordHeap r record', parks := m.parks,
                    cars := m.cars, date := record'.exitDay, time := record'.exitHour,
                    idIncrementer := m.idIncrementer } := by
  have hread : ∀ q rec, heapRead (heapWrite m.recordHeap r record') q = some rec →
      (q = r ∧ rec = record') ∨ (q ≠ r ∧ heapRead m.recordHeap q = some rec) :=
    fun q rec hq => heapRead_heapWrite_some m.recordHeap r q record' record rec hrec hq
  have hne : ∀ q x0, heapRead m.parkHeap q = some x0 → ∀ r' ∈ x0.records, r' ≠ r := by
    intro q x0 hx0 r' hr' he
    obtain ⟨rec, h1, -, h3⟩ := hh.history q x0 hx0 r' hr'
    rw [he, hrec] at h1
    cases h1
    exact h3 hopen
  have hold : ∀ q x0, heapRead m.parkHeap q = some x0 → ∀ r' ∈ x0.records,
      ∃ rec, heapRead (heapWrite m.recordHeap r record') r' = some rec ∧
        heapRead m.recordHeap r' = some rec ∧ rec.park = q ∧ rec.exitDay ≠ NO_DATE := by
    intro q x0 hx0 r' hr'
    obtain ⟨rec, h1, h2, h3⟩ := hh.history q x0 hx0 r' hr'
    refine ⟨rec, ?_, h1, h2, h3⟩
    rw [heapRead_heapWrite_ne _ _ _ _ (hne q x0 hx0 r' hr')]
    exact h1
  have hsorted_old : ∀ q x0, heapRead m.parkHeap q = some x0 →
      x0.records.Pairwise (fun r1 r2 => ∀ rec1 rec2,
        heapRead (heapWrite m.recordHeap r record') r1 = some rec1 →
        heapRead (heapWrite m.recordHeap r record') r2 = some rec2 →
        momentLe rec1.exitDay rec1.exitHour rec2.exitDay rec2.exitHour) := by
    intro q x0 hx0
    refine List.Pairwise.imp_of_mem ?_ (hh.history_sorted q x0 hx0)
    intro r1 r2 h1 h2 hR rec1 rec2 hr1 hr2
    obtain ⟨a, ha, ha', -, -⟩ := hold q x0 hx0 r1 h1
    obtain ⟨b, hb, hb', -, -⟩ := hold q x0 hx0 r2 h2
    rw [ha] at hr1
    rw [hb] at hr2
    cases hr1
    cases hr2
    exact hR _ _ ha' hb'
  have hnew : heapRead (heapWrite m.recordHeap r record') r = some record' :=
    heapRead_heapWrite_self _ _ _ _ hrec
  constructor
  · intro q rec hq
    show 1 ≤ rec.entryDay ∧ momentLe rec.entryDay rec.entryHour record'.exitDay record'.exitHour
    obtain ⟨e1, e2⟩ := hh.entry_clock r record hrec
    rcases hread q rec hq with ⟨-, h2⟩ | ⟨-, h2⟩
    · rw [h2, hday, hhour]
      exact ⟨e1, momentLe_trans _ _ _ _ _ _ e2 hclock⟩
    · obtain ⟨f1, f2⟩ := hh.entry_clock q rec h2
      exact ⟨f1, momentLe_trans _ _ _ _ _ _ f2 hclock⟩
  · intro q rec hq hclosed
    show momentLe rec.entryDay rec.entryHour rec.exitDay rec.exitHour ∧
      momentLe rec.exitDay rec.exitHour record'.exitDay record'.exitHour
    rcases hread q rec hq with ⟨-, h2⟩ | ⟨-, h2⟩
    · obtain ⟨-, e2⟩ := hh.entry_clock r record hrec
      rw [h2, hday, hhour]
      exact ⟨momentLe_trans _ _ _ _ _ _ e2 hclock, momentLe_refl _ _⟩
    · obtain ⟨f1, f2⟩ := hh.exit_clock q rec h2 hclosed
      exact ⟨f1, momentLe_trans _ _ _ _ _ _ f2 hclock⟩
  · intro q x hx r' hr'
    change heapRead (heapWrite m.parkHeap record.park park') q = some x at hx
    show ∃ rec, heapRead (heapWrite m.recordHeap r record') r' = some rec ∧ rec.park = q ∧
      rec.exitDay ≠ NO_DATE
    rcases heapRead_heapWrite_some m.parkHeap record.park q park' park x hrp hx with
      ⟨h1, h2⟩ | ⟨-, h2⟩
    · rw [h2, hrecords] at hr'
      rcases List.mem_append.mp hr' with hr' | hr'
      · obtain ⟨rec, e1, -, e3, e4⟩ := hold record.park park hrp r' hr'
        exact ⟨rec, e1, by rw [e3, h1], e4⟩
      · rw [List.mem_singleton] at hr'
        rw [hr']
        exact ⟨record', hnew, by rw [hpark, h1], hexit⟩
    · obtain ⟨rec, e1, -, e3, e4⟩ := hold q x h2 r' hr'
      exact ⟨rec, e1, e3, e4⟩
  · intro q x hx
    change heapRead (heapWrite m.parkHeap record.park park') q = some x at hx
    show x.records.Pairwise (fun r1 r2 => ∀ rec1 rec2,
        heapRead (heapWrite m.recordHeap r record') r1 = some rec1 →
        heapRead (heapWrite m.recordHeap r record') r2 = some rec2 →
        momentLe rec1.exitDay rec1.exitHour rec2.exitDay rec2.exitHour)
    rcases heapRead_heapWrite_some m.parkHeap record.park q park' park x hrp hx with
      ⟨-, h2⟩ | ⟨-, h2⟩
    · rw [h2, hrecords, List.pairwise_append]
      refine ⟨hsorted_old record.park park hrp, List.pairwise_singleton _ _, ?_⟩
      intro r1 h1 r2 hr2 rec1 rec2 e1 e2
      rw [List.mem_singleton] at hr2
      rw [hr2, hnew] at e2
      cases e2
      obtain ⟨a, ha, ha', -, hclosed⟩ := hold record.park park hrp r1 h1
      rw [ha] at e1
      cases e1
      exact momentLe_trans _ _ _ _ _ _ (hh.exit_clock r1 rec1 ha' hclosed).2 hclock
    · exact hsorted_old q x h2

/-- The removal of a park keeps the invariants of the histories. -/
theorem historyFormed_remove (m m' : Memory) (hw : WellFormed m) (hh : HistoryFormed m)
    (parkId : Int) (h : removePark m parkId = some m') : HistoryFormed m' := by
  obtain ⟨q, qpark, l1, l2, hq, hqid, -, -, hheap, hfreed, hd, ht, -⟩ :=
    removePark_spec m m' parkId h
  have hread : ∀ p park, heapRead m'.parkHeap p = some park →
      p ≠ q ∧ heapRead m.parkHeap p = some park := by
    intro p park hp
    rw [hheap] at hp
    exact heapRead_heapFree_some _ _ _ _ hp
  have hrec : ∀ r record, heapRead m'.recordHeap r = some record →
      heapRead m.recordHeap r = some record := by
    intro r record hr
    rcases hfreed.2 r with h1 | ⟨h1, -⟩
    · rw [← h1]; exact hr
    · rw [hr] at h1; exact Option.noConfusion h1
  constructor
  · intro r record hr
    rw [hd, ht]
    exact hh.entry_clock r record (hrec r record hr)
  · intro r record hr hclosed
    rw [hd, ht]
    exact hh.exit_clock r record (hrec r record hr) hclosed
  · intro p park hp r hr
    obtain ⟨hpq, hp'⟩ := hread p park hp
    obtain ⟨record, h1, h2, h3⟩ := hh.history p park hp' r hr
    refine ⟨record, ?_, h2, h3⟩
    rcases hfreed.2 r with e | ⟨-, record', park', e1, e2, e3⟩
    · rw [e]; exact h1
    · exfalso
      rw [h1] at e1
      cases e1
      rw [h2, hp'] at e2
      cases e2
      exact hpq (hw.ids_inj p q park qpark hp' hq (by rw [e3, hqid]))
  · intro p park hp
    obtain ⟨-, hp'⟩ := hread p park hp
    refine List.Pairwise.imp ?_ (hh.history_sorted p park hp')
    intro r1 r2 hR rec1 rec2 e1 e2
    exact hR rec1 rec2 (hrec r1 rec1 e1) (hrec r2 rec2 e2)

/-- Every command that returns keeps the invariants of the histories. -/
theorem historyFormed_execute (oob : Int → Int) (m m' : Memory) (c : Command)
    (out : List Printed) (hw : WellFormed m) (hh : HistoryFormed m)
    (h : execute oob m c = some (m', out)) : HistoryFormed m' := by
  cases c with
  | p name capacity less_60 more_60 dayly =>
    rcases processCommand_p_cases m m' name capacity less_60 more_60 dayly _ h with
      ⟨h1, -⟩ | ⟨-, -, -, -, -, -, -, h1⟩
    · subst h1; exact hh
    · subst h1
      exact historyFormed_create m hh _ rfl _
  | e nome plates data hora =>
    rcases processCommand_e_cases oob m m' nome plates data hora _ h with
      ⟨h1, -⟩ | ⟨p, park, cars, -, hpk, -, hdates, -, h1⟩
    · subst h1; exact hh
    · subst h1
      have hpos := dateToInt_pos oob data (checkDates_true oob m data hora hdates).1
      have hclock := checkDates_clock_le oob m data hora hdates
      exact historyFormed_entry m hh p park _
        { plates := plates, park := p, entryDay := dateToInt oob data,
          entryHour := timeToInt hora, exitDay := NO_DATE, exitHour := NO_TIME, paid := 0 }
        cars hpk rfl rfl hpos hclock
  | s nome plates data hora =>
    rcases processCommand_s_cases oob m m' nome plates data hora _ h with
      ⟨h1, -⟩ | ⟨r, record, park, hrec, hopen, hrp, hdates, -, h1⟩
    · subst h1; exact hh
    · subst h1
      have hpos := dateToInt_pos oob data (checkDates_true oob m data hora hdates).1
      have hne : dateToInt oob data ≠ NO_DATE := by
        unfold NO_DATE
        omega
      have hclock := checkDates_clock_le oob m data hora hdates
      exact historyFormed_exit m hh r record
        (calculatePrice { record with exitDay := dateToInt oob data,
                                      exitHour := timeToInt hora } park) park _
        hrec hopen hrp rfl rfl rfl rfl hne hclock
  | r nome =>
    rcases processCommand_r_cases m m' nome _ h with ⟨h1, -⟩ | ⟨p, park, -, -, h1, -⟩
    · subst h1; exact hh
    · exact historyFormed_remove m m' hw hh park.id h1

/-- Every reachable memory has the invariants of the histories. -/
theorem historyFormed_of_reachable (oob : Int → Int) (m : Memory) (h : Reachable oob m) :
    HistoryFormed m := by
  obtain ⟨cmds, hrun⟩ := h
  have := run_induction oob (fun m => (WellFormed m ∧ 1 ≤ m.idIncrementer) ∧ HistoryFormed m)
    (fun m c m' out hP hc => ⟨wellFormed_execute oob m m' c out hP.1.1 hP.1.2 hc,
      historyFormed_execute oob m m' c out hP.1.1 hP.2 hc⟩)
    cmds initializeSystem m
    ⟨⟨wellFormed_initializeSystem, by decide⟩, historyFormed_initializeSystem⟩ hrun
  exact this.2

/-! ## The billing history of a lot -/

/-- A list of allocated pointers, read cell by cell, gives the records of `historyOf`. -/
theorem map_heapRead_historyOf (recordHeap : List (Option Record)) :
    ∀ (l : List Ptr), (∀ r ∈ l, ∃ record, heapRead recordHeap r = some record) →
      l.map (heapRead recordHeap) = (historyOf recordHeap l).map some := by
  intro l
  induction l with
  | nil => intro _; rfl
  | cons r rest ih =>
    intro h
    obtain ⟨record, hr⟩ := h r (List.mem_cons_self _ _)
    have hrest := ih (fun x hx => h x (List.mem_cons_of_mem _ hx))
    simp only [historyOf, List.map_cons, List.filterMap_cons, hr]
    rw [hrest]
    rfl

/-- The records of `historyOf` are the records read through the pointers of the list. -/
theorem mem_historyOf (recordHeap : List (Option Record)) (l : List Ptr) (record : Record) :
    record ∈ historyOf recordHeap l ↔ ∃ r ∈ l, heapRead recordHeap r = some record := by
  unfold historyOf
  rw [List.mem_filterMap]

/-- The first occurrences of a non-decreasing list are strictly increasing. -/
theorem firstOccurrences_sorted (l : List Int) (h : l.Pairwise (fun a b => a ≤ b)) :
    (firstOccurrences l).Pairwise (fun a b => a < b) := by
  induction l with
  | nil => exact List.Pairwise.nil
  | cons d rest ih =>
    obtain ⟨hd, hrest⟩ := List.pairwise_cons.mp h
    show (d :: (firstOccurrences rest).filter (fun x => decide (x ≠ d))).Pairwise
      (fun a b => a < b)
    rw [List.pairwise_cons]
    constructor
    · intro x hx
      rw [List.mem_filter] at hx
      have hle := hd x ((mem_firstOccurrences rest x).mp hx.1)
      have hne : x ≠ d := by simpa using hx.2
      omega
    · exact (ih hrest).filter _

/-- The history of an allocated park in a memory with the invariants of the histories:
closed records of the park, each leaving not before it entered, in non-decreasing order
of (exit day, exit time); and `calculateSums` lists strictly increasing days. -/
theorem historyFormed_history (m : Memory) (hh : HistoryFormed m) (p : Ptr) (park : Park)
    (hpk : heapRead m.parkHeap p = some park) :
    park.records.map (heapRead m.recordHeap) =
        (historyOf m.recordHeap park.records).map some ∧
      (∀ record ∈ historyOf m.recordHeap park.records,
        record.park = p ∧ record.exitDay ≠ NO_DATE ∧
          momentLe record.entryDay record.entryHour record.exitDay record.exitHour) ∧
      (historyOf m.recordHeap park.records).Pairwise
        (fun a b => momentLe a.exitDay a.exitHour b.exitDay b.exitHour) ∧
      calculateSums m.recordHeap park.records =
        some (specDailyTotals (historyOf m.recordHeap park.records)) ∧
      ((specDailyTotals (historyOf m.recordHeap park.records)).map
        (fun date => date.exitDay)).Pairwise (fun a b => a < b) := by
  have hlive : ∀ r ∈ park.records, ∃ record, heapRead m.recordHeap r = some record := by
    intro r hr
    obtain ⟨record, h1, -, -⟩ := hh.history p park hpk r hr
    exact ⟨record, h1⟩
  have hmap := map_heapRead_historyOf m.recordHeap park.records hlive
  have hsorted : (historyOf m.recordHeap park.records).Pairwise
      (fun a b => momentLe a.exitDay a.exitHour b.exitDay b.exitHour) := by
    unfold historyOf
    rw [List.pairwise_filterMap]
    refine List.Pairwise.imp ?_ (hh.history_sorted p park hpk)
    intro r1 r2 hR rec1 h1 rec2 h2
    exact hR rec1 rec2 h1 h2
  refine ⟨hmap, ?_, hsorted, ?_, ?_⟩
  · intro record hrec
    obtain ⟨r, hr, hread⟩ := (mem_historyOf _ _ _).mp hrec
    obtain ⟨record', h1, h2, h3⟩ := hh.history p park hpk r hr
    rw [hread] at h1
    cases h1
    exact ⟨h2, h3, (hh.exit_clock r record hread h3).1⟩
  · have h := calculateSums_loop_eq m.recordHeap park.records
      (historyOf m.recordHeap park.records) [] hmap
    simpa [calculateSums, specDailyTotals, exitDays, firstOccurrences] using h
  · have hdays : (specDailyTotals (historyOf m.recordHeap park.records)).map
        (fun date => date.exitDay) =
        firstOccurrences (exitDays (historyOf m.recordHeap park.records)) := by
      unfold specDailyTotals
      rw [List.map_map]
      exact List.map_id' _
    rw [hdays]
    apply firstOccurrences_sorted
    unfold exitDays
    rw [List.pairwise_map]
    apply List.Pairwise.filter
    refine List.Pairwise.imp ?_ hsorted
    intro a b hab
    unfold momentLe at hab
    omega

/-- C36: in every reachable memory, for every park of the list (every lot), the list of
the park leads to allocated records (its billing history); each of them is a record of
that park, is closed (has an exit day), and its exit is not before its entry; the
history is in non-decreasing order of (exit day, exit time); and `calculateSums` returns
on it a list whose days are strictly increasing. -/
theorem reachable_history_ordered (oob : Int → Int) (m : Memory) (h : Reachable oob m)
    (p : Ptr) (hp : p ∈ m.parks) :
    ∃ park, heapRead m.parkHeap p = some park ∧
      park.records.map (heapRead m.recordHeap) =
        (historyOf m.recordHeap park.records).map some ∧
      (∀ record ∈ historyOf m.recordHeap park.records,
        record.park = p ∧ record.exitDay ≠ NO_DATE ∧
          momentLe record.entryDay record.entryHour record.exitDay record.exitHour) ∧
      (historyOf m.recordHeap park.records).Pairwise
        (fun a b => momentLe a.exitDay a.exitHour b.exitDay b.exitHour) ∧
      ∃ sums, calculateSums m.recordHeap park.records = some sums ∧
        (sums.map (fun date => date.exitDay)).Pairwise (fun a b => a < b) := by
  obtain ⟨park, hpk⟩ := (wellFormed_of_reachable oob m h).1.parks_live p hp
  obtain ⟨h1, h2, h3, h4, h5⟩ :=
    historyFormed_history m (historyFormed_of_reachable oob m h) p park hpk
  exact ⟨park, hpk, h1, h2, h3, _, h4, h5⟩

/-- Witness of C36: after `cmdsTwoExits` the park at address 0 is a park of the list; its
history is ordered and `calculateSums` lists its two days, 738761 before 738762. -/
theorem reachable_history_ordered_witness :
    (0 : Ptr) ∈ (memoryAfter cmdsTwoExits).parks ∧
      (∃ park, heapRead (memoryAfter cmdsTwoExits).parkHeap 0 = some park ∧
        park.records.map (heapRead (memoryAfter cmdsTwoExits).recordHeap) =
          (historyOf (memoryAfter cmdsTwoExits).recordHeap park.records).map some ∧
        (∀ record ∈ historyOf (memoryAfter cmdsTwoExits).recordHeap park.records,
          record.park = 0 ∧ record.exitDay ≠ NO_DATE ∧
            momentLe record.entryDay record.entryHour record.exitDay record.exitHour) ∧
        (historyOf (memoryAfter cmdsTwoExits).recordHeap park.records).Pairwise
          (fun a b => momentLe a.exitDay a.exitHour b.exitDay b.exitHour) ∧
        ∃ sums, calculateSums (memoryAfter cmdsTwoExits).recordHeap park.records = some sums ∧
          (sums.map (fun date => date.exitDay)).Pairwise (fun a b => a < b)) ∧
      ((calculateSums (memoryAfter cmdsTwoExits).recordHeap [0, 1]).map
        (fun sums => sums.map (fun date => date.exitDay))) = some [738761, 738762] :=
  ⟨by decide!,
    reachable_history_ordered oobZero (memoryAfter cmdsTwoExits)
      ⟨cmdsTwoExits, run_eq_some_memoryAfter _ (by decide!)⟩ 0 (by decide!),
    by decide!⟩

/-! ## The bills of one day -/

/-- The function `printBillsDate` on a list of allocated pointers: the lines of the
records of the history that exit on the day, in the order of the history. -/
theorem printBillsDate_eq (recordHeap : List (Option Record)) (date : Int) :
    ∀ (l : List Ptr), (∀ r ∈ l, ∃ record, heapRead recordHeap r = some record) →
      printBillsDate recordHeap l date =
        some (((historyOf recordHeap l).filter (fun record => decide (record.exitDay = date))).map
          (fun record => Printed.billLine record.plates (intToTime record.exitHour)
            record.paid)) := by
  intro l
  induction l with
  | nil => intro _; rfl
  | cons r rest ih =>
    intro h
    obtain ⟨record, hr⟩ := h r (List.mem_cons_self _ _)
    have hrest := ih (fun x hx => h x (List.mem_cons_of_mem _ hx))
    unfold printBillsDate
    simp only [hr, hrest, historyOf, List.filterMap_cons]
    by_cases hd : date = record.exitDay
    · simp [hd]
    · have hd' : ¬ record.exitDay = date := fun e => hd e.symm
      simp [hd, hd']

/-- C31: in every reachable memory, for an existing lot (`listGetPark` finds the park of
the name) and a day given as a date text, `processCommand_f` returns; it prints the
error `invalid date.` if and only if the day is strictly after the date of the clock;
otherwise it prints exactly the records of the history of the lot whose exit day is that
day, as (plate, exit time, amount), in the order of the history, and none of these lines
is an error. -/
theorem processCommand_f_day (oob : Int → Int) (m : Memory) (h : Reachable oob m)
    (nome : String) (d : DateText) (p : Ptr)
    (hp : listGetPark m.parkHeap m.parks nome = some (some p)) :
    ∃ park out, heapRead m.parkHeap p = some park ∧
      processCommand_f oob m nome (some d) = some out ∧
      (out = [Printed.ERR_INVALID_DATE] ↔ m.date < dateToInt oob d) ∧
      ((∃ line ∈ out, line.isError = true) ↔ m.date < dateToInt oob d) ∧
      (¬ m.date < dateToInt oob d →
        out = ((historyOf m.recordHeap park.records).filter
            (fun record => decide (record.exitDay = dateToInt oob d))).map
          (fun record => Printed.billLine record.plates (intToTime record.exitHour)
            record.paid)) := by
  obtain ⟨park, hpk, -, -⟩ := listGetPark_some _ _ _ _ hp
  have hh := historyFormed_of_reachable oob m h
  have hlive : ∀ r ∈ park.records, ∃ record, heapRead m.recordHeap r = some record := by
    intro r hr
    obtain ⟨record, h1, -, -⟩ := hh.history p park hpk r hr
    exact ⟨record, h1⟩
  have hbills := printBillsDate_eq m.recordHeap (dateToInt oob d) park.records hlive
  by_cases hlt : m.date < dateToInt oob d
  · have hneg : m.date - dateToInt oob d < 0 := by omega
    refine ⟨park, [Printed.ERR_INVALID_DATE], hpk, ?_, ?_, ?_, ?_⟩
    · unfold processCommand_f
      simp only [hp, hneg, if_true]
    · exact ⟨fun _ => hlt, fun _ => rfl⟩
    · exact ⟨fun _ => hlt, fun _ => ⟨_, List.mem_singleton.mpr rfl, rfl⟩⟩
    · intro hc
      exact absurd hlt hc
  · have hneg : ¬ m.date - dateToInt oob d < 0 := by omega
    refine ⟨park, _, hpk, ?_, ?_, ?_, fun _ => rfl⟩
    · unfold processCommand_f
      simp only [hp, hneg, if_false, hpk]
      exact hbills
    · constructor
      · intro he
        exfalso
        have hmem : Printed.ERR_INVALID_DATE ∈ ((historyOf m.recordHeap park.records).filter
            (fun record => decide (record.exitDay = dateToInt oob d))).map
            (fun record => Printed.billLine record.plates (intToTime record.exitHour)
              record.paid) := by
          rw [he]
          exact List.mem_singleton.mpr rfl
        obtain ⟨record, -, hrec⟩ := List.mem_map.mp hmem
        exact Printed.noConfusion hrec
      · intro hc
        exact absurd hc hlt
    · constructor
      · rintro ⟨line, hline, herr⟩
        exfalso
        obtain ⟨record, -, hrec⟩ := List.mem_map.mp hline
        rw [← hrec] at herr
        exact Bool.noConfusion herr
      · intro hc
        exact absurd hc hlt

/-- Witness of C31: after `cmdsTwoExits` (clock on 02-01-2024) the bills of the park `A`
for 01-01-2024 are the one line of the first stay of `AA-11-BB`, which left at 11:00 and
paid 4 (four quarters of an hour at 1); for 03-01-2024 the command prints the error. -/
theorem processCommand_f_day_witness :
    listGetPark (memoryAfter cmdsTwoExits).parkHeap (memoryAfter cmdsTwoExits).parks "A" =
        some (some 0) ∧
      (∃ park out, heapRead (memoryAfter cmdsTwoExits).parkHeap 0 = some park ∧
        processCommand_f oobZero (memoryAfter cmdsTwoExits) "A" (some ⟨1, 1, 2024⟩) = some out ∧
        (out = [Printed.ERR_INVALID_DATE] ↔
          (memoryAfter cmdsTwoExits).date < dateToInt oobZero ⟨1, 1, 2024⟩) ∧
        ((∃ line ∈ out, line.isError = true) ↔
          (memoryAfter cmdsTwoExits).date < dateToInt oobZero ⟨1, 1, 2024⟩) ∧
        (¬ (memoryAfter cmdsTwoExits).date < dateToInt oobZero ⟨1, 1, 2024⟩ →
          out = ((historyOf (memoryAfter cmdsTwoExits).recordHeap park.records).filter
              (fun record => decide (record.exitDay = dateToInt oobZero ⟨1, 1, 2024⟩))).map
            (fun record => Printed.billLine record.plates (intToTime record.exitHour)
              record.paid))) ∧
      processCommand_f oobZero (memoryAfter cmdsTwoExits) "A" (some ⟨1, 1, 2024⟩) =
        some [Printed.billLine "AA-11-BB" ⟨11, 0⟩ 4] ∧
      processCommand_f oobZero (memoryAfter cmdsTwoExits) "A" (some ⟨3, 1, 2024⟩) =
        some [Printed.ERR_INVALID_DATE] :=
  ⟨by decide!,
    processCommand_f_day oobZero (memoryAfter cmdsTwoExits)
      ⟨cmdsTwoExits, run_eq_some_memoryAfter _ (by decide!)⟩ "A" ⟨1, 1, 2024⟩ 0 (by decide!),
    by decide!, by decide!⟩

/-! ## The bills of one day while the clock is unset -/

/-- C32, as the code behaves: while the date of the clock is unset (`NO_DATE`), for an
existing lot `processCommand_f` rejects every day whose code is at least 1, so every
date accepted by `checkDateFormat`, with the error `invalid date.`: the test
`m->date - date < 0` is made without the exception for an unset clock that `dateInPast`
has. -/
theorem processCommand_f_clock_unset (oob : Int → Int) (m : Memory) (nome : String)
    (d : DateText) (p : Ptr) (hdate : m.date = NO_DATE)
    (hp : listGetPark m.parkHeap m.parks nome = some (some p))
    (hd : checkDateFormat oob d = true) :
    processCommand_f oob m nome (some d) = some [Printed.ERR_INVALID_DATE] := by
  have hpos := dateToInt_pos oob d hd
  have hneg : m.date - dateToInt oob d < 0 := by
    rw [hdate]
    unfold NO_DATE
    omega
  unfold processCommand_f
  simp only [hp, hneg, if_true]

/-- Witness of C32 as amended: after the creation of the park `A` the clock is unset and
the bills of `A` for 15-06-2024 are refused. -/
theorem processCommand_f_clock_unset_witness :
    (memoryAfter cmdsOnePark).date = NO_DATE ∧
      checkDateFormat oobZero ⟨15, 6, 2024⟩ = true ∧
      processCommand_f oobZero (memoryAfter cmdsOnePark) "A" (some ⟨15, 6, 2024⟩) =
        some [Printed.ERR_INVALID_DATE] :=
  ⟨by decide!, by decide!,
    processCommand_f_clock_unset oobZero (memoryAfter cmdsOnePark) "A" ⟨15, 6, 2024⟩ 0
      (by decide!) (by decide!) (by decide!)⟩

/-- Counterexample to C32 as stated: the memory after the creation of the park `A` is
reachable, its clock is still unset, the date 01-01-2024 is valid, and the query of the
bills of `A` for that day is refused with `invalid date.`. -/
theorem processCommand_f_unset_rejects_valid_day :
    Reachable oobZero (memoryAfter cmdsOnePark) ∧
      (memoryAfter cmdsOnePark).date = NO_DATE ∧
      checkDateFormat oobZero ⟨1, 1, 2024⟩ = true ∧
      listGetPark (memoryAfter cmdsOnePark).parkHeap (memoryAfter cmdsOnePark).parks "A" =
        some (some 0) ∧
      processCommand_f oobZero (memoryAfter cmdsOnePark) "A" (some ⟨1, 1, 2024⟩) =
        some [Printed.ERR_INVALID_DATE] :=
  ⟨⟨cmdsOnePark, run_eq_some_memoryAfter _ (by decide!)⟩, by decide!, by decide!, by decide!,
    by decide!⟩

/-! ## Where the records are stored -/

/-- The start memory stores no record. -/
theorem tableStored_initializeSystem : TableStored initializeSystem := by
  constructor
  · intro i node h
    simp [initializeSystem] at h
  · intro i j node node' _ h
    simp [initializeSystem] at h
  · intro r record h
    simp [initializeSystem, heapRead] at h

/-- A successful entry keeps the invariants of the stored records. -/
theorem tableStored_entry (m : Memory) (ht : TableFormed m) (hs : TableStored m)
    (parkHeap : List (Option Park)) (record : Record) (j : Nat) (key : Key)
    (old : Option (List Ptr)) (date time : Int) (hj : j < HASH_SIZE)
    (hslot : (m.cars j = none ∧ old = none) ∨
      ∃ node, m.cars j = some node ∧ old = some node.records) :
    TableStored { parkHeap := parkHeap,
                  recordHeap := m.recordHeap ++ [some record], parks := m.parks,
                  cars := Function.update m.cars j
                    (some { key := key, records := old.getD [] ++ [m.recordHeap.length] }),
                  date := date, time := time, idIncrementer := m.idIncrementer } := by
  have hlt : ∀ i node, m.cars i = some node → ∀ r ∈ node.records, r < m.recordHeap.length := by
    intro i node hi r hr
    obtain ⟨rec, h1, -⟩ := ht.table_live i node hi r hr
    exact lt_length_of_heapRead _ _ _ h1
  have hmemold : ∀ r ∈ old.getD [], ∃ node, m.cars j = some node ∧ r ∈ node.records := by
    intro r hr
    rcases hslot with ⟨-, h2⟩ | ⟨node, h1, h2⟩
    · rw [h2] at hr
      simp at hr
    · rw [h2] at hr
      exact ⟨node, h1, hr⟩
  have holdmem : ∀ node, m.cars j = some node → ∀ r ∈ node.records, r ∈ old.getD [] := by
    intro node hn r hr
    rcases hslot with ⟨h1, -⟩ | ⟨node0, h1, h2⟩
    · rw [h1] at hn
      exact Option.noConfusion hn
    · rw [h1] at hn
      cases hn
      rw [h2]
      exact hr
  have holdsorted : (old.getD []).Pairwise (fun a b => a < b) := by
    rcases hslot with ⟨-, h2⟩ | ⟨node, h1, h2⟩
    · rw [h2]
      exact List.Pairwise.nil
    · rw [h2]
      exact hs.node_sorted j node h1
  have hnew : ∀ r ∈ old.getD [] ++ [m.recordHeap.length],
      (∃ node, m.cars j = some node ∧ r ∈ node.records) ∨ r = m.recordHeap.length := by
    intro r hr
    rcases List.mem_append.mp hr with hr | hr
    · exact Or.inl (hmemold r hr)
    · exact Or.inr (List.mem_singleton.mp hr)
  constructor
  · intro i node' hi
    change Function.update m.cars j _ i = some node' at hi
    by_cases hij : i = j
    · subst hij
      rw [Function.update_same] at hi
      cases hi
      show (old.getD [] ++ [m.recordHeap.length]).Pairwise (fun a b => a < b)
      rw [List.pairwise_append]
      refine ⟨holdsorted, List.pairwise_singleton _ _, ?_⟩
      intro a ha b hb
      rw [List.mem_singleton] at hb
      obtain ⟨node, h1, h2⟩ := hmemold a ha
      rw [hb]
      exact hlt i node h1 a h2
    · rw [Function.update_noteq hij] at hi
      exact hs.node_sorted i node' hi
  · intro i i' node node' hne hi hi' r hr hr'
    change Function.update m.cars j _ i = some node at hi
    change Function.update m.cars j _ i' = some node' at hi'
    by_cases hij : i = j
    · subst hij
      rw [Function.update_same] at hi
      rw [Function.update_noteq (Ne.symm hne)] at hi'
      cases hi
      rcases hnew r hr with ⟨node0, h1, h2⟩ | h1
      · exact hs.slots_disjoint i i' node0 node' hne h1 hi' r h2 hr'
      · have hlt' := hlt i' node' hi' r hr'
        rw [h1] at hlt'
        exact lt_irrefl _ hlt'
    · rw [Function.update_noteq hij] at hi
      by_cases hij' : i' = j
      · subst hij'
        rw [Function.update_same] at hi'
        cases hi'
        rcases hnew r hr' with ⟨node0, h1, h2⟩ | h1
        · exact hs.slots_disjoint i i' node node0 hne hi h1 r hr h2
        · have hlt' := hlt i node hi r hr
          rw [h1] at hlt'
          exact lt_irrefl _ hlt'
      · rw [Function.update_noteq hij'] at hi'
        exact hs.slots_disjoint i i' node node' hne hi hi' r hr hr'
  · intro r rec hr
    change heapRead (m.recordHeap ++ [some record]) r = some rec at hr
    show ∃ i node, i < HASH_SIZE ∧ Function.update m.cars j
      (some { key := key, records := old.getD [] ++ [m.recordHeap.length] }) i = some node ∧
      r ∈ node.records
    rcases heapRead_append_some m.recordHeap record rec r hr with ⟨h1, -⟩ | ⟨-, h2⟩
    · refine ⟨j, _, hj, Function.update_same _ _ _, ?_⟩
      rw [h1]
      exact List.mem_append_right _ (List.mem_singleton.mpr rfl)
    · obtain ⟨i, node, hi, hn, hmem⟩ := hs.stored r rec h2
      by_cases hij : i = j
      · subst hij
        refine ⟨i, _, hi, Function.update_same _ _ _, ?_⟩
        exact List.mem_append_left _ (holdmem node hn r hmem)
      · exact ⟨i, node, hi, by rw [Function.update_noteq hij]; exact hn, hmem⟩

/-- A successful exit keeps the invariants of the stored records. -/
theorem tableStored_exit (m : Memory) (hs : TableStored m) (r : Ptr)
    (record record' : Record) (parkHeap : List (Option Park)) (date time : Int)
    (hrec : heapRead m.recordHeap r = some record) :
    TableStored { parkHeap := parkHeap,
                  recordHeap := heapWrite m.recordHeap r record', parks := m.parks,
                  cars := m.cars, date := date, time := time,
                  idIncrementer := m.idIncrementer } := by
  constructor
  · exact hs.node_sorted
  · exact hs.slots_disjoint
  · intro q rec hq
    change heapRead (heapWrite m.recordHeap r record') q = some rec at hq
    rcases heapRead_heapWrite_some m.recordHeap r q record' record rec hrec hq with
      ⟨h1, -⟩ | ⟨-, h2⟩
    · rw [h1]
      exact hs.stored r record hrec
    · exact hs.stored q rec h2

/-- The inner loop of `removeParkRecords`: a record of the list it started with is in
the list it leaves or is freed. -/
theorem removeParkRecords_nodes_keep (parkHeap : List (Option Park)) (parkId : Int) :
    ∀ (rest l : List Ptr) (rh : List (Option Record)) (res : List Ptr × List (Option Record)),
      removeParkRecords.nodes parkHeap parkId rest (l, rh) = some res →
      ∀ r ∈ l, r ∈ res.1 ∨ heapRead res.2 r = none := by
  intro rest
  induction rest with
  | nil =>
    intro l rh res h r hr
    simp only [removeParkRecords.nodes, Option.some.injEq] at h
    subst h
    exact Or.inl hr
  | cons r0 rest ih =>
    intro l rh res h r hr
    unfold removeParkRecords.nodes at h
    cases hr0 : heapRead rh r0 with
    | none => simp [hr0] at h
    | some record0 =>
      cases hp : heapRead parkHeap record0.park with
      | none => simp [hr0, hp] at h
      | some park0 =>
        simp only [hr0, hp] at h
        by_cases hid : park0.id = parkId
        · simp only [hid, if_true] at h
          unfold listRemoveRecord at h
          split_ifs at h with hmem
          · by_cases he : r = r0
            · right
              have hf := freedOnly_nodes parkHeap parkId (heapFree rh r0) rest _ _ res h
                (freedOnly_refl _ _ _)
              rcases hf.2 r with h1 | ⟨h1, -⟩
              · rw [h1, he]
                exact heapRead_heapFree_self _ _
              · exact h1
            · exact ih _ _ res h r ((List.mem_erase_of_ne he).mpr hr)
          · exact ih _ _ res h r hr
        · simp only [hid, if_false] at h
          exact ih _ _ res h r hr

/-- The body of the `for` loop of `removeParkRecords` at slot `s`: a record of the node
of the slot is in the node it leaves there or is freed. -/
theorem removeParkRecords_slot_keep (parkHeap : List (Option Park)) (parkId : Int)
    (acc acc' : HashTable × List (Option Record)) (s : Nat)
    (h : removeParkRecords.slot parkHeap parkId acc s = some acc') :
    ∀ node, acc.1 s = some node → ∀ r ∈ node.records,
      (∃ node', acc'.1 s = some node' ∧ r ∈ node'.records) ∨ heapRead acc'.2 r = none := by
  intro node hs r hr
  unfold removeParkRecords.slot at h
  simp only [hs] at h
  cases hn : removeParkRecords.nodes parkHeap parkId node.records (node.records, acc.2) with
  | none => simp [hn] at h
  | some res =>
    have hkeep := removeParkRecords_nodes_keep parkHeap parkId _ _ _ res hn r hr
    obtain ⟨l, rh⟩ := res
    simp only [hn] at h
    split_ifs at h with hlen
    · simp only [Option.some.injEq] at h
      subst h
      rcases hkeep with h1 | h1
      · exfalso
        have hnil : l = [] := List.length_eq_zero.mp hlen
        rw [hnil] at h1
        simp at h1
      · exact Or.inr h1
    · simp only [Option.some.injEq] at h
      subst h
      rcases hkeep with h1 | h1
      · exact Or.inl ⟨_, Function.update_same _ _ _, h1⟩
      · exact Or.inr h1

/-- The `for` loop of `removeParkRecords` over a list of distinct slots: a record of a
node of one of these slots is in the node left in the slot or is freed. -/
theorem removeParkRecords_foldlM_keep (parkHeap : List (Option Park)) (parkId : Int) :
    ∀ (slots : List Nat) (acc acc' : HashTable × List (Option Record)), slots.Nodup →
      slots.foldlM (removeParkRecords.slot parkHeap parkId) acc = some acc' →
      ∀ i ∈ slots, ∀ node, acc.1 i = some node → ∀ r ∈ node.records,
        (∃ node', acc'.1 i = some node' ∧ r ∈ node'.records) ∨ heapRead acc'.2 r = none := by
  intro slots
  induction slots with
  | nil =>
    intro acc acc' _ _ i hi
    simp at hi
  | cons s slots ih =>
    intro acc acc' hnd h i hi node hnode r hr
    obtain ⟨hs, hnd'⟩ := List.nodup_cons.mp hnd
    rw [List.foldlM_cons] at h
    cases hslot : removeParkRecords.slot parkHeap parkId acc s with
    | none => simp [hslot, bind] at h
    | some acc1 =>
      simp only [hslot, bind, Option.bind] at h
      obtain ⟨hother, -⟩ := removeParkRecords_slot_table parkHeap parkId acc acc1 s hslot
      by_cases his : i = s
      · subst his
        have hrest := (removeParkRecords_foldlM_table parkHeap parkId slots acc1 acc' hnd' h i).1 hs
        rcases removeParkRecords_slot_keep parkHeap parkId acc acc1 i hslot node hnode r hr with
          ⟨node1, h1, h2⟩ | h1
        · exact Or.inl ⟨node1, by rw [hrest]; exact h1, h2⟩
        · right
          have hf := freedOnly_foldlM parkHeap parkId acc1.2 slots acc1 acc' h
            (freedOnly_refl _ _ _)
          rcases hf.2 r with h2 | ⟨h2, -⟩
          · rw [h2]; exact h1
          · exact h2
      · have hi' : i ∈ slots := by
          rcases List.mem_cons.mp hi with hi | hi
          · exact absurd hi his
          · exact hi
        exact ih acc1 acc' hnd' h i hi' node (by rw [hother i his]; exact hnode) r hr

/-- The function `removeParkRecords`: a record stored in a slot of the table is in the
node left in that slot or is freed. -/
theorem removeParkRecords_keep (m m1 : Memory) (parkId : Int)
    (h : removeParkRecords m parkId = some m1) :
    ∀ i node, i < HASH_SIZE → m.cars i = some node → ∀ r ∈ node.records,
      (∃ node', m1.cars i = some node' ∧ r ∈ node'.records) ∨
        heapRead m1.recordHeap r = none := by
  unfold removeParkRecords at h
  cases hfold : (List.range HASH_SIZE).foldlM (removeParkRecords.slot m.parkHeap parkId)
      (m.cars, m.recordHeap) with
  | none => simp [hfold] at h
  | some acc =>
    have hk := removeParkRecords_foldlM_keep m.parkHeap parkId _ _ acc
      (List.nodup_range HASH_SIZE) hfold
    obtain ⟨cars, rh⟩ := acc
    simp only [hfold, Option.some.injEq] at h
    subst h
    intro i node hi hnode r hr
    exact hk i (List.mem_range.mpr hi) node hnode r hr

/-- The removal of a park keeps the invariants of the stored records. -/
theorem tableStored_remove (m m' : Memory) (ht : TableFormed m) (hs : TableStored m)
    (parkId : Int) (h : removePark m parkId = some m') : TableStored m' := by
  obtain ⟨q, qpark, l1, l2, -, -, -, -, -, hfreed, -, -, -⟩ := removePark_spec m m' parkId h
  obtain ⟨m1, hm1, hcars, hrh⟩ := removePark_table m m' parkId h
  obtain ⟨hbound, hnodes⟩ := removeParkRecords_table m m1 parkId hm1
  have hkeep := removeParkRecords_keep m m1 parkId hm1
  have hrec : ∀ r record, heapRead m'.recordHeap r = some record →
      heapRead m.recordHeap r = some record := by
    intro r record hr
    rcases hfreed.2 r with h1 | ⟨h1, -⟩
    · rw [← h1]; exact hr
    · rw [hr] at h1; exact Option.noConfusion h1
  have hnode : ∀ i node', m'.cars i = some node' → ∃ node, m.cars i = some node ∧
      node'.records.Sublist node.records := by
    intro i node' hi
    rw [hcars] at hi
    by_cases hlt : i < HASH_SIZE
    · obtain ⟨node, e1, -, e3, -, -⟩ := hnodes i node' hlt hi
      exact ⟨node, e1, e3⟩
    · rw [hbound i (not_lt.mp hlt), ht.table_bound i (not_lt.mp hlt)] at hi
      exact Option.noConfusion hi
  constructor
  · intro i node' hi
    obtain ⟨node, e1, e2⟩ := hnode i node' hi
    exact List.Pairwise.sublist e2 (hs.node_sorted i node e1)
  · intro i j node1 node2 hne hi hj r hr hr'
    obtain ⟨n1, e1, e2⟩ := hnode i node1 hi
    obtain ⟨n2, f1, f2⟩ := hnode j node2 hj
    exact hs.slots_disjoint i j n1 n2 hne e1 f1 r (e2.subset hr) (f2.subset hr')
  · intro r record hr
    obtain ⟨i, node, hi, hn, hmem⟩ := hs.stored r record (hrec r record hr)
    rcases hkeep i node hi hn r hmem with ⟨node', h1, h2⟩ | h1
    · exact ⟨i, node', hi, by rw [hcars]; exact h1, h2⟩
    · rw [hrh, h1] at hr
      exact Option.noConfusion hr

/-- Every command that returns keeps the invariants of the stored records. -/
theorem tableStored_execute (oob : Int → Int) (m m' : Memory) (c : Command)
    (out : List Printed) (ht : TableFormed m) (hs : TableStored m)
    (h : execute oob m c = some (m', out)) : TableStored m' := by
  cases c with
  | p name capacity less_60 more_60 dayly =>
    rcases processCommand_p_cases m m' name capacity less_60 more_60 dayly _ h with
      ⟨h1, -⟩ | ⟨-, -, -, -, -, -, -, h1⟩
    · subst h1; exact hs
    · subst h1
      exact ⟨hs.node_sorted, hs.slots_disjoint, hs.stored⟩
  | e nome plates data hora =>
    rcases processCommand_e_table oob m m' nome plates data hora _ h with
      ⟨h1, -⟩ | ⟨p, park, old, j, -, -, hj, -, hslot, -, h1⟩
    · subst h1; exact hs
    · subst h1
      exact tableStored_entry m ht hs _ _ j _ old _ _ hj hslot
  | s nome plates data hora =>
    rcases processCommand_s_cases oob m m' nome plates data hora _ h with
      ⟨h1, -⟩ | ⟨r, record, park, hrec, -, -, -, -, h1⟩
    · subst h1; exact hs
    · subst h1
      exact tableStored_exit m hs r record _ _ _ _ hrec
  | r nome =>
    rcases processCommand_r_cases m m' nome _ h with ⟨h1, -⟩ | ⟨p, park, -, -, h1, -⟩
    · subst h1; exact hs
    · exact tableStored_remove m m' ht hs park.id h1

/-- Every reachable memory has the invariants of the stored records. -/
theorem tableStored_of_reachable (oob : Int → Int) (m : Memory) (h : Reachable oob m) :
    TableStored m := by
  obtain ⟨cmds, hrun⟩ := h
  have := run_induction oob (fun m => TableFormed m ∧ TableStored m)
    (fun m c m' out hP hc => ⟨tableFormed_execute oob m m' c out hP.1 hc,
      tableStored_execute oob m m' c out hP.1 hP.2 hc⟩)
    cmds initializeSystem m ⟨tableFormed_initializeSystem, tableStored_initializeSystem⟩ hrun
  exact this.2

/-! ## The occupancy of a lot and the records stored in the table -/

/-- The records of `tableRecords` are the records of the nodes of the slots below
`HASH_SIZE`. -/
theorem mem_tableRecords (h : HashTable) (r : Ptr) :
    r ∈ tableRecords h ↔ ∃ i node, i < HASH_SIZE ∧ h i = some node ∧ r ∈ node.records := by
  unfold tableRecords
  rw [List.mem_flatMap]
  constructor
  · rintro ⟨i, hi, hr⟩
    unfold slotRecords at hr
    cases hn : h i with
    | none => simp [hn] at hr
    | some node =>
      simp only [hn] at hr
      exact ⟨i, node, List.mem_range.mp hi, hn, hr⟩
  · rintro ⟨i, node, hi, hn, hr⟩
    refine ⟨i, List.mem_range.mpr hi, ?_⟩
    unfold slotRecords
    simp only [hn]
    exact hr

/-- No record is stored twice in the table. -/
theorem tableRecords_nodup (m : Memory) (hs : TableStored m) : (tableRecords m.cars).Nodup := by
  unfold tableRecords
  rw [List.nodup_flatMap]
  constructor
  · intro i _
    unfold slotRecords
    cases hn : m.cars i with
    | none => exact List.nodup_nil
    | some node =>
      simp only [hn]
      exact (hs.node_sorted i node hn).imp (fun hab => Nat.ne_of_lt hab)
  · apply List.Nodup.pairwise_of_forall_ne (List.nodup_range HASH_SIZE)
    intro i _ j _ hij
    show List.Disjoint (slotRecords m.cars i) (slotRecords m.cars j)
    intro r hr hr'
    unfold slotRecords at hr hr'
    cases hi : m.cars i with
    | none => simp [hi] at hr
    | some node =>
      cases hj : m.cars j with
      | none => simp [hj] at hr'
      | some node' =>
        simp only [hi] at hr
        simp only [hj] at hr'
        exact hs.slots_disjoint i j node node' hij hi hj r hr hr'

/-- The number of cells of a heap passing a test is the number of addresses below its
length whose cell passes the test. -/
theorem countP_eq_length_filter_range {α : Type} (f : Option α → Bool) (l : List (Option α)) :
    l.countP f = ((List.range l.length).filter (fun r => f (heapRead l r))).length := by
  induction l using List.reverseRecOn with
  | nil => rfl
  | append_singleton l a ih =>
    have hcongr : (List.range l.length).filter (fun r => f (heapRead (l ++ [a]) r)) =
        (List.range l.length).filter (fun r => f (heapRead l r)) := by
      apply List.filter_congr
      intro r hr
      have hlt : r < l.length := List.mem_range.mp hr
      unfold heapRead
      simp [List.getD_eq_getElem?_getD, List.getElem?_append_left hlt]
    have hlast : heapRead (l ++ [a]) l.length = a := by
      unfold heapRead
      simp [List.getD_eq_getElem?_getD]
    rw [List.countP_append, List.length_append, List.length_singleton, List.range_succ,
      List.filter_append, List.length_append, hcongr, ← ih]
    congr 1
    by_cases ha : f a = true
    · simp [List.filter_cons, hlast, ha]
    · simp [List.filter_cons, hlast, ha]

/-- In a memory with the invariants of the table, the number of allocated open records of
a park is the number of open records of the park stored in the table. -/
theorem openCount_eq_tableOpenCount (m : Memory) (ht : TableFormed m) (hs : TableStored m)
    (p : Ptr) : openCount m.recordHeap p = tableOpenCount m p := by
  unfold openCount tableOpenCount
  rw [countP_eq_length_filter_range, List.countP_eq_length_filter]
  apply List.Perm.length_eq
  rw [List.perm_ext_iff_of_nodup ((List.nodup_range _).filter _)
    ((tableRecords_nodup m hs).filter _)]
  intro r
  simp only [List.mem_filter, List.mem_range]
  constructor
  · rintro ⟨-, hopen⟩
    refine ⟨?_, hopen⟩
    cases hr : heapRead m.recordHeap r with
    | none =>
      rw [hr] at hopen
      exact Bool.noConfusion hopen
    | some record =>
      obtain ⟨i, node, hi, hn, hmem⟩ := hs.stored r record hr
      exact (mem_tableRecords _ _).mpr ⟨i, node, hi, hn, hmem⟩
  · rintro ⟨hmem, hopen⟩
    refine ⟨?_, hopen⟩
    obtain ⟨i, node, -, hn, hr⟩ := (mem_tableRecords _ _).mp hmem
    obtain ⟨record, h1, -⟩ := ht.table_live i node hn r hr
    exact lt_length_of_heapRead _ _ _ h1

/-- The occupancy in the embedding: in every reachable memory, the occupancy of every
park of the list is the number of records stored in the table that are stays in that
park with the exit unset.  The count is a count of records: no record is stored twice in
the table, and the records stored in the table are exactly the allocated records. -/
theorem reachable_occupancy_eq_stored (oob : Int → Int) (m : Memory) (h : Reachable oob m)
    (p : Ptr) (hp : p ∈ m.parks) :
    ∃ park, heapRead m.parkHeap p = some park ∧
      park.occupancy = (tableOpenCount m p : Int) ∧
      (tableRecords m.cars).Nodup ∧
      (∀ r, r ∈ tableRecords m.cars ↔ ∃ record, heapRead m.recordHeap r = some record) := by
  obtain ⟨hw, -⟩ := wellFormed_of_reachable oob m h
  have ht := tableFormed_of_reachable oob m h
  have hs := tableStored_of_reachable oob m h
  obtain ⟨park, hpk⟩ := hw.parks_live p hp
  refine ⟨park, hpk, ?_, tableRecords_nodup m hs, ?_⟩
  · rw [hw.occupancy_eq p park hpk, openCount_eq_tableOpenCount m ht hs p]
  · intro r
    constructor
    · intro hmem
      obtain ⟨i, node, -, hn, hr⟩ := (mem_tableRecords _ _).mp hmem
      obtain ⟨record, h1, -⟩ := ht.table_live i node hn r hr
      exact ⟨record, h1⟩
    · rintro ⟨record, hr⟩
      exact (mem_tableRecords _ _).mpr (hs.stored r record hr)

/-- An instance: after `cmdsReentry` the park `A` (address 0) holds one car; the table
stores the records 0 (closed) and 1 (open) of `AA-11-BB`, and the count is 1. -/
theorem reachable_occupancy_eq_stored_witness :
    (0 : Ptr) ∈ (memoryAfter cmdsReentry).parks ∧
      (∃ park, heapRead (memoryAfter cmdsReentry).parkHeap 0 = some park ∧
        park.occupancy = (tableOpenCount (memoryAfter cmdsReentry) 0 : Int) ∧
        (tableRecords (memoryAfter cmdsReentry).cars).Nodup ∧
        (∀ r, r ∈ tableRecords (memoryAfter cmdsReentry).cars ↔
          ∃ record, heapRead (memoryAfter cmdsReentry).recordHeap r = some record)) ∧
      tableRecords (memoryAfter cmdsReentry).cars = [0, 1] ∧
      tableOpenCount (memoryAfter cmdsReentry) 0 = 1 :=
  ⟨by decide!,
    reachable_occupancy_eq_stored oobZero (memoryAfter cmdsReentry) cmdsReentry_lookup.1 0
      (by decide!),
    by decide!, by decide!⟩

/-! ## The lists of records as linked nodes -/

/-- A segment has as many nodes as items. -/
theorem Linked.seg_length (nh : List (Option Node)) :
    ∀ (nodes items : List Ptr) (start stop : Option Ptr),
      Linked.Seg nh start nodes items stop → nodes.length = items.length := by
  intro nodes
  induction nodes with
  | nil =>
    intro items start stop h
    cases items with
    | nil => rfl
    | cons r items => exact False.elim h
  | cons a nodes ih =>
    intro items start stop h
    cases items with
    | nil => exact False.elim h
    | cons r items =>
      obtain ⟨-, next, -, hseg⟩ := h
      simp [ih items next stop hseg]

/-- The nodes of a segment are allocated. -/
theorem Linked.seg_live (nh : List (Option Node)) :
    ∀ (nodes items : List Ptr) (start stop : Option Ptr),
      Linked.Seg nh start nodes items stop → ∀ a ∈ nodes, a < nh.length := by
  intro nodes
  induction nodes with
  | nil =>
    intro items start stop _ a ha
    simp at ha
  | cons b nodes ih =>
    intro items start stop h a ha
    cases items with
    | nil => exact False.elim h
    | cons r items =>
      obtain ⟨-, next, hread, hseg⟩ := h
      rcases List.mem_cons.mp ha with ha | ha
      · rw [ha]
        exact lt_length_of_heapRead _ _ _ hread
      · exact ih items next stop hseg a ha

/-- A segment is still a segment in a heap that agrees on its nodes. -/
theorem Linked.seg_frame (nh nh' : List (Option Node)) :
    ∀ (nodes items : List Ptr) (start stop : Option Ptr),
      (∀ a ∈ nodes, heapRead nh' a = heapRead nh a) →
      Linked.Seg nh start nodes items stop → Linked.Seg nh' start nodes items stop := by
  intro nodes
  induction nodes with
  | nil =>
    intro items start stop _ h
    cases items with
    | nil => exact h
    | cons r items => exact False.elim h
  | cons a nodes ih =>
    intro items start stop hf h
    cases items with
    | nil => exact False.elim h
    | cons r items =>
      obtain ⟨hstart, next, hread, hseg⟩ := h
      refine ⟨hstart, next, ?_, ih items next stop
        (fun b hb => hf b (List.mem_cons_of_mem _ hb)) hseg⟩
      rw [hf a (List.mem_cons_self _ _)]
      exact hread

/-- Two segments, the second starting where the first stops, make one segment. -/
theorem Linked.seg_append (nh : List (Option Node)) :
    ∀ (nodes1 items1 : List Ptr) (start mid stop : Option Ptr) (nodes2 items2 : List Ptr),
      Linked.Seg nh start nodes1 items1 mid → Linked.Seg nh mid nodes2 items2 stop →
      Linked.Seg nh start (nodes1 ++ nodes2) (items1 ++ items2) stop := by
  intro nodes1
  induction nodes1 with
  | nil =>
    intro items1 start mid stop nodes2 items2 h1 h2
    cases items1 with
    | nil =>
      have hstart : start = mid := h1
      rw [hstart]
      exact h2
    | cons r items => exact False.elim h1
  | cons a nodes1 ih =>
    intro items1 start mid stop nodes2 items2 h1 h2
    cases items1 with
    | nil => exact False.elim h1
    | cons r items1 =>
      obtain ⟨hstart, next, hread, hseg⟩ := h1
      exact ⟨hstart, next, hread, ih items1 next mid stop nodes2 items2 hseg h2⟩

/-- A segment over `nodes ++ [t]` is a segment over `nodes` that stops at `t`, followed
by the node `t`. -/
theorem Linked.seg_concat (nh : List (Option Node)) :
    ∀ (nodes items : List Ptr) (start stop : Option Ptr) (t : Ptr),
      Linked.Seg nh start (nodes ++ [t]) items stop →
      ∃ items1 x, items = items1 ++ [x] ∧ Linked.Seg nh start nodes items1 (some t) ∧
        heapRead nh t = some { item := x, next := stop } := by
  intro nodes
  induction nodes with
  | nil =>
    intro items start stop t h
    cases items with
    | nil => exact False.elim h
    | cons r items =>
      obtain ⟨hstart, next, hread, hseg⟩ := h
      cases items with
      | nil =>
        have hnext : next = stop := hseg
        rw [hnext] at hread
        exact ⟨[], r, rfl, hstart, hread⟩
      | cons r' items => exact False.elim hseg
  | cons a nodes ih =>
    intro items start stop t h
    cases items with
    | nil => exact False.elim h
    | cons r items =>
      obtain ⟨hstart, next, hread, hseg⟩ := h
      obtain ⟨items1, x, hitems, hseg1, hlast⟩ := ih items next stop t hseg
      exact ⟨r :: items1, x, by rw [hitems]; rfl, ⟨hstart, next, hread, hseg1⟩, hlast⟩

/-- A list of pairwise distinct addresses of a heap is not longer than the heap. -/
theorem Linked.length_le_of_nodup (nodes : List Ptr) (n : Nat) (hnd : nodes.Nodup)
    (hlt : ∀ a ∈ nodes, a < n) : nodes.length ≤ n := by
  have hsub : nodes.toFinset ⊆ Finset.range n := by
    intro a ha
    rw [List.mem_toFinset] at ha
    exact Finset.mem_range.mpr (hlt a ha)
  have hcard := Finset.card_le_card hsub
  rw [List.toFinset_card_of_nodup hnd, Finset.card_range] at hcard
  exact hcard

/-- The list `ListNew` returns is the empty sequence. -/
theorem Linked.represents_ListNew (nh : List (Option Node)) :
    Linked.Represents nh Linked.ListNew [] [] :=
  ⟨rfl, List.nodup_nil, rfl, rfl⟩

/-- A list that is a sequence in a heap is the same sequence in a heap that agrees on its
nodes. -/
theorem Linked.represents_frame (nh nh' : List (Option Node)) (l : list) (nodes items : List Ptr)
    (hf : ∀ a ∈ nodes, heapRead nh' a = heapRead nh a)
    (h : Linked.Represents nh l nodes items) : Linked.Represents nh' l nodes items :=
  ⟨Linked.seg_frame nh nh' nodes items _ _ hf h.1, h.2.1, h.2.2.1, h.2.2.2⟩

/-- The function `listAddRecord` on the nodes returns, and the list is then the sequence
with `r` at its end, held by the old nodes and the new one; the cells of the heap other
than the old tail and the new node are not written. -/
theorem Linked.listAddRecord_spec (nh : List (Option Node)) (l : list) (nodes items : List Ptr)
    (r : Ptr) (h : Linked.Represents nh l nodes items) :
    ∃ nh' l', Linked.listAddRecord nh l r = some (nh', l') ∧
      Linked.Represents nh' l' (nodes ++ [nh.length]) (Parking.listAddRecord items r) ∧
      ∀ a, a < nh.length → a ∉ nodes → heapRead nh' a = heapRead nh a := by
  obtain ⟨hseg, hnd, htail, hsize⟩ := h
  have hlen := Linked.seg_length nh nodes items _ _ hseg
  have hlive := Linked.seg_live nh nodes items _ _ hseg
  have hfresh : nh.length ∉ nodes := fun hmem => lt_irrefl _ (hlive _ hmem)
  have hnew : heapRead (nh ++ [some ({ item := r, next := none } : Node)]) nh.length =
      some { item := r, next := none } :=
    heapRead_heapAlloc_new nh _
  have hold : ∀ a, a < nh.length →
      heapRead (nh ++ [some ({ item := r, next := none } : Node)]) a = heapRead nh a := by
    intro a ha
    exact heapRead_heapAlloc_ne nh _ a (Nat.ne_of_lt ha)
  unfold Linked.listAddRecord Parking.listAddRecord
  by_cases hzero : l.size = 0
  · have hitems : items = [] := by
      rw [hzero] at hsize
      exact List.length_eq_zero.mp (by exact_mod_cast hsize.symm)
    have hnodes : nodes = [] := by
      rw [hitems] at hlen
      exact List.length_eq_zero.mp hlen
    subst hitems
    subst hnodes
    simp only [hzero, if_true, heapAlloc]
    refine ⟨_, _, rfl, ⟨?_, ?_, ?_, ?_⟩, ?_⟩
    · exact ⟨rfl, none, hnew, rfl⟩
    · simp
    · rfl
    · simp
    · intro a ha _
      exact hold a ha
  · have hne : nodes ≠ [] := by
      intro hnil
      rw [hnil] at hlen
      have : items = [] := List.length_eq_zero.mp hlen.symm
      rw [this] at hsize
      exact hzero (by simpa using hsize)
    have hsplit := List.dropLast_append_getLast hne
    have htail' : l.tail = some (nodes.getLast hne) := by
      rw [htail]
      exact List.getLast?_eq_getLast _ hne
    rw [← hsplit] at hseg hnd
    obtain ⟨items1, x, hitems, hseg1, hlast⟩ :=
      Linked.seg_concat nh _ _ _ _ _ hseg
    have htlive : nodes.getLast hne < nh.length := hlive _ (List.getLast_mem hne)
    have hread : heapRead (nh ++ [some ({ item := r, next := none } : Node)])
        (nodes.getLast hne) = some { item := x, next := none } := by
      rw [hold _ htlive]
      exact hlast
    simp only [hzero, if_false, heapAlloc, htail', hread]
    refine ⟨_, _, rfl, ⟨?_, ?_, ?_, ?_⟩, ?_⟩
    · have hnotin : nodes.getLast hne ∉ nodes.dropLast := by
        intro hmem
        have := List.disjoint_of_nodup_append hnd hmem
        exact this (List.mem_singleton.mpr rfl)
      have hpre : Linked.Seg
          (heapWrite (nh ++ [some ({ item := r, next := none } : Node)]) (nodes.getLast hne)
            { item := x, next := some nh.length })
          l.head nodes.dropLast items1 (some (nodes.getLast hne)) := by
        apply Linked.seg_frame nh _ _ _ _ _ _ hseg1
        intro a ha
        have hane : a ≠ nodes.getLast hne := fun e => hnotin (e ▸ ha)
        rw [heapRead_heapWrite_ne _ _ _ _ hane]
        exact hold a (hlive a (List.dropLast_subset _ ha))
      have hpost : Linked.Seg
          (heapWrite (nh ++ [some ({ item := r, next := none } : Node)]) (nodes.getLast hne)
            { item := x, next := some nh.length })
          (some (nodes.getLast hne)) [nodes.getLast hne, nh.length] [x, r] none := by
        refine ⟨rfl, some nh.length, heapRead_heapWrite_self _ _ _ _ hread, rfl, none, ?_, rfl⟩
        rw [heapRead_heapWrite_ne _ _ _ _ (Nat.ne_of_gt htlive)]
        exact hnew
      have happ := Linked.seg_append _ _ _ _ _ _ _ _ hpre hpost
      have hn : nodes.dropLast ++ [nodes.getLast hne, nh.length] = nodes ++ [nh.length] := by
        have h3 : nodes.dropLast ++ [nodes.getLast hne, nh.length] =
            (nodes.dropLast ++ [nodes.getLast hne]) ++ [nh.length] := by simp
        rw [h3, hsplit]
      have hi : items1 ++ [x, r] = items ++ [r] := by
        rw [hitems]
        simp
      rw [hn, hi] at happ
      exact happ
    · rw [hsplit] at hnd
      rw [List.nodup_append]
      refine ⟨hnd, List.nodup_singleton _, ?_⟩
      intro a ha hb
      rw [List.mem_singleton] at hb
      exact hfresh (hb ▸ ha)
    · simp
    · simp only [List.length_append, List.length_singleton, Nat.cast_add, Nat.cast_one]
      rw [hsize]
    · intro a ha hnot
      have hane : a ≠ nodes.getLast hne := fun e => hnot (e ▸ List.getLast_mem hne)
      rw [heapRead_heapWrite_ne _ _ _ _ hane]
      exact hold a ha

/-- The body of `if (n->item.record == r)` in `listRemoveRecord`, at the node `n` of a
list: it returns, the record of the node is freed and the list is the sequence without
the item of the node, held by the other nodes; no cell outside the nodes of the list is
written. -/
theorem Linked.listRemoveRecord_unlink_spec (l : list) (rh : List (Option Record))
    (nh : List (Option Node)) (pre post ipre ipost : List Ptr) (n x : Ptr) (next : Option Ptr)
    (hpre : Linked.Seg nh l.head pre ipre (some n))
    (hpost : Linked.Seg nh next post ipost none) (hnd : (pre ++ n :: post).Nodup)
    (htail : l.tail = (pre ++ n :: post).getLast?)
    (hsize : l.size = ((ipre ++ x :: ipost).length : Int)) :
    ∃ nh' l', Linked.listRemoveRecord.unlink l nh rh pre.getLast? n { item := x, next := next } =
        some (nh', heapFree rh x, l') ∧
      Linked.Represents nh' l' (pre ++ post) (ipre ++ ipost) ∧
      ∀ a, a ∉ pre ++ n :: post → heapRead nh' a = heapRead nh a := by
  have hndpre : pre.Nodup := (List.nodup_append.mp hnd).1
  have hndpost : (n :: post).Nodup := (List.nodup_append.mp hnd).2.1
  have hnpost : n ∉ post := (List.nodup_cons.mp hndpost).1
  have hnpre : n ∉ pre := fun hmem =>
    List.disjoint_of_nodup_append hnd hmem (List.mem_cons_self _ _)
  have hnd' : (pre ++ post).Nodup :=
    List.Nodup.sublist (List.Sublist.append_left (List.sublist_cons_self n post) pre) hnd
  have hsize' : l.size - 1 = ((ipre ++ ipost).length : Int) := by
    rw [hsize]
    simp only [List.length_append, List.length_cons, Nat.cast_add, Nat.cast_one]
    ring
  have htl : ∀ (l1 : list) (prev : Option Ptr), prev = pre.getLast? → l1.tail = l.tail →
      (if some n = l1.tail then { l1 with tail := prev } else l1).tail =
        (pre ++ post).getLast? := by
    intro l1 prev hprev h1
    rw [h1, htail, hprev]
    cases post with
    | nil => simp
    | cons b post' =>
      have hlast : (pre ++ n :: b :: post').getLast? = (b :: post').getLast? := by
        rw [List.getLast?_append_of_ne_nil _ (List.cons_ne_nil _ _), List.getLast?_cons_cons]
      have hlast' : (pre ++ b :: post').getLast? = (b :: post').getLast? :=
        List.getLast?_append_of_ne_nil _ (List.cons_ne_nil _ _)
      have hneq : ¬ some n = (b :: post').getLast? := by
        intro e
        exact hnpost (List.mem_of_getLast?_eq_some e.symm)
      rw [hlast, hlast', if_neg hneq, h1, htail, hlast]
  have hsz : ∀ (l1 : list) (prev : Option Ptr), l1.size = l.size →
      (if some n = l1.tail then { l1 with tail := prev } else l1).size = l.size := by
    intro l1 prev h1
    split_ifs
    · exact h1
    · exact h1
  have hhd : ∀ (l1 : list) (prev : Option Ptr),
      (if some n = l1.tail then { l1 with tail := prev } else l1).head = l1.head := by
    intro l1 prev
    split_ifs
    · rfl
    · rfl
  rcases List.eq_nil_or_concat pre with hnil | ⟨pre0, pv, hcat⟩
  · subst hnil
    cases ipre with
    | cons y ipre0 => exact False.elim hpre
    | nil =>
      unfold Linked.listRemoveRecord.unlink
      simp only [List.getLast?_nil]
      refine ⟨_, _, rfl, ⟨?_, hnd', ?_, ?_⟩, ?_⟩
      · show Linked.Seg (heapFree nh n) _ ([] ++ post) ([] ++ ipost) none
        rw [List.nil_append, List.nil_append]
        have hh := hhd { l with head := next } none
        simp only at hh
        rw [hh]
        apply Linked.seg_frame nh _ _ _ _ _ _ hpost
        intro a ha
        exact heapRead_heapFree_ne _ _ _ (fun e => hnpost (e ▸ ha))
      · have := htl { l with head := next } none rfl rfl
        simpa using this
      · have := hsz { l with head := next } none rfl
        simp only at this
        show _ - 1 = _
        rw [this]
        exact hsize'
      · intro a ha
        have hane : a ≠ n := fun e => ha (e ▸ List.mem_cons_self _ _)
        exact heapRead_heapFree_ne _ _ _ hane
  · rw [List.concat_eq_append] at hcat
    subst hcat
    obtain ⟨ipre0, y, hipre, hseg0, hpv⟩ := Linked.seg_concat nh _ _ _ _ _ hpre
    have hpvn : pv ≠ n := fun e => hnpre (e ▸ List.mem_append_right _ (List.mem_singleton.mpr rfl))
    have hpvpre0 : pv ∉ pre0 := fun hmem =>
      List.disjoint_of_nodup_append hndpre hmem (List.mem_singleton.mpr rfl)
    have hpvpost : pv ∉ post := fun hmem =>
      List.disjoint_of_nodup_append hnd (List.mem_append_right _ (List.mem_singleton.mpr rfl))
        (List.mem_cons_of_mem _ hmem)
    have hprev : (pre0 ++ [pv]).getLast? = some pv := by simp
    unfold Linked.listRemoveRecord.unlink
    simp only [hprev, hpv]
    refine ⟨_, _, rfl, ⟨?_, hnd', ?_, ?_⟩, ?_⟩
    · have hh := hhd l (some pv)
      simp only at hh
      show Linked.Seg (heapFree (heapWrite nh pv { item := y, next := next }) n) _ _ _ none
      rw [hh, hipre]
      have h0 : Linked.Seg (heapFree (heapWrite nh pv { item := y, next := next }) n)
          l.head pre0 ipre0 (some pv) := by
        apply Linked.seg_frame nh _ _ _ _ _ _ hseg0
        intro a ha
        have h1 : a ≠ n := fun e => hnpre (e ▸ List.mem_append_left _ ha)
        have h2 : a ≠ pv := fun e => hpvpre0 (e ▸ ha)
        rw [heapRead_heapFree_ne _ _ _ h1, heapRead_heapWrite_ne _ _ _ _ h2]
      have h1 : Linked.Seg (heapFree (heapWrite nh pv { item := y, next := next }) n)
          (some pv) [pv] [y] next := by
        refine ⟨rfl, next, ?_, rfl⟩
        rw [heapRead_heapFree_ne _ _ _ hpvn]
        exact heapRead_heapWrite_self _ _ _ _ hpv
      have h2 : Linked.Seg (heapFree (heapWrite nh pv { item := y, next := next }) n)
          next post ipost none := by
        apply Linked.seg_frame nh _ _ _ _ _ _ hpost
        intro a ha
        have h3 : a ≠ n := fun e => hnpost (e ▸ ha)
        have h4 : a ≠ pv := fun e => hpvpost (e ▸ ha)
        rw [heapRead_heapFree_ne _ _ _ h3, heapRead_heapWrite_ne _ _ _ _ h4]
      exact Linked.seg_append _ _ _ _ _ _ _ _ (Linked.seg_append _ _ _ _ _ _ _ _ h0 h1) h2
    · have := htl l (some pv) hprev.symm rfl
      simpa using this
    · have := hsz l (some pv) rfl
      show _ - 1 = _
      rw [this]
      exact hsize'
    · intro a ha
      have h1 : a ≠ n := fun e => ha (e ▸ List.mem_append_right _ (List.mem_cons_self _ _))
      have h2 : a ≠ pv := fun e => ha (e ▸ List.mem_append_left _
        (List.mem_append_right _ (List.mem_singleton.mpr rfl)))
      rw [heapRead_heapFree_ne _ _ _ h1, heapRead_heapWrite_ne _ _ _ _ h2]

/-- The loop of `listRemoveRecord` on the nodes, entered at a node of a list after
items other than `r`: with fuel for the nodes left it returns what `listRemoveRecord`
on the sequence of the items returns; no cell outside the nodes of the list is
written. -/
theorem Linked.listRemoveRecord_loop_spec (l : list) (r : Ptr) (rh : List (Option Record))
    (nh : List (Option Node)) :
    ∀ (post pre ipost ipre : List Ptr) (cur : Option Ptr) (fuel : Nat),
      Linked.Seg nh l.head pre ipre cur → Linked.Seg nh cur post ipost none →
      (pre ++ post).Nodup → l.tail = (pre ++ post).getLast? →
      l.size = ((ipre ++ ipost).length : Int) → r ∉ ipre → post.length < fuel →
      ∃ nh' l' nodes',
        Linked.listRemoveRecord.loop l r nh rh fuel pre.getLast? cur =
          some (nh', (Parking.listRemoveRecord rh (ipre ++ ipost) r).2, l') ∧
        Linked.Represents nh' l' nodes' (Parking.listRemoveRecord rh (ipre ++ ipost) r).1 ∧
        nodes'.Sublist (pre ++ post) ∧
        ∀ a, a ∉ pre ++ post → heapRead nh' a = heapRead nh a := by
  intro post
  induction post with
  | nil =>
    intro pre ipost ipre cur fuel hpre hpost hnd htail hsize hr hfuel
    cases ipost with
    | cons x ipost => exact False.elim hpost
    | nil =>
      have hcur : cur = none := hpost
      subst hcur
      obtain ⟨f, rfl⟩ : ∃ f, fuel = f + 1 := ⟨fuel - 1, by simp at hfuel; omega⟩
      have habs : Parking.listRemoveRecord rh (ipre ++ []) r = (ipre ++ [], rh) := by
        unfold Parking.listRemoveRecord
        rw [if_neg (by simpa using hr)]
      rw [habs]
      refine ⟨nh, l, pre ++ [], ?_, ⟨?_, hnd, htail, hsize⟩, List.Sublist.refl _, fun _ _ => rfl⟩
      · unfold Linked.listRemoveRecord.loop
        rfl
      · rw [List.append_nil, List.append_nil]
        exact hpre
  | cons n post ih =>
    intro pre ipost ipre cur fuel hpre hpost hnd htail hsize hr hfuel
    cases ipost with
    | nil => exact False.elim hpost
    | cons x ipost =>
      obtain ⟨hcur, next, hread, hseg⟩ := hpost
      subst hcur
      obtain ⟨f, rfl⟩ : ∃ f, fuel = f + 1 :=
        ⟨fuel - 1, by simp only [List.length_cons] at hfuel; omega⟩
      unfold Linked.listRemoveRecord.loop
      simp only [hread]
      by_cases hx : x = r
      · subst hx
        simp only [if_true]
        have habs : Parking.listRemoveRecord rh (ipre ++ x :: ipost) x =
            (ipre ++ ipost, heapFree rh x) := by
          unfold Parking.listRemoveRecord
          rw [if_pos (List.mem_append_right _ (List.mem_cons_self _ _)),
            List.erase_append_right _ hr, List.erase_cons_head]
        rw [habs]
        obtain ⟨nh', l', h1, h2, h3⟩ := Linked.listRemoveRecord_unlink_spec l rh nh pre post ipre
          ipost n x next hpre hseg hnd htail hsize
        exact ⟨nh', l', pre ++ post, h1, h2,
          List.Sublist.append_left (List.sublist_cons_self n post) pre, h3⟩
      · simp only [hx, if_false]
        have hpre' : Linked.Seg nh l.head (pre ++ [n]) (ipre ++ [x]) next :=
          Linked.seg_append nh _ _ _ _ _ _ _ hpre ⟨rfl, next, hread, rfl⟩
        have hn : (pre ++ [n]) ++ post = pre ++ n :: post := by simp
        have hi : (ipre ++ [x]) ++ ipost = ipre ++ x :: ipost := by simp
        have hr' : r ∉ ipre ++ [x] := by
          intro hmem
          rcases List.mem_append.mp hmem with hmem | hmem
          · exact hr hmem
          · exact hx (List.mem_singleton.mp hmem).symm
        have hlast : (pre ++ [n]).getLast? = some n := by simp
        have := ih (pre ++ [n]) ipost (ipre ++ [x]) next f hpre' hseg (by rw [hn]; exact hnd)
          (by rw [hn]; exact htail) (by rw [hi]; exact hsize) hr'
          (by simp only [List.length_cons] at hfuel; omega)
        rw [hlast, hn, hi] at this
        exact this

/-- The function `listRemoveRecord` on the nodes, on a list that is the sequence `items`:
it returns what `listRemoveRecord` on the sequence returns (the sequence without the
first `r`, and the record `r` freed, when `r` is an item; nothing changed otherwise), held
by nodes of the list; no cell outside the nodes of the list is written. -/
theorem Linked.listRemoveRecord_spec (nh : List (Option Node)) (rh : List (Option Record))
    (l : list) (nodes items : List Ptr) (r : Ptr) (h : Linked.Represents nh l nodes items) :
    ∃ nh' l' nodes', Linked.listRemoveRecord nh rh l r =
        some (nh', (Parking.listRemoveRecord rh items r).2, l') ∧
      Linked.Represents nh' l' nodes' (Parking.listRemoveRecord rh items r).1 ∧
      nodes'.Sublist nodes ∧ ∀ a, a ∉ nodes → heapRead nh' a = heapRead nh a := by
  obtain ⟨hseg, hnd, htail, hsize⟩ := h
  have hlive := Linked.seg_live nh nodes items _ _ hseg
  have hlen := Linked.length_le_of_nodup nodes nh.length hnd hlive
  have := Linked.listRemoveRecord_loop_spec l r rh nh nodes [] items [] l.head (nh.length + 1)
    rfl hseg hnd htail hsize (by simp) (by omega)
  simpa [Linked.listRemoveRecord] using this

/-- The tail of a list that is a non-empty sequence is a node holding the last item of
the sequence, and `l->tail->item.record` is that item. -/
theorem Linked.represents_tail (nh : List (Option Node)) (l : list) (nodes items : List Ptr)
    (h : Linked.Represents nh l nodes items) (hne : items ≠ []) :
    ∃ t, l.tail = some t ∧ nodes.getLast? = some t ∧
      heapRead nh t = some { item := items.getLast hne, next := none } ∧
      Linked.getLastRecord nh (some l) = some (some (items.getLast hne)) := by
  obtain ⟨hseg, -, htail, -⟩ := h
  have hlen := Linked.seg_length nh nodes items _ _ hseg
  have hnodes : nodes ≠ [] := by
    intro hnil
    rw [hnil] at hlen
    exact hne (List.length_eq_zero.mp hlen.symm)
  have hsplit := List.dropLast_append_getLast hnodes
  rw [← hsplit] at hseg
  obtain ⟨items1, x, hitems, -, hlast⟩ := Linked.seg_concat nh _ _ _ _ _ hseg
  have hx : items.getLast hne = x := by
    simp only [hitems, List.getLast_append_singleton]
  have ht : l.tail = some (nodes.getLast hnodes) := by
    rw [htail]
    exact List.getLast?_eq_getLast _ hnodes
  refine ⟨nodes.getLast hnodes, ht, List.getLast?_eq_getLast _ hnodes, ?_, ?_⟩
  · rw [hx]
    exact hlast
  · unfold Linked.getLastRecord
    simp only [ht, hlast, hx]

/-- In a list in increasing order no element is above the last one. -/
theorem le_getLast_of_sorted (l : List Ptr) (hs : l.Pairwise (fun a b => a < b)) (hne : l ≠ []) :
    ∀ r ∈ l, r ≤ l.getLast hne := by
  intro r hr
  have hsplit := List.dropLast_append_getLast hne
  rw [← hsplit] at hr hs
  rcases List.mem_append.mp hr with hr | hr
  · exact Nat.le_of_lt ((List.pairwise_append.mp hs).2.2 r hr _ (List.mem_singleton.mpr rfl))
  · rw [List.mem_singleton.mp hr]

/-- C39: in every reachable memory, the node of every occupied slot of the table holds a
sequence of records that is not empty and is in increasing order of the addresses of
the records, the order of their insertion; whatever struct `list` with linked nodes is
that sequence, its size is the number of elements, at least 1, its tail is the last
node, and `l->tail->item.record` is the last element, above which no element of the
sequence is.  So `getLastRecord` returns the last element of the sequence that
`getListPlates` found, the most recently inserted of the records that remain in it, and
fails only when `getListPlates` does not return.  The three functions that write the
fields `head`, `tail` and `size` keep the struct in step with the sequence: `ListNew`
gives the empty sequence, `listAddRecord` on the nodes returns and gives the sequence
with the record at its end, `listRemoveRecord` on the nodes returns and gives what
`listRemoveRecord` on the sequence gives, and neither writes a cell of the node heap
outside the nodes of the list and the new node. -/
theorem reachable_sequences_nonempty (oob : Int → Int) (m : Memory) (h : Reachable oob m) :
    (∀ i node, m.cars i = some node →
      node.records ≠ [] ∧ node.records.Pairwise (fun a b => a < b) ∧
      ∀ (nh : List (Option Node)) (l : list) (nodes : List Ptr),
        Linked.Represents nh l nodes node.records →
        l.size = (node.records.length : Int) ∧ 1 ≤ l.size ∧ l.tail = nodes.getLast? ∧
        ∃ last, node.records.getLast? = some last ∧
          Linked.getLastRecord nh (some l) = some (some last) ∧
          ∀ r ∈ node.records, r ≤ last) ∧
    (∀ plates l, getListPlates m.cars plates = some (some l) →
      ∃ last, getLastRecord m.cars plates = some (some last) ∧ l.getLast? = some last ∧
        ∀ r ∈ l, r ≤ last) ∧
    (∀ plates, getLastRecord m.cars plates = none → getListPlates m.cars plates = none) ∧
    (∀ nh : List (Option Node), Linked.Represents nh Linked.ListNew [] []) ∧
    (∀ (nh : List (Option Node)) (l : list) (nodes items : List Ptr) (r : Ptr),
      Linked.Represents nh l nodes items →
      ∃ nh' l', Linked.listAddRecord nh l r = some (nh', l') ∧
        Linked.Represents nh' l' (nodes ++ [nh.length]) (listAddRecord items r) ∧
        ∀ a, a < nh.length → a ∉ nodes → heapRead nh' a = heapRead nh a) ∧
    (∀ (nh : List (Option Node)) (rh : List (Option Record)) (l : list)
      (nodes items : List Ptr) (r : Ptr), Linked.Represents nh l nodes items →
      ∃ nh' l' nodes', Linked.listRemoveRecord nh rh l r =
          some (nh', (listRemoveRecord rh items r).2, l') ∧
        Linked.Represents nh' l' nodes' (listRemoveRecord rh items r).1 ∧
        nodes'.Sublist nodes ∧ ∀ a, a ∉ nodes → heapRead nh' a = heapRead nh a) := by
  have ht := tableFormed_of_reachable oob m h
  have hs := tableStored_of_reachable oob m h
  have hnode : ∀ i node, m.cars i = some node → ∃ hne : node.records ≠ [],
      node.records.getLast? = some (node.records.getLast hne) ∧
      ∀ r ∈ node.records, r ≤ node.records.getLast hne := by
    intro i node hi
    have hne := ht.table_nonempty i node hi
    exact ⟨hne, List.getLast?_eq_getLast _ hne,
      le_getLast_of_sorted _ (hs.node_sorted i node hi) hne⟩
  refine ⟨?_, ?_, ?_, Linked.represents_ListNew, Linked.listAddRecord_spec,
    Linked.listRemoveRecord_spec⟩
  · intro i node hi
    obtain ⟨hne, hlast, hle⟩ := hnode i node hi
    refine ⟨hne, hs.node_sorted i node hi, ?_⟩
    intro nh l nodes hrep
    obtain ⟨t, -, -, -, hget⟩ := Linked.represents_tail nh l nodes _ hrep hne
    have hsize := hrep.2.2.2
    refine ⟨hsize, ?_, hrep.2.2.1, _, hlast, hget, hle⟩
    rw [hsize]
    have hpos : 0 < node.records.length := List.length_pos.mpr hne
    exact_mod_cast hpos
  · intro plates l hl
    obtain ⟨j, node, hj, -, hrecs⟩ := getListPlates_loop_slot _ _ _ _ _ hl
    subst hrecs
    obtain ⟨hne, hlast, hle⟩ := hnode j node hj
    refine ⟨_, ?_, hlast, hle⟩
    unfold getLastRecord
    rw [hl]
    simp only [hlast]
  · intro plates hnone
    unfold getLastRecord at hnone
    cases hl : getListPlates m.cars plates with
    | none => rfl
    | some res =>
      exfalso
      cases res with
      | none => simp [hl] at hnone
      | some l =>
        obtain ⟨j, node, hj, -, hrecs⟩ := getListPlates_loop_slot _ _ _ _ _ hl
        subst hrecs
        obtain ⟨hne, hlast, -⟩ := hnode j node hj
        simp [hl, hlast] at hnone

/-- Witness of C39: after `cmdsReentry` the sequence of `AA-11-BB` is `[0, 1]` and
`getLastRecord` returns its last element 1; on the nodes, two calls of `listAddRecord`
from `ListNew` and the removal of the second record leave the tail on the first node and
the size 1. -/
theorem reachable_sequences_nonempty_witness :
    getListPlates (memoryAfter cmdsReentry).cars "AA-11-BB" = some (some [0, 1]) ∧
      (∃ last, getLastRecord (memoryAfter cmdsReentry).cars "AA-11-BB" = some (some last) ∧
        [0, 1].getLast? = some last ∧ ∀ r ∈ [0, 1], r ≤ last) ∧
      getLastRecord (memoryAfter cmdsReentry).cars "AA-11-BB" = some (some 1) ∧
      Linked.listAddRecord [] Linked.ListNew 0 =
        some ([some { item := 0, next := none }], { head := some 0, tail := some 0, size := 1 }) ∧
      Linked.listAddRecord [some { item := 0, next := none }]
          { head := some 0, tail := some 0, size := 1 } 1 =
        some ([some { item := 0, next := some 1 }, some { item := 1, next := none }],
          { head := some 0, tail := some 1, size := 2 }) ∧
      ((Linked.listRemoveRecord [some { item := 0, next := some 1 }, some { item := 1, next := none }]
          [] { head := some 0, tail := some 1, size := 2 } 1).map (fun res => (res.1, res.2.2))) =
        some ([some { item := 0, next := none }, none],
          { head := some 0, tail := some 0, size := 1 }) :=
  ⟨cmdsReentry_lookup.2,
    (reachable_sequences_nonempty oobZero (memoryAfter cmdsReentry) cmdsReentry_lookup.1).2.1
      "AA-11-BB" [0, 1] cmdsReentry_lookup.2,
    by decide!, by decide, by decide, by decide⟩

/-! ## The amount of a stay of more than 4085 years -/

/-- The run `cmdsLongStay` returns, and its exit command prices the record
`recordLongStay` in the park with the fees 1, 2 and 10: the record 0 of the memory it
reaches is what `calculatePrice` returns. -/
theorem cmdsLongStay_record :
    Reachable oobZero (memoryAfter cmdsLongStay) ∧
      heapRead (memoryAfter cmdsLongStay).recordHeap 0 =
        some (calculatePrice recordLongStay parkTen) ∧
      recordLongStay.entryDay = 738761 ∧ recordLongStay.exitDay = 3649636 ∧
      recordLongStay.entryHour = 600 ∧ recordLongStay.exitHour = 600 :=
  ⟨⟨cmdsLongStay, run_eq_some_memoryAfter _ (by decide!)⟩, by decide!, by decide, by decide,
    by decide, by decide⟩

/-- The amount of the specification for the stay of `cmdsLongStay`: 2910875 full days at
the daily fee 10. -/
theorem specPaid_long_stay : specPaid 738761 600 3649636 600 1 2 10 = 29108750 := by
  have hc : ⌈((0 : Int) : ℚ) / 15⌉ = 0 := by
    rw [Int.ceil_eq_iff]; norm_num
  have h1 : ((3649636 : Int) - 738761) * 1440 + 600 - 600 = 4191660000 := by norm_num
  have h2 : (4191660000 : Int) / 1440 = 2910875 := by decide
  have h3 : (4191660000 : Int) % 1440 = 0 := by decide
  simp only [specPaid, h1, h2, h3, hc]
  norm_num

/-- C1, the code at the failing input: after `p A 10 1 2 10`, `e A AA-11-BB 01-01-2024
10:00` and `s A AA-11-BB 01-01-9999 10:00` (all accepted) the stay lasts
`totalMinutes = 2910875 * 1440 = 4191660000` minutes, which is not an `int`: the local
`total` of `calculatePrice` holds -103307296, `days` is -71741, `minutes` is -256,
`blocks` is -16, and the amount written in the record is -717426, where the formula of
the specification gives `2910875 * 10 + min(0, 10) = 29108750`. -/
theorem calculatePrice_long_stay_ne_spec :
    Reachable oobZero (memoryAfter cmdsLongStay) ∧
      heapRead (memoryAfter cmdsLongStay).recordHeap 0 =
        some { plates := "AA-11-BB", park := 0, entryDay := 738761, entryHour := 600,
               exitDay := 3649636, exitHour := 600, paid := -717426 } ∧
      ((3649636 : Int) - 738761) * 1440 + 600 - 600 = 4191660000 ∧
      calculatePrice.total recordLongStay = -103307296 ∧
      calculatePrice.days recordLongStay = -71741 ∧
      calculatePrice.minutes recordLongStay = -256 ∧
      calculatePrice.blocks recordLongStay = -16 ∧
      (calculatePrice recordLongStay parkTen).paid = -717426 ∧
      specPaid recordLongStay.entryDay recordLongStay.entryHour recordLongStay.exitDay
        recordLongStay.exitHour parkTen.less_60 parkTen.more_60 parkTen.dayly = 29108750 ∧
      (calculatePrice recordLongStay parkTen).paid ≠
        specPaid recordLongStay.entryDay recordLongStay.entryHour recordLongStay.exitDay
          recordLongStay.exitHour parkTen.less_60 parkTen.more_60 parkTen.dayly := by
  have hpaid : (calculatePrice recordLongStay parkTen).paid = -717426 := by decide!
  have hspec : specPaid recordLongStay.entryDay recordLongStay.entryHour
      recordLongStay.exitDay recordLongStay.exitHour parkTen.less_60 parkTen.more_60
      parkTen.dayly = 29108750 := specPaid_long_stay
  refine ⟨cmdsLongStay_record.1, by decide!, by decide, by decide, by decide, by decide,
    by decide, hpaid, hspec, ?_⟩
  rw [hpaid, hspec]
  norm_num

/-- C4, the code at the failing input: in the memory reached by `cmdsLongStay` the park
of the record 0 has the fees `0 < 1 <= 2 <= 10`, the exit of the record (day 3649636,
01-01-9999) is after its entry (day 738761, 01-01-2024), so `totalMinutes >= 0`, and the
amount `calculatePrice` computed and the exit command stored is negative. -/
theorem calculatePrice_long_stay_negative :
    ∃ record park, heapRead (memoryAfter cmdsLongStay).recordHeap 0 = some record ∧
      heapRead (memoryAfter cmdsLongStay).parkHeap record.park = some park ∧
      0 < park.less_60 ∧ park.less_60 ≤ park.more_60 ∧ park.more_60 ≤ park.dayly ∧
      record.entryDay < record.exitDay ∧
      0 ≤ (record.exitDay - record.entryDay) * 1440 + record.exitHour - record.entryHour ∧
      (calculatePrice record park).paid = record.paid ∧
      record.paid = -717426 ∧ record.paid < 0 :=
  ⟨{ plates := "AA-11-BB", park := 0, entryDay := 738761, entryHour := 600,
     exitDay := 3649636, exitHour := 600, paid := -717426 },
   { name := "A", capacity := 10, occupancy := 0, id := 1, less_60 := 1, more_60 := 2,
     dayly := 10, records := [0] },
   by decide!, by decide!, by decide!, by decide!, by decide!, by decide, by decide,
   by decide!, rfl, by decide!⟩

/-- C35, the code at the failing input: in the park with the fees `0 < 1 <= 2 <= 10` the
stay of 80 minutes is charged 8 and the stay of `cmdsLongStay`, of 4191660000 minutes, is
charged -717426: the longer stay is charged less. -/
theorem calculatePrice_long_stay_cheaper :
    0 < parkTen.less_60 ∧ parkTen.less_60 ≤ parkTen.more_60 ∧
      parkTen.more_60 ≤ parkTen.dayly ∧
      (recordEightyMinutes.exitDay - recordEightyMinutes.entryDay) * 1440 +
        recordEightyMinutes.exitHour - recordEightyMinutes.entryHour = 80 ∧
      (recordLongStay.exitDay - recordLongStay.entryDay) * 1440 +
        recordLongStay.exitHour - recordLongStay.entryHour = 4191660000 ∧
      (calculatePrice recordEightyMinutes parkTen).paid = 8 ∧
      (calculatePrice recordLongStay parkTen).paid = -717426 ∧
      heapRead (memoryAfter cmdsLongStay).recordHeap 0 =
        some (calculatePrice recordLongStay parkTen) ∧
      (calculatePrice recordLongStay parkTen).paid <
        (calculatePrice recordEightyMinutes parkTen).paid := by
  have h1 : (calculatePrice recordEightyMinutes parkTen).paid = 8 := by decide!
  have h2 : (calculatePrice recordLongStay parkTen).paid = -717426 := by decide!
  refine ⟨by decide!, by decide!, by decide!, by decide, by decide, h1, h2,
    cmdsLongStay_record.2.1, ?_⟩
  rw [h1, h2]
  norm_num

/-! ## The temporal codec with the array bounds and the range of `int` -/

/-- Inside the table the two versions of `getDaysOfMonth` read the same entry. -/
theorem strict_getDaysOfMonth (oob : Int → Int) (i : Int) (h1 : 1 ≤ i) (h2 : i ≤ 12) :
    Strict.getDaysOfMonth i = some (getDaysOfMonth oob i) := by
  unfold Strict.getDaysOfMonth getDaysOfMonth
  rw [if_pos ⟨h1, h2⟩, if_pos ⟨h1, h2⟩]

/-- Outside the table the read of `getDaysOfMonth` is undefined. -/
theorem strict_getDaysOfMonth_none (i : Int) (h : i < 1 ∨ 12 < i) :
    Strict.getDaysOfMonth i = none := by
  unfold Strict.getDaysOfMonth
  rw [if_neg (by omega)]

/-- A list of reads, one of which is undefined, is undefined. -/
theorem mapM_eq_none_of_mem {α β : Type} (f : α → Option β) :
    ∀ (l : List α) (a : α), a ∈ l → f a = none → l.mapM f = none := by
  intro l
  induction l with
  | nil => intro a ha; simp at ha
  | cons x rest ih =>
    intro a ha hf
    rw [List.mapM_cons]
    rcases List.mem_cons.mp ha with h | h
    · subst h
      rw [hf]
      rfl
    · rw [ih a h hf]
      cases f x with
      | none => rfl
      | some b => rfl

/-- A list of reads that are all defined is defined. -/
theorem mapM_eq_some_map {α β : Type} (f : α → Option β) (g : α → β) :
    ∀ (l : List α), (∀ a ∈ l, f a = some (g a)) → l.mapM f = some (l.map g) := by
  intro l
  induction l with
  | nil => intro _; rfl
  | cons x rest ih =>
    intro h
    rw [List.mapM_cons, h x (List.mem_cons_self _ _),
      ih (fun a ha => h a (List.mem_cons_of_mem _ ha))]
    rfl

/-- For a month of the calendar the loop of `sumDaysAllMonths` stays inside the table and
the two versions agree; from month 14 on it reads `days[12]` and is undefined. -/
theorem strict_sumDaysAllMonths (oob : Int → Int) (month : Int) :
    (1 ≤ month → month ≤ 12 →
        Strict.sumDaysAllMonths month = some (sumDaysAllMonths oob month)) ∧
      (14 ≤ month → Strict.sumDaysAllMonths month = none) := by
  constructor
  · intro h1 h2
    rw [sumDaysAllMonths_eq_spec oob month h1 h2]
    interval_cases month <;> rfl
  · intro h
    unfold Strict.sumDaysAllMonths
    rw [mapM_eq_none_of_mem _ _ 12 (List.mem_range.mpr (by omega))
      (strict_getDaysOfMonth_none _ (by norm_num))]
    rfl

/-- On a month of the calendar `checkDateFormat` reads inside the table and the two
versions agree, whatever is outside the table. -/
theorem strict_checkDateFormat (oob : Int → Int) (d : DateText) (h1 : 1 ≤ d.month)
    (h2 : d.month ≤ 12) : Strict.checkDateFormat d = some (checkDateFormat oob d) := by
  unfold Strict.checkDateFormat checkDateFormat
  rw [strict_getDaysOfMonth oob d.month h1 h2]
  by_cases hd : d.day < 1
  · simp [hd]
  · simp only [hd, if_false, decide_False, Bool.false_or]
    split_ifs <;> rfl

/-- The value of an accepted date up to the year 5883515 is in the range of `int`. -/
theorem wrapInt_dateToInt (oob : Int → Int) (d : DateText) (h : checkDateFormat oob d = true)
    (hy : d.year ≤ 5883515) : wrapInt (dateToInt oob d) = dateToInt oob d := by
  obtain ⟨e, h1, h2, h3, h4, h5⟩ := dateToInt_of_valid oob d h
  obtain ⟨p1, p2, -⟩ := dayOfYear_lt d.month d.day d.month d.day h1 h2 h1 h2 h3 h4 h3 h4
  apply wrapInt_of_fits
  · rw [e]; omega
  · rw [e]; omega

/-- On an accepted date up to the year 5883515 the C functions, with the array bounds
and the range of `int`, return what the definitions on the integers return. -/
theorem strict_of_valid (oob : Int → Int) (d : DateText) (h : checkDateFormat oob d = true)
    (hy : d.year ≤ 5883515) :
    Strict.checkDateFormat d = some true ∧ Strict.dateToInt d = some (dateToInt oob d) := by
  obtain ⟨-, h1, h2, -, -, -⟩ := dateToInt_of_valid oob d h
  constructor
  · rw [strict_checkDateFormat oob d h1 h2, h]
  · unfold Strict.dateToInt
    rw [(strict_sumDaysAllMonths oob d.month).1 h1 h2]
    show some (wrapInt (dateToInt oob d)) = some (dateToInt oob d)
    rw [wrapInt_dateToInt oob d h hy]

/-- A date accepted with the array bounds checked has a month of the calendar and is
accepted whatever is outside the table. -/
theorem valid_of_strict (oob : Int → Int) (d : DateText)
    (h : Strict.checkDateFormat d = some true) : checkDateFormat oob d = true := by
  have hm : 1 ≤ d.month ∧ d.month ≤ 12 := by
    by_contra hc
    unfold Strict.checkDateFormat at h
    rw [strict_getDaysOfMonth_none d.month (by omega)] at h
    by_cases hd : d.day < 1
    · simp [hd] at h
    · simp [hd] at h
  have := strict_checkDateFormat oob d hm.1 hm.2
  rw [h] at this
  exact (Option.some.inj this).symm

/-- C21, the code at the failing input.  Where the month is in `1..12` the function
reads inside `days[]` and accepts exactly the dates of the fixed calendar with a year
that is not negative, and `dateToInt` returns `year*365 + (sum of the lengths of the
months before month) + day` for an accepted date up to the year 5883515.  But for a day
of at least 1 and a month outside `1..12` the function does not return 0: it reads
`days[month - 1]` outside the array before it tests the month, which is undefined; so
does `dateToInt`, called by the commands before any validation, for a month of 14 or
more.  The date text `1-99999-1` is such an input. -/
theorem checkDateFormat_reads_outside_days :
    (∀ d : DateText, 1 ≤ d.day → (d.month < 1 ∨ 12 < d.month) →
      Strict.checkDateFormat d = none) ∧
    (∀ d : DateText, d.day < 1 → Strict.checkDateFormat d = some false) ∧
    (∀ (oob : Int → Int) (d : DateText), 1 ≤ d.month → d.month ≤ 12 →
      Strict.checkDateFormat d = some (checkDateFormat oob d)) ∧
    (∀ d : DateText, 0 ≤ d.year →
      (Strict.checkDateFormat d = some true ↔
        1 ≤ d.month ∧ d.month ≤ 12 ∧ 1 ≤ d.day ∧ d.day ≤ specDaysInMonth d.month)) ∧
    (∀ d : DateText, Strict.checkDateFormat d = some true → d.year ≤ 5883515 →
      Strict.dateToInt d = some (d.year * 365 + specDaysBeforeMonth d.month + d.day)) ∧
    (∀ d : DateText, 14 ≤ d.month → Strict.dateToInt d = none) ∧
    Strict.checkDateFormat ⟨1, 99999, 1⟩ = none ∧
    Strict.checkDateFormat ⟨1, 13, 2024⟩ = none ∧
    Strict.checkDateFormat ⟨1, 0, 2024⟩ = none := by
  have hnone : ∀ d : DateText, 1 ≤ d.day → (d.month < 1 ∨ 12 < d.month) →
      Strict.checkDateFormat d = none := by
    intro d hd hm
    unfold Strict.checkDateFormat
    rw [if_neg (by omega), strict_getDaysOfMonth_none d.month hm]
  refine ⟨hnone, ?_, strict_checkDateFormat, ?_, ?_, ?_, hnone _ (by decide) (by decide),
    hnone _ (by decide) (by decide), hnone _ (by decide) (by decide)⟩
  · intro d hd
    unfold Strict.checkDateFormat
    rw [if_pos hd]
  · intro d hy
    constructor
    · intro h
      have hv := valid_of_strict oobZero d h
      obtain ⟨-, h1, h2, h3, h4, -⟩ := dateToInt_of_valid oobZero d hv
      exact ⟨h1, h2, h3, h4⟩
    · rintro ⟨h1, h2, h3, h4⟩
      rw [strict_checkDateFormat oobZero d h1 h2]
      rw [← getDaysOfMonth_eq_spec oobZero d.month h1 h2] at h4
      unfold checkDateFormat
      have e1 : ¬ d.day < 1 := by omega
      have e2 : ¬ d.day > getDaysOfMonth oobZero d.month := by omega
      have e3 : ¬ d.month < 1 := by omega
      have e4 : ¬ d.month > 12 := by omega
      have e5 : ¬ d.year < 0 := by omega
      simp [e1, e2, e3, e4, e5]
  · intro d h hy
    have hv := valid_of_strict oobZero d h
    rw [(strict_of_valid oobZero d hv hy).2, (dateToInt_of_valid oobZero d hv).1]
  · intro d hm
    unfold Strict.dateToInt
    rw [(strict_sumDaysAllMonths oobZero d.month).2 hm]
    rfl

/-- C24: for two dates accepted by `checkDateFormat` up to the year 5883515, which
covers every date whose text fits the ten characters of the buffers of the commands,
`dateToInt` returns for each of them an `int` without wrapping, and `a` is earlier than
`b` in (year, month, day) order exactly when the `int` of `a` is below the `int` of `b`;
two such dates with the same `int` are the same date. -/
theorem dateToInt_strictMono_int (a b : DateText) (ha : Strict.checkDateFormat a = some true)
    (hb : Strict.checkDateFormat b = some true) (hya : a.year ≤ 5883515)
    (hyb : b.year ≤ 5883515) :
    ∃ x y, Strict.dateToInt a = some x ∧ Strict.dateToInt b = some y ∧
      (∀ oob, x = dateToInt oob a ∧ y = dateToInt oob b) ∧
      (dateEarlier a b ↔ x < y) ∧ (x = y → a = b) := by
  have hva := valid_of_strict oobZero a ha
  have hvb := valid_of_strict oobZero b hb
  obtain ⟨h1, h2⟩ := dateToInt_strictMono oobZero a b hva hvb
  refine ⟨dateToInt oobZero a, dateToInt oobZero b, (strict_of_valid oobZero a hva hya).2,
    (strict_of_valid oobZero b hvb hyb).2, ?_, h1, h2⟩
  intro oob
  have e1 := (strict_of_valid oob a (valid_of_strict oob a ha) hya).2
  have e2 := (strict_of_valid oob b (valid_of_strict oob b hb) hyb).2
  rw [(strict_of_valid oobZero a hva hya).2] at e1
  rw [(strict_of_valid oobZero b hvb hyb).2] at e2
  exact ⟨Option.some.inj e1, Option.some.inj e2⟩

/-- Witness of C24: 31-12-2023 is earlier than 01-01-2024, and 738760 < 738761. -/
theorem dateToInt_strictMono_int_witness :
    Strict.checkDateFormat ⟨31, 12, 2023⟩ = some true ∧
      Strict.checkDateFormat ⟨1, 1, 2024⟩ = some true ∧
      ∃ x y, Strict.dateToInt ⟨31, 12, 2023⟩ = some x ∧
        Strict.dateToInt ⟨1, 1, 2024⟩ = some y ∧
        (∀ oob, x = dateToInt oob ⟨31, 12, 2023⟩ ∧ y = dateToInt oob ⟨1, 1, 2024⟩) ∧
        (dateEarlier ⟨31, 12, 2023⟩ ⟨1, 1, 2024⟩ ↔ x < y) ∧
        (x = y → (⟨31, 12, 2023⟩ : DateText) = ⟨1, 1, 2024⟩) :=
  ⟨by decide, by decide,
    dateToInt_strictMono_int ⟨31, 12, 2023⟩ ⟨1, 1, 2024⟩ (by decide) (by decide) (by decide)
      (by decide)⟩

/-- C34: for every date accepted by `checkDateFormat`, the year 0 included, up to the
year 5883515, which covers every date whose text fits the ten characters of the buffers
of the commands, `dateToInt` returns an `int` of at least 1, which is neither `NO_DATE`
nor `NO_TIME` (both 0). -/
theorem dateToInt_int_never_sentinel (d : DateText) (h : Strict.checkDateFormat d = some true)
    (hy : d.year ≤ 5883515) :
    ∃ x, Strict.dateToInt d = some x ∧ (∀ oob, x = dateToInt oob d) ∧
      1 ≤ x ∧ x ≠ NO_DATE ∧ x ≠ NO_TIME := by
  have hv := valid_of_strict oobZero d h
  have hpos := dateToInt_pos oobZero d hv
  refine ⟨dateToInt oobZero d, (strict_of_valid oobZero d hv hy).2, ?_, hpos, ?_, ?_⟩
  · intro oob
    have e1 := (strict_of_valid oob d (valid_of_strict oob d h) hy).2
    rw [(strict_of_valid oobZero d hv hy).2] at e1
    exact Option.some.inj e1
  · unfold NO_DATE
    omega
  · unfold NO_TIME
    omega

/-- Witness of C34: the date 01-01-0000 is accepted and its encoding is 1. -/
theorem dateToInt_int_never_sentinel_witness :
    Strict.checkDateFormat ⟨1, 1, 0⟩ = some true ∧ Strict.dateToInt ⟨1, 1, 0⟩ = some 1 ∧
      ∃ x, Strict.dateToInt ⟨1, 1, 0⟩ = some x ∧ (∀ oob, x = dateToInt oob ⟨1, 1, 0⟩) ∧
        1 ≤ x ∧ x ≠ NO_DATE ∧ x ≠ NO_TIME :=
  ⟨by decide, by decide, dateToInt_int_never_sentinel ⟨1, 1, 0⟩ (by decide) (by decide)⟩

/-- Beyond the year 5883515 the `int` wraps: the accepted date 08-09-11767033 is encoded
as 0, the mark of an absent date.  Its text has fourteen characters and does not fit the
buffers `data[11]` of the commands. -/
theorem dateToInt_wraps_on_large_year :
    Strict.checkDateFormat ⟨8, 9, 11767033⟩ = some true ∧
      Strict.dateToInt ⟨8, 9, 11767033⟩ = some 0 ∧
      Strict.dateToInt ⟨1, 1, 5883517⟩ = some (-2147483590) :=
  ⟨by decide, by decide, by decide⟩

/-! ## The checks of the commands and the stays of a plate -/

/-- In the memory reached by `cmdsOrphan` the plate `AA-70-AU` has one record, its open
stay in the park `B` (address 1), and `B` holds one car of ten. -/
theorem cmdsOrphan_stay :
    recordsOfPlate (memoryAfter cmdsOrphan) "AA-70-AU" =
        [{ plates := "AA-70-AU", park := 1, entryDay := 738761, entryHour := 601,
           exitDay := NO_DATE, exitHour := NO_TIME, paid := 0 }] ∧
      heapRead (memoryAfter cmdsOrphan).parkHeap 1 =
        some { name := "B", capacity := 10, occupancy := 1, id := 2, less_60 := 1,
               more_60 := 2, dayly := 10, records := [] } ∧
      listGetPark (memoryAfter cmdsOrphan).parkHeap (memoryAfter cmdsOrphan).parks "B" =
        some (some 1) :=
  ⟨by decide!, by decide!, by decide!⟩

/-- C5, the code at the failing input: in the memory reached by `cmdsOrphan` the lot `B`
exists and is not full, the plate `AA-70-AU` is valid and has an open stay (its only
record, in `B`, has no exit), so for the entry `e B AA-70-AU 02-01-2024 10:00` the first
failing check in the order of the specification is `plate already has an open stay`;
the command does not report it: the lookup of the table misses the record and the entry
succeeds. -/
theorem entry_skips_open_stay_check :
    Reachable oobZero (memoryAfter cmdsOrphan) ∧
      mostRecentStay (memoryAfter cmdsOrphan) "AA-70-AU" =
        some { plates := "AA-70-AU", park := 1, entryDay := 738761, entryHour := 601,
               exitDay := NO_DATE, exitHour := NO_TIME, paid := 0 } ∧
      firstFailing (openChecks oobZero (memoryAfter cmdsOrphan)
          (lotOf (memoryAfter cmdsOrphan) (some 1))
          (mostRecentStay (memoryAfter cmdsOrphan) "AA-70-AU") "AA-70-AU" ⟨2, 1, 2024⟩
          ⟨10, 0⟩) = some OpenError.AlreadyParked ∧
      OpenError.AlreadyParked.line "B" "AA-70-AU" = Printed.ERR_INVALID_ENTRY "AA-70-AU" ∧
      ((processCommand_e oobZero (memoryAfter cmdsOrphan) "B" "AA-70-AU" ⟨2, 1, 2024⟩
          ⟨10, 0⟩).map Prod.snd) = some [Printed.entryLine "B" 8] :=
  ⟨cmdsOrphan_reachable, by decide!, by decide!, rfl, by decide!⟩

/-- C6, the code at the failing input: in the memory reached by `cmdsOrphan` the lot `B`
exists, the plate `AA-70-AU` is valid, its most recent record is an open stay in `B`,
and 02-01-2024 10:00 is valid and after the clock, so none of the four checks of the
exit `s B AA-70-AU 02-01-2024 10:00` fails; the command does not succeed: the lookup of
the table misses the record and the command prints `invalid vehicle exit`. -/
theorem exit_fails_with_open_stay :
    Reachable oobZero (memoryAfter cmdsOrphan) ∧
      mostRecentStayWithPark (memoryAfter cmdsOrphan) "AA-70-AU" =
        some ({ plates := "AA-70-AU", park := 1, entryDay := 738761, entryHour := 601,
                exitDay := NO_DATE, exitHour := NO_TIME, paid := 0 },
              { name := "B", capacity := 10, occupancy := 1, id := 2, less_60 := 1,
                more_60 := 2, dayly := 10, records := [] }) ∧
      firstFailing (closeChecks oobZero (memoryAfter cmdsOrphan)
          (lotOf (memoryAfter cmdsOrphan) (some 1))
          (mostRecentStayWithPark (memoryAfter cmdsOrphan) "AA-70-AU") "AA-70-AU"
          ⟨2, 1, 2024⟩ ⟨10, 0⟩) = none ∧
      processCommand_s oobZero (memoryAfter cmdsOrphan) "B" "AA-70-AU" ⟨2, 1, 2024⟩ ⟨10, 0⟩ =
        some (memoryAfter cmdsOrphan, [Printed.ERR_INVALID_EXIT "AA-70-AU"]) := by
  have hout : (processCommand_s oobZero (memoryAfter cmdsOrphan) "B" "AA-70-AU" ⟨2, 1, 2024⟩
      ⟨10, 0⟩).map Prod.snd = some [Printed.ERR_INVALID_EXIT "AA-70-AU"] := by decide!
  have hcmd := eq_some_of_map_snd _ initializeSystem _ hout
  have hm : processCommand_s oobZero (memoryAfter cmdsOrphan) "B" "AA-70-AU" ⟨2, 1, 2024⟩
      ⟨10, 0⟩ = some (memoryAfter cmdsOrphan, [Printed.ERR_INVALID_EXIT "AA-70-AU"]) := by
    rcases processCommand_s_cases oobZero (memoryAfter cmdsOrphan) _ "B" "AA-70-AU"
      ⟨2, 1, 2024⟩ ⟨10, 0⟩ _ hcmd with ⟨h1, -⟩ | ⟨r, record, park, -, -, -, -, hline, -⟩
    · rw [hcmd, h1]
    · exact absurd hline (by simp)
  exact ⟨cmdsOrphan_reachable, by decide!, by decide!, hm⟩

/-- C8, the code at the failing input: after `p A 10 1 2 10` and `e A AAQ11-BB 01-01-2024
10:00` the plate `AB011-BB` has no record; both plates pass `checkPlates` (which does not
look at the separators) and have the same key, so the lookup of `AB011-BB` returns the
record of `AAQ11-BB`, and the exit `s A AB011-BB 01-01-2024 11:00` succeeds: it closes
and prices the open record of the other plate, prints it, appends it to the history of
`A` and takes the occupancy of `A` from 1 to 0. -/
theorem exit_closes_record_of_other_plate :
    Reachable oobZero (memoryAfter cmdsSameKey) ∧
      "AB011-BB" ≠ "AAQ11-BB" ∧ checkPlates "AB011-BB" = true ∧ checkPlates "AAQ11-BB" = true ∧
      sumAsciiValues "AB011-BB" = sumAsciiValues "AAQ11-BB" ∧
      recordsOfPlate (memoryAfter cmdsSameKey) "AB011-BB" = [] ∧
      heapRead (memoryAfter cmdsSameKey).recordHeap 0 =
        some { plates := "AAQ11-BB", park := 0, entryDay := 738761, entryHour := 600,
               exitDay := NO_DATE, exitHour := NO_TIME, paid := 0 } ∧
      ((processCommand_s oobZero (memoryAfter cmdsSameKey) "A" "AB011-BB" ⟨1, 1, 2024⟩
          ⟨11, 0⟩).map Prod.snd) =
        some [Printed.exitLine "AAQ11-BB" 738761 600 738761 660 4] ∧
      ((processCommand_s oobZero (memoryAfter cmdsSameKey) "A" "AB011-BB" ⟨1, 1, 2024⟩
          ⟨11, 0⟩).map (fun res => heapRead res.1.recordHeap 0)) =
        some (some { plates := "AAQ11-BB", park := 0, entryDay := 738761, entryHour := 600,
                     exitDay := 738761, exitHour := 660, paid := 4 }) ∧
      ((heapRead (memoryAfter cmdsSameKey).parkHeap 0).map (fun park => park.occupancy)) =
        some 1 ∧
      ((processCommand_s oobZero (memoryAfter cmdsSameKey) "A" "AB011-BB" ⟨1, 1, 2024⟩
          ⟨11, 0⟩).map (fun res => (heapRead res.1.parkHeap 0).map
            (fun park => (park.occupancy, park.records)))) = some (some (0, [0])) :=
  ⟨⟨cmdsSameKey, run_eq_some_memoryAfter _ (by decide!)⟩, by decide, by decide, by decide,
    by decide!, by decide!, by decide!, by decide!, by decide!, by decide!, by decide!⟩

/-- C29, the code at the failing inputs: in the memory reached by `cmdsOrphan` the
current stay of the plate `AA-70-AU` is its record 1, open in the park `B`, and
`getLastRecord` returns `NULL` for the plate; in the memory reached by `cmdsTwoOpen` the
plate has the two records 1 and 2, both without exit, so a record before the last is
open, and `getLastRecord` returns the record 2. -/
theorem current_stay_not_last_record :
    (Reachable oobZero (memoryAfter cmdsOrphan) ∧
      recordsOfPlate (memoryAfter cmdsOrphan) "AA-70-AU" =
        [{ plates := "AA-70-AU", park := 1, entryDay := 738761, entryHour := 601,
           exitDay := NO_DATE, exitHour := NO_TIME, paid := 0 }] ∧
      heapRead (memoryAfter cmdsOrphan).recordHeap 1 =
        some { plates := "AA-70-AU", park := 1, entryDay := 738761, entryHour := 601,
               exitDay := NO_DATE, exitHour := NO_TIME, paid := 0 } ∧
      getLastRecord (memoryAfter cmdsOrphan).cars "AA-70-AU" = some none) ∧
    (Reachable oobZero (memoryAfter cmdsTwoOpen) ∧
      recordsOfPlate (memoryAfter cmdsTwoOpen) "AA-70-AU" =
        [{ plates := "AA-70-AU", park := 1, entryDay := 738761, entryHour := 601,
           exitDay := NO_DATE, exitHour := NO_TIME, paid := 0 },
         { plates := "AA-70-AU", park := 1, entryDay := 738762, entryHour := 600,
           exitDay := NO_DATE, exitHour := NO_TIME, paid := 0 }] ∧
      getListPlates (memoryAfter cmdsTwoOpen).cars "AA-70-AU" = some (some [2]) ∧
      getLastRecord (memoryAfter cmdsTwoOpen).cars "AA-70-AU" = some (some 2)) :=
  ⟨⟨cmdsOrphan_reachable, cmdsOrphan_stay.1, by decide!, by decide!⟩,
    ⟨cmdsTwoOpen_reachable, by decide!, by decide!, by decide!⟩⟩

/-! ## Plates that do not fit the array `plates[9]` -/

/-- A memory reached through commands whose plates fit is a memory the program reaches. -/
theorem reachable_of_fitting (oob : Int → Int) (m : Memory) (h : ReachableFitting oob m) :
    Reachable oob m := by
  obtain ⟨cmds, -, hrun⟩ := h
  exact ⟨cmds, hrun⟩

/-- The plate `AA-11-BBXXXXXXXXXXX`, of 19 characters, fits the buffer `plates[20]` of
`processCommand_e` and passes `checkPlates`, which reads its first eight characters
only; after `p A 10 1 2 10` its entry in `A` passes every validation and prints `A 9`.
Then `strcpy(newR->plates, plates)` writes 20 bytes from the start of the array
`plates[9]` of the new record: past the end of the array and, from the offset 16 on, over
the field `park` that was assigned just before. -/
theorem long_plate_overruns_plates :
    checkPlates "AA-11-BBXXXXXXXXXXX" = true ∧
      "AA-11-BBXXXXXXXXXXX".length = 19 ∧
      ((processCommand_e oobZero (memoryAfter cmdsOnePark) "A" "AA-11-BBXXXXXXXXXXX"
          ⟨1, 1, 2024⟩ ⟨10, 0⟩).map Prod.snd) = some [Printed.entryLine "A" 9] ∧
      strcpy.written "AA-11-BBXXXXXXXXXXX" = 20 ∧
      Record.platesSize < strcpy.written "AA-11-BBXXXXXXXXXXX" ∧
      Record.parkOffset < strcpy.written "AA-11-BBXXXXXXXXXXX" ∧
      Command.plateFits (.e "A" "AA-11-BBXXXXXXXXXXX" ⟨1, 1, 2024⟩ ⟨10, 0⟩) = false :=
  ⟨by decide, by decide, by decide!, by decide, by decide, by decide, by decide⟩

/-- C26, the code at the failing input, and the claim where the plates fit.  The entry
of the plate `AA-11-BBXXXXXXXXXXX` is accepted and `strcpy` then overwrites the field
`park` of the new record, the field `removeParkRecords` reads (`record->park->id`) to
decide what to remove: the removal of the lot does not go as claimed.  In every memory
reached through commands whose plates fill `plates[9]` exactly, when the park found
under the name `nome` is removed, then in the memory after the removal no park is found
under that name, the park is not in the list and is freed, and a sequence returned by
the lookup of any plate holds only allocated records of other parks, parks still in the
list, whether the records have an exit day or not; the lookup returns for every plate
when the table has a `NULL` slot. -/
theorem removal_effect_when_plates_fit :
    (checkPlates "AA-11-BBXXXXXXXXXXX" = true ∧
      ((processCommand_e oobZero (memoryAfter cmdsOnePark) "A" "AA-11-BBXXXXXXXXXXX"
          ⟨1, 1, 2024⟩ ⟨10, 0⟩).map Prod.snd) = some [Printed.entryLine "A" 9] ∧
      Record.parkOffset < strcpy.written "AA-11-BBXXXXXXXXXXX") ∧
    ∀ (oob : Int → Int) (m m' : Memory) (nome : String) (p : Ptr) (out : List Printed),
      ReachableFitting oob m → listGetPark m.parkHeap m.parks nome = some (some p) →
      processCommand_r m nome = some (m', out) →
      listGetPark m'.parkHeap m'.parks nome = some none ∧
        p ∉ m'.parks ∧ heapRead m'.parkHeap p = none ∧
        (∀ plates l, getListPlates m'.cars plates = some (some l) → ∀ r ∈ l,
          ∃ record park, heapRead m'.recordHeap r = some record ∧ record.park ≠ p ∧
            record.park ∈ m'.parks ∧ heapRead m'.parkHeap record.park = some park) ∧
        ((∃ i, i < HASH_SIZE ∧ m'.cars i = none) →
          ∀ plates, getListPlates m'.cars plates ≠ none) :=
  ⟨⟨long_plate_overruns_plates.1, long_plate_overruns_plates.2.2.1,
      long_plate_overruns_plates.2.2.2.2.2.1⟩,
    fun oob m m' nome p out hreach hp h =>
      processCommand_r_effect oob m m' nome p out (reachable_of_fitting oob m hreach) hp h⟩

/-- Witness of C26: the commands of `cmdsOrphan` have plates of eight characters, and
after the removal of the park `A` no park is found under that name. -/
theorem removal_effect_when_plates_fit_witness :
    (∀ c ∈ cmdsOrphan.take 4, Command.plateFits c = true) ∧
      listGetPark (memoryAfter cmdsOrphan).parkHeap (memoryAfter cmdsOrphan).parks "A" =
        some none ∧
      (0 : Ptr) ∉ (memoryAfter cmdsOrphan).parks ∧
      heapRead (memoryAfter cmdsOrphan).parkHeap 0 = none := by
  obtain ⟨out, hout⟩ := cmdsOrphan_removal
  have hfit : ∀ c ∈ cmdsOrphan.take 4, Command.plateFits c = true := by decide
  have h := removal_effect_when_plates_fit.2 oobZero (memoryAfter (cmdsOrphan.take 4))
    (memoryAfter cmdsOrphan) "A" 0 out
    ⟨cmdsOrphan.take 4, hfit, run_eq_some_memoryAfter _ (by decide!)⟩
    cmdsOrphan_before_removal.2.1 hout
  exact ⟨hfit, h.1, h.2.1, h.2.2.1⟩

/-- C37, the code at the failing input, and the claim where the plates fit.  The entry
of the plate `AA-11-BBXXXXXXXXXXX` is accepted and takes the occupancy of `A` to 1, and
`strcpy` then overwrites the field `park` of the new record, which no longer points to
`A`: the occupancy of `A` is 1 and no stored record belongs to `A`.  In every memory
reached through commands whose plates fill `plates[9]` exactly, the occupancy of every
park of the list is the number of records stored in the table that are stays in that
park with the exit unset; no record is stored twice in the table, and the records stored
in the table are exactly the allocated records. -/
theorem occupancy_eq_stored_when_plates_fit :
    (checkPlates "AA-11-BBXXXXXXXXXXX" = true ∧
      ((processCommand_e oobZero (memoryAfter cmdsOnePark) "A" "AA-11-BBXXXXXXXXXXX"
          ⟨1, 1, 2024⟩ ⟨10, 0⟩).map Prod.snd) = some [Printed.entryLine "A" 9] ∧
      Record.parkOffset < strcpy.written "AA-11-BBXXXXXXXXXXX") ∧
    ∀ (oob : Int → Int) (m : Memory) (p : Ptr), ReachableFitting oob m → p ∈ m.parks →
      ∃ park, heapRead m.parkHeap p = some park ∧
        park.occupancy = (tableOpenCount m p : Int) ∧
        (tableRecords m.cars).Nodup ∧
        (∀ r, r ∈ tableRecords m.cars ↔ ∃ record, heapRead m.recordHeap r = some record) :=
  ⟨⟨long_plate_overruns_plates.1, long_plate_overruns_plates.2.2.1,
      long_plate_overruns_plates.2.2.2.2.2.1⟩,
    fun oob m p hreach hp =>
      reachable_occupancy_eq_stored oob m (reachable_of_fitting oob m hreach) p hp⟩

/-- Witness of C37: the commands of `cmdsReentry` have plates of eight characters; after
them the park `A` (address 0) holds one car, the table stores the records 0 (closed) and
1 (open) of `AA-11-BB`, and the count is 1. -/
theorem occupancy_eq_stored_when_plates_fit_witness :
    (∀ c ∈ cmdsReentry, Command.plateFits c = true) ∧
      (0 : Ptr) ∈ (memoryAfter cmdsReentry).parks ∧
      (∃ park, heapRead (memoryAfter cmdsReentry).parkHeap 0 = some park ∧
        park.occupancy = (tableOpenCount (memoryAfter cmdsReentry) 0 : Int) ∧
        (tableRecords (memoryAfter cmdsReentry).cars).Nodup ∧
        (∀ r, r ∈ tableRecords (memoryAfter cmdsReentry).cars ↔
          ∃ record, heapRead (memoryAfter cmdsReentry).recordHeap r = some record)) ∧
      tableOpenCount (memoryAfter cmdsReentry) 0 = 1 :=
  ⟨by decide, by decide!,
    occupancy_eq_stored_when_plates_fit.2 oobZero (memoryAfter cmdsReentry) 0
      ⟨cmdsReentry, by decide, run_eq_some_memoryAfter _ (by decide!)⟩ (by decide!),
    by decide!⟩

end Parking
